import Mathlib

/-!
# newfs: a shallow embedding of `fs/newfs/src/newfs.c`

The C program keeps one global `struct newfs_super super`; here every function
takes the state it reads and returns the state it leaves behind.

Conventions of the embedding

* A C `int` is a Lean `Int`.  `+`, `-`, `*` are the mathematical operations
  (signed overflow is undefined in C); the bitwise operators go through the
  32-bit two's complement pattern (`toU32` / `toI32`).  In the block allocator,
  whose `int` fields are not tied to the size of a device, a sum that leaves
  the range of `int` (`is_int`) has no defined result: the function returns
  `none`.
* A `uint32_t` / `uint8_t` is a `Nat`; stores into a `uint8_t` are reduced
  `% 256`.
* A bitmap (`uint8_t *map_inode`, `map_data`) is the list of the bytes of the
  `malloc`ed block.  An access outside the list has no defined result: the
  function returns `none`.
* The owned pointer structure `dentry -> inode -> dentrys -> brother -> ...`
  is a tree.  `inode->dentrys` together with the `brother` links is the list of
  children, head first.  The back references `dentry->parent` and
  `inode->dentry` are given by the position in the tree (`newfs_alloc_inode` and
  `newfs_read_inode` set `inode->dentry` to the dentry the inode is stored in).
* A pointer to a dentry that lives in the tree is the list of child positions
  leading to it from `super.root_dentry` (`dptr`).
-/

namespace Newfs

/-! ## Constants of `newfs.h` / `types.h` -/

def MAX_NAME_LEN : Nat := 128
def NFS_DATA_PER_FILE : Nat := 6
def NFS_BLKS_SZ : Nat := 1024
def NFS_IO_SZ : Nat := 512

def NFS_ERROR_NONE : Int := 0
def NFS_ERROR_IO : Int := 1
def NFS_ERROR_NOTFOUND : Int := 2
def NFS_ERROR_NOSPACE : Int := 3
def NFS_ERROR_INVAL : Int := 4
def NFS_ERROR_EXISTS : Int := 5
def NFS_ERROR_UNSUPPORTED : Int := 6

/-- Values of `enum newfs_file_type`, as stored in the `int`-sized field. -/
def NFS_REG_FILE : Nat := 0
def NFS_DIR : Nat := 1
def NFS_SYM_LINK : Nat := 2

/-- Size of `struct newfs_inode_d`: 4 + 4 + 128 + 4*6 + 4 + 4. -/
def SIZEOF_INODE_D : Nat := 168
/-- Size of `struct newfs_dentry_d`: 128 + 4 + 4. -/
def SIZEOF_DENTRY_D : Nat := 136

/-! ## Machine integers -/

/-- Bit pattern of an `int` (conversion `int -> uint32_t`). -/
def toU32 (x : Int) : Nat := (x % 4294967296).toNat

/-- Value of a 32-bit pattern read as an `int` (conversion `uint32_t -> int`). -/
def toI32 (n : Nat) : Int :=
  if n % 4294967296 < 2147483648 then ((n % 4294967296 : Nat) : Int)
  else ((n % 4294967296 : Nat) : Int) - 4294967296

/-- The number `x` is a value of the C type `int`: `INT_MIN <= x <= INT_MAX`. -/
def is_int (x : Int) : Prop := -2147483648 ≤ x ∧ x ≤ 2147483647

instance is_int_decidable (x : Int) : Decidable (is_int x) :=
  inferInstanceAs (Decidable (-2147483648 ≤ x ∧ x ≤ 2147483647))

/-! ## Data model (`types.h`) -/

mutual
/-- In-memory `struct newfs_dentry`.  `name` is the C string held in the
`char name[128]` buffer (the buffer is zeroed before the name is copied in). -/
inductive newfs_dentry where
  | mk (name : List Nat) (ino : Nat) (inode : Option newfs_inode) (ftype : Nat)
/-- In-memory `struct newfs_inode`.  `dentrys` is the chain
`inode->dentrys, ->brother, ->brother, ...`. -/
inductive newfs_inode where
  | mk (ino size dir_cnt ftype : Nat) (target_path : List Nat)
      (dentrys : List newfs_dentry) (block_pointer : List Nat)
end

namespace newfs_dentry
def name : newfs_dentry → List Nat | mk n _ _ _ => n
def ino : newfs_dentry → Nat | mk _ i _ _ => i
def inode : newfs_dentry → Option newfs_inode | mk _ _ i _ => i
def ftype : newfs_dentry → Nat | mk _ _ _ f => f
end newfs_dentry

namespace newfs_inode
def ino : newfs_inode → Nat | mk i _ _ _ _ _ _ => i
def size : newfs_inode → Nat | mk _ s _ _ _ _ _ => s
def dir_cnt : newfs_inode → Nat | mk _ _ c _ _ _ _ => c
def ftype : newfs_inode → Nat | mk _ _ _ f _ _ _ => f
def target_path : newfs_inode → List Nat | mk _ _ _ _ t _ _ => t
def dentrys : newfs_inode → List newfs_dentry | mk _ _ _ _ _ d _ => d
def block_pointer : newfs_inode → List Nat | mk _ _ _ _ _ _ b => b
end newfs_inode

/-- Modelled from the spec: the block device behind `ddriver_open`,
`ddriver_seek`, `ddriver_read`, `ddriver_write` (ddriver.h is not part of the
sources).  A byte-addressable medium of `size` bytes with a seek cursor. -/
structure ddriver where
  size : Nat
  data : Nat → Nat
  pos : Int

/-- The global `struct newfs_super super`; `dev` stands for the open `fd`. -/
structure newfs_super where
  dev : ddriver
  sz_io : Int
  sz_disk : Int
  sz_usage : Int
  sz_blks : Int
  blks_num : Int
  sb_offset : Int
  sb_blks : Int
  map_inode : List Nat
  ino_bitmap_offset : Int
  ino_bitmap_blks : Int
  map_data : List Nat
  data_bitmap_offset : Int
  data_bitmap_blks : Int
  inode_blks : Int
  inode_offset : Int
  data_offset : Int
  data_blks : Int
  max_ino : Int
  file_max : Int
  is_mounted : Bool
  root_ino : Int
  root_dentry : Option newfs_dentry

/-! ## Bitmap allocator -/

/-- Outcome of a `for` loop that may `return` from the enclosing function. -/
inductive scan where
  /-- no defined result: an access outside the bitmap block, or an `int` sum
  that overflows -/
  | oob
  /-- the loop reached its bound -/
  | next
  /-- `return v`, leaving the bitmap `map` -/
  | ret (v : Int) (map : List Nat)

/-- Inner loop of `newfs_alloc_ino`:
`for (bit_cursor = ..; bit_cursor < 8; bit_cursor++)`, with `n` iterations left. -/
def newfs_alloc_ino_bits (max_ino : Int) (map_inode : List Nat) (byte_cursor : Nat) :
    Nat → Nat → scan
  | 0, _ => scan.next
  | n + 1, bit_cursor =>
    let ino : Int := (byte_cursor : Int) * 8 + (bit_cursor : Int)
    if ino ≥ max_ino then scan.ret (-1) map_inode
    else
      match map_inode[byte_cursor]? with
      | none => scan.oob
      | some b =>
        if b &&& (1 <<< bit_cursor) = 0 then
          scan.ret ino (map_inode.set byte_cursor ((b ||| (1 <<< bit_cursor)) % 256))
        else newfs_alloc_ino_bits max_ino map_inode byte_cursor n (bit_cursor + 1)

/-- Outer loop of `newfs_alloc_ino`:
`for (byte_cursor = ..; byte_cursor < NFS_BLKS_SZ(); byte_cursor++)`. -/
def newfs_alloc_ino_bytes (max_ino : Int) (map_inode : List Nat) : Nat → Nat → scan
  | 0, _ => scan.next
  | n + 1, byte_cursor =>
    match newfs_alloc_ino_bits max_ino map_inode byte_cursor 8 0 with
    | scan.next => newfs_alloc_ino_bytes max_ino map_inode n (byte_cursor + 1)
    | r => r

/-- `int newfs_alloc_ino()`. -/
def newfs_alloc_ino (s : newfs_super) : Option (Int × newfs_super) :=
  match newfs_alloc_ino_bytes s.max_ino s.map_inode NFS_BLKS_SZ 0 with
  | scan.oob => none
  | scan.next => some (-1, s)
  | scan.ret v m => some (v, { s with map_inode := m })

/-- Inner loop of `newfs_alloc_data_block`.  The value returned is the `int`
sum `super.data_offset + blk_idx`; if the sum overflows there is no defined
result. -/
def newfs_alloc_data_block_bits (data_blks data_offset : Int) (map_data : List Nat)
    (byte_cursor : Nat) : Nat → Nat → scan
  | 0, _ => scan.next
  | n + 1, bit_cursor =>
    let blk_idx : Int := (byte_cursor : Int) * 8 + (bit_cursor : Int)
    if blk_idx ≥ data_blks then scan.ret (-1) map_data
    else
      match map_data[byte_cursor]? with
      | none => scan.oob
      | some b =>
        if b &&& (1 <<< bit_cursor) = 0 then
          if is_int (data_offset + blk_idx) then
            scan.ret (data_offset + blk_idx)
              (map_data.set byte_cursor ((b ||| (1 <<< bit_cursor)) % 256))
          else scan.oob
        else newfs_alloc_data_block_bits data_blks data_offset map_data byte_cursor n
          (bit_cursor + 1)

/-- Outer loop of `newfs_alloc_data_block`. -/
def newfs_alloc_data_block_bytes (data_blks data_offset : Int) (map_data : List Nat) :
    Nat → Nat → scan
  | 0, _ => scan.next
  | n + 1, byte_cursor =>
    match newfs_alloc_data_block_bits data_blks data_offset map_data byte_cursor 8 0 with
    | scan.next => newfs_alloc_data_block_bytes data_blks data_offset map_data n (byte_cursor + 1)
    | r => r

/-- `int newfs_alloc_data_block()`. -/
def newfs_alloc_data_block (s : newfs_super) : Option (Int × newfs_super) :=
  match newfs_alloc_data_block_bytes s.data_blks s.data_offset s.map_data NFS_BLKS_SZ 0 with
  | scan.oob => none
  | scan.next => some (-1, s)
  | scan.ret v m => some (v, { s with map_data := m })

/-- `void newfs_free_data_block(int block_no)`.
The right operand of `||` is evaluated when the left one is false; it holds the
`int` sum `super.data_offset + super.data_blks`, and if that sum overflows
there is no defined result.  Past the guard,
`0 <= block_no - super.data_offset < super.data_blks`.
`~(1 << bit_idx)` is the `int` with every bit but `bit_idx` set; the result of
the `&` is stored into a `uint8_t`. -/
def newfs_free_data_block (s : newfs_super) (block_no : Int) : Option newfs_super :=
  if block_no < s.data_offset then some s
  else if ¬ is_int (s.data_offset + s.data_blks) then none
  else if block_no ≥ s.data_offset + s.data_blks then some s
  else
    let blk_idx : Int := block_no - s.data_offset
    let byte_idx : Nat := (blk_idx / 8).toNat
    let bit_idx : Nat := (blk_idx % 8).toNat
    match s.map_data[byte_idx]? with
    | none => none
    | some b =>
      some { s with
        map_data := s.map_data.set byte_idx ((b &&& (4294967295 - (1 <<< bit_idx))) % 256) }

/-- Bit `j` of a bitmap block: bit `j % 8` of byte `j / 8`. -/
def bitmap_bit (map : List Nat) (j : Nat) : Bool :=
  (map.getD (j / 8) 0).testBit (j % 8)

/-! ### Allocator call sequences -/

/-- What one run of an allocator scan leaves behind: either `-1` and the bitmap
as it was, every index below the limit being in use, or the first clear index
`i`, returned as `off + i`, with exactly bit `i` newly set. -/
def AllocPost (limit off : Int) (map : List Nat) (v : Int) (map' : List Nat) : Prop :=
  (v = -1 ∧ map' = map ∧ ∀ j : Nat, (j : Int) < limit → j < 8192 → bitmap_bit map j = true) ∨
  (∃ i : Nat, v = off + (i : Int) ∧ (i : Int) < limit ∧ i < 8192 ∧ bitmap_bit map i = false ∧
     (∀ j, j < i → bitmap_bit map j = true) ∧ map'.length = map.length ∧
     (∀ j, bitmap_bit map' j = (decide (j = i) || bitmap_bit map j)) ∧
     (∀ k, k ≠ i / 8 → map'[k]? = map[k]?))

/-- The bit of block number `v` is set in the bitmap whose index 0 is block `off`. -/
def blk_used (off : Int) (map : List Nat) (v : Int) : Prop :=
  ∃ i : Nat, v = off + (i : Int) ∧ bitmap_bit map i = true

/-- A call of the data-block allocator interface. -/
inductive data_call where
  | alloc
  | free (block_no : Int)

/-- What a caller observes of one allocator call: `handed v` is a successful
allocation (a return value other than -1). -/
inductive alloc_event where
  | handed (v : Int)
  | failed
  | freed (block_no : Int)
deriving DecidableEq

/-- A sequence of `newfs_alloc_data_block` / `newfs_free_data_block` calls. -/
def run_data_calls : newfs_super → List data_call → Option (List alloc_event × newfs_super)
  | s, [] => some ([], s)
  | s, data_call.alloc :: rest =>
    match newfs_alloc_data_block s with
    | none => none
    | some (v, s1) =>
      match run_data_calls s1 rest with
      | none => none
      | some (evs, s2) =>
        some ((if v = -1 then alloc_event.failed else alloc_event.handed v) :: evs, s2)
  | s, data_call.free b :: rest =>
    match newfs_free_data_block s b with
    | none => none
    | some s1 =>
      match run_data_calls s1 rest with
      | none => none
      | some (evs, s2) => some (alloc_event.freed b :: evs, s2)

/-- A sequence of `n` calls of `newfs_alloc_ino`. -/
def run_ino_calls : newfs_super → Nat → Option (List alloc_event × newfs_super)
  | s, 0 => some ([], s)
  | s, n + 1 =>
    match newfs_alloc_ino s with
    | none => none
    | some (v, s1) =>
      match run_ino_calls s1 n with
      | none => none
      | some (evs, s2) =>
        some ((if v = -1 then alloc_event.failed else alloc_event.handed v) :: evs, s2)

/-- No value is handed out twice without a `free` of it in between. -/
def exclusive (evs : List alloc_event) : Prop :=
  ∀ (p q : Nat) (v : Int), p < q → evs[p]? = some (alloc_event.handed v) →
    evs[q]? = some (alloc_event.handed v) →
    ∃ r : Nat, p < r ∧ r < q ∧ evs[r]? = some (alloc_event.freed v)

/-! ## Block device and aligned block I/O -/

/-- Modelled from the spec: `ddriver_seek(fd, offset, SEEK_SET)` of the device
library, which is not part of the sources.  Moves the cursor to `offset`;
fails (negative result, cursor unchanged) outside the device. -/
def ddriver_seek (d : ddriver) (offset : Int) : Int × ddriver :=
  if 0 ≤ offset ∧ offset ≤ (d.size : Int) then (offset, { d with pos := offset })
  else (-1, d)

/-- Modelled from the spec: `ddriver_read(fd, buf, size)` of the device
library.  Transfers `size` bytes at the cursor and advances the cursor; fails
(negative result, nothing transferred) if the unit does not lie in the device. -/
def ddriver_read (d : ddriver) (size : Nat) : Int × Option (List Nat) × ddriver :=
  if 0 ≤ d.pos ∧ d.pos + (size : Int) ≤ (d.size : Int) then
    ((size : Int), some ((List.range size).map (fun k => d.data (d.pos.toNat + k))),
      { d with pos := d.pos + (size : Int) })
  else (-1, none, d)

/-- Modelled from the spec: `ddriver_write(fd, buf, size)` of the device
library.  Stores the first `size` bytes of `buf` at the cursor and advances the
cursor; fails (negative result, nothing stored) if the unit does not lie in the
device. -/
def ddriver_write (d : ddriver) (buf : List Nat) (size : Nat) : Int × ddriver :=
  if 0 ≤ d.pos ∧ d.pos + (size : Int) ≤ (d.size : Int) then
    ((size : Int),
      { d with
        data := fun a =>
          if d.pos.toNat ≤ a ∧ a < d.pos.toNat + size then buf.getD (a - d.pos.toNat) 0
          else d.data a
        pos := d.pos + (size : Int) })
  else (-1, d)

/-- `a & b` on `int`. -/
def int_and (a b : Int) : Int := toI32 (toU32 a &&& toU32 b)

/-- `~a` on `int`. -/
def int_not (a : Int) : Int := toI32 (4294967295 - toU32 a)

/-- `#define NFS_ROUND_DOWN(value, round) ((value) & (~((round) - 1)))`. -/
def NFS_ROUND_DOWN (value round : Int) : Int := int_and value (int_not (round - 1))

/-- `#define NFS_ROUND_UP(value, round) (((value) + (round) - 1) & (~((round) - 1)))`. -/
def NFS_ROUND_UP (value round : Int) : Int := int_and (value + round - 1) (int_not (round - 1))

/-- The `while (size_aligned != 0)` loop of `newfs_driver_read`; `temp` is what
has been stored into `temp_content` up to `cur`.  A unit the device refuses
leaves its part of the `malloc`ed buffer as it is: in C these bytes are
indeterminate, here they are taken as zero (the return code does not depend on
them).  The first argument bounds the number of iterations; `none` if the bound
is reached. -/
def newfs_driver_read_loop : Nat → ddriver → Int → List Nat → Option (List Nat × ddriver)
  | fuel, d, size_aligned, temp =>
    if size_aligned = 0 then some (temp, d)
    else
      match fuel with
      | 0 => none
      | fuel + 1 =>
        match ddriver_read d NFS_IO_SZ with
        | (_, some unit, d1) =>
          newfs_driver_read_loop fuel d1 (size_aligned - (NFS_IO_SZ : Int)) (temp ++ unit)
        | (_, none, d1) =>
          newfs_driver_read_loop fuel d1 (size_aligned - (NFS_IO_SZ : Int))
            (temp ++ List.replicate NFS_IO_SZ 0)

/-- `int newfs_driver_read(int offset, uint8_t *out_content, int size)`:
result code, the bytes stored into `out_content`, device afterwards. -/
def newfs_driver_read (d : ddriver) (offset size : Int) : Option (Int × List Nat × ddriver) :=
  let offset_aligned := NFS_ROUND_DOWN offset (NFS_IO_SZ : Int)
  let bias := offset - offset_aligned
  let size_aligned := NFS_ROUND_UP (size + bias) (NFS_IO_SZ : Int)
  let d1 := (ddriver_seek d offset_aligned).2
  match newfs_driver_read_loop (size_aligned.toNat / NFS_IO_SZ) d1 size_aligned [] with
  | none => none
  | some (temp_content, d2) =>
    some (NFS_ERROR_NONE, (temp_content.drop bias.toNat).take size.toNat, d2)

/-- The `while (size_aligned != 0)` loop of `newfs_driver_write`; `cur` is the
part of `temp_content` not yet written. -/
def newfs_driver_write_loop : Nat → ddriver → Int → List Nat → Option ddriver
  | fuel, d, size_aligned, cur =>
    if size_aligned = 0 then some d
    else
      match fuel with
      | 0 => none
      | fuel + 1 =>
        newfs_driver_write_loop fuel (ddriver_write d cur NFS_IO_SZ).2
          (size_aligned - (NFS_IO_SZ : Int)) (cur.drop NFS_IO_SZ)

/-- `int newfs_driver_write(int offset, uint8_t *in_content, int size)`. -/
def newfs_driver_write (d : ddriver) (offset : Int) (in_content : List Nat) (size : Int) :
    Option (Int × ddriver) :=
  let offset_aligned := NFS_ROUND_DOWN offset (NFS_IO_SZ : Int)
  let bias := offset - offset_aligned
  let size_aligned := NFS_ROUND_UP (size + bias) (NFS_IO_SZ : Int)
  match newfs_driver_read d offset_aligned size_aligned with
  | none => none
  | some (_, temp_content, d1) =>
    let temp_content := temp_content.take bias.toNat ++ in_content.take size.toNat
      ++ temp_content.drop (bias.toNat + size.toNat)
    let d2 := (ddriver_seek d1 offset_aligned).2
    match newfs_driver_write_loop (size_aligned.toNat / NFS_IO_SZ) d2 size_aligned temp_content with
    | none => none
    | some d3 => some (NFS_ERROR_NONE, d3)

/-! ## On-disk records

The records are laid out field after field without padding (every field is a
multiple of four bytes), integers in the byte order of the host, least
significant byte first. -/

/-- The four bytes of a `uint32_t`. -/
def le32 (x : Nat) : List Nat :=
  [x % 256, x / 256 % 256, x / 65536 % 256, x / 16777216 % 256]

/-- The `uint32_t` stored at position `k` of `bs`. -/
def rd32 (bs : List Nat) (k : Nat) : Nat :=
  bs.getD k 0 + 256 * bs.getD (k + 1) 0 + 65536 * bs.getD (k + 2) 0
    + 16777216 * bs.getD (k + 3) 0

/-- The `n` bytes of a buffer holding `bs` followed by zeroes. -/
def buf_of (bs : List Nat) (n : Nat) : List Nat :=
  bs.take n ++ List.replicate (n - bs.length) 0

/-- The C string starting at the beginning of `bs`: the bytes before the first
NUL. -/
def c_str (bs : List Nat) : List Nat := bs.takeWhile (fun c => c != 0)

/-- `struct newfs_inode_d`. -/
structure newfs_inode_d where
  ino : Nat
  size : Nat
  target_path : List Nat
  block_pointer : List Nat
  dir_cnt : Nat
  ftype : Nat

/-- `struct newfs_dentry_d`. -/
structure newfs_dentry_d where
  fname : List Nat
  ftype : Nat
  ino : Nat

/-- The 168 bytes of a `struct newfs_inode_d`. -/
def newfs_inode_d.bytes (x : newfs_inode_d) : List Nat :=
  le32 x.ino ++ le32 x.size ++ buf_of x.target_path MAX_NAME_LEN
    ++ (le32 (x.block_pointer.getD 0 0) ++ le32 (x.block_pointer.getD 1 0)
      ++ le32 (x.block_pointer.getD 2 0) ++ le32 (x.block_pointer.getD 3 0)
      ++ le32 (x.block_pointer.getD 4 0) ++ le32 (x.block_pointer.getD 5 0))
    ++ le32 x.dir_cnt ++ le32 x.ftype

/-- The `struct newfs_inode_d` held by 168 bytes. -/
def newfs_inode_d.of_bytes (bs : List Nat) : newfs_inode_d :=
  { ino := rd32 bs 0
    size := rd32 bs 4
    target_path := (bs.drop 8).take MAX_NAME_LEN
    block_pointer := [rd32 bs 136, rd32 bs 140, rd32 bs 144, rd32 bs 148, rd32 bs 152, rd32 bs 156]
    dir_cnt := rd32 bs 160
    ftype := rd32 bs 164 }

/-- The 136 bytes of a `struct newfs_dentry_d`. -/
def newfs_dentry_d.bytes (x : newfs_dentry_d) : List Nat :=
  buf_of x.fname MAX_NAME_LEN ++ le32 x.ftype ++ le32 x.ino

/-- The `struct newfs_dentry_d` held by 136 bytes. -/
def newfs_dentry_d.of_bytes (bs : List Nat) : newfs_dentry_d :=
  { fname := bs.take MAX_NAME_LEN
    ftype := rd32 bs 128
    ino := rd32 bs 132 }

/-- `#define NFS_INO_OFS(ino)`, converted to the `int` parameter it is passed as. -/
def NFS_INO_OFS (s : newfs_super) (ino : Int) : Int :=
  toI32 (toU32 (s.inode_offset * (NFS_BLKS_SZ : Int) + ino * (SIZEOF_INODE_D : Int)))

/-! ## Namespace tree -/

/-- `struct newfs_dentry *newfs_alloc_dentry(const char *name, NFS_FILE_TYPE ftype)`:
the name is cut after `MAX_NAME_LEN - 1` bytes, `ino` is `-1`. -/
def newfs_alloc_dentry (name : List Nat) (ftype : Nat) : newfs_dentry :=
  newfs_dentry.mk ((c_str name).take (MAX_NAME_LEN - 1)) 4294967295 none ftype

/-- `int newfs_alloc_dentry_to_inode(inode, dentry)`: `dentry` becomes the head
of `inode->dentrys`, its `brother` the former head. -/
def newfs_alloc_dentry_to_inode (inode : newfs_inode) (dentry : newfs_dentry) :
    Int × newfs_inode :=
  match inode with
  | newfs_inode.mk ino size dir_cnt ftype target_path dentrys block_pointer =>
    (toI32 ((dir_cnt + 1) % 4294967296),
      newfs_inode.mk ino size ((dir_cnt + 1) % 4294967296) ftype target_path
        (dentry :: dentrys) block_pointer)

/-- The first `if (NFS_IS_DIR(inode))` of `newfs_sync_inode`: a directory with
children and no first block gets one.  `Sum.inl` is the early
`return -NFS_ERROR_NOSPACE`. -/
def newfs_sync_inode_block (s : newfs_super) (ftype dir_cnt : Nat) (block_pointer : List Nat) :
    Option (newfs_super ⊕ (List Nat × newfs_super)) :=
  if ftype = NFS_DIR then
    if dir_cnt > 0 ∧ block_pointer.getD 0 0 = 0 then
      match newfs_alloc_data_block s with
      | none => none
      | some (block_no, s1) =>
        if block_no = -1 then some (Sum.inl s1)
        else some (Sum.inr (block_pointer.set 0 (toU32 block_no), s1))
    else some (Sum.inr (block_pointer, s))
  else some (Sum.inr (block_pointer, s))

mutual
/-- `int newfs_sync_inode(struct newfs_inode *inode)`: result code, the inode
as the call leaves it in memory, state afterwards. -/
def newfs_sync_inode (s : newfs_super) : newfs_inode → Option (Int × newfs_inode × newfs_super)
  | newfs_inode.mk ino size dir_cnt ftype target_path dentrys block_pointer =>
    match newfs_sync_inode_block s ftype dir_cnt block_pointer with
    | none => none
    | some (Sum.inl s1) =>
      some (-NFS_ERROR_NOSPACE,
        newfs_inode.mk ino size dir_cnt ftype target_path dentrys block_pointer, s1)
    | some (Sum.inr (block_pointer1, s1)) =>
      let inode_d : newfs_inode_d :=
        { ino := toU32 (toI32 ino), size := size, dir_cnt := dir_cnt, ftype := ftype,
          target_path := target_path, block_pointer := block_pointer1 }
      match newfs_driver_write s1.dev (NFS_INO_OFS s1 (toI32 ino)) inode_d.bytes
          (SIZEOF_INODE_D : Int) with
      | none => none
      | some (r, dev2) =>
        if r ≠ NFS_ERROR_NONE then
          some (- NFS_ERROR_IO,
            newfs_inode.mk ino size dir_cnt ftype target_path dentrys block_pointer1,
            { s1 with dev := dev2 })
        else if ftype = NFS_DIR then
          if block_pointer1.getD 0 0 ≠ 0 then
            match newfs_sync_dentrys { s1 with dev := dev2 } dentrys
                (toI32 (block_pointer1.getD 0 0 * NFS_BLKS_SZ)) with
            | none => none
            | some (r1, dentrys1, s3) =>
              some (r1, newfs_inode.mk ino size dir_cnt ftype target_path dentrys1 block_pointer1,
                s3)
          else
            some (NFS_ERROR_NONE,
              newfs_inode.mk ino size dir_cnt ftype target_path dentrys block_pointer1,
              { s1 with dev := dev2 })
        else
          some (NFS_ERROR_NONE,
            newfs_inode.mk ino size dir_cnt ftype target_path dentrys block_pointer1,
            { s1 with dev := dev2 })
/-- The `while (dentry_cursor != NULL)` loop of `newfs_sync_inode`, from the
dentry `dentry_cursor` on: result code of the function if the loop returns
(`NFS_ERROR_NONE` when it runs to the end), the chain as it is left in memory,
state afterwards. -/
def newfs_sync_dentrys (s : newfs_super) :
    List newfs_dentry → Int → Option (Int × List newfs_dentry × newfs_super)
  | [], _ => some (NFS_ERROR_NONE, [], s)
  | newfs_dentry.mk name ino inode ftype :: brother, offset =>
    let dentry_d : newfs_dentry_d :=
      { fname := buf_of name MAX_NAME_LEN, ftype := ftype, ino := ino }
    match newfs_driver_write s.dev offset dentry_d.bytes (SIZEOF_DENTRY_D : Int) with
    | none => none
    | some (r, dev1) =>
      if r ≠ NFS_ERROR_NONE then
        some (- NFS_ERROR_IO, newfs_dentry.mk name ino inode ftype :: brother,
          { s with dev := dev1 })
      else
        match inode with
        | none =>
          match newfs_sync_dentrys { s with dev := dev1 } brother
              (toI32 (toU32 (offset + (SIZEOF_DENTRY_D : Int)))) with
          | none => none
          | some (r1, brother1, s2) =>
            some (r1, newfs_dentry.mk name ino none ftype :: brother1, s2)
        | some i =>
          match newfs_sync_inode { s with dev := dev1 } i with
          | none => none
          | some (_, i1, s2) =>
            match newfs_sync_dentrys s2 brother
                (toI32 (toU32 (offset + (SIZEOF_DENTRY_D : Int)))) with
            | none => none
            | some (r1, brother1, s3) =>
              some (r1, newfs_dentry.mk name ino (some i1) ftype :: brother1, s3)
end

/-- The `for (i = 0; i < dir_cnt; i++)` loop of `newfs_read_inode`, with `n`
iterations left; `none` in the inner option is `return NULL`. -/
def newfs_read_inode_dentrys (block0 : Nat) :
    Nat → Nat → newfs_inode → ddriver → Option (Option newfs_inode × ddriver)
  | 0, _, inode, d => some (some inode, d)
  | n + 1, i, inode, d =>
    match newfs_driver_read d
        (toI32 (block0 * NFS_BLKS_SZ % 4294967296 + i * SIZEOF_DENTRY_D))
        (SIZEOF_DENTRY_D : Int) with
    | none => none
    | some (r, bytes, d1) =>
      if r ≠ NFS_ERROR_NONE then some (none, d1)
      else
        let dentry_d := newfs_dentry_d.of_bytes bytes
        let sub_dentry :=
          match newfs_alloc_dentry dentry_d.fname dentry_d.ftype with
          | newfs_dentry.mk name _ inode ftype => newfs_dentry.mk name dentry_d.ino inode ftype
        newfs_read_inode_dentrys block0 n (i + 1)
          (newfs_alloc_dentry_to_inode inode sub_dentry).2 d1

/-- `struct newfs_inode *newfs_read_inode(struct newfs_dentry *dentry, int ino)`;
`none` in the inner option is a `NULL` result. -/
def newfs_read_inode (s : newfs_super) (ino : Int) : Option (Option newfs_inode × newfs_super) :=
  match newfs_driver_read s.dev (NFS_INO_OFS s ino) (SIZEOF_INODE_D : Int) with
  | none => none
  | some (r, bytes, d1) =>
    if r ≠ NFS_ERROR_NONE then some (none, { s with dev := d1 })
    else
      let inode_d := newfs_inode_d.of_bytes bytes
      let inode := newfs_inode.mk inode_d.ino inode_d.size 0 inode_d.ftype inode_d.target_path []
        inode_d.block_pointer
      if inode_d.ftype = NFS_DIR then
        let dir_cnt := toI32 inode_d.dir_cnt
        if dir_cnt > 0 ∧ inode_d.block_pointer.getD 0 0 ≠ 0 then
          match newfs_read_inode_dentrys (inode_d.block_pointer.getD 0 0) dir_cnt.toNat 0 inode
              d1 with
          | none => none
          | some (r1, d2) => some (r1, { s with dev := d2 })
        else some (some inode, { s with dev := d1 })
      else some (some inode, { s with dev := d1 })

/-! ## Pointers into the tree -/

/-- A `struct newfs_dentry *` that points into the tree owned by
`super.root_dentry`: the positions, in the successive child lists, that lead
from the root dentry to the dentry pointed at.  `[]` is the root dentry. -/
abbrev dptr := List Nat

/-- The dentry a pointer points at (`none`: the pointer is dangling). -/
def dentry_at : newfs_dentry → dptr → Option newfs_dentry
  | d, [] => some d
  | d, k :: p =>
    match d.inode with
    | none => none
    | some i =>
      match i.dentrys[k]? with
      | none => none
      | some c => dentry_at c p

/-- The assignment `p->inode = v` for a pointer `p` into the tree under `d`. -/
def set_inode_at : newfs_dentry → dptr → Option newfs_inode → newfs_dentry
  | newfs_dentry.mk name ino _ ftype, [], v => newfs_dentry.mk name ino v ftype
  | newfs_dentry.mk name ino none ftype, _ :: _, _ => newfs_dentry.mk name ino none ftype
  | newfs_dentry.mk name ino (some (newfs_inode.mk a b c t tp ds bp)) ftype, k :: p, v =>
    match ds[k]? with
    | none => newfs_dentry.mk name ino (some (newfs_inode.mk a b c t tp ds bp)) ftype
    | some ch =>
      newfs_dentry.mk name ino
        (some (newfs_inode.mk a b c t tp (ds.set k (set_inode_at ch p v)) bp)) ftype

/-! ## Path resolver -/

/-- The counting loop of `newfs_calc_lvl`: one level per `'/'`. -/
def newfs_calc_lvl_loop : List Nat → Nat → Nat
  | [], lvl => lvl
  | c :: str, lvl => if c = 47 then newfs_calc_lvl_loop str (lvl + 1) else newfs_calc_lvl_loop str lvl

/-- `int newfs_calc_lvl(const char *path)`.  A path is the list of the bytes of
the C string. -/
def newfs_calc_lvl (path : List Nat) : Nat :=
  if path = [47] then 0 else newfs_calc_lvl_loop path 0

/-- The tokens that `strtok(path_cpy, "/")` and the following
`strtok(NULL, "/")` calls return, in order: the maximal runs of bytes other
than `'/'`.  `tok` is the token being read. -/
def strtok_from : List Nat → List Nat → List (List Nat)
  | [], tok => if tok = [] then [] else [tok]
  | c :: rest, tok =>
    if c = 47 then
      if tok = [] then strtok_from rest [] else tok :: strtok_from rest []
    else strtok_from rest (tok ++ [c])

/-- All tokens of a path. -/
def strtok_all (path : List Nat) : List (List Nat) := strtok_from path []

/-- The `while (dentry_cursor)` scan of `newfs_lookup` over a child chain:
position of the first dentry whose name compares equal to `fname`; `k` is the
position of the head of the chain. -/
def newfs_lookup_scan (fname : List Nat) : List newfs_dentry → Nat → Option Nat
  | [], _ => none
  | dentry_cursor :: brother, k =>
    if fname = dentry_cursor.name then some k else newfs_lookup_scan fname brother (k + 1)

/-- The statement
`if (p->inode == NULL) p->inode = newfs_read_inode(p, p->ino);`
for a pointer `p` into the tree: the inode afterwards and the state. -/
def newfs_hydrate (s : newfs_super) (p : dptr) : Option (Option newfs_inode × newfs_super) :=
  match s.root_dentry with
  | none => none
  | some root =>
    match dentry_at root p with
    | none => none
    | some d =>
      match d.inode with
      | some i => some (some i, s)
      | none =>
        match newfs_read_inode s (toI32 d.ino) with
        | none => none
        | some (i, s1) => some (i, { s1 with root_dentry := some (set_inode_at root p i) })

/-- The `while (fname)` loop of `newfs_lookup`, at the token list still to be
read: `dentry_ret`, `*is_find` and the state when the loop is left. -/
def newfs_lookup_loop (total_lvl : Nat) :
    List (List Nat) → Nat → dptr → newfs_super → Option (Option dptr × Bool × newfs_super)
  | [], _, _, s => some (none, false, s)
  | fname :: rest, lvl, dentry_cursor, s =>
    match newfs_hydrate s dentry_cursor with
    | none => none
    | some (none, _) => none
    | some (some inode, s1) =>
      if inode.ftype = NFS_REG_FILE ∧ lvl + 1 < total_lvl then
        some (some dentry_cursor, false, s1)
      else if inode.ftype = NFS_DIR then
        match newfs_lookup_scan fname inode.dentrys 0 with
        | none => some (some dentry_cursor, false, s1)
        | some k =>
          if lvl + 1 = total_lvl then some (some (dentry_cursor ++ [k]), true, s1)
          else newfs_lookup_loop total_lvl rest (lvl + 1) (dentry_cursor ++ [k]) s1
      else newfs_lookup_loop total_lvl rest (lvl + 1) dentry_cursor s1

/-- What `newfs_lookup` hands back: the returned pointer, `*is_find`, `*is_root`. -/
structure lookup_out where
  dentry_ret : Option dptr
  is_find : Bool
  is_root : Bool
deriving DecidableEq

/-- `struct newfs_dentry *newfs_lookup(const char *path, bool *is_find, bool *is_root)`. -/
def newfs_lookup (s : newfs_super) (path : List Nat) : Option (lookup_out × newfs_super) :=
  let total_lvl := newfs_calc_lvl path
  if total_lvl = 0 then
    some ({ dentry_ret := s.root_dentry.map (fun _ => []), is_find := true, is_root := true }, s)
  else
    match newfs_lookup_loop total_lvl (strtok_all path) 0 [] s with
    | none => none
    | some (none, is_find, s1) =>
      some ({ dentry_ret := none, is_find := is_find, is_root := false }, s1)
    | some (some dentry_ret, is_find, s1) =>
      match newfs_hydrate s1 dentry_ret with
      | none => none
      | some (_, s2) =>
        some ({ dentry_ret := some dentry_ret, is_find := is_find, is_root := false }, s2)

/-! ## Creating entries -/

/-- `struct newfs_inode *newfs_alloc_inode(struct newfs_dentry *dentry)`: the
dentry as the call leaves it (`inode` stays `NULL` and `ino` stays as it was
when no inode number is free, the function then returns `NULL`). -/
def newfs_alloc_inode (s : newfs_super) (dentry : newfs_dentry) :
    Option (newfs_dentry × newfs_super) :=
  match newfs_alloc_ino s with
  | none => none
  | some (ino, s1) =>
    if ino = -1 then some (dentry, s1)
    else
      some (newfs_dentry.mk dentry.name (toU32 ino)
        (some (newfs_inode.mk (toU32 ino) 0 0 dentry.ftype (List.replicate MAX_NAME_LEN 0) []
          (List.replicate NFS_DATA_PER_FILE 0))) dentry.ftype, s1)

/-- `char *newfs_get_fname(const char *path)`: the bytes after the last `'/'`
(`strrchr(path, '/') + 1`); no defined result without a `'/'`. -/
def newfs_get_fname (path : List Nat) : Option (List Nat) :=
  if 47 ∈ path then some (path.reverse.takeWhile (fun c => c != 47)).reverse else none

/-- The common tail of `newfs_mkdir` and `newfs_mknod`: allocate the dentry
`fname` of type `ftype` with its inode and link it under `last_dentry`, whose
inode is `inode`. -/
def newfs_link_new (s : newfs_super) (root : newfs_dentry) (last_dentry : dptr)
    (inode : newfs_inode) (fname : List Nat) (ftype : Nat) : Option (Int × newfs_super) :=
  match newfs_alloc_inode s (newfs_alloc_dentry fname ftype) with
  | none => none
  | some (dentry, s1) =>
    some (NFS_ERROR_NONE,
      { s1 with
        root_dentry :=
          some (set_inode_at root last_dentry
            (some (newfs_alloc_dentry_to_inode inode dentry).2)) })

/-- `int newfs_mkdir(const char *path, mode_t mode)`. -/
def newfs_mkdir (s : newfs_super) (path : List Nat) : Option (Int × newfs_super) :=
  match newfs_lookup s path with
  | none => none
  | some (out, s1) =>
    if out.is_find then some (-NFS_ERROR_EXISTS, s1)
    else
      match out.dentry_ret with
      | none => some (-NFS_ERROR_NOTFOUND, s1)
      | some last_dentry =>
        match s1.root_dentry with
        | none => none
        | some root =>
          match dentry_at root last_dentry with
          | none => none
          | some d =>
            match d.inode with
            | none => some (-NFS_ERROR_NOTFOUND, s1)
            | some inode =>
              if inode.ftype = NFS_REG_FILE then some (-NFS_ERROR_UNSUPPORTED, s1)
              else
                match newfs_get_fname path with
                | none => none
                | some fname => newfs_link_new s1 root last_dentry inode fname NFS_DIR

/-- `S_ISREG(mode)`: `(mode & S_IFMT) == S_IFREG`. -/
def S_ISREG (mode : Nat) : Bool := mode &&& 61440 == 32768

/-- `S_ISDIR(mode)`: `(mode & S_IFMT) == S_IFDIR`. -/
def S_ISDIR (mode : Nat) : Bool := mode &&& 61440 == 16384

/-- `int newfs_mknod(const char *path, mode_t mode, dev_t dev)`. -/
def newfs_mknod (s : newfs_super) (path : List Nat) (mode : Nat) : Option (Int × newfs_super) :=
  match newfs_lookup s path with
  | none => none
  | some (out, s1) =>
    if out.is_find = true then some (-NFS_ERROR_EXISTS, s1)
    else
      match out.dentry_ret with
      | none => some (-NFS_ERROR_NOTFOUND, s1)
      | some last_dentry =>
        match s1.root_dentry with
        | none => none
        | some root =>
          match dentry_at root last_dentry with
          | none => none
          | some d =>
            match d.inode with
            | none => some (-NFS_ERROR_NOTFOUND, s1)
            | some inode =>
              match newfs_get_fname path with
              | none => none
              | some fname =>
                newfs_link_new s1 root last_dentry inode fname
                  (if S_ISREG mode then NFS_REG_FILE
                   else if S_ISDIR mode then NFS_DIR else NFS_REG_FILE)

/-! ## States used in examples -/

/-- The bytes of an ASCII string. -/
def ascii (str : String) : List Nat := str.toList.map Char.toNat

/-- A device of `size` zero bytes. -/
def zero_device (size : Nat) : ddriver := { size := size, data := fun _ => 0, pos := 0 }

/-- The state `newfs_init` computes on a zeroed 4 MiB device, before the root
is written: layout as in the comments of `newfs_init` (983 inodes, inode table
of 162 blocks at block 3, data region of 3931 blocks at block 165), root inode
0 marked in the inode bitmap, an empty data bitmap, an empty root directory. -/
def example_super : newfs_super :=
  { dev := zero_device 4194304
    sz_io := 512, sz_disk := 4194304, sz_usage := 0, sz_blks := 1024, blks_num := 4096
    sb_offset := 0, sb_blks := 1
    map_inode := 1 :: List.replicate 1023 0
    ino_bitmap_offset := 1, ino_bitmap_blks := 1
    map_data := List.replicate 1024 0
    data_bitmap_offset := 2, data_bitmap_blks := 1
    inode_blks := 162, inode_offset := 3, data_offset := 165, data_blks := 3931
    max_ino := 983, file_max := 6144
    is_mounted := true
    root_ino := 0
    root_dentry :=
      some (newfs_dentry.mk [47] 0
        (some (newfs_inode.mk 0 0 0 NFS_DIR (List.replicate 128 0) [] (List.replicate 6 0)))
        NFS_DIR) }

/-- The root inode after `mkdir /a` and `mkdir /b` on `example_super`: the
root holds `b` (inode 2) in front of `a` (inode 1). -/
def example_root_ab : newfs_inode :=
  newfs_inode.mk 0 0 2 NFS_DIR (List.replicate 128 0)
    [newfs_dentry.mk [98] 2
        (some (newfs_inode.mk 2 0 0 NFS_DIR (List.replicate 128 0) []
          (List.replicate 6 0))) NFS_DIR,
     newfs_dentry.mk [97] 1
        (some (newfs_inode.mk 1 0 0 NFS_DIR (List.replicate 128 0) []
          (List.replicate 6 0))) NFS_DIR]
    (List.replicate 6 0)

/-- The state `example_super` after `mkdir /a` and `mkdir /b`. -/
def example_super_ab : newfs_super :=
  { example_super with
    map_inode := 7 :: List.replicate 1023 0
    root_dentry := some (newfs_dentry.mk [47] 0 (some example_root_ab) NFS_DIR) }

/-! ## Device contents as a byte map -/

/-- The `n` bytes stored from address `off` on. -/
def disk_read (data : Nat → Nat) (off n : Nat) : List Nat :=
  (List.range n).map (fun k => data (off + k))

/-- The contents after `bytes` has been stored from address `off` on. -/
def disk_write (data : Nat → Nat) (off : Nat) (bytes : List Nat) : Nat → Nat :=
  fun a => if off ≤ a ∧ a < off + bytes.length then bytes.getD (a - off) 0 else data a

/-- The 512-aligned span of a request for `size` bytes at `off` lies in the
device, and the device is small enough for `int` offsets. -/
def span_ok (d : ddriver) (off size : Nat) : Prop :=
  off - off % 512 + (size + off % 512 + 511) / 512 * 512 ≤ d.size ∧ d.size < 2147483648

/-! ## Specification of the path walk (spec §4.5) -/

/-- The path `/s1/s2/.../sn` of the segments `s1, ..., sn`. -/
def path_of : List (List Nat) → List Nat
  | [] => []
  | seg :: rest => 47 :: seg ++ path_of rest

/-- A path segment: non-empty, without `'/'`. -/
def is_segment (seg : List Nat) : Prop := seg ≠ [] ∧ 47 ∉ seg

/-- Position `k` holds the first dentry of the child list `ds` named `seg`. -/
def first_named (seg : List Nat) (ds : List newfs_dentry) (k : Nat) : Prop :=
  ∃ d, ds[k]? = some d ∧ d.name = seg ∧ ∀ j e, j < k → ds[j]? = some e → e.name ≠ seg

/-- `walks s cursor segs s1 p`: starting at the dentry `cursor` in state `s`,
each segment names a child of the node reached so far, every node that is left
is a directory (hydrated when it is visited); `p` is the dentry reached and `s1`
the state then. -/
inductive walks : newfs_super → dptr → List (List Nat) → newfs_super → dptr → Prop
  | done (s : newfs_super) (p : dptr) : walks s p [] s p
  | step (s s1 s2 : newfs_super) (cursor p : dptr) (seg : List Nat) (rest : List (List Nat))
      (inode : newfs_inode) (k : Nat) :
      newfs_hydrate s cursor = some (some inode, s1) → inode.ftype = NFS_DIR →
      first_named seg inode.dentrys k → walks s1 (cursor ++ [k]) rest s2 p →
      walks s cursor (seg :: rest) s2 p

/-! ## Persisting and re-hydrating a tree -/

mutual
/-- The inode numbers of the inodes of a subtree. -/
def inos_of : newfs_inode → List Nat
  | newfs_inode.mk ino _ _ _ _ dentrys _ => ino :: inos_of_dentrys dentrys
/-- The inode numbers of the inodes below a child chain. -/
def inos_of_dentrys : List newfs_dentry → List Nat
  | [] => []
  | newfs_dentry.mk _ _ none _ :: brother => inos_of_dentrys brother
  | newfs_dentry.mk _ _ (some i) _ :: brother => inos_of i ++ inos_of_dentrys brother
end

mutual
/-- The first data blocks (`block_pointer[0]`, when not 0) of the directories
of a subtree. -/
def blocks_of : newfs_inode → List Nat
  | newfs_inode.mk _ _ _ ftype _ dentrys block_pointer =>
    (if ftype = NFS_DIR ∧ block_pointer.getD 0 0 ≠ 0 then [block_pointer.getD 0 0] else [])
      ++ blocks_of_dentrys dentrys
/-- The first data blocks of the directories below a child chain. -/
def blocks_of_dentrys : List newfs_dentry → List Nat
  | [] => []
  | newfs_dentry.mk _ _ none _ :: brother => blocks_of_dentrys brother
  | newfs_dentry.mk _ _ (some i) _ :: brother => blocks_of i ++ blocks_of_dentrys brother
end

mutual
/-- The number of directories of a subtree that have children but no first
data block yet. -/
def blocks_needed : newfs_inode → Nat
  | newfs_inode.mk _ _ dir_cnt ftype _ dentrys block_pointer =>
    (if ftype = NFS_DIR ∧ dir_cnt > 0 ∧ block_pointer.getD 0 0 = 0 then 1 else 0)
      + blocks_needed_dentrys dentrys
/-- The same below a child chain. -/
def blocks_needed_dentrys : List newfs_dentry → Nat
  | [] => 0
  | newfs_dentry.mk _ _ none _ :: brother => blocks_needed_dentrys brother
  | newfs_dentry.mk _ _ (some i) _ :: brother => blocks_needed i + blocks_needed_dentrys brother
end

mutual
/-- The nesting depth of a subtree. -/
def height : newfs_inode → Nat
  | newfs_inode.mk _ _ _ _ _ dentrys _ => height_dentrys dentrys + 1
/-- The largest nesting depth below a child chain. -/
def height_dentrys : List newfs_dentry → Nat
  | [] => 0
  | newfs_dentry.mk _ _ none _ :: brother => height_dentrys brother
  | newfs_dentry.mk _ _ (some i) _ :: brother => max (height i) (height_dentrys brother)
end

mutual
/-- A subtree as the create operations build it: every dentry holds its inode
and the inode number of it, names are C strings of at most 127 bytes,
`dir_cnt` counts the children, only directories have children, at most
`max_children` per directory, inode numbers are below `max_ino`, the fixed-size
fields have their sizes. -/
def tree_ok (max_ino max_children : Nat) : newfs_inode → Prop
  | newfs_inode.mk ino size dir_cnt ftype target_path dentrys block_pointer =>
    ino < max_ino ∧ size < 4294967296 ∧ ftype < 4294967296 ∧
    target_path.length = MAX_NAME_LEN ∧ block_pointer.length = NFS_DATA_PER_FILE ∧
    (∀ b ∈ block_pointer, b < 4294967296) ∧
    dir_cnt = dentrys.length ∧ dentrys.length ≤ max_children ∧
    (ftype ≠ NFS_DIR → dentrys = []) ∧
    dentrys_ok max_ino max_children dentrys
/-- `tree_ok` along a child chain. -/
def dentrys_ok (max_ino max_children : Nat) : List newfs_dentry → Prop
  | [] => True
  | newfs_dentry.mk _ _ none _ :: _ => False
  | newfs_dentry.mk name ino (some i) ftype :: brother =>
    0 ∉ name ∧ name.length < MAX_NAME_LEN ∧ ino = i.ino ∧ ftype < 4294967296 ∧
    tree_ok max_ino max_children i ∧ dentrys_ok max_ino max_children brother
end

mutual
/-- The subtree with every child list reversed. -/
def mirror : newfs_inode → newfs_inode
  | newfs_inode.mk ino size dir_cnt ftype target_path dentrys block_pointer =>
    newfs_inode.mk ino size dir_cnt ftype target_path (mirror_dentrys dentrys) block_pointer
/-- The child chain in reverse order, every child mirrored. -/
def mirror_dentrys : List newfs_dentry → List newfs_dentry
  | [] => []
  | newfs_dentry.mk name ino none ftype :: brother =>
    mirror_dentrys brother ++ [newfs_dentry.mk name ino none ftype]
  | newfs_dentry.mk name ino (some i) ftype :: brother =>
    mirror_dentrys brother ++ [newfs_dentry.mk name ino (some (mirror i)) ftype]
end

mutual
/-- The subtree with every block pointer forgotten: what is left are the
names, types, inode numbers, sizes and the order of the children. -/
def forget_blocks : newfs_inode → newfs_inode
  | newfs_inode.mk ino size dir_cnt ftype target_path dentrys _ =>
    newfs_inode.mk ino size dir_cnt ftype target_path (forget_blocks_dentrys dentrys) []
/-- `forget_blocks` along a child chain. -/
def forget_blocks_dentrys : List newfs_dentry → List newfs_dentry
  | [] => []
  | newfs_dentry.mk name ino none ftype :: brother =>
    newfs_dentry.mk name ino none ftype :: forget_blocks_dentrys brother
  | newfs_dentry.mk name ino (some i) ftype :: brother =>
    newfs_dentry.mk name ino (some (forget_blocks i)) ftype :: forget_blocks_dentrys brother
end

/-- Re-hydration of a child chain with `load`, the re-hydration of one inode
by number: what `if (d->inode == NULL) d->inode = newfs_read_inode(d, d->ino)`
does for each child `d` in turn. -/
def load_dentrys (load : newfs_super → Int → Option (newfs_inode × newfs_super)) :
    newfs_super → List newfs_dentry → Option (List newfs_dentry × newfs_super)
  | s, [] => some ([], s)
  | s, d :: brother =>
    match load s (toI32 d.ino) with
    | none => none
    | some (i, s1) =>
      match load_dentrys load s1 brother with
      | none => none
      | some (brother1, s2) => some (newfs_dentry.mk d.name d.ino (some i) d.ftype :: brother1, s2)

/-- Re-hydration of the subtree of inode number `ino` from the device, as a
mount followed by lookups of every path does it: `newfs_read_inode` for the
inode, then the same for the inode of every child it lists, `depth` levels
deep. -/
def load_inode : Nat → newfs_super → Int → Option (newfs_inode × newfs_super)
  | 0, _, _ => none
  | depth + 1, s, ino =>
    match newfs_read_inode s ino with
    | some (some (newfs_inode.mk i size dir_cnt ftype target_path dentrys block_pointer), s1) =>
      match load_dentrys (load_inode depth) s1 dentrys with
      | none => none
      | some (dentrys1, s2) =>
        some (newfs_inode.mk i size dir_cnt ftype target_path dentrys1 block_pointer, s2)
    | _ => none

/-- Block number `b` lies in the data region and its bit is set in the data
bitmap. -/
def block_used (s : newfs_super) (b : Nat) : Prop :=
  ∃ i : Nat, (b : Int) = s.data_offset + (i : Int) ∧ (i : Int) < s.data_blks ∧ i < 8192 ∧
    bitmap_bit s.map_data i = true

/-- The number of free data blocks the allocator can hand out. -/
def free_blocks (s : newfs_super) : Nat :=
  (List.range 8192).countP
    (fun j : Nat => decide ((j : Int) < s.data_blks) && !bitmap_bit s.map_data j)

/-- The regions of the layout as `newfs_init` computes them: the inode table
holds `max_ino` records before the data region, the data region ends inside
the device, the device is a whole number of 512-byte units and small enough
for `int` offsets. -/
def layout_ok (s : newfs_super) : Prop :=
  0 ≤ s.inode_offset ∧ 0 ≤ s.max_ino ∧ 0 ≤ s.data_blks ∧
  s.inode_offset * 1024 + s.max_ino * 168 ≤ s.data_offset * 1024 ∧
  (s.data_offset + s.data_blks) * 1024 ≤ (s.dev.size : Int) ∧
  s.dev.size < 2147483648 ∧ s.dev.size % 512 = 0 ∧
  s.map_data.length = 1024

/-- Address of the record of inode `ino` in the inode table that starts at
block `inode_offset`. -/
def ino_addr (inode_offset : Int) (ino : Nat) : Nat :=
  (inode_offset * 1024 + (ino : Int) * 168).toNat

mutual
/-- The device contents `data` (of `size` bytes) hold the image of a subtree:
the record of the inode in the inode table and, from the start of its first
data block on, the records of its children in child-list order, each child's
subtree likewise. -/
def inode_on_disk (inode_offset : Int) (size : Nat) (data : Nat → Nat) : newfs_inode → Prop
  | newfs_inode.mk ino sz dir_cnt ftype target_path dentrys block_pointer =>
    disk_read data (ino_addr inode_offset ino) SIZEOF_INODE_D
      = newfs_inode_d.bytes
          { ino := ino, size := sz, dir_cnt := dir_cnt, ftype := ftype,
            target_path := target_path, block_pointer := block_pointer } ∧
    (dentrys ≠ [] →
      block_pointer.getD 0 0 ≠ 0 ∧ block_pointer.getD 0 0 * 1024 + 1024 ≤ size) ∧
    dentrys_on_disk inode_offset size data (block_pointer.getD 0 0 * 1024) dentrys
/-- The records of a child chain stand from address `off` on, and every
hydrated child has its image on the device. -/
def dentrys_on_disk (inode_offset : Int) (size : Nat) (data : Nat → Nat) :
    Nat → List newfs_dentry → Prop
  | _, [] => True
  | off, newfs_dentry.mk name ino none ftype :: brother =>
    disk_read data off SIZEOF_DENTRY_D
      = newfs_dentry_d.bytes { fname := buf_of name MAX_NAME_LEN, ftype := ftype, ino := ino } ∧
    dentrys_on_disk inode_offset size data (off + SIZEOF_DENTRY_D) brother
  | off, newfs_dentry.mk name ino (some i) ftype :: brother =>
    disk_read data off SIZEOF_DENTRY_D
      = newfs_dentry_d.bytes { fname := buf_of name MAX_NAME_LEN, ftype := ftype, ino := ino } ∧
    inode_on_disk inode_offset size data i ∧
    dentrys_on_disk inode_offset size data (off + SIZEOF_DENTRY_D) brother
end

/-- The child chain as `newfs_read_inode` rebuilds it from the records: no
child hydrated. -/
def strip_dentrys (ds : List newfs_dentry) : List newfs_dentry :=
  ds.map (fun d => newfs_dentry.mk d.name d.ino none d.ftype)

/-- `s1` is `s` up to the cursor of the device. -/
def same_volume (s s1 : newfs_super) : Prop :=
  s1 = { s with dev := s1.dev } ∧ s1.dev.data = s.dev.data ∧ s1.dev.size = s.dev.size

/-- The inode a run of the read loop of `newfs_read_inode` over the records of
`ds` leaves: the children in front of the list, last record first. -/
def with_children (inode : newfs_inode) (ds : List newfs_dentry) : newfs_inode :=
  newfs_inode.mk inode.ino inode.size (inode.dir_cnt + ds.length) inode.ftype inode.target_path
    ((strip_dentrys ds).reverse ++ inode.dentrys) inode.block_pointer

/-- Address `a` lies in the record of inode `i`. -/
def in_ino_rec (inode_offset : Int) (i a : Nat) : Prop :=
  ino_addr inode_offset i ≤ a ∧ a < ino_addr inode_offset i + 168

/-- Address `a` lies in block `b`. -/
def in_block (b a : Nat) : Prop := b * 1024 ≤ a ∧ a < b * 1024 + 1024

/-- Address `a` lies in the record of one of the inodes `inos` or in one of the
blocks `blocks`. -/
def touches (inode_offset : Int) (inos blocks : List Nat) (a : Nat) : Prop :=
  (∃ i ∈ inos, in_ino_rec inode_offset i a) ∨ (∃ b ∈ blocks, in_block b a)

/-- What persisting a subtree (or child chain) with inodes on `blocks`, of
which `needed` directories lack a block, makes of the state `s`: only the
device contents and the data bitmap change, blocks in use stay in use,
`needed` free blocks are taken, and the blocks `blocks1` the subtree has
afterwards are distinct, in use, and either its own before or free before. -/
structure sync_post (s : newfs_super) (blocks : List Nat) (needed : Nat) (s1 : newfs_super)
    (blocks1 : List Nat) : Prop where
  fields : s1 = { s with dev := s1.dev, map_data := s1.map_data }
  size : s1.dev.size = s.dev.size
  len : s1.map_data.length = 1024
  mono : ∀ b, block_used s b → block_used s1 b
  free : free_blocks s1 + needed = free_blocks s
  nodup : blocks1.Nodup
  used : ∀ b ∈ blocks1, block_used s1 b
  fresh : ∀ b ∈ blocks1, b ∈ blocks ∨ ¬ block_used s b

/-- Persisting the subtree `t` from a state in which it is well-formed: the
call succeeds, changes block pointers only, and leaves the image of the
subtree on the device, touching nothing but the records of its inodes and its
blocks. -/
def sync_inode_ok (mx : Nat) (t : newfs_inode) : Prop :=
  ∀ s : newfs_super, layout_ok s → s.max_ino = (mx : Int) → tree_ok mx 7 t →
    (inos_of t).Nodup → (blocks_of t).Nodup → (∀ b ∈ blocks_of t, block_used s b) →
    blocks_needed t ≤ free_blocks s →
    ∃ t1 s1, newfs_sync_inode s t = some (NFS_ERROR_NONE, t1, s1) ∧
      forget_blocks t1 = forget_blocks t ∧ tree_ok mx 7 t1 ∧
      sync_post s (blocks_of t) (blocks_needed t) s1 (blocks_of t1) ∧
      (∀ a, ¬ touches s.inode_offset (inos_of t) (blocks_of t1) a →
        s1.dev.data a = s.dev.data a) ∧
      inode_on_disk s.inode_offset s.dev.size s1.dev.data t1

/-- The same for the loop over a child chain whose records go to block `pb`
from record position `k` on. -/
def sync_dentrys_ok (mx : Nat) (ds : List newfs_dentry) : Prop :=
  ∀ (s : newfs_super) (pb k : Nat), layout_ok s → s.max_ino = (mx : Int) →
    dentrys_ok mx 7 ds → (inos_of_dentrys ds).Nodup → (blocks_of_dentrys ds).Nodup →
    (∀ b ∈ blocks_of_dentrys ds, block_used s b) → block_used s pb →
    pb ∉ blocks_of_dentrys ds → k + ds.length ≤ 7 →
    blocks_needed_dentrys ds ≤ free_blocks s →
    ∃ ds1 s1,
      newfs_sync_dentrys s ds ((pb * 1024 + k * 136 : Nat) : Int)
        = some (NFS_ERROR_NONE, ds1, s1) ∧
      forget_blocks_dentrys ds1 = forget_blocks_dentrys ds ∧ dentrys_ok mx 7 ds1 ∧
      sync_post s (blocks_of_dentrys ds) (blocks_needed_dentrys ds) s1 (blocks_of_dentrys ds1) ∧
      (∀ a, ¬ touches s.inode_offset (inos_of_dentrys ds) (blocks_of_dentrys ds1) a →
        ¬ (pb * 1024 + k * 136 ≤ a ∧ a < pb * 1024 + (k + ds.length) * 136) →
        s1.dev.data a = s.dev.data a) ∧
      dentrys_on_disk s.inode_offset s.dev.size s1.dev.data (pb * 1024 + k * 136) ds1
/-! ## Detaching a dentry

`newfs_drop_dentry` compares and rewrites pointers, so it is embedded over the
memory that holds the dentries: every `struct newfs_dentry` lives at an
address, address `0` is `NULL`. -/

/-- A `struct newfs_dentry` in memory; `parent`, `brother`, `inode` are the
addresses held by the pointer fields. -/
structure dentry_node where
  name : List Nat
  ino : Nat
  parent : Nat
  brother : Nat
  inode : Nat
  ftype : Nat

/-- What `newfs_drop_dentry` sees of the memory: the fields `dentrys` and
`dir_cnt` of `*inode`, and the dentry stored at each address. -/
structure drop_mem where
  dentrys : Nat
  dir_cnt : Nat
  node : Nat → dentry_node

/-- The `while (dentry_cursor)` loop of `newfs_drop_dentry`: `is_find` and the
dentries afterwards.  The first argument bounds the number of iterations;
`none` if the bound is reached, or if `dentry->brother` is read through a null
`dentry`. -/
def newfs_drop_dentry_loop (dentry : Nat) :
    Nat → Nat → (Nat → dentry_node) → Option (Bool × (Nat → dentry_node))
  | fuel, dentry_cursor, node =>
    if dentry_cursor = 0 then some (false, node)
    else
      match fuel with
      | 0 => none
      | fuel + 1 =>
        if (node dentry_cursor).brother = dentry then
          if dentry = 0 then none
          else
            some (true,
              Function.update node dentry_cursor
                { node dentry_cursor with brother := (node dentry).brother })
        else newfs_drop_dentry_loop dentry fuel (node dentry_cursor).brother node

/-- `int newfs_drop_dentry(struct newfs_inode *inode, struct newfs_dentry *dentry)`;
`fuel` bounds the iterations of the loop. -/
def newfs_drop_dentry (fuel : Nat) (m : drop_mem) (dentry : Nat) : Option (Int × drop_mem) :=
  if m.dentrys = dentry then
    if dentry = 0 then none
    else
      some (toI32 ((m.dir_cnt + 4294967295) % 4294967296),
        { m with
          dentrys := (m.node dentry).brother
          dir_cnt := (m.dir_cnt + 4294967295) % 4294967296 })
  else
    match newfs_drop_dentry_loop dentry fuel m.dentrys m.node with
    | none => none
    | some (false, _) => some (-NFS_ERROR_NOTFOUND, m)
    | some (true, node1) =>
      some (toI32 ((m.dir_cnt + 4294967295) % 4294967296),
        { m with node := node1, dir_cnt := (m.dir_cnt + 4294967295) % 4294967296 })

/-- `chain node p as`: following `brother` from the pointer `p` visits exactly
the dentries at the addresses `as`, in this order, and then reaches `NULL`. -/
def chain (node : Nat → dentry_node) : Nat → List Nat → Prop
  | p, [] => p = 0
  | p, a :: as => p = a ∧ a ≠ 0 ∧ chain node (node a).brother as
/-! ## Mounting -/

def NFS_MAGIC_NUM : Nat := 1380013139

/-- Size of `struct newfs_super_d`: seventeen 4-byte fields. -/
def SIZEOF_SUPER_D : Nat := 68

/-- `struct newfs_super_d`. -/
structure newfs_super_d where
  magic_number : Nat
  sz_usage : Int
  sz_blks : Int
  blks_num : Int
  sb_offset : Int
  sb_blks : Int
  ino_bitmap_offset : Int
  ino_bitmap_blks : Int
  data_bitmap_offset : Int
  data_bitmap_blks : Int
  inode_offset : Int
  inode_blks : Int
  data_offset : Int
  data_blks : Int
  max_ino : Int
  file_max : Int
  root_ino : Int

/-- The 68 bytes of a `struct newfs_super_d`. -/
def newfs_super_d.bytes (x : newfs_super_d) : List Nat :=
  le32 x.magic_number ++ le32 (toU32 x.sz_usage) ++ le32 (toU32 x.sz_blks)
    ++ le32 (toU32 x.blks_num) ++ le32 (toU32 x.sb_offset) ++ le32 (toU32 x.sb_blks)
    ++ le32 (toU32 x.ino_bitmap_offset) ++ le32 (toU32 x.ino_bitmap_blks)
    ++ le32 (toU32 x.data_bitmap_offset) ++ le32 (toU32 x.data_bitmap_blks)
    ++ le32 (toU32 x.inode_offset) ++ le32 (toU32 x.inode_blks)
    ++ le32 (toU32 x.data_offset) ++ le32 (toU32 x.data_blks)
    ++ le32 (toU32 x.max_ino) ++ le32 (toU32 x.file_max) ++ le32 (toU32 x.root_ino)

/-- The `struct newfs_super_d` held by the first 68 bytes of `bs`. -/
def newfs_super_d.of_bytes (bs : List Nat) : newfs_super_d :=
  { magic_number := rd32 bs 0
    sz_usage := toI32 (rd32 bs 4)
    sz_blks := toI32 (rd32 bs 8)
    blks_num := toI32 (rd32 bs 12)
    sb_offset := toI32 (rd32 bs 16)
    sb_blks := toI32 (rd32 bs 20)
    ino_bitmap_offset := toI32 (rd32 bs 24)
    ino_bitmap_blks := toI32 (rd32 bs 28)
    data_bitmap_offset := toI32 (rd32 bs 32)
    data_bitmap_blks := toI32 (rd32 bs 36)
    inode_offset := toI32 (rd32 bs 40)
    inode_blks := toI32 (rd32 bs 44)
    data_offset := toI32 (rd32 bs 48)
    data_blks := toI32 (rd32 bs 52)
    max_ino := toI32 (rd32 bs 56)
    file_max := toI32 (rd32 bs 60)
    root_ino := toI32 (rd32 bs 64) }

/-- Modelled from the spec: `ddriver_ioctl(fd, IOC_REQ_DEVICE_SIZE, &sz)` of the
device library, the capacity in bytes, as the `int` it is stored into. -/
def ddriver_ioctl_size (d : ddriver) : Int := toI32 d.size

/-- Modelled from the spec: `ddriver_ioctl(fd, IOC_REQ_DEVICE_IO_SZ, &sz)` of
the device library, the minimum transfer unit. -/
def ddriver_ioctl_io_sz (_ : ddriver) : Int := 512

/-- `int newfs_read_block(int fd, int block_no, uint8_t *buf)`: result, the
buffer afterwards (`buf` is what it held before), device afterwards. -/
def newfs_read_block (d : ddriver) (block_no : Int) (buf : List Nat) :
    Int × List Nat × ddriver :=
  let offset := block_no * (NFS_BLKS_SZ : Int)
  let r1 := ddriver_seek d offset
  if r1.1 < 0 then (r1.1, buf, r1.2)
  else
    match ddriver_read r1.2 NFS_IO_SZ with
    | (ret, none, d2) => (ret, buf, d2)
    | (ret, some unit, d2) =>
      let buf1 := unit ++ buf.drop NFS_IO_SZ
      if ret < 0 then (ret, buf1, d2)
      else
        let r3 := ddriver_seek d2 (offset + (NFS_IO_SZ : Int))
        if r3.1 < 0 then (r3.1, buf1, r3.2)
        else
          match ddriver_read r3.2 NFS_IO_SZ with
          | (ret, none, d4) => (ret, buf1, d4)
          | (ret, some unit2, d4) => (ret, unit ++ unit2 ++ buf.drop (2 * NFS_IO_SZ), d4)

/-- `int newfs_write_block(int fd, int block_no, uint8_t *buf)`. -/
def newfs_write_block (d : ddriver) (block_no : Int) (buf : List Nat) : Int × ddriver :=
  let offset := block_no * (NFS_BLKS_SZ : Int)
  let r1 := ddriver_seek d offset
  if r1.1 < 0 then r1
  else
    let r2 := ddriver_write r1.2 buf NFS_IO_SZ
    if r2.1 < 0 then r2
    else
      let r3 := ddriver_seek r2.2 (offset + (NFS_IO_SZ : Int))
      if r3.1 < 0 then r3
      else ddriver_write r3.2 (buf.drop NFS_IO_SZ) NFS_IO_SZ

/-- The layout block of `newfs_init` (first mount): the `struct newfs_super_d`
computed from `super.sz_blks` and `super.blks_num`.  `sizeof` is a `size_t`, so
the product in `inode_blks` is computed in 64-bit unsigned arithmetic and the
result converted to `int`. -/
def newfs_init_layout (sz_blks blks_num : Int) : newfs_super_d :=
  let avg_file_size : Int := toI32 (4 * NFS_BLKS_SZ + SIZEOF_INODE_D)
  let max_ino : Int := (blks_num * (NFS_BLKS_SZ : Int)).tdiv avg_file_size
  let inode_offset : Int := 3
  let inode_blks : Int :=
    toI32 (((max_ino % 18446744073709551616).toNat * SIZEOF_INODE_D % 18446744073709551616
      / NFS_BLKS_SZ + 1) % 18446744073709551616)
  let data_offset : Int := inode_offset + inode_blks
  { magic_number := NFS_MAGIC_NUM
    sz_usage := 0
    sz_blks := sz_blks
    blks_num := blks_num
    sb_offset := 0
    sb_blks := 1
    ino_bitmap_offset := 1
    ino_bitmap_blks := 1
    data_bitmap_offset := 2
    data_bitmap_blks := 1
    inode_offset := inode_offset
    inode_blks := inode_blks
    data_offset := data_offset
    data_blks := blks_num - data_offset
    max_ino := max_ino
    file_max := ((NFS_DATA_PER_FILE * NFS_BLKS_SZ : Nat) : Int)
    root_ino := 0 }

/-- The global `super` before `newfs_init` has run (zero-initialised), with the
device `d` opened. -/
def super_zero (d : ddriver) : newfs_super :=
  { dev := d
    sz_io := 0, sz_disk := 0, sz_usage := 0, sz_blks := 0, blks_num := 0
    sb_offset := 0, sb_blks := 0
    map_inode := []
    ino_bitmap_offset := 0, ino_bitmap_blks := 0
    map_data := []
    data_bitmap_offset := 0, data_bitmap_blks := 0
    inode_blks := 0, inode_offset := 0, data_offset := 0, data_blks := 0
    max_ino := 0, file_max := 0
    is_mounted := false
    root_ino := 0
    root_dentry := none }

/-- `void *newfs_init(struct fuse_conn_info *conn_info)` on the opened device
`d`: the global `super` afterwards.  A state with `is_mounted = false` is an
early `return NULL`; `none` is a run without defined result (the root inode
is dereferenced although no inode number could be allocated).  Freshly
`malloc`ed buffers hold zeroes. -/
def newfs_init (d : ddriver) : Option newfs_super :=
  let sz_disk := ddriver_ioctl_size d
  let sz_io := ddriver_ioctl_io_sz d
  let sz_blks : Int := 1024
  let blks_num := sz_disk.tdiv sz_blks
  let s0 : newfs_super :=
    { super_zero d with sz_disk := sz_disk, sz_io := sz_io, sz_blks := sz_blks,
                        blks_num := blks_num }
  match newfs_read_block d 0 (List.replicate NFS_BLKS_SZ 0) with
  | (ret, temp_buf, d1) =>
    if ret < 0 then some { s0 with dev := d1 }
    else
      let super_d0 := newfs_super_d.of_bytes temp_buf
      let is_init : Bool := super_d0.magic_number != NFS_MAGIC_NUM
      let super_d := if is_init then newfs_init_layout sz_blks blks_num else super_d0
      let s1 : newfs_super :=
        { s0 with
          dev := d1
          sz_usage := super_d.sz_usage
          sb_offset := super_d.sb_offset, sb_blks := super_d.sb_blks
          ino_bitmap_offset := super_d.ino_bitmap_offset
          ino_bitmap_blks := super_d.ino_bitmap_blks
          data_bitmap_offset := super_d.data_bitmap_offset
          data_bitmap_blks := super_d.data_bitmap_blks
          inode_offset := super_d.inode_offset, inode_blks := super_d.inode_blks
          data_offset := super_d.data_offset, data_blks := super_d.data_blks
          max_ino := super_d.max_ino, file_max := super_d.file_max
          root_ino := super_d.root_ino
          map_inode := List.replicate NFS_BLKS_SZ 0
          map_data := List.replicate NFS_BLKS_SZ 0 }
      if is_init then
        match newfs_alloc_inode s1 (newfs_alloc_dentry [47] NFS_DIR) with
        | none => none
        | some (root_dentry, s2) =>
          let map_inode := s2.map_inode.set 0 (s2.map_inode.getD 0 0 ||| 1)
          let d3 := (newfs_write_block s2.dev 0
            (buf_of super_d.bytes NFS_BLKS_SZ)).2
          let d4 := (newfs_write_block d3 s2.ino_bitmap_offset map_inode).2
          let d5 := (newfs_write_block d4 s2.data_bitmap_offset s2.map_data).2
          match root_dentry with
          | newfs_dentry.mk _ _ none _ => none
          | newfs_dentry.mk name ino (some inode) ftype =>
            match newfs_sync_inode { s2 with dev := d5, map_inode := map_inode } inode with
            | none => none
            | some (_, inode1, s3) =>
              some { s3 with
                     root_dentry := some (newfs_dentry.mk name ino (some inode1) ftype)
                     is_mounted := true }
      else
        let r2 := newfs_read_block s1.dev s1.ino_bitmap_offset s1.map_inode
        let r3 := newfs_read_block r2.2.2 s1.data_bitmap_offset s1.map_data
        let s2 : newfs_super := { s1 with dev := r3.2.2, map_inode := r2.2.1, map_data := r3.2.1 }
        match newfs_read_inode s2 s2.root_ino with
        | none => none
        | some (inode, s3) =>
          match newfs_alloc_dentry [47] NFS_DIR with
          | newfs_dentry.mk name ino _ ftype =>
            some { s3 with
                   root_dentry := some (newfs_dentry.mk name ino inode ftype)
                   is_mounted := true }
/-! ## Sequences of create operations -/

/-- A call of `newfs_mkdir` or of `newfs_mknod`. -/
inductive create_call where
  | mkdir (path : List Nat)
  | mknod (path : List Nat) (mode : Nat)

/-- The path argument of a call. -/
def create_call.path : create_call → List Nat
  | create_call.mkdir path => path
  | create_call.mknod path _ => path

/-- The call carried out in state `s`. -/
def newfs_create (s : newfs_super) : create_call → Option (Int × newfs_super)
  | create_call.mkdir path => newfs_mkdir s path
  | create_call.mknod path mode => newfs_mknod s path mode

/-- The calls carried out one after the other: their results and the state
after the last one. -/
def run_creates : newfs_super → List create_call → Option (List Int × newfs_super)
  | s, [] => some ([], s)
  | s, c :: cs =>
    match newfs_create s c with
    | none => none
    | some (r, s1) =>
      match run_creates s1 cs with
      | none => none
      | some (rs, s2) => some (r :: rs, s2)

/-- The inode held by the root dentry. -/
def root_inode (s : newfs_super) : Option newfs_inode :=
  s.root_dentry.bind newfs_dentry.inode

/-- The type `newfs_mknod` gives the new dentry. -/
def mknod_ftype (mode : Nat) : Nat :=
  if S_ISREG mode then NFS_REG_FILE else if S_ISDIR mode then NFS_DIR else NFS_REG_FILE

/-- Name, inode number and type of a dentry. -/
def dentry_key (d : newfs_dentry) : List Nat × Nat × Nat := (d.name, d.ino, d.ftype)

/-- `i1` is the inode `i` as far as the namespace goes: same number, size,
type and child count, and the same children (names, numbers, types) in the same
order. -/
def same_children (i i1 : newfs_inode) : Prop :=
  i1.ino = i.ino ∧ i1.size = i.size ∧ i1.ftype = i.ftype ∧ i1.dir_cnt = i.dir_cnt ∧
    i1.dentrys.map dentry_key = i.dentrys.map dentry_key

/-- Every dentry of the tree under `root` is at the same place under `root1`
with the same name, number and type, and every inode held in memory under
`root` is still held under `root1` with the same children.  (`root1` may hold
inodes that were still on disk only under `root`.) -/
def tree_preserved (root root1 : newfs_dentry) : Prop :=
  ∀ p d, dentry_at root p = some d →
    ∃ d1, dentry_at root1 p = some d1 ∧ dentry_key d1 = dentry_key d ∧
      ∀ i, d.inode = some i → ∃ i1, d1.inode = some i1 ∧ same_children i i1

/-- Every dentry of the tree holds its inode in memory. -/
def hydrated (root : newfs_dentry) : Prop :=
  ∀ p d, dentry_at root p = some d → d.inode ≠ none

/-- No inode held in the tree lists two children of the same name. -/
def unique_names (root : newfs_dentry) : Prop :=
  ∀ p d, dentry_at root p = some d →
    ∀ i, d.inode = some i → (i.dentrys.map newfs_dentry.name).Nodup

/-- `s1` is `s` but for the cursor of the device and for inodes read into the
tree: every other field is as in `s`, the device holds the same bytes, and the
tree of `s` is preserved in `s1`. -/
def lookup_frame (s s1 : newfs_super) : Prop :=
  (∃ dev rd, s1 = { s with dev := dev, root_dentry := rd } ∧
    dev.data = s.dev.data ∧ dev.size = s.dev.size) ∧
  ∀ root, s.root_dentry = some root →
    ∃ root1, s1.root_dentry = some root1 ∧ tree_preserved root root1

/-- A volume whose namespace is an empty root directory held in memory, with a
bitmap block for the inode numbers. -/
def fresh (s : newfs_super) : Prop :=
  s.map_inode.length = 1024 ∧
  ∃ name ino a b c t tp bp ft,
    s.root_dentry = some (newfs_dentry.mk name ino (some (newfs_inode.mk a b c t tp [] bp)) ft)

/-- What the dispatcher guarantees of a create call it passes on, in state `s`:
the path is `/s1/.../sn` with non-empty segments free of `'/'`, the new name
`sn` is a C string shorter than `MAX_NAME_LEN`, and the parent path
`/s1/.../s(n-1)` resolves (each segment names a child of the directory reached
so far).  Besides, an inode number is free. -/
def create_pre (s : newfs_super) (c : create_call) : Prop :=
  (∃ i : Nat, (i : Int) < s.max_ino ∧ i < 8192 ∧ bitmap_bit s.map_inode i = false) ∧
  ∃ (pre : List (List Nat)) (seg : List Nat) (s1 : newfs_super) (q : dptr),
    c.path = path_of (pre ++ [seg]) ∧ (∀ x ∈ pre ++ [seg], is_segment x) ∧
    seg.length < MAX_NAME_LEN ∧ 0 ∉ seg ∧ walks s [] pre s1 q

/-- `created_from s0 s`: `s` is reached from `s0` by create calls, each
satisfying `create_pre` in the state it is made in. -/
inductive created_from (s0 : newfs_super) : newfs_super → Prop
  | init : created_from s0 s0
  | call (s s1 : newfs_super) (c : create_call) (r : Int) :
      created_from s0 s → create_pre s c → newfs_create s c = some (r, s1) →
      created_from s0 s1

/-- Mount the device `d`, then carry out the calls `cs`: the results of the
calls and the state at the end. -/
def run_on (d : ddriver) (cs : List create_call) : Option (List Int × newfs_super) :=
  (newfs_init d).bind fun s0 => run_creates s0 cs

/-- The calls `mkdir /a`, `mkdir /b`, ..., `mkdir /h`. -/
def eight_mkdirs : List create_call :=
  [create_call.mkdir (ascii "/a"), create_call.mkdir (ascii "/b"), create_call.mkdir (ascii "/c"),
   create_call.mkdir (ascii "/d"), create_call.mkdir (ascii "/e"), create_call.mkdir (ascii "/f"),
   create_call.mkdir (ascii "/g"), create_call.mkdir (ascii "/h")]

/-- The invariant of the create operations: the inode bitmap is a block, the
whole tree is held in memory, and no inode lists two children of the same
name. -/
def create_inv (s : newfs_super) : Prop :=
  s.map_inode.length = 1024 ∧
  ∃ root, s.root_dentry = some root ∧ hydrated root ∧ unique_names root
/-! ## File contents -/

/-- `int newfs_write(const char *path, const char *buf, size_t size, off_t offset,
struct fuse_file_info *fi)`: the body is `return size;` (the `size_t` converted to
the `int` result). -/
def newfs_write (s : newfs_super) (_path _buf : List Nat) (size : Nat) (_offset : Int) :
    Int × newfs_super :=
  (toI32 size, s)

/-- `int newfs_read(const char *path, char *buf, size_t size, off_t offset,
struct fuse_file_info *fi)`: the body is `return size;`.  The second component
is `buf` as the call leaves it. -/
def newfs_read (s : newfs_super) (_path buf : List Nat) (size : Nat) (_offset : Int) :
    Int × List Nat × newfs_super :=
  (toI32 size, buf, s)

/-! ## A volume without a free data block -/

/-- The inode of a directory `/a` that holds one child `b` and has no data
block yet. -/
def example_dir_a : newfs_inode :=
  newfs_inode.mk 1 0 1 NFS_DIR (List.replicate 128 0)
    [newfs_dentry.mk [98] 2
        (some (newfs_inode.mk 2 0 0 NFS_DIR (List.replicate 128 0) [] (List.replicate 6 0)))
        NFS_DIR]
    (List.replicate 6 0)

/-- The root inode holding `/a`, with block 4 as its first data block. -/
def example_root_full : newfs_inode :=
  newfs_inode.mk 0 0 1 NFS_DIR (List.replicate 128 0)
    [newfs_dentry.mk [97] 1 (some example_dir_a) NFS_DIR]
    [4, 0, 0, 0, 0, 0]

/-- A volume on a device of 16 KiB (the layout `newfs_init` computes for it:
3 inodes, inode table at block 3, data region of 12 blocks at block 4) whose
data bitmap has all its 12 bits set, with the tree `/a/b` in memory; `/a` still
lacks its first data block. -/
def example_super_full : newfs_super :=
  { dev := zero_device 16384
    sz_io := 512, sz_disk := 16384, sz_usage := 0, sz_blks := 1024, blks_num := 16
    sb_offset := 0, sb_blks := 1
    map_inode := 7 :: List.replicate 1023 0
    ino_bitmap_offset := 1, ino_bitmap_blks := 1
    map_data := 255 :: 15 :: List.replicate 1022 0
    data_bitmap_offset := 2, data_bitmap_blks := 1
    inode_blks := 1, inode_offset := 3, data_offset := 4, data_blks := 12
    max_ino := 3, file_max := 6144
    is_mounted := true
    root_ino := 0
    root_dentry := some (newfs_dentry.mk [47] 0 (some example_root_full) NFS_DIR) }
/-! ## Path walk in a tree held in memory -/

/-- `tree_walk root cursor segs p`: in the tree under `root`, starting at the
dentry `cursor`, each segment names a child of the node reached so far, every
node that is left holds its inode and is a directory; `p` is the dentry
reached. -/
def tree_walk (root : newfs_dentry) : dptr → List (List Nat) → dptr → Prop
  | cursor, [], p => p = cursor
  | cursor, seg :: rest, p =>
    ∃ d inode k, dentry_at root cursor = some d ∧ d.inode = some inode ∧
      inode.ftype = NFS_DIR ∧ first_named seg inode.dentrys k ∧
      tree_walk root (cursor ++ [k]) rest p
/-! ## Subtrees with children that are not hydrated -/

mutual
/-- A subtree as the create operations and `newfs_read_inode` build it, parts
of which may still be on the device only: names are C strings of at most 127
bytes, `dir_cnt` counts the children, only directories have children, at most
`max_children` per directory, the inode numbers of the inodes held in memory
are below `max_ino`, the fixed-size fields have their sizes.  A child dentry
may hold its inode or not. -/
def tree_wf (max_ino max_children : Nat) : newfs_inode → Prop
  | newfs_inode.mk ino size dir_cnt ftype target_path dentrys block_pointer =>
    ino < max_ino ∧ size < 4294967296 ∧ ftype < 4294967296 ∧
    target_path.length = MAX_NAME_LEN ∧ block_pointer.length = NFS_DATA_PER_FILE ∧
    (∀ b ∈ block_pointer, b < 4294967296) ∧
    dir_cnt = dentrys.length ∧ dentrys.length ≤ max_children ∧
    (ftype ≠ NFS_DIR → dentrys = []) ∧
    dentrys_wf max_ino max_children dentrys
/-- `tree_wf` along a child chain. -/
def dentrys_wf (max_ino max_children : Nat) : List newfs_dentry → Prop
  | [] => True
  | newfs_dentry.mk name ino none ftype :: brother =>
    0 ∉ name ∧ name.length < MAX_NAME_LEN ∧ ino < 4294967296 ∧ ftype < 4294967296 ∧
    dentrys_wf max_ino max_children brother
  | newfs_dentry.mk name ino (some i) ftype :: brother =>
    0 ∉ name ∧ name.length < MAX_NAME_LEN ∧ ino < 4294967296 ∧ ftype < 4294967296 ∧
    tree_wf max_ino max_children i ∧ dentrys_wf max_ino max_children brother
end

/-- Persisting the subtree `t`, parts of which may not be hydrated, from a
state in which it is well-formed: the call succeeds, changes block pointers
only, and leaves the image of the subtree on the device, touching nothing but
the records of its inodes and its blocks. -/
def sync_inode_wf_ok (mx : Nat) (t : newfs_inode) : Prop :=
  ∀ s : newfs_super, layout_ok s → s.max_ino = (mx : Int) → tree_wf mx 7 t →
    (inos_of t).Nodup → (blocks_of t).Nodup → (∀ b ∈ blocks_of t, block_used s b) →
    blocks_needed t ≤ free_blocks s →
    ∃ t1 s1, newfs_sync_inode s t = some (NFS_ERROR_NONE, t1, s1) ∧
      forget_blocks t1 = forget_blocks t ∧ tree_wf mx 7 t1 ∧
      sync_post s (blocks_of t) (blocks_needed t) s1 (blocks_of t1) ∧
      (∀ a, ¬ touches s.inode_offset (inos_of t) (blocks_of t1) a →
        s1.dev.data a = s.dev.data a) ∧
      inode_on_disk s.inode_offset s.dev.size s1.dev.data t1

/-- The same for the loop over a child chain whose records go to block `pb`
from record position `k` on. -/
def sync_dentrys_wf_ok (mx : Nat) (ds : List newfs_dentry) : Prop :=
  ∀ (s : newfs_super) (pb k : Nat), layout_ok s → s.max_ino = (mx : Int) → 0 < mx →
    dentrys_wf mx 7 ds → (inos_of_dentrys ds).Nodup → (blocks_of_dentrys ds).Nodup →
    (∀ b ∈ blocks_of_dentrys ds, block_used s b) → block_used s pb →
    pb ∉ blocks_of_dentrys ds → k + ds.length ≤ 7 →
    blocks_needed_dentrys ds ≤ free_blocks s →
    ∃ ds1 s1,
      newfs_sync_dentrys s ds ((pb * 1024 + k * 136 : Nat) : Int)
        = some (NFS_ERROR_NONE, ds1, s1) ∧
      forget_blocks_dentrys ds1 = forget_blocks_dentrys ds ∧ dentrys_wf mx 7 ds1 ∧
      sync_post s (blocks_of_dentrys ds) (blocks_needed_dentrys ds) s1 (blocks_of_dentrys ds1) ∧
      (∀ a, ¬ touches s.inode_offset (inos_of_dentrys ds) (blocks_of_dentrys ds1) a →
        ¬ (pb * 1024 + k * 136 ≤ a ∧ a < pb * 1024 + (k + ds.length) * 136) →
        s1.dev.data a = s.dev.data a) ∧
      dentrys_on_disk s.inode_offset s.dev.size s1.dev.data (pb * 1024 + k * 136) ds1
/-! ## Further states used in examples -/

/-- The state `example_super` with the first two data blocks, 165 and 166,
marked in the data bitmap. -/
def example_super_two_used : newfs_super :=
  { example_super with map_data := 3 :: List.replicate 1023 0 }

/-- The state `example_super` after `mkdir /a`: the root holds `a` (inode 1). -/
def example_super_a : newfs_super :=
  { example_super with
    map_inode := 3 :: List.replicate 1023 0
    root_dentry :=
      some (newfs_dentry.mk [47] 0
        (some (newfs_inode.mk 0 0 1 NFS_DIR (List.replicate 128 0)
          [newfs_dentry.mk [97] 1
            (some (newfs_inode.mk 1 0 0 NFS_DIR (List.replicate 128 0) []
              (List.replicate 6 0))) NFS_DIR]
          (List.replicate 6 0)))
        NFS_DIR) }

/-- The state reached on a zeroed 16 KiB device (3 inode numbers) by the mount,
`mkdir /a`, `mkdir /b`, `mkdir /c` and a `newfs_lookup` of `/c`. -/
def example_volume_abc : Option newfs_super :=
  (run_on (zero_device 16384)
      [create_call.mkdir (ascii "/a"), create_call.mkdir (ascii "/b"),
        create_call.mkdir (ascii "/c")]).bind fun r =>
    (newfs_lookup r.2 (ascii "/c")).map fun l => l.2

/-! # Proofs

## Bitmap allocator -/

theorem and_one_shiftLeft_eq_zero (b k : Nat) : (b &&& (1 <<< k) = 0) ↔ b.testBit k = false := by
  rw [Nat.one_shiftLeft]
  constructor
  · intro h
    have := congrArg (fun x => Nat.testBit x k) h
    simpa [Nat.testBit_two_pow_self] using this
  · intro h
    apply Nat.eq_of_testBit_eq
    intro i
    simp only [Nat.testBit_and, Nat.zero_testBit, Nat.testBit_two_pow]
    by_cases hik : k = i
    · subst hik; simp [h]
    · simp [hik]

theorem testBit_set_byte (b k i : Nat) (hi : i < 8) :
    ((b ||| (1 <<< k)) % 256).testBit i = (decide (i = k) || b.testBit i) := by
  have : (256 : Nat) = 2 ^ 8 := by norm_num
  rw [this, Nat.testBit_mod_two_pow, Nat.one_shiftLeft, Nat.testBit_or, Nat.testBit_two_pow]
  by_cases h : k = i
  · subst h; simp [hi]
  · have h' : ¬ i = k := fun e => h e.symm
    simp [h, h', hi]

theorem testBit_clear_byte (b k i : Nat) (hk : k < 8) (hi : i < 8) :
    ((b &&& (4294967295 - (1 <<< k))) % 256).testBit i = (!decide (i = k) && b.testBit i) := by
  have h256 : (256 : Nat) = 2 ^ 8 := by norm_num
  have hlt : 2 ^ k < 2 ^ 32 := Nat.pow_lt_pow_right (by norm_num) (by omega)
  have h1 : 4294967295 - (1 <<< k) = 2 ^ 32 - (2 ^ k + 1) := by
    rw [Nat.one_shiftLeft]; norm_num; omega
  rw [h256, Nat.testBit_mod_two_pow, h1, Nat.testBit_and, Nat.testBit_two_pow_sub_succ hlt,
    Nat.testBit_two_pow]
  have hi32 : i < 32 := by omega
  by_cases h : k = i
  · subst h; simp [hi]
  · have h' : ¬ i = k := fun e => h e.symm
    simp [h, h', hi, hi32]


theorem bitmap_bit_eq (map : List Nat) (b c x : Nat) (hc : c < 8) (hx : map[b]? = some x) :
    bitmap_bit map (8 * b + c) = x.testBit c := by
  unfold bitmap_bit
  have h1 : (8 * b + c) / 8 = b := by omega
  have h2 : (8 * b + c) % 8 = c := by omega
  rw [h1, h2, List.getD_eq_getElem?_getD, hx]; rfl

theorem bitmap_bit_set_or (map : List Nat) (b c x j : Nat) (hc : c < 8) (hx : map[b]? = some x) :
    bitmap_bit (map.set b ((x ||| (1 <<< c)) % 256)) j
      = (decide (j = 8 * b + c) || bitmap_bit map j) := by
  have hb : b < map.length := by
    rcases List.getElem?_eq_some_iff.1 hx with ⟨h, _⟩; exact h
  unfold bitmap_bit
  rw [List.getD_eq_getElem?_getD, List.getD_eq_getElem?_getD]
  by_cases hj : j / 8 = b
  · subst hj
    rw [List.getElem?_set_self hb, hx]
    simp only [Option.getD_some]
    rw [testBit_set_byte _ _ _ (Nat.mod_lt _ (by norm_num))]
    congr 1
    apply decide_eq_decide.2
    omega
  · rw [List.getElem?_set_ne (fun e => hj e.symm)]
    have : ¬ j = 8 * b + c := by omega
    simp [this]

theorem bitmap_bit_set_clear (map : List Nat) (b c x j : Nat) (hc : c < 8)
    (hx : map[b]? = some x) :
    bitmap_bit (map.set b ((x &&& (4294967295 - (1 <<< c))) % 256)) j
      = (!decide (j = 8 * b + c) && bitmap_bit map j) := by
  have hb : b < map.length := by
    rcases List.getElem?_eq_some_iff.1 hx with ⟨h, _⟩; exact h
  unfold bitmap_bit
  rw [List.getD_eq_getElem?_getD, List.getD_eq_getElem?_getD]
  by_cases hj : j / 8 = b
  · subst hj
    rw [List.getElem?_set_self hb, hx]
    simp only [Option.getD_some]
    rw [testBit_clear_byte _ _ _ hc (Nat.mod_lt _ (by norm_num))]
    congr 2
    apply decide_eq_decide.2
    omega
  · rw [List.getElem?_set_ne (fun e => hj e.symm)]
    have : ¬ j = 8 * b + c := by omega
    simp [this]

theorem alloc_bits_spec (limit off : Int) (map : List Nat) (b : Nat) (hb : b < map.length)
    (hb' : b < 1024)
    (hoff : ∀ i : Nat, i < 8192 → (i : Int) < limit → is_int (off + (i : Int))) :
    ∀ n c, c + n = 8 → (∀ j, j < 8 * b + c → bitmap_bit map j = true) →
    match newfs_alloc_data_block_bits limit off map b n c with
    | scan.oob => False
    | scan.next => ∀ j, j < 8 * b + 8 → bitmap_bit map j = true
    | scan.ret v m => AllocPost limit off map v m := by
  intro n
  induction n with
  | zero =>
    intro c hc hpre
    have : c = 8 := by omega
    subst this
    simpa [newfs_alloc_data_block_bits] using hpre
  | succ n ih =>
    intro c hc hpre
    have hc8 : c < 8 := by omega
    obtain ⟨x, hx⟩ : ∃ x, map[b]? = some x := ⟨map[b], List.getElem?_eq_getElem hb⟩
    unfold newfs_alloc_data_block_bits
    simp only [hx]
    split_ifs with h1 h2 h3
    · left
      refine ⟨rfl, rfl, ?_⟩
      intro j hj _
      apply hpre
      have : (j : Int) < (b : Int) * 8 + (c : Int) := lt_of_lt_of_le hj h1
      omega
    · right
      refine ⟨8 * b + c, ?_, ?_, ?_, ?_, hpre, ?_, ?_, ?_⟩
      · push_cast; ring
      · push_cast; push_neg at h1; linarith
      · omega
      · rw [bitmap_bit_eq map b c x hc8 hx]; exact (and_one_shiftLeft_eq_zero x c).1 h2
      · simp
      · intro j; exact bitmap_bit_set_or map b c x j hc8 hx
      · intro k hk
        have : (8 * b + c) / 8 = b := by omega
        rw [this] at hk
        exact List.getElem?_set_ne (fun e => hk e.symm)
    · apply h3
      have h := hoff (8 * b + c) (by omega) (by push_cast; push_neg at h1; linarith)
      have e : off + ((b : Int) * 8 + (c : Int)) = off + ((8 * b + c : Nat) : Int) := by
        push_cast; ring
      rw [e]
      exact h
    · have hset : x.testBit c = true := by
        by_contra hne
        exact h2 ((and_one_shiftLeft_eq_zero x c).2 (by simpa using hne))
      apply ih (c + 1) (by omega)
      intro j hj
      by_cases hjc : j = 8 * b + c
      · rw [hjc, bitmap_bit_eq map b c x hc8 hx]; exact hset
      · exact hpre j (by omega)

theorem alloc_bytes_spec (limit off : Int) (map : List Nat) (hlen : map.length = 1024)
    (hoff : ∀ i : Nat, i < 8192 → (i : Int) < limit → is_int (off + (i : Int))) :
    ∀ n b, b + n = 1024 → (∀ j, j < 8 * b → bitmap_bit map j = true) →
    match newfs_alloc_data_block_bytes limit off map n b with
    | scan.oob => False
    | scan.next => ∀ j, j < 8192 → bitmap_bit map j = true
    | scan.ret v m => AllocPost limit off map v m := by
  intro n
  induction n with
  | zero =>
    intro b hb hpre
    have : b = 1024 := by omega
    subst this
    simpa [newfs_alloc_data_block_bytes] using hpre
  | succ n ih =>
    intro b hb hpre
    have h := alloc_bits_spec limit off map b (by omega) (by omega) hoff 8 0 (by omega)
      (by simpa using hpre)
    unfold newfs_alloc_data_block_bytes
    cases hr : newfs_alloc_data_block_bits limit off map b 8 0 with
    | oob => simp [hr] at h
    | next =>
      simp only [hr] at h ⊢
      apply ih (b + 1) (by omega)
      intro j hj; exact h j (by omega)
    | ret v m =>
      simp only [hr] at h ⊢
      exact h

theorem alloc_ino_bits_eq (limit : Int) (map : List Nat) (b : Nat) (hb : b < 1024) :
    ∀ n c, c + n = 8 →
    newfs_alloc_ino_bits limit map b n c = newfs_alloc_data_block_bits limit 0 map b n c := by
  intro n
  induction n with
  | zero => intro c _; rfl
  | succ n ih =>
    intro c hc
    have hi : is_int ((b : Int) * 8 + (c : Int)) := by
      unfold is_int; omega
    unfold newfs_alloc_ino_bits newfs_alloc_data_block_bits
    simp only [ih (c + 1) (by omega), zero_add, hi, if_true]

theorem alloc_ino_bytes_eq (limit : Int) (map : List Nat) : ∀ n b, b + n = 1024 →
    newfs_alloc_ino_bytes limit map n b = newfs_alloc_data_block_bytes limit 0 map n b := by
  intro n
  induction n with
  | zero => intro b _; rfl
  | succ n ih =>
    intro b hb
    unfold newfs_alloc_ino_bytes newfs_alloc_data_block_bytes
    simp only [ih (b + 1) (by omega), alloc_ino_bits_eq limit map b (by omega) 8 0 (by omega)]


theorem alloc_data_block_post (s : newfs_super) (hlen : s.map_data.length = 1024)
    (hoff : ∀ i : Nat, i < 8192 → (i : Int) < s.data_blks →
      is_int (s.data_offset + (i : Int))) :
    ∃ v m, newfs_alloc_data_block s = some (v, { s with map_data := m }) ∧
      AllocPost s.data_blks s.data_offset s.map_data v m := by
  have h := alloc_bytes_spec s.data_blks s.data_offset s.map_data hlen hoff 1024 0
    (by norm_num) (by intro j hj; omega)
  unfold newfs_alloc_data_block
  simp only [NFS_BLKS_SZ]
  cases hr : newfs_alloc_data_block_bytes s.data_blks s.data_offset s.map_data 1024 0 with
  | oob => simp [hr] at h
  | next =>
    simp only [hr] at h
    exact ⟨-1, s.map_data, rfl, Or.inl ⟨rfl, rfl, fun j _ hj => h j hj⟩⟩
  | ret v m =>
    simp only [hr] at h
    exact ⟨v, m, rfl, h⟩

theorem alloc_ino_post (s : newfs_super) (hlen : s.map_inode.length = 1024) :
    ∃ v m, newfs_alloc_ino s = some (v, { s with map_inode := m }) ∧
      AllocPost s.max_ino 0 s.map_inode v m := by
  have h := alloc_bytes_spec s.max_ino 0 s.map_inode hlen
    (by intro i hi _; unfold is_int; omega) 1024 0 (by norm_num) (by intro j hj; omega)
  unfold newfs_alloc_ino
  simp only [NFS_BLKS_SZ, alloc_ino_bytes_eq s.max_ino s.map_inode 1024 0 (by norm_num)]
  cases hr : newfs_alloc_data_block_bytes s.max_ino 0 s.map_inode 1024 0 with
  | oob => simp [hr] at h
  | next =>
    simp only [hr] at h
    exact ⟨-1, s.map_inode, rfl, Or.inl ⟨rfl, rfl, fun j _ hj => h j hj⟩⟩
  | ret v m =>
    simp only [hr] at h
    exact ⟨v, m, rfl, h⟩

theorem AllocPost.length_eq {limit off : Int} {map : List Nat} {v : Int} {m : List Nat}
    (h : AllocPost limit off map v m) : m.length = map.length := by
  rcases h with h | ⟨i, _, _, _, _, _, hl, _⟩
  · rw [h.2.1]
  · exact hl

theorem AllocPost.keeps_used {limit off : Int} {map : List Nat} {v : Int} {m : List Nat}
    (h : AllocPost limit off map v m) {o : Int} {w : Int} (hu : blk_used o map w) :
    blk_used o m w := by
  obtain ⟨k, hk, hkb⟩ := hu
  rcases h with h | ⟨i, _, _, _, _, _, _, hb, _⟩
  · rw [h.2.1]; exact ⟨k, hk, hkb⟩
  · exact ⟨k, hk, by rw [hb k, hkb]; simp⟩

theorem AllocPost.not_used {limit off : Int} {map : List Nat} {v : Int} {m : List Nat}
    (h : AllocPost limit off map v m) (hv : v ≠ -1) : ¬ blk_used off map v := by
  rintro ⟨k, hk, hkb⟩
  rcases h with h | ⟨i, hvi, _, _, hc, _, _, _, _⟩
  · exact hv h.1
  · have : k = i := by rw [hk] at hvi; omega
    subst this
    rw [hkb] at hc; cases hc

theorem AllocPost.now_used {limit off : Int} {map : List Nat} {v : Int} {m : List Nat}
    (h : AllocPost limit off map v m) (hv : v ≠ -1) : blk_used off m v := by
  rcases h with h | ⟨i, hvi, _, _, _, _, _, hb, _⟩
  · exact absurd h.1 hv
  · exact ⟨i, hvi, by rw [hb i]; simp⟩

theorem free_keeps_used (s s1 : newfs_super) (b v : Int)
    (h : newfs_free_data_block s b = some s1) (hne : b ≠ v)
    (hu : blk_used s.data_offset s.map_data v) :
    s1.data_offset = s.data_offset ∧ s1.map_data.length = s.map_data.length ∧
      blk_used s1.data_offset s1.map_data v := by
  unfold newfs_free_data_block at h
  split_ifs at h with hr0 hr1 hr2
  · cases h; exact ⟨rfl, rfl, hu⟩
  · cases h; exact ⟨rfl, rfl, hu⟩
  · have hr : s.data_offset ≤ b ∧ b < s.data_offset + s.data_blks := by omega
    obtain ⟨i, hi⟩ : ∃ i : Nat, b - s.data_offset = (i : Int) :=
      ⟨(b - s.data_offset).toNat, (Int.toNat_of_nonneg (by omega)).symm⟩
    have hbyte : ((b - s.data_offset) / 8).toNat = i / 8 := by rw [hi]; omega
    have hbit : ((b - s.data_offset) % 8).toNat = i % 8 := by rw [hi]; omega
    simp only [hbyte, hbit] at h
    cases hx : s.map_data[i / 8]? with
    | none => simp [hx] at h
    | some x =>
      simp only [hx, Option.some.injEq] at h
      subst h
      refine ⟨rfl, by simp, ?_⟩
      obtain ⟨k, hk, hkb⟩ := hu
      refine ⟨k, hk, ?_⟩
      simp only
      rw [bitmap_bit_set_clear s.map_data (i / 8) (i % 8) x k (Nat.mod_lt _ (by norm_num)) hx, hkb]
      have : ¬ k = 8 * (i / 8) + i % 8 := by
        intro e
        apply hne
        have : k = i := by omega
        rw [hk, this]; omega
      simp [this]

theorem free_keeps_fields (s s1 : newfs_super) (b : Int)
    (h : newfs_free_data_block s b = some s1) :
    s1.data_offset = s.data_offset ∧ s1.map_data.length = s.map_data.length ∧
      s1.data_blks = s.data_blks := by
  unfold newfs_free_data_block at h
  split_ifs at h with hr0 hr1 hr2
  · cases h; exact ⟨rfl, rfl, rfl⟩
  · cases h; exact ⟨rfl, rfl, rfl⟩
  · cases hx : s.map_data[((b - s.data_offset) / 8).toNat]? with
    | none => simp [hx] at h
    | some x =>
      simp only [hx, Option.some.injEq] at h
      subst h
      exact ⟨rfl, by simp, rfl⟩

/-- A block whose bit is set is handed out again only after a `free` of it. -/
theorem used_not_handed (calls : List data_call) : ∀ (s s2 : newfs_super) (evs : List alloc_event)
    (v : Int) (q : Nat), s.map_data.length = 1024 →
    (∀ i : Nat, i < 8192 → (i : Int) < s.data_blks → is_int (s.data_offset + (i : Int))) →
    run_data_calls s calls = some (evs, s2) → blk_used s.data_offset s.map_data v →
    evs[q]? = some (alloc_event.handed v) →
    ∃ r, r < q ∧ evs[r]? = some (alloc_event.freed v) := by
  induction calls with
  | nil =>
    intro s s2 evs v q _ _ hrun _ hq
    simp [run_data_calls] at hrun
    rw [hrun.1] at hq
    simp at hq
  | cons c rest ih =>
    intro s s2 evs v q hlen hoff hrun hu hq
    cases c with
    | alloc =>
      obtain ⟨w, m, hw, hpost⟩ := alloc_data_block_post s hlen hoff
      simp only [run_data_calls, hw] at hrun
      cases hrest : run_data_calls { s with map_data := m } rest with
      | none => simp [hrest] at hrun
      | some pr =>
        obtain ⟨evs1, s3⟩ := pr
        simp only [hrest, Option.some.injEq, Prod.mk.injEq] at hrun
        obtain ⟨hevs, _⟩ := hrun
        subst hevs
        have hlen' : m.length = 1024 := by
          rcases hpost with h | ⟨i, _, _, _, _, _, hl, _⟩
          · rw [h.2.1]; exact hlen
          · rw [hl]; exact hlen
        have hu' : blk_used s.data_offset m v := by
          obtain ⟨k, hk, hkb⟩ := hu
          rcases hpost with h | ⟨i, _, _, _, _, _, _, hb, _⟩
          · rw [h.2.1]; exact ⟨k, hk, hkb⟩
          · exact ⟨k, hk, by rw [hb k, hkb]; simp⟩
        cases q with
        | zero =>
          exfalso
          simp only [List.getElem?_cons_zero, Option.some.injEq] at hq
          split_ifs at hq with hw1
          cases hq
          obtain ⟨k, hk, hkb⟩ := hu
          rcases hpost with h | ⟨i, hv, _, _, hc, _, _, _, _⟩
          · exact hw1 h.1
          · have : k = i := by rw [hk] at hv; omega
            subst this
            rw [hkb] at hc; cases hc
        | succ q =>
          simp only [List.getElem?_cons_succ] at hq
          obtain ⟨r, hr, hfr⟩ := ih { s with map_data := m } s3 evs1 v q hlen' hoff hrest hu' hq
          exact ⟨r + 1, by omega, by simpa using hfr⟩
    | free b =>
      simp only [run_data_calls] at hrun
      cases hf : newfs_free_data_block s b with
      | none => simp [hf] at hrun
      | some s1 =>
        simp only [hf] at hrun
        cases hrest : run_data_calls s1 rest with
        | none => simp [hrest] at hrun
        | some pr =>
          obtain ⟨evs1, s3⟩ := pr
          simp only [hrest, Option.some.injEq, Prod.mk.injEq] at hrun
          obtain ⟨hevs, _⟩ := hrun
          subst hevs
          cases q with
          | zero => simp at hq
          | succ q =>
            by_cases hbv : b = v
            · subst hbv
              exact ⟨0, by omega, by simp⟩
            · obtain ⟨ho, hl, hu'⟩ := free_keeps_used s s1 b v hf hbv hu
              obtain ⟨_, _, hdb⟩ := free_keeps_fields s s1 b hf
              simp only [List.getElem?_cons_succ] at hq
              obtain ⟨r, hr, hfr⟩ := ih s1 s3 evs1 v q (by rw [hl, hlen])
                (by rw [ho, hdb]; exact hoff) hrest hu' hq
              exact ⟨r + 1, by omega, by simpa using hfr⟩

theorem run_data_calls_exclusive (calls : List data_call) : ∀ (s s2 : newfs_super)
    (evs : List alloc_event), s.map_data.length = 1024 →
    (∀ i : Nat, i < 8192 → (i : Int) < s.data_blks → is_int (s.data_offset + (i : Int))) →
    run_data_calls s calls = some (evs, s2) → exclusive evs := by
  induction calls with
  | nil =>
    intro s s2 evs _ _ hrun
    unfold exclusive
    intro p q v _ hp _
    simp [run_data_calls] at hrun
    rw [hrun.1] at hp
    simp at hp
  | cons c rest ih =>
    intro s s2 evs hlen hoff hrun
    unfold exclusive
    intro p q v hpq hp hq
    cases c with
    | alloc =>
      obtain ⟨w, m, hw, hpost⟩ := alloc_data_block_post s hlen hoff
      simp only [run_data_calls, hw] at hrun
      cases hrest : run_data_calls { s with map_data := m } rest with
      | none => simp [hrest] at hrun
      | some pr =>
        obtain ⟨evs1, s3⟩ := pr
        simp only [hrest, Option.some.injEq, Prod.mk.injEq] at hrun
        obtain ⟨hevs, _⟩ := hrun
        subst hevs
        have hlen' : m.length = 1024 := by
          rcases hpost with h | ⟨i, _, _, _, _, _, hl, _⟩
          · rw [h.2.1]; exact hlen
          · rw [hl]; exact hlen
        obtain ⟨q, rfl⟩ : ∃ q', q = q' + 1 := ⟨q - 1, by omega⟩
        simp only [List.getElem?_cons_succ] at hq
        cases p with
        | zero =>
          simp only [List.getElem?_cons_zero, Option.some.injEq] at hp
          split_ifs at hp with hw1
          cases hp
          have hu' : blk_used s.data_offset m v := by
            rcases hpost with h | ⟨i, hv, _, _, _, _, _, hb, _⟩
            · exact absurd h.1 hw1
            · exact ⟨i, hv, by rw [hb i]; simp⟩
          obtain ⟨r, hr, hfr⟩ := used_not_handed rest { s with map_data := m } s3 evs1 v q hlen'
            hoff hrest hu' hq
          exact ⟨r + 1, by omega, by omega, by simpa using hfr⟩
        | succ p =>
          simp only [List.getElem?_cons_succ] at hp
          obtain ⟨r, hr1, hr2, hfr⟩ := ih { s with map_data := m } s3 evs1 hlen' hoff hrest p q v
            (by omega) hp hq
          exact ⟨r + 1, by omega, by omega, by simpa using hfr⟩
    | free b =>
      simp only [run_data_calls] at hrun
      cases hf : newfs_free_data_block s b with
      | none => simp [hf] at hrun
      | some s1 =>
        simp only [hf] at hrun
        cases hrest : run_data_calls s1 rest with
        | none => simp [hrest] at hrun
        | some pr =>
          obtain ⟨evs1, s3⟩ := pr
          simp only [hrest, Option.some.injEq, Prod.mk.injEq] at hrun
          obtain ⟨hevs, _⟩ := hrun
          subst hevs
          obtain ⟨q, rfl⟩ : ∃ q', q = q' + 1 := ⟨q - 1, by omega⟩
          simp only [List.getElem?_cons_succ] at hq
          cases p with
          | zero => simp at hp
          | succ p =>
            simp only [List.getElem?_cons_succ] at hp
            obtain ⟨ho, hl, hdb⟩ := free_keeps_fields s s1 b hf
            obtain ⟨r, hr1, hr2, hfr⟩ := ih s1 s3 evs1 (by rw [hl, hlen])
              (by rw [ho, hdb]; exact hoff) hrest p q v (by omega) hp hq
            exact ⟨r + 1, by omega, by omega, by simpa using hfr⟩


theorem ino_used_not_handed : ∀ (n : Nat) (s s2 : newfs_super) (evs : List alloc_event)
    (v : Int) (q : Nat), s.map_inode.length = 1024 →
    run_ino_calls s n = some (evs, s2) → blk_used 0 s.map_inode v →
    evs[q]? ≠ some (alloc_event.handed v) := by
  intro n
  induction n with
  | zero =>
    intro s s2 evs v q _ hrun _ hq
    simp [run_ino_calls] at hrun
    rw [hrun.1] at hq
    simp at hq
  | succ n ih =>
    intro s s2 evs v q hlen hrun hu hq
    obtain ⟨w, m, hw, hpost⟩ := alloc_ino_post s hlen
    simp only [run_ino_calls, hw] at hrun
    cases hrest : run_ino_calls { s with map_inode := m } n with
    | none => simp [hrest] at hrun
    | some pr =>
      obtain ⟨evs1, s3⟩ := pr
      simp only [hrest, Option.some.injEq, Prod.mk.injEq] at hrun
      obtain ⟨hevs, _⟩ := hrun
      subst hevs
      cases q with
      | zero =>
        simp only [List.getElem?_cons_zero, Option.some.injEq] at hq
        split_ifs at hq with hw1
        cases hq
        exact hpost.not_used hw1 hu
      | succ q =>
        simp only [List.getElem?_cons_succ] at hq
        exact ih { s with map_inode := m } s3 evs1 v q (by rw [← hlen]; exact hpost.length_eq)
          hrest (hpost.keeps_used hu) hq

theorem run_ino_calls_exclusive : ∀ (n : Nat) (s : newfs_super),
    s.map_inode.length = 1024 →
    ∃ evs s2, run_ino_calls s n = some (evs, s2) ∧ exclusive evs := by
  intro n
  induction n with
  | zero =>
    intro s _
    refine ⟨[], s, rfl, ?_⟩
    intro p q v _ hp _
    simp at hp
  | succ n ih =>
    intro s hlen
    obtain ⟨w, m, hw, hpost⟩ := alloc_ino_post s hlen
    have hlen' : m.length = 1024 := by rw [← hlen]; exact hpost.length_eq
    obtain ⟨evs1, s3, hrest, hex⟩ := ih { s with map_inode := m } hlen'
    refine ⟨(if w = -1 then alloc_event.failed else alloc_event.handed w) :: evs1, s3,
      by simp only [run_ino_calls, hw, hrest], ?_⟩
    intro p q v hpq hp hq
    obtain ⟨q, rfl⟩ : ∃ q', q = q' + 1 := ⟨q - 1, by omega⟩
    simp only [List.getElem?_cons_succ] at hq
    cases p with
    | zero =>
      exfalso
      simp only [List.getElem?_cons_zero, Option.some.injEq] at hp
      split_ifs at hp with hw1
      cases hp
      exact ino_used_not_handed n { s with map_inode := m } s3 evs1 w q hlen' hrest
        (hpost.now_used hw1) hq
    | succ p =>
      simp only [List.getElem?_cons_succ] at hp
      obtain ⟨r, hr1, hr2, hfr⟩ := hex p q v (by omega) hp hq
      exact ⟨r + 1, by omega, by omega, by simpa using hfr⟩

theorem free_data_block_total (s : newfs_super) (hlen : s.map_data.length = 1024)
    (hblks : s.data_blks ≤ 8192) (hsum : is_int (s.data_offset + s.data_blks)) (b : Int) :
    ∃ s1, newfs_free_data_block s b = some s1 ∧ s1.map_data.length = 1024 ∧
      s1.data_blks = s.data_blks ∧ s1.data_offset = s.data_offset := by
  unfold newfs_free_data_block
  split_ifs with hr0 hr2
  · exact ⟨s, rfl, hlen, rfl, rfl⟩
  · exact ⟨s, rfl, hlen, rfl, rfl⟩
  · have hlt : ((b - s.data_offset) / 8).toNat < s.map_data.length := by omega
    simp only [List.getElem?_eq_getElem hlt]
    exact ⟨_, rfl, by simp [hlen], rfl, rfl⟩

theorem run_data_calls_total (calls : List data_call) : ∀ (s : newfs_super),
    s.map_data.length = 1024 → s.data_blks ≤ 8192 → is_int s.data_offset →
    is_int (s.data_offset + s.data_blks) → (run_data_calls s calls).isSome = true := by
  induction calls with
  | nil => intro s _ _ _ _; rfl
  | cons c rest ih =>
    intro s hlen hblks hoff hsum
    cases c with
    | alloc =>
      obtain ⟨w, m, hw, hpost⟩ := alloc_data_block_post s hlen (by
        intro i _ hi
        unfold is_int at hoff hsum ⊢
        omega)
      have h := ih { s with map_data := m } (by rw [← hlen]; exact hpost.length_eq) hblks hoff
        hsum
      simp only [run_data_calls, hw]
      cases hrest : run_data_calls { s with map_data := m } rest with
      | none => rw [hrest] at h; cases h
      | some pr => rfl
    | free b =>
      obtain ⟨s1, hf, hl, hb, ho⟩ := free_data_block_total s hlen hblks hsum b
      have h := ih s1 hl (by rw [hb]; exact hblks) (by rw [ho]; exact hoff)
        (by rw [ho, hb]; exact hsum)
      simp only [run_data_calls, hf]
      cases hrest : run_data_calls s1 rest with
      | none => rw [hrest] at h; cases h
      | some pr => rfl
/-! ## Machine integers and rounding -/

theorem toI32_toU32 (x : Int) (h1 : -2147483648 ≤ x) (h2 : x < 2147483648) :
    toI32 (toU32 x) = x := by
  unfold toI32 toU32
  split_ifs with h <;> omega

theorem toI32_of_lt (n : Nat) (h : n < 2147483648) : toI32 n = (n : Int) := by
  unfold toI32
  split_ifs with h1 <;> omega

theorem toU32_natCast (n : Nat) (h : n < 4294967296) : toU32 (n : Int) = n := by
  unfold toU32; omega

theorem toU32_toI32 (n : Nat) : toU32 (toI32 n) = n % 4294967296 := by
  unfold toI32 toU32
  split_ifs with h <;> omega

theorem toU32_lt (x : Int) : toU32 x < 4294967296 := by
  unfold toU32; omega

theorem toI32_range (n : Nat) : -2147483648 ≤ toI32 n ∧ toI32 n < 2147483648 := by
  unfold toI32
  split_ifs with h <;> omega

theorem and_mask_512 (u : Nat) (hu : u < 4294967296) : u &&& 4294966784 = u - u % 512 := by
  apply Nat.eq_of_testBit_eq
  intro i
  have h1 : (4294966784 : Nat) = 2 ^ 32 - (511 + 1) := by norm_num
  have h2 : (511 : Nat) = 2 ^ 9 - 1 := by norm_num
  have h3 : u - u % 512 = (u >>> 9) <<< 9 := by
    rw [Nat.shiftRight_eq_div_pow, Nat.shiftLeft_eq]
    norm_num
    omega
  rw [Nat.testBit_and, h1, Nat.testBit_two_pow_sub_succ (by norm_num), h2,
    Nat.testBit_two_pow_sub_one, h3, Nat.testBit_shiftLeft, Nat.testBit_shiftRight]
  by_cases hi : i < 9
  · simp [hi]
  · have hi' : 9 ≤ i := by omega
    have e : 9 + (i - 9) = i := by omega
    simp only [hi, hi', e, decide_True, decide_False, Bool.not_false, Bool.and_true, ge_iff_le,
      Bool.true_and]
    by_cases h32 : i < 32
    · simp [h32]
    · simp only [h32, decide_False, Bool.and_false]
      symm
      apply Nat.testBit_lt_two_pow
      calc u < 2 ^ 32 := by simpa using hu
        _ ≤ 2 ^ i := Nat.pow_le_pow_right (by norm_num) (by omega)

theorem int_not_511 : int_not 511 = -512 := by decide

theorem round_down_512 (v : Int) (h1 : -2147483648 ≤ v) (h2 : v < 2147483648) :
    NFS_ROUND_DOWN v (NFS_IO_SZ : Int) = v - v % 512 := by
  unfold NFS_ROUND_DOWN NFS_IO_SZ int_and
  have e : ((512 : Nat) : Int) - 1 = 511 := by norm_num
  rw [e, int_not_511]
  have e2 : toU32 (-512) = 4294966784 := by decide
  rw [e2, and_mask_512 _ (toU32_lt v)]
  unfold toI32 toU32
  split_ifs with h <;> omega

theorem round_up_512 (v : Int) (h1 : -2147483648 ≤ v + 511) (h2 : v + 511 < 2147483648) :
    NFS_ROUND_UP v (NFS_IO_SZ : Int) = (v + 511) - (v + 511) % 512 := by
  unfold NFS_ROUND_UP NFS_IO_SZ int_and
  have e : ((512 : Nat) : Int) - 1 = 511 := by norm_num
  have e3 : v + ((512 : Nat) : Int) - 1 = v + 511 := by push_cast; ring
  rw [e, e3, int_not_511]
  have e2 : toU32 (-512) = 4294966784 := by decide
  rw [e2, and_mask_512 _ (toU32_lt _)]
  unfold toI32 toU32
  split_ifs with h <;> omega


/-! ## Aligned block I/O -/

@[simp] theorem disk_read_length (data : Nat → Nat) (off n : Nat) :
    (disk_read data off n).length = n := by
  simp [disk_read]

theorem disk_read_getElem? (data : Nat → Nat) (off n k : Nat) (hk : k < n) :
    (disk_read data off n)[k]? = some (data (off + k)) := by
  simp [disk_read, List.getElem?_map, List.getElem?_range hk]

theorem disk_read_getD (data : Nat → Nat) (off n k : Nat) (hk : k < n) :
    (disk_read data off n).getD k 0 = data (off + k) := by
  rw [List.getD_eq_getElem?_getD, disk_read_getElem? data off n k hk]; rfl

theorem disk_read_add (data : Nat → Nat) (off a b : Nat) :
    disk_read data off (a + b) = disk_read data off a ++ disk_read data (off + a) b := by
  apply List.ext_getElem?
  intro k
  by_cases hk : k < a
  · rw [List.getElem?_append_left (by simpa using hk), disk_read_getElem? _ _ _ _ (by omega),
      disk_read_getElem? _ _ _ _ hk]
  · by_cases hk2 : k < a + b
    · rw [List.getElem?_append_right (by simpa using hk), disk_read_getElem? _ _ _ _ hk2,
        disk_read_length, disk_read_getElem? _ _ _ _ (by omega)]
      congr 2; omega
    · rw [List.getElem?_eq_none (by simp; omega), List.getElem?_eq_none (by simp; omega)]

theorem disk_read_drop (data : Nat → Nat) (off n b : Nat) :
    (disk_read data off n).drop b = disk_read data (off + b) (n - b) := by
  apply List.ext_getElem?
  intro k
  rw [List.getElem?_drop]
  by_cases hk : k < n - b
  · rw [disk_read_getElem? _ _ _ _ (by omega), disk_read_getElem? _ _ _ _ hk]
    congr 2; omega
  · rw [List.getElem?_eq_none (by simp; omega), List.getElem?_eq_none (by simp; omega)]

theorem disk_read_take (data : Nat → Nat) (off n b : Nat) (hb : b ≤ n) :
    (disk_read data off n).take b = disk_read data off b := by
  apply List.ext_getElem?
  intro k
  by_cases hk : k < b
  · rw [List.getElem?_take_of_lt hk, disk_read_getElem? _ _ _ _ (by omega),
      disk_read_getElem? _ _ _ _ hk]
  · rw [List.getElem?_eq_none (by simp; omega), List.getElem?_eq_none (by simp; omega)]

/-- The read loop over `n` units that lie in the device. -/
theorem read_loop_spec : ∀ (n : Nat) (d : ddriver) (temp : List Nat), 0 ≤ d.pos →
    d.pos + ((512 * n : Nat) : Int) ≤ (d.size : Int) →
    newfs_driver_read_loop n d ((512 * n : Nat) : Int) temp
      = some (temp ++ disk_read d.data d.pos.toNat (512 * n),
          { d with pos := d.pos + ((512 * n : Nat) : Int) }) := by
  intro n
  induction n with
  | zero =>
    intro d temp _ _
    unfold newfs_driver_read_loop
    simp [disk_read]
  | succ n ih =>
    intro d temp h0 h1
    unfold newfs_driver_read_loop
    have hne : ¬ (((512 * (n + 1) : Nat) : Int) = 0) := by omega
    rw [if_neg hne]
    have hr : ddriver_read d NFS_IO_SZ = ((512 : Int), some (disk_read d.data d.pos.toNat 512),
        { d with pos := d.pos + 512 }) := by
      unfold ddriver_read disk_read NFS_IO_SZ
      rw [if_pos (by constructor <;> omega)]
      simp only [Nat.cast_ofNat]
    simp only [hr]
    have e : ((512 * (n + 1) : Nat) : Int) - ((NFS_IO_SZ : Nat) : Int) = ((512 * n : Nat) : Int) := by
      unfold NFS_IO_SZ; omega
    rw [e, ih _ _ (by simp only; omega) (by simp only; omega)]
    have e2 : 512 * (n + 1) = 512 + 512 * n := by ring
    have e3 : (d.pos + 512).toNat = d.pos.toNat + 512 := by omega
    simp only [e2, disk_read_add, e3, List.append_assoc]
    have e4 : d.pos + 512 + ((512 * n : Nat) : Int) = d.pos + ((512 + 512 * n : Nat) : Int) := by
      push_cast; ring
    rw [e4]

/-- The read loop always comes to its end and leaves the contents alone. -/
theorem read_loop_total : ∀ (n : Nat) (d : ddriver) (temp : List Nat),
    ∃ out d1, newfs_driver_read_loop n d ((512 * n : Nat) : Int) temp = some (out, d1) ∧
      d1.data = d.data ∧ d1.size = d.size ∧ out.length = temp.length + 512 * n := by
  intro n
  induction n with
  | zero =>
    intro d temp
    unfold newfs_driver_read_loop
    exact ⟨temp, d, by simp, rfl, rfl, by simp⟩
  | succ n ih =>
    intro d temp
    unfold newfs_driver_read_loop
    have hne : ¬ (((512 * (n + 1) : Nat) : Int) = 0) := by omega
    rw [if_neg hne]
    have e : ((512 * (n + 1) : Nat) : Int) - ((NFS_IO_SZ : Nat) : Int) = ((512 * n : Nat) : Int) := by
      unfold NFS_IO_SZ; omega
    rw [e]
    unfold ddriver_read
    split_ifs with h
    · obtain ⟨out, d1, h1, h2, h3, h4⟩ := ih { d with pos := d.pos + ((NFS_IO_SZ : Nat) : Int) }
        (temp ++ List.map (fun k => d.data (d.pos.toNat + k)) (List.range NFS_IO_SZ))
      refine ⟨out, d1, h1, h2, h3, ?_⟩
      rw [h4]
      simp only [List.length_append, List.length_map, List.length_range, NFS_IO_SZ]; omega
    · obtain ⟨out, d1, h1, h2, h3, h4⟩ := ih d (temp ++ List.replicate NFS_IO_SZ 0)
      refine ⟨out, d1, h1, h2, h3, ?_⟩
      rw [h4]
      simp only [List.length_append, List.length_replicate, NFS_IO_SZ]; omega

theorem driver_read_spec (d : ddriver) (off size : Nat) (h : span_ok d off size) :
    newfs_driver_read d (off : Int) (size : Int)
      = some (NFS_ERROR_NONE, disk_read d.data off size,
          { d with pos := ((off - off % 512 + (size + off % 512 + 511) / 512 * 512 : Nat) : Int) }) := by
  obtain ⟨h1, h2⟩ := h
  unfold newfs_driver_read
  have hd : NFS_ROUND_DOWN (off : Int) (NFS_IO_SZ : Int) = ((off - off % 512 : Nat) : Int) := by
    rw [round_down_512 _ (by omega) (by omega)]; omega
  have hb : (off : Int) - ((off - off % 512 : Nat) : Int) = ((off % 512 : Nat) : Int) := by omega
  have hu : NFS_ROUND_UP ((size : Int) + ((off % 512 : Nat) : Int)) (NFS_IO_SZ : Int)
      = ((512 * ((size + off % 512 + 511) / 512) : Nat) : Int) := by
    rw [round_up_512 _ (by omega) (by omega)]; omega
  simp only [hd, hb, hu]
  have hs : ddriver_seek d ((off - off % 512 : Nat) : Int)
      = (((off - off % 512 : Nat) : Int), { d with pos := ((off - off % 512 : Nat) : Int) }) := by
    unfold ddriver_seek
    rw [if_pos (by constructor <;> omega)]
  have hf : ((512 * ((size + off % 512 + 511) / 512) : Nat) : Int).toNat / NFS_IO_SZ
      = (size + off % 512 + 511) / 512 := by
    unfold NFS_IO_SZ
    rw [Int.toNat_natCast]; omega
  rw [hs, hf]
  simp only
  rw [read_loop_spec _ _ _ (by simp only; omega) (by simp only; omega)]
  simp only [List.nil_append, Int.toNat_natCast]
  rw [disk_read_drop, disk_read_take _ _ _ _ (by omega)]
  have e : off - off % 512 + off % 512 = off := by omega
  rw [e]
  have e4 : ((off - off % 512 : Nat) : Int) + ((512 * ((size + off % 512 + 511) / 512) : Nat) : Int)
      = ((off - off % 512 + (size + off % 512 + 511) / 512 * 512 : Nat) : Int) := by
    push_cast; ring
  rw [e4]


theorem driver_read_total (d : ddriver) (off size : Int) (h1 : -2147483648 ≤ off)
    (h2 : off < 2147483648) (h3 : 0 ≤ size) (h4 : size < 2147482625) :
    ∃ out d1, newfs_driver_read d off size = some (NFS_ERROR_NONE, out, d1) ∧
      d1.data = d.data ∧ d1.size = d.size ∧ out.length = size.toNat := by
  unfold newfs_driver_read
  have hb : off - (off - off % 512) = off % 512 := by ring
  simp only [round_down_512 _ h1 h2, hb]
  rw [round_up_512 _ (by omega) (by omega)]
  obtain ⟨n, hn⟩ : ∃ n : Nat, size + off % 512 + 511 - (size + off % 512 + 511) % 512
      = ((512 * n : Nat) : Int) := ⟨((size + off % 512 + 511) / 512).toNat, by omega⟩
  rw [hn]
  have hf : ((512 * n : Nat) : Int).toNat / NFS_IO_SZ = n := by
    unfold NFS_IO_SZ; rw [Int.toNat_natCast]; omega
  rw [hf]
  obtain ⟨out, d1, e1, e2, e3, e4⟩ := read_loop_total n (ddriver_seek d (off - off % 512)).2 []
  rw [e1]
  refine ⟨_, d1, rfl, ?_, ?_, ?_⟩
  · rw [e2]; unfold ddriver_seek; split_ifs <;> rfl
  · rw [e3]; unfold ddriver_seek; split_ifs <;> rfl
  · simp only [List.length_take, List.length_drop, e4, List.length_nil]
    omega

theorem disk_write_nil (data : Nat → Nat) (off : Nat) : disk_write data off [] = data := by
  funext a
  simp [disk_write]

/-- The write loop over `n` units that lie in the device. -/
theorem write_loop_spec : ∀ (n : Nat) (d : ddriver) (cur : List Nat), 0 ≤ d.pos →
    d.pos + ((512 * n : Nat) : Int) ≤ (d.size : Int) → cur.length = 512 * n →
    newfs_driver_write_loop n d ((512 * n : Nat) : Int) cur
      = some { size := d.size, data := disk_write d.data d.pos.toNat cur,
               pos := d.pos + ((512 * n : Nat) : Int) } := by
  intro n
  induction n with
  | zero =>
    intro d cur _ _ hc
    unfold newfs_driver_write_loop
    have : cur = [] := List.length_eq_zero.1 (by simpa using hc)
    subst this
    simp [disk_write_nil]
  | succ n ih =>
    intro d cur h0 h1 hc
    unfold newfs_driver_write_loop
    have hne : ¬ (((512 * (n + 1) : Nat) : Int) = 0) := by omega
    rw [if_neg hne]
    have hw : ddriver_write d cur NFS_IO_SZ = ((512 : Int),
        { size := d.size
          data := fun a =>
            if d.pos.toNat ≤ a ∧ a < d.pos.toNat + 512 then cur.getD (a - d.pos.toNat) 0
            else d.data a
          pos := d.pos + 512 }) := by
      unfold ddriver_write NFS_IO_SZ
      rw [if_pos (by constructor <;> omega)]
      simp only [Nat.cast_ofNat]
    have e : ((512 * (n + 1) : Nat) : Int) - ((NFS_IO_SZ : Nat) : Int) = ((512 * n : Nat) : Int) := by
      unfold NFS_IO_SZ; omega
    rw [hw, e]
    simp only
    rw [ih _ _ (by simp only; omega) (by simp only; omega)
      (by rw [List.length_drop, hc]; unfold NFS_IO_SZ; omega)]
    have e4 : d.pos + 512 + ((512 * n : Nat) : Int) = d.pos + ((512 * (n + 1) : Nat) : Int) := by
      push_cast; ring
    have e3 : (d.pos + 512).toNat = d.pos.toNat + 512 := by omega
    simp only [e4, e3]
    have hdata : disk_write (fun a =>
          if d.pos.toNat ≤ a ∧ a < d.pos.toNat + 512 then cur.getD (a - d.pos.toNat) 0
          else d.data a) (d.pos.toNat + 512) (List.drop NFS_IO_SZ cur)
        = disk_write d.data d.pos.toNat cur := by
      funext a
      unfold disk_write
      simp only [List.length_drop, hc, NFS_IO_SZ]
      by_cases ha1 : d.pos.toNat + 512 ≤ a ∧ a < d.pos.toNat + 512 + (512 * (n + 1) - 512)
      · rw [if_pos ha1, if_pos (by omega)]
        rw [List.getD_eq_getElem?_getD, List.getD_eq_getElem?_getD, List.getElem?_drop]
        have e5 : 512 + (a - (d.pos.toNat + 512)) = a - d.pos.toNat := by omega
        rw [e5]
      · rw [if_neg ha1]
        by_cases ha2 : d.pos.toNat ≤ a ∧ a < d.pos.toNat + 512
        · rw [if_pos ha2, if_pos (by omega)]
        · rw [if_neg ha2, if_neg (by omega)]
    rw [hdata]

theorem driver_write_spec (d : ddriver) (off : Nat) (bytes : List Nat)
    (h : span_ok d off bytes.length) :
    newfs_driver_write d (off : Int) bytes (bytes.length : Int)
      = some (NFS_ERROR_NONE,
          { size := d.size, data := disk_write d.data off bytes,
            pos := ((off - off % 512 + (bytes.length + off % 512 + 511) / 512 * 512 : Nat) : Int) }) := by
  have hspan := h
  obtain ⟨h1, h2⟩ := h
  unfold newfs_driver_write
  have hd : NFS_ROUND_DOWN (off : Int) (NFS_IO_SZ : Int) = ((off - off % 512 : Nat) : Int) := by
    rw [round_down_512 _ (by omega) (by omega)]; omega
  have hb : (off : Int) - ((off - off % 512 : Nat) : Int) = ((off % 512 : Nat) : Int) := by omega
  have hu : NFS_ROUND_UP ((bytes.length : Int) + ((off % 512 : Nat) : Int)) (NFS_IO_SZ : Int)
      = ((512 * ((bytes.length + off % 512 + 511) / 512) : Nat) : Int) := by
    rw [round_up_512 _ (by omega) (by omega)]; omega
  simp only [hd, hb, hu]
  set oa := off - off % 512 with hoa
  set n := (bytes.length + off % 512 + 511) / 512 with hn
  have hspan2 : span_ok d oa (512 * n) := by
    constructor
    · have : oa % 512 = 0 := by omega
      rw [this]; omega
    · exact h2
  rw [driver_read_spec d oa (512 * n) hspan2]
  simp only [Int.toNat_natCast]
  have hs : ∀ p : Int, ddriver_seek { size := d.size, data := d.data, pos := p } (oa : Int)
      = ((oa : Int), { size := d.size, data := d.data, pos := (oa : Int) }) := by
    intro p
    unfold ddriver_seek
    rw [if_pos (by constructor <;> (try simp only) <;> omega)]
  rw [hs]
  have hf : (512 * n) / NFS_IO_SZ = n := by unfold NFS_IO_SZ; omega
  rw [hf]
  simp only
  rw [write_loop_spec _ _ _ (by simp only; omega) (by simp only; omega)
    (by simp only [List.length_append, List.length_take, List.length_drop, disk_read_length]; omega)]
  simp only [Int.toNat_natCast]
  have e4 : (oa : Int) + ((512 * n : Nat) : Int) = ((oa + n * 512 : Nat) : Int) := by
    push_cast; ring
  rw [e4]
  suffices hdata : disk_write d.data oa
      (List.take (off % 512) (disk_read d.data oa (512 * n)) ++ List.take bytes.length bytes
        ++ List.drop (off % 512 + bytes.length) (disk_read d.data oa (512 * n)))
      = disk_write d.data off bytes by rw [hdata]
  funext a
  unfold disk_write
  simp only [List.length_append, List.length_take, List.length_drop, disk_read_length]
  have hlen : min (off % 512) (512 * n) + min bytes.length bytes.length
      + (512 * n - (off % 512 + bytes.length)) = 512 * n := by omega
  rw [hlen]
  by_cases ha : off ≤ a ∧ a < off + bytes.length
  · rw [if_pos ha, if_pos (by omega)]
    rw [List.getD_eq_getElem?_getD, List.getD_eq_getElem?_getD,
      List.getElem?_append_left (by
        simp only [List.length_append, List.length_take, disk_read_length]; omega),
      List.getElem?_append_right (by simp only [List.length_take, disk_read_length]; omega)]
    simp only [List.length_take, disk_read_length, List.take_length]
    congr 2; omega
  · rw [if_neg ha]
    by_cases ha2 : oa ≤ a ∧ a < oa + 512 * n
    · rw [if_pos ha2, List.getD_eq_getElem?_getD]
      by_cases ha3 : a < off
      · rw [List.getElem?_append_left (by
            simp only [List.length_append, List.length_take, disk_read_length]; omega),
          List.getElem?_append_left (by simp only [List.length_take, disk_read_length]; omega),
          List.getElem?_take_of_lt (by omega), disk_read_getElem? _ _ _ _ (by omega)]
        simp only [Option.getD_some]
        congr 1; omega
      · rw [List.getElem?_append_right (by
            simp only [List.length_append, List.length_take, disk_read_length]; omega),
          List.getElem?_drop, disk_read_getElem? _ _ _ _ (by
            simp only [List.length_append, List.length_take, disk_read_length]; omega)]
        simp only [Option.getD_some, List.length_append, List.length_take, disk_read_length]
        congr 1; omega
    · rw [if_neg ha2]


/-! ## Path resolver -/

theorem calc_lvl_loop_count (path : List Nat) : ∀ lvl,
    newfs_calc_lvl_loop path lvl = lvl + path.count 47 := by
  induction path with
  | nil => intro lvl; simp [newfs_calc_lvl_loop]
  | cons c str ih =>
    intro lvl
    unfold newfs_calc_lvl_loop
    by_cases hc : c = 47
    · subst hc
      rw [if_pos rfl, ih, List.count_cons_self]; omega
    · rw [if_neg hc, ih, List.count_cons_of_ne (fun e => hc e.symm)]

theorem count_path_of (segs : List (List Nat)) (h : ∀ seg ∈ segs, is_segment seg) :
    (path_of segs).count 47 = segs.length := by
  induction segs with
  | nil => rfl
  | cons seg rest ih =>
    have h1 := (h seg (List.mem_cons_self _ _)).2
    simp only [path_of, List.cons_append, List.count_cons_self, List.count_append, List.length_cons]
    rw [ih (fun x hx => h x (List.mem_cons_of_mem _ hx)), List.count_eq_zero_of_not_mem h1]
    omega

theorem path_of_ne_slash (segs : List (List Nat)) (h : ∀ seg ∈ segs, is_segment seg) :
    path_of segs ≠ [47] := by
  cases segs with
  | nil => simp [path_of]
  | cons seg rest =>
    have h1 := (h seg (List.mem_cons_self _ _)).1
    intro e
    have := congrArg List.length e
    simp only [path_of, List.cons_append, List.length_cons, List.length_append, List.length_nil] at this
    have : seg.length = 0 := by omega
    exact h1 (List.length_eq_zero.1 this)

theorem calc_lvl_path_of (segs : List (List Nat)) (h : ∀ seg ∈ segs, is_segment seg) :
    newfs_calc_lvl (path_of segs) = segs.length := by
  unfold newfs_calc_lvl
  rw [if_neg (path_of_ne_slash segs h), calc_lvl_loop_count, count_path_of segs h]; omega

theorem strtok_from_append (seg : List Nat) (h : 47 ∉ seg) : ∀ (rest tok : List Nat),
    strtok_from (seg ++ rest) tok = strtok_from rest (tok ++ seg) := by
  induction seg with
  | nil => intro rest tok; simp
  | cons c seg ih =>
    intro rest tok
    have hc : c ≠ 47 := fun e => h (by simp [e])
    have hs : 47 ∉ seg := fun e => h (List.mem_cons_of_mem _ e)
    simp only [List.cons_append, strtok_from, if_neg hc, List.append_eq]
    rw [ih hs]
    simp

theorem strtok_from_path_of (segs : List (List Nat)) (h : ∀ seg ∈ segs, is_segment seg) :
    ∀ tok, strtok_from (path_of segs) tok = if tok = [] then segs else tok :: segs := by
  induction segs with
  | nil => intro tok; simp [path_of, strtok_from]
  | cons seg rest ih =>
    intro tok
    have h1 := h seg (List.mem_cons_self _ _)
    have hrest := ih (fun x hx => h x (List.mem_cons_of_mem _ hx))
    simp only [path_of, strtok_from, if_true, List.append_eq]
    by_cases ht : tok = []
    · rw [if_pos ht, if_pos ht, strtok_from_append seg h1.2, hrest, List.nil_append, if_neg h1.1]
    · rw [if_neg ht, if_neg ht, strtok_from_append seg h1.2, hrest, List.nil_append, if_neg h1.1]

theorem strtok_all_path_of (segs : List (List Nat)) (h : ∀ seg ∈ segs, is_segment seg) :
    strtok_all (path_of segs) = segs := by
  unfold strtok_all
  rw [strtok_from_path_of segs h, if_pos rfl]

theorem lookup_scan_first (seg : List Nat) : ∀ (ds : List newfs_dentry) (k0 k : Nat),
    first_named seg ds k → newfs_lookup_scan seg ds k0 = some (k0 + k) := by
  intro ds
  induction ds with
  | nil => intro k0 k ⟨d, hd, _⟩; simp at hd
  | cons d ds ih =>
    intro k0 k ⟨e, he, hn, hfirst⟩
    unfold newfs_lookup_scan
    cases k with
    | zero =>
      simp only [List.getElem?_cons_zero, Option.some.injEq] at he
      subst he
      rw [if_pos hn.symm]; rfl
    | succ k =>
      have hne : ¬ seg = d.name := fun e1 => hfirst 0 d (by omega) (by simp) e1.symm
      rw [if_neg hne, ih (k0 + 1) k ⟨e, by simpa using he, hn, ?_⟩]
      · congr 1; omega
      · intro j e' hj hje
        exact hfirst (j + 1) e' (by omega) (by simpa using hje)

theorem lookup_scan_none (seg : List Nat) : ∀ (ds : List newfs_dentry) (k0 : Nat),
    (∀ d ∈ ds, d.name ≠ seg) → newfs_lookup_scan seg ds k0 = none := by
  intro ds
  induction ds with
  | nil => intro k0 _; rfl
  | cons d ds ih =>
    intro k0 h
    unfold newfs_lookup_scan
    rw [if_neg (fun e => h d (List.mem_cons_self _ _) e.symm)]
    exact ih _ (fun x hx => h x (List.mem_cons_of_mem _ hx))

/-- Along a walk through directories the loop of `newfs_lookup` follows the walk. -/
theorem lookup_loop_walks (total_lvl : Nat) {s s1 : newfs_super} {cursor q : dptr}
    {pre : List (List Nat)} (hw : walks s cursor pre s1 q) :
    ∀ (rest : List (List Nat)) (lvl : Nat), lvl + pre.length < total_lvl →
    newfs_lookup_loop total_lvl (pre ++ rest) lvl cursor s
      = newfs_lookup_loop total_lvl rest (lvl + pre.length) q s1 := by
  induction hw with
  | done s p => intro rest lvl _; simp
  | step s s1 s2 cursor p seg pre inode k hh hd hk _ ih =>
    intro rest lvl hl
    simp only [List.length_cons] at hl
    rw [List.cons_append, newfs_lookup_loop]
    simp only [hh]
    have hreg : ¬ (inode.ftype = NFS_REG_FILE ∧ lvl + 1 < total_lvl) := by
      rw [hd]; intro h; exact absurd h.1 (by decide)
    rw [if_neg hreg, if_pos hd]
    have hscan := lookup_scan_first seg inode.dentrys 0 k hk
    rw [Nat.zero_add] at hscan
    simp only [hscan]
    rw [if_neg (by omega), ih rest (lvl + 1) (by omega)]
    have e : lvl + 1 + pre.length = lvl + (seg :: pre).length := by
      simp only [List.length_cons]; omega
    rw [e]


theorem read_inode_dentrys_total (block0 : Nat) : ∀ (n i : Nat) (inode : newfs_inode)
    (d : ddriver), ∃ inode1 d1,
      newfs_read_inode_dentrys block0 n i inode d = some (some inode1, d1) ∧
      d1.data = d.data ∧ d1.size = d.size := by
  intro n
  induction n with
  | zero => intro i inode d; exact ⟨inode, d, rfl, rfl, rfl⟩
  | succ n ih =>
    intro i inode d
    unfold newfs_read_inode_dentrys
    obtain ⟨h1, h2⟩ := toI32_range (block0 * NFS_BLKS_SZ % 4294967296 + i * SIZEOF_DENTRY_D)
    obtain ⟨out, d1, e1, e2, e3, _⟩ := driver_read_total d
      (toI32 (block0 * NFS_BLKS_SZ % 4294967296 + i * SIZEOF_DENTRY_D)) (SIZEOF_DENTRY_D : Int)
      h1 h2 (by unfold SIZEOF_DENTRY_D; norm_num) (by unfold SIZEOF_DENTRY_D; norm_num)
    rw [e1]
    simp only [ne_eq, not_true_eq_false, if_false]
    obtain ⟨inode1, d2, e4, e5, e6⟩ := ih (i + 1)
      (newfs_alloc_dentry_to_inode inode
        (match newfs_alloc_dentry (newfs_dentry_d.of_bytes out).fname
            (newfs_dentry_d.of_bytes out).ftype with
          | newfs_dentry.mk name _ inode ftype =>
            newfs_dentry.mk name (newfs_dentry_d.of_bytes out).ino inode ftype)).2 d1
    exact ⟨inode1, d2, e4, by rw [e5, e2], by rw [e6, e3]⟩

theorem read_inode_total (s : newfs_super) (ino : Int) : ∃ inode d1,
    newfs_read_inode s ino = some (some inode, { s with dev := d1 }) ∧
      d1.data = s.dev.data ∧ d1.size = s.dev.size := by
  unfold newfs_read_inode
  obtain ⟨h1, h2⟩ := toI32_range
    (toU32 (s.inode_offset * (NFS_BLKS_SZ : Int) + ino * (SIZEOF_INODE_D : Int)))
  obtain ⟨out, d1, e1, e2, e3, _⟩ := driver_read_total s.dev (NFS_INO_OFS s ino)
    (SIZEOF_INODE_D : Int) h1 h2 (by unfold SIZEOF_INODE_D; norm_num)
    (by unfold SIZEOF_INODE_D; norm_num)
  rw [e1]
  simp only [ne_eq, not_true_eq_false, if_false]
  split_ifs with hd hc
  · obtain ⟨inode1, d2, e4, e5, e6⟩ := read_inode_dentrys_total
      ((newfs_inode_d.of_bytes out).block_pointer.getD 0 0)
      (toI32 (newfs_inode_d.of_bytes out).dir_cnt).toNat 0
      (newfs_inode.mk (newfs_inode_d.of_bytes out).ino (newfs_inode_d.of_bytes out).size 0
        (newfs_inode_d.of_bytes out).ftype (newfs_inode_d.of_bytes out).target_path []
        (newfs_inode_d.of_bytes out).block_pointer) d1
    rw [e4]
    exact ⟨inode1, d2, rfl, by rw [e5, e2], by rw [e6, e3]⟩
  · exact ⟨_, d1, rfl, e2, e3⟩
  · exact ⟨_, d1, rfl, e2, e3⟩

theorem dentry_at_append : ∀ (p q : dptr) (d : newfs_dentry),
    dentry_at d (p ++ q) = (dentry_at d p).bind (fun c => dentry_at c q) := by
  intro p
  induction p with
  | nil => intro q d; simp [dentry_at]
  | cons k p ih =>
    intro q d
    simp only [List.cons_append, dentry_at]
    cases d.inode with
    | none => rfl
    | some i =>
      simp only
      cases i.dentrys[k]? with
      | none => rfl
      | some c => simp only; exact ih q c

theorem dentry_at_set_self : ∀ (p : dptr) (root d : newfs_dentry) (v : Option newfs_inode),
    dentry_at root p = some d →
    dentry_at (set_inode_at root p v) p = some (newfs_dentry.mk d.name d.ino v d.ftype) := by
  intro p
  induction p with
  | nil =>
    intro root d v h
    simp only [dentry_at, Option.some.injEq] at h
    subst h
    cases root with
    | mk name ino inode ftype =>
      simp [set_inode_at, dentry_at, newfs_dentry.name, newfs_dentry.ino, newfs_dentry.ftype]
  | cons k p ih =>
    intro root d v h
    cases root with
    | mk name ino inode ftype =>
      cases inode with
      | none => simp [dentry_at, newfs_dentry.inode] at h
      | some i =>
        cases i with
        | mk a b c t tp ds bp =>
          simp only [dentry_at, newfs_dentry.inode, newfs_inode.dentrys] at h
          cases hk : ds[k]? with
          | none => simp [hk] at h
          | some ch =>
            simp only [hk] at h
            have hlt : k < ds.length := (List.getElem?_eq_some_iff.1 hk).1
            simp only [set_inode_at, hk, dentry_at, newfs_dentry.inode, newfs_inode.dentrys,
              List.getElem?_set_self hlt]
            exact ih ch d v h

theorem hydrate_post (s s1 : newfs_super) (p : dptr) (i : Option newfs_inode)
    (h : newfs_hydrate s p = some (i, s1)) :
    ∃ root d root1, s.root_dentry = some root ∧ dentry_at root p = some d ∧
      s1.root_dentry = some root1 ∧
      dentry_at root1 p = some (newfs_dentry.mk d.name d.ino i d.ftype) := by
  unfold newfs_hydrate at h
  cases hr : s.root_dentry with
  | none => simp [hr] at h
  | some root =>
    simp only [hr] at h
    cases hd : dentry_at root p with
    | none => simp [hd] at h
    | some d =>
      simp only [hd] at h
      cases hi : d.inode with
      | some i0 =>
        simp only [hi, Option.some.injEq, Prod.mk.injEq] at h
        obtain ⟨h1, h2⟩ := h
        subst h1 h2
        refine ⟨root, d, root, rfl, hd, hr, ?_⟩
        rw [hd]
        cases d with
        | mk name ino inode ftype =>
          simp only [newfs_dentry.inode] at hi
          subst hi
          rfl
      | none =>
        simp only [hi] at h
        cases hrd : newfs_read_inode s (toI32 d.ino) with
        | none => simp [hrd] at h
        | some pr =>
          obtain ⟨i1, s2⟩ := pr
          simp only [hrd, Option.some.injEq, Prod.mk.injEq] at h
          obtain ⟨h1, h2⟩ := h
          subst h1 h2
          exact ⟨root, d, _, rfl, hd, rfl, dentry_at_set_self p root d i1 hd⟩

theorem hydrate_total (s : newfs_super) (root d : newfs_dentry) (p : dptr)
    (hr : s.root_dentry = some root) (hd : dentry_at root p = some d) :
    ∃ inode s1, newfs_hydrate s p = some (some inode, s1) := by
  unfold newfs_hydrate
  simp only [hr, hd]
  cases hi : d.inode with
  | some i0 => exact ⟨i0, s, rfl⟩
  | none =>
    obtain ⟨inode, d1, e1, _, _⟩ := read_inode_total s (toI32 d.ino)
    simp only [e1]
    exact ⟨inode, _, rfl⟩

theorem hydrate_idem (s s1 : newfs_super) (p : dptr) (i : newfs_inode)
    (h : newfs_hydrate s p = some (some i, s1)) : newfs_hydrate s1 p = some (some i, s1) := by
  obtain ⟨root, d, root1, _, _, h1, h2⟩ := hydrate_post s s1 p (some i) h
  unfold newfs_hydrate
  simp only [h1, h2, newfs_dentry.inode]


/-! ## Trees and records -/

/-- Induction over a subtree and its child chains. -/
theorem tree_induction (P : newfs_inode → Prop) (Q : List newfs_dentry → Prop)
    (hP : ∀ ino size dir_cnt ftype tp ds bp, Q ds →
      P (newfs_inode.mk ino size dir_cnt ftype tp ds bp))
    (hnil : Q [])
    (hnone : ∀ name ino ftype rest, Q rest → Q (newfs_dentry.mk name ino none ftype :: rest))
    (hsome : ∀ name ino i ftype rest, P i → Q rest →
      Q (newfs_dentry.mk name ino (some i) ftype :: rest)) :
    (∀ t, P t) ∧ (∀ ds, Q ds) := by
  have key : ∀ t : newfs_inode, P t ∧ Q t.dentrys := by
    intro t
    refine @newfs_inode.rec
      (fun d => ∀ rest, Q rest → Q (d :: rest))
      (fun t => P t ∧ Q t.dentrys)
      (fun o => ∀ name ino ftype rest, Q rest → Q (newfs_dentry.mk name ino o ftype :: rest))
      Q ?_ ?_ ?_ ?_ ?_ ?_ t
    · intro name ino inode ftype h rest hrest
      exact h name ino ftype rest hrest
    · intro ino size dir_cnt ftype tp ds bp h
      exact ⟨hP ino size dir_cnt ftype tp ds bp h, h⟩
    · intro name ino ftype rest hrest
      exact hnone name ino ftype rest hrest
    · intro i hi name ino ftype rest hrest
      exact hsome name ino i ftype rest hi.1 hrest
    · exact hnil
    · intro head tail h1 h2
      exact h1 tail h2
  exact ⟨fun t => (key t).1, fun ds => (key (newfs_inode.mk 0 0 0 0 [] ds [])).2⟩


@[simp] theorem le32_length (x : Nat) : (le32 x).length = 4 := rfl

@[simp] theorem buf_of_length (bs : List Nat) (n : Nat) : (buf_of bs n).length = n := by
  unfold buf_of
  simp only [List.length_append, List.length_take, List.length_replicate]
  omega

theorem buf_of_eq_self (bs : List Nat) (n : Nat) (h : bs.length = n) : buf_of bs n = bs := by
  unfold buf_of
  rw [← h, List.take_length, Nat.sub_self]
  simp

theorem rd32_append_right (a b : List Nat) (k : Nat) (h : a.length ≤ k) :
    rd32 (a ++ b) k = rd32 b (k - a.length) := by
  unfold rd32
  simp only [List.getD_eq_getElem?_getD]
  rw [List.getElem?_append_right h, List.getElem?_append_right (by omega),
    List.getElem?_append_right (by omega), List.getElem?_append_right (by omega)]
  have e1 : k + 1 - a.length = k - a.length + 1 := by omega
  have e2 : k + 2 - a.length = k - a.length + 2 := by omega
  have e3 : k + 3 - a.length = k - a.length + 3 := by omega
  rw [e1, e2, e3]

theorem rd32_le32 (x : Nat) (rest : List Nat) (hx : x < 4294967296) :
    rd32 (le32 x ++ rest) 0 = x := by
  unfold rd32 le32
  simp only [List.cons_append, List.getD_cons_zero, List.getD_cons_succ, Nat.zero_add]
  omega

theorem rd32_le32_nil (x : Nat) (hx : x < 4294967296) : rd32 (le32 x) 0 = x := by
  have := rd32_le32 x [] hx
  simpa using this

theorem takeWhile_ne_zero_append (name rest : List Nat) (h0 : 0 ∉ name) :
    List.takeWhile (fun c => c != 0) (name ++ 0 :: rest) = name := by
  induction name with
  | nil => simp
  | cons c name ih =>
    have hc : c ≠ 0 := fun e => h0 (by simp [e])
    have hn : 0 ∉ name := fun e => h0 (List.mem_cons_of_mem _ e)
    rw [List.cons_append, List.takeWhile_cons]
    have : (c != 0) = true := by simpa using hc
    rw [this, if_pos rfl, ih hn]

theorem c_str_buf_of (name : List Nat) (h0 : 0 ∉ name) (hl : name.length < MAX_NAME_LEN) :
    (c_str (buf_of name MAX_NAME_LEN)).take (MAX_NAME_LEN - 1) = name := by
  unfold MAX_NAME_LEN at *
  unfold c_str buf_of
  have e : List.take 128 name = name := List.take_of_length_le (by omega)
  rw [e]
  obtain ⟨n, hn⟩ : ∃ n, 128 - name.length = n + 1 := ⟨128 - name.length - 1, by omega⟩
  rw [hn, List.replicate_succ, takeWhile_ne_zero_append name _ h0]
  exact List.take_of_length_le (by omega)

theorem inode_d_roundtrip (x : newfs_inode_d) (h1 : x.ino < 4294967296)
    (h2 : x.size < 4294967296) (h3 : x.target_path.length = MAX_NAME_LEN)
    (h4 : x.block_pointer.length = NFS_DATA_PER_FILE)
    (h5 : ∀ b ∈ x.block_pointer, b < 4294967296) (h6 : x.dir_cnt < 4294967296)
    (h7 : x.ftype < 4294967296) :
    newfs_inode_d.of_bytes x.bytes = x := by
  obtain ⟨ino, size, tp, bp, dir_cnt, ftype⟩ := x
  simp only at h1 h2 h3 h4 h5 h6 h7
  unfold NFS_DATA_PER_FILE at h4
  match bp, h4 with
  | [b0, b1, b2, b3, b4, b5], _ =>
    have hb0 := h5 b0 (by simp)
    have hb1 := h5 b1 (by simp)
    have hb2 := h5 b2 (by simp)
    have hb3 := h5 b3 (by simp)
    have hb4 := h5 b4 (by simp)
    have hb5 := h5 b5 (by simp)
    unfold newfs_inode_d.of_bytes newfs_inode_d.bytes
    simp only [List.getD_cons_zero, List.getD_cons_succ, List.append_assoc, buf_of_eq_self tp _ h3]
    unfold MAX_NAME_LEN at h3 ⊢
    have e8 : List.drop 8 (le32 ino ++ (le32 size ++ (tp ++ (le32 b0 ++ (le32 b1 ++ (le32 b2 ++
        (le32 b3 ++ (le32 b4 ++ (le32 b5 ++ (le32 dir_cnt ++ le32 ftype))))))))))
        = tp ++ (le32 b0 ++ (le32 b1 ++ (le32 b2 ++
        (le32 b3 ++ (le32 b4 ++ (le32 b5 ++ (le32 dir_cnt ++ le32 ftype))))))) := by
      rw [← List.append_assoc (le32 ino)]
      exact List.drop_left' (by simp)
    rw [e8, List.take_left' h3]
    simp only [rd32_append_right, le32_length, h3, Nat.le_refl, Nat.sub_self, Nat.reduceSub,
      Nat.reduceLeDiff, rd32_le32 _ _ h1, rd32_le32 _ _ h2, rd32_le32 _ _ hb0, rd32_le32 _ _ hb1,
      rd32_le32 _ _ hb2, rd32_le32 _ _ hb3, rd32_le32 _ _ hb4, rd32_le32 _ _ hb5,
      rd32_le32 _ _ h6, rd32_le32_nil _ h7]

theorem dentry_d_roundtrip (x : newfs_dentry_d) (h1 : x.fname.length = MAX_NAME_LEN)
    (h2 : x.ftype < 4294967296) (h3 : x.ino < 4294967296) :
    newfs_dentry_d.of_bytes x.bytes = x := by
  obtain ⟨fname, ftype, ino⟩ := x
  simp only at h1 h2 h3
  unfold newfs_dentry_d.of_bytes newfs_dentry_d.bytes
  simp only [List.append_assoc, buf_of_eq_self fname _ h1]
  unfold MAX_NAME_LEN at h1 ⊢
  rw [List.take_left' h1]
  simp only [rd32_append_right, le32_length, h1, Nat.le_refl, Nat.sub_self, Nat.reduceSub,
    Nat.reduceLeDiff, rd32_le32 _ _ h2, rd32_le32_nil _ h3]

theorem inode_d_bytes_length (x : newfs_inode_d) : x.bytes.length = 168 := by
  unfold newfs_inode_d.bytes
  simp only [List.length_append, le32_length, buf_of_length, MAX_NAME_LEN]

theorem dentry_d_bytes_length (x : newfs_dentry_d) : x.bytes.length = 136 := by
  unfold newfs_dentry_d.bytes
  simp only [List.length_append, le32_length, buf_of_length, MAX_NAME_LEN]


theorem span_ok_of_le (d : ddriver) (off len : Nat) (h1 : off + len ≤ d.size)
    (h2 : d.size % 512 = 0) (h3 : d.size < 2147483648) : span_ok d off len := by
  unfold span_ok
  constructor
  · omega
  · exact h3

theorem read_inode_dentrys_image (io : Int) (block0 mx mc : Nat) (hmx : mx ≤ 2147483648) :
    ∀ (ds : List newfs_dentry) (i : Nat) (inode : newfs_inode) (d : ddriver),
    dentrys_ok mx mc ds →
    dentrys_on_disk io d.size d.data (block0 * 1024 + i * 136) ds →
    block0 * 1024 + 1024 ≤ d.size → d.size % 512 = 0 → d.size < 2147483648 →
    i + ds.length ≤ 7 → inode.dir_cnt + ds.length < 4294967296 →
    ∃ d1, newfs_read_inode_dentrys block0 ds.length i inode d
        = some (some (with_children inode ds), d1) ∧
      d1.data = d.data ∧ d1.size = d.size := by
  intro ds
  induction ds with
  | nil =>
    intro i inode d _ _ _ _ _ _ _
    refine ⟨d, ?_, rfl, rfl⟩
    cases inode with
    | mk a b c f tp ds0 bp =>
      simp [newfs_read_inode_dentrys, with_children, strip_dentrys, newfs_inode.ino,
        newfs_inode.size, newfs_inode.dir_cnt, newfs_inode.ftype, newfs_inode.target_path,
        newfs_inode.dentrys, newfs_inode.block_pointer]
  | cons dh rest ih =>
    intro i inode d hok hdisk hblk h512 hsz hi hcnt
    cases dh with
    | mk name ino ch ftype =>
      cases ch with
      | none => simp [dentrys_ok] at hok
      | some c =>
        simp only [dentrys_ok] at hok
        obtain ⟨hn0, hnl, hino, hft, hc, hrest⟩ := hok
        simp only [dentrys_on_disk] at hdisk
        obtain ⟨hrec, _, hdrest⟩ := hdisk
        simp only [List.length_cons] at hi hcnt ⊢
        unfold newfs_read_inode_dentrys
        have hoff : toI32 (block0 * NFS_BLKS_SZ % 4294967296 + i * SIZEOF_DENTRY_D)
            = ((block0 * 1024 + i * 136 : Nat) : Int) := by
          unfold NFS_BLKS_SZ SIZEOF_DENTRY_D
          have e : block0 * 1024 % 4294967296 = block0 * 1024 := by omega
          rw [e]
          exact toI32_of_lt _ (by omega)
        have hspan : span_ok d (block0 * 1024 + i * 136) 136 :=
          span_ok_of_le d _ _ (by omega) h512 hsz
        have hsize : ((SIZEOF_DENTRY_D : Nat) : Int) = ((136 : Nat) : Int) := rfl
        rw [hoff, hsize, driver_read_spec d _ _ hspan]
        simp only [ne_eq, not_true_eq_false, if_false]
        unfold SIZEOF_DENTRY_D at hrec
        rw [hrec]
        have hcino : ino < 4294967296 := by
          rw [hino]
          cases c with
          | mk a b c0 f tp ds0 bp =>
            simp only [tree_ok] at hc
            simp only [newfs_inode.ino]
            omega
        rw [dentry_d_roundtrip _ (by simp) hft hcino]
        simp only [newfs_alloc_dentry, c_str_buf_of name hn0 hnl]
        cases inode with
        | mk a b c0 f tp ds0 bp =>
          simp only [newfs_inode.dir_cnt] at hcnt
          have hmod : (c0 + 1) % 4294967296 = c0 + 1 := by omega
          simp only [newfs_alloc_dentry_to_inode, hmod]
          have hdrest' : dentrys_on_disk io d.size d.data (block0 * 1024 + (i + 1) * 136) rest := by
            have e : block0 * 1024 + (i + 1) * 136 = block0 * 1024 + i * 136 + SIZEOF_DENTRY_D := by
              unfold SIZEOF_DENTRY_D; ring
            rw [e]; exact hdrest
          obtain ⟨d1, e1, e2, e3⟩ := ih (i + 1)
            (newfs_inode.mk a b (c0 + 1) f tp (newfs_dentry.mk name ino none ftype :: ds0) bp)
            { size := d.size, data := d.data,
              pos := ((block0 * 1024 + i * 136 - (block0 * 1024 + i * 136) % 512
                + (136 + (block0 * 1024 + i * 136) % 512 + 511) / 512 * 512 : Nat) : Int) }
            hrest hdrest' hblk h512 hsz (by omega)
            (by simp only [newfs_inode.dir_cnt]; omega)
          refine ⟨d1, ?_, e2, e3⟩
          rw [e1]
          simp only [with_children, strip_dentrys, newfs_inode.ino, newfs_inode.size,
            newfs_inode.dir_cnt, newfs_inode.ftype, newfs_inode.target_path,
            newfs_inode.dentrys, newfs_inode.block_pointer, List.map_cons, List.reverse_cons,
            List.append_assoc, List.singleton_append, List.length_cons, newfs_dentry.name,
            newfs_dentry.ino, newfs_dentry.ftype]
          have e4 : c0 + 1 + rest.length = c0 + (rest.length + 1) := by omega
          rw [e4]


theorem same_volume_refl (s : newfs_super) : same_volume s s := ⟨rfl, rfl, rfl⟩

theorem same_volume_trans {s s1 s2 : newfs_super} (h1 : same_volume s s1)
    (h2 : same_volume s1 s2) : same_volume s s2 := by
  obtain ⟨a1, a2, a3⟩ := h1
  obtain ⟨b1, b2, b3⟩ := h2
  refine ⟨?_, by rw [b2, a2], by rw [b3, a3]⟩
  rw [b1, a1]

theorem same_volume_layout {s s1 : newfs_super} (h : same_volume s s1) (hl : layout_ok s) :
    layout_ok s1 := by
  obtain ⟨a1, a2, a3⟩ := h
  unfold layout_ok at hl ⊢
  rw [a1]
  simp only
  rw [a3]
  exact hl

theorem same_volume_fields {s s1 : newfs_super} (h : same_volume s s1) :
    s1.inode_offset = s.inode_offset ∧ s1.max_ino = s.max_ino ∧ s1.dev.size = s.dev.size ∧
    s1.dev.data = s.dev.data := by
  obtain ⟨a1, a2, a3⟩ := h
  refine ⟨by rw [a1], by rw [a1], a3, a2⟩

theorem ino_addr_bound (s : newfs_super) (hl : layout_ok s) (mx ino : Nat)
    (hmx : s.max_ino = (mx : Int)) (hino : ino < mx) :
    ((ino_addr s.inode_offset ino : Nat) : Int) = s.inode_offset * 1024 + (ino : Int) * 168 ∧
    ino_addr s.inode_offset ino + 168 ≤ s.dev.size ∧
    ((ino_addr s.inode_offset ino + 168 : Nat) : Int) ≤ s.data_offset * 1024 := by
  obtain ⟨h1, h2, h3, h4, h5, h6, h7, h8⟩ := hl
  unfold ino_addr
  rw [hmx] at h4
  have : 0 ≤ s.inode_offset * 1024 + (ino : Int) * 168 := by positivity
  refine ⟨Int.toNat_of_nonneg this, ?_, ?_⟩ <;> omega

theorem ino_ofs_eq (s : newfs_super) (hl : layout_ok s) (mx ino : Nat)
    (hmx : s.max_ino = (mx : Int)) (hino : ino < mx) :
    NFS_INO_OFS s (ino : Int) = ((ino_addr s.inode_offset ino : Nat) : Int) := by
  obtain ⟨e1, e2, e3⟩ := ino_addr_bound s hl mx ino hmx hino
  obtain ⟨h1, h2, h3, h4, h5, h6, h7, h8⟩ := hl
  unfold NFS_INO_OFS NFS_BLKS_SZ SIZEOF_INODE_D
  rw [e1]
  apply toI32_toU32 <;> push_cast <;> omega

theorem max_ino_le (s : newfs_super) (hl : layout_ok s) (mx : Nat)
    (hmx : s.max_ino = (mx : Int)) : mx ≤ 2147483648 := by
  obtain ⟨h1, h2, h3, h4, h5, h6, h7, h8⟩ := hl
  rw [hmx] at h4
  omega

theorem read_inode_image (s : newfs_super) (hl : layout_ok s) (mx : Nat)
    (hmx : s.max_ino = (mx : Int)) (ino size dir_cnt ftype : Nat) (tp : List Nat)
    (ds : List newfs_dentry) (bp : List Nat)
    (hok : tree_ok mx 7 (newfs_inode.mk ino size dir_cnt ftype tp ds bp))
    (hd : inode_on_disk s.inode_offset s.dev.size s.dev.data
      (newfs_inode.mk ino size dir_cnt ftype tp ds bp)) :
    ∃ s1, newfs_read_inode s (ino : Int)
        = some (some (newfs_inode.mk ino size dir_cnt ftype tp (strip_dentrys ds).reverse bp), s1) ∧
      same_volume s s1 := by
  simp only [tree_ok] at hok
  obtain ⟨hino, hsize, hft, htp, hbp, hbps, hcnt, hlen, hnd, hds⟩ := hok
  simp only [inode_on_disk] at hd
  obtain ⟨hrec, hblk, hdd⟩ := hd
  obtain ⟨e1, e2, e3⟩ := ino_addr_bound s hl mx ino hmx hino
  have hmx2 := max_ino_le s hl mx hmx
  obtain ⟨h1, h2, h3, h4, h5, h6, h7, h8⟩ := hl
  unfold newfs_read_inode
  have hsize' : ((SIZEOF_INODE_D : Nat) : Int) = ((168 : Nat) : Int) := rfl
  rw [ino_ofs_eq s ⟨h1, h2, h3, h4, h5, h6, h7, h8⟩ mx ino hmx hino, hsize',
    driver_read_spec s.dev _ _ (span_ok_of_le s.dev _ _ e2 h7 h6)]
  simp only [ne_eq, not_true_eq_false, if_false]
  unfold SIZEOF_INODE_D at hrec
  rw [hrec, inode_d_roundtrip _ (by simp only; omega) hsize htp hbp hbps
    (by simp only; omega) hft]
  simp only
  by_cases hdir : ftype = NFS_DIR
  · rw [if_pos hdir]
    have hti : toI32 dir_cnt = (dir_cnt : Int) := toI32_of_lt _ (by omega)
    by_cases hc : (toI32 dir_cnt > 0 ∧ ¬ bp.getD 0 0 = 0)
    · rw [if_pos hc]
      have hne : ds ≠ [] := by
        intro e; rw [e] at hcnt; simp at hcnt; rw [hcnt] at hc; simp [toI32] at hc
      obtain ⟨hb0, hb1⟩ := hblk hne
      have hn : (toI32 dir_cnt).toNat = ds.length := by rw [hti, hcnt]; simp
      rw [hn]
      obtain ⟨d1, r1, r2, r3⟩ := read_inode_dentrys_image s.inode_offset (bp.getD 0 0) mx 7 hmx2
        ds 0 (newfs_inode.mk ino size 0 ftype tp [] bp)
        { size := s.dev.size, data := s.dev.data,
          pos := ((ino_addr s.inode_offset ino - ino_addr s.inode_offset ino % 512
            + (168 + ino_addr s.inode_offset ino % 512 + 511) / 512 * 512 : Nat) : Int) }
        hds (by simpa using hdd) hb1 h7 h6 (by omega)
        (by simp only [newfs_inode.dir_cnt]; omega)
      rw [r1]
      refine ⟨{ s with dev := d1 }, ?_, ⟨rfl, r2, r3⟩⟩
      simp only [with_children, newfs_inode.ino, newfs_inode.size, newfs_inode.dir_cnt,
        newfs_inode.ftype, newfs_inode.target_path, newfs_inode.dentrys,
        newfs_inode.block_pointer, List.append_nil, Nat.zero_add, hcnt]
    · rw [if_neg hc]
      have hnil : ds = [] := by
        by_contra hne
        obtain ⟨hb0, _⟩ := hblk hne
        apply hc
        refine ⟨?_, hb0⟩
        rw [hti]
        have : 0 < ds.length := List.length_pos.2 hne
        omega
      subst hnil
      simp only [List.length_nil] at hcnt
      subst hcnt
      exact ⟨_, rfl, ⟨rfl, rfl, rfl⟩⟩
  · rw [if_neg hdir]
    have hnil := hnd hdir
    subst hnil
    simp only [List.length_nil] at hcnt
    subst hcnt
    exact ⟨_, rfl, ⟨rfl, rfl, rfl⟩⟩


theorem load_dentrys_append (f : newfs_super → Int → Option (newfs_inode × newfs_super)) :
    ∀ (l1 l2 : List newfs_dentry) (s : newfs_super),
    load_dentrys f s (l1 ++ l2) =
      match load_dentrys f s l1 with
      | none => none
      | some (r1, s1) =>
        match load_dentrys f s1 l2 with
        | none => none
        | some (r2, s2) => some (r1 ++ r2, s2) := by
  intro l1
  induction l1 with
  | nil =>
    intro l2 s
    simp only [List.nil_append, load_dentrys]
    cases load_dentrys f s l2 with
    | none => rfl
    | some pr => rfl
  | cons d l1 ih =>
    intro l2 s
    rw [List.cons_append, load_dentrys, load_dentrys]
    cases hf : f s (toI32 d.ino) with
    | none => simp only
    | some pr =>
      obtain ⟨i, s1⟩ := pr
      simp only
      rw [ih l2 s1]
      cases h1 : load_dentrys f s1 l1 with
      | none => simp only
      | some pr1 =>
        obtain ⟨r1, s2⟩ := pr1
        simp only
        cases h2 : load_dentrys f s2 l2 with
        | none => simp only
        | some pr2 => simp only [List.cons_append]

theorem strip_dentrys_cons (name : List Nat) (ino : Nat) (inode : Option newfs_inode)
    (ftype : Nat) (rest : List newfs_dentry) :
    strip_dentrys (newfs_dentry.mk name ino inode ftype :: rest)
      = newfs_dentry.mk name ino none ftype :: strip_dentrys rest := rfl

/-- Reading back a subtree whose image is on the device gives the mirrored
subtree. -/
theorem load_image (mx : Nat) :
    (∀ t : newfs_inode, ∀ (s : newfs_super) (depth : Nat), layout_ok s →
      s.max_ino = (mx : Int) → tree_ok mx 7 t →
      inode_on_disk s.inode_offset s.dev.size s.dev.data t → height t ≤ depth →
      ∃ s1, load_inode depth s (t.ino : Int) = some (mirror t, s1) ∧ same_volume s s1) ∧
    (∀ ds : List newfs_dentry, ∀ (s : newfs_super) (depth off : Nat), layout_ok s →
      s.max_ino = (mx : Int) → dentrys_ok mx 7 ds →
      dentrys_on_disk s.inode_offset s.dev.size s.dev.data off ds →
      height_dentrys ds ≤ depth →
      ∃ s1, load_dentrys (load_inode depth) s (strip_dentrys ds).reverse
          = some (mirror_dentrys ds, s1) ∧ same_volume s s1) := by
  apply tree_induction
  · intro ino size dir_cnt ftype tp ds bp hQ s depth hl hmx hok hd hh
    simp only [height] at hh
    obtain ⟨dep, rfl⟩ : ∃ dep, depth = dep + 1 := ⟨depth - 1, by omega⟩
    obtain ⟨s1, hr, hv1⟩ := read_inode_image s hl mx hmx ino size dir_cnt ftype tp ds bp hok hd
    obtain ⟨f1, f2, f3, f4⟩ := same_volume_fields hv1
    simp only [tree_ok] at hok
    simp only [inode_on_disk] at hd
    obtain ⟨s2, hld, hv2⟩ := hQ s1 dep (bp.getD 0 0 * 1024) (same_volume_layout hv1 hl)
      (by rw [f2, hmx]) hok.2.2.2.2.2.2.2.2.2 (by rw [f1, f3, f4]; exact hd.2.2) (by omega)
    refine ⟨s2, ?_, same_volume_trans hv1 hv2⟩
    simp only [load_inode, newfs_inode.ino, hr, hld, mirror]
  · intro s depth off _ _ _ _ _
    exact ⟨s, rfl, same_volume_refl s⟩
  · intro name ino ftype rest _ s depth off _ _ hok
    simp [dentrys_ok] at hok
  · intro name ino i ftype rest hP hQ s depth off hl hmx hok hd hh
    simp only [dentrys_ok] at hok
    obtain ⟨_, _, hino, _, hti, hrest⟩ := hok
    simp only [dentrys_on_disk] at hd
    obtain ⟨_, hdi, hdrest⟩ := hd
    simp only [height_dentrys] at hh
    obtain ⟨s1, hl1, hv1⟩ := hQ s depth (off + SIZEOF_DENTRY_D) hl hmx hrest hdrest (by omega)
    obtain ⟨f1, f2, f3, f4⟩ := same_volume_fields hv1
    obtain ⟨s2, hl2, hv2⟩ := hP s1 depth (same_volume_layout hv1 hl) (by rw [f2, hmx]) hti
      (by rw [f1, f3, f4]; exact hdi) (by omega)
    refine ⟨s2, ?_, same_volume_trans hv1 hv2⟩
    have hlt : i.ino < 2147483648 := by
      have := max_ino_le s hl mx hmx
      cases i with
      | mk a b c f tp ds0 bp =>
        simp only [tree_ok] at hti
        simp only [newfs_inode.ino]
        omega
    rw [strip_dentrys_cons, List.reverse_cons, load_dentrys_append, hl1]
    simp only [load_dentrys, newfs_dentry.ino, newfs_dentry.name, newfs_dentry.ftype]
    rw [hino, toI32_of_lt _ hlt, hl2]
    simp only [mirror_dentrys]


/-! ## Persisting a tree -/

theorem disk_read_congr (data data1 : Nat → Nat) (off n : Nat)
    (h : ∀ a, off ≤ a → a < off + n → data1 a = data a) :
    disk_read data1 off n = disk_read data off n := by
  unfold disk_read
  apply List.map_congr_left
  intro k hk
  exact h _ (by omega) (by have := List.mem_range.1 hk; omega)

theorem disk_write_outside (data : Nat → Nat) (off : Nat) (bytes : List Nat) (a : Nat)
    (h : a < off ∨ off + bytes.length ≤ a) : disk_write data off bytes a = data a := by
  unfold disk_write
  rw [if_neg (by omega)]

theorem disk_read_write_same (data : Nat → Nat) (off : Nat) (bytes : List Nat) :
    disk_read (disk_write data off bytes) off bytes.length = bytes := by
  apply List.ext_getElem?
  intro k
  by_cases hk : k < bytes.length
  · rw [disk_read_getElem? _ _ _ _ hk]
    unfold disk_write
    rw [if_pos (by omega), List.getD_eq_getElem?_getD]
    have e : off + k - off = k := by omega
    rw [e, List.getElem?_eq_getElem hk]
    rfl
  · rw [List.getElem?_eq_none (by simp; omega), List.getElem?_eq_none (by omega)]

theorem countP_flip (p q : Nat → Bool) (i : Nat) (hp : p i = true) (hq : q i = false)
    (hagree : ∀ j, j ≠ i → q j = p j) :
    ∀ l : List Nat, l.Nodup → i ∈ l → l.countP q + 1 = l.countP p := by
  intro l
  induction l with
  | nil => intro _ h; simp at h
  | cons x l ih =>
    intro hnd hi
    rw [List.nodup_cons] at hnd
    by_cases hx : x = i
    · subst hx
      have hsame : l.countP q = l.countP p := by
        apply List.countP_congr
        intro j hj
        have : j ≠ x := fun e => hnd.1 (e ▸ hj)
        rw [hagree j this]
      rw [List.countP_cons_of_neg _ _ (by simp [hq]), List.countP_cons_of_pos _ _ hp, hsame]
    · have hil : i ∈ l := by
        rcases List.mem_cons.1 hi with e | e
        · exact absurd e.symm hx
        · exact e
      have := ih hnd.2 hil
      by_cases hpx : p x = true
      · rw [List.countP_cons_of_pos _ _ hpx,
          List.countP_cons_of_pos _ _ (by rw [hagree x hx]; exact hpx)]
        omega
      · rw [List.countP_cons_of_neg _ _ hpx,
          List.countP_cons_of_neg _ _ (by rw [hagree x hx]; exact hpx)]
        exact this

theorem data_offset_pos (s : newfs_super) (hl : layout_ok s) (hmx : 0 < s.max_ino) :
    1 ≤ s.data_offset := by
  obtain ⟨h1, h2, h3, h4, h5, h6, h7, h8⟩ := hl
  omega

theorem block_used_range (s : newfs_super) (hl : layout_ok s) (hmx : 0 < s.max_ino) (b : Nat)
    (hb : block_used s b) :
    b ≠ 0 ∧ b * 1024 + 1024 ≤ s.dev.size ∧ s.data_offset * 1024 ≤ ((b * 1024 : Nat) : Int) ∧
    b < 2097152 := by
  obtain ⟨i, hi1, hi2, hi3, hi4⟩ := hb
  obtain ⟨h1, h2, h3, h4, h5, h6, h7, h8⟩ := hl
  refine ⟨?_, ?_, ?_, ?_⟩ <;> omega

/-- One successful run of the data-block allocator. -/
theorem alloc_block_step (s : newfs_super) (hl : layout_ok s) (hmx : 0 < s.max_ino)
    (hfree : 0 < free_blocks s) :
    ∃ (nb : Nat) (m : List Nat),
      newfs_alloc_data_block s = some ((nb : Int), { s with map_data := m }) ∧
      (nb : Int) ≠ -1 ∧ toU32 (nb : Int) = nb ∧ m.length = 1024 ∧
      block_used { s with map_data := m } nb ∧ ¬ block_used s nb ∧
      (∀ b, block_used s b → block_used { s with map_data := m } b) ∧
      free_blocks { s with map_data := m } + 1 = free_blocks s := by
  have hd0 := data_offset_pos s hl hmx
  obtain ⟨h1, h2, h3, h4, h5, h6, h7, h8⟩ := hl
  obtain ⟨v, m, hv, hpost⟩ := alloc_data_block_post s h8 (by
    intro i _ hi
    unfold is_int
    omega)
  rcases hpost with ⟨_, _, hall⟩ | ⟨i, hvi, hi1, hi2, hclear, _, hlen, hbits, _⟩
  · exfalso
    unfold free_blocks at hfree
    rw [List.countP_pos_iff] at hfree
    obtain ⟨j, hj, hpj⟩ := hfree
    simp only [Bool.and_eq_true, decide_eq_true_eq, Bool.not_eq_true'] at hpj
    have := hall j hpj.1 (List.mem_range.1 hj)
    rw [this] at hpj
    exact absurd hpj.2 (by simp)
  · refine ⟨(s.data_offset + (i : Int)).toNat, m, ?_, ?_, ?_, by rw [hlen, h8], ?_, ?_, ?_, ?_⟩
    · rw [hv, hvi, Int.toNat_of_nonneg (by omega)]
    · omega
    · rw [Int.toNat_of_nonneg (by omega)]
      unfold toU32
      omega
    · exact ⟨i, by simp only; omega, hi1, hi2, by simp only [hbits i]; simp⟩
    · rintro ⟨k, hk1, _, _, hk4⟩
      have : k = i := by omega
      subst this
      rw [hclear] at hk4
      cases hk4
    · rintro b ⟨k, hk1, hk2, hk3, hk4⟩
      exact ⟨k, hk1, hk2, hk3, by simp only [hbits k, hk4]; simp⟩
    · unfold free_blocks
      simp only
      apply countP_flip _ _ i
      · simp only [Bool.and_eq_true, decide_eq_true_eq, Bool.not_eq_true']; exact ⟨hi1, hclear⟩
      · simp only [hbits i]; simp
      · intro j hj
        simp only [hbits j, hj]
        simp
      · exact List.nodup_range 8192
      · exact List.mem_range.2 hi2


theorem inos_forget :
    (∀ t : newfs_inode, inos_of (forget_blocks t) = inos_of t) ∧
    (∀ ds : List newfs_dentry, inos_of_dentrys (forget_blocks_dentrys ds) = inos_of_dentrys ds) := by
  apply tree_induction
  · intro ino size dir_cnt ftype tp ds bp h
    simp only [forget_blocks, inos_of, h]
  · rfl
  · intro name ino ftype rest h
    simp only [forget_blocks_dentrys, inos_of_dentrys, h]
  · intro name ino i ftype rest h1 h2
    simp only [forget_blocks_dentrys, inos_of_dentrys, h1, h2]

theorem height_forget :
    (∀ t : newfs_inode, height (forget_blocks t) = height t) ∧
    (∀ ds : List newfs_dentry, height_dentrys (forget_blocks_dentrys ds) = height_dentrys ds) := by
  apply tree_induction
  · intro ino size dir_cnt ftype tp ds bp h
    simp only [forget_blocks, height, h]
  · rfl
  · intro name ino ftype rest h
    simp only [forget_blocks_dentrys, height_dentrys, h]
  · intro name ino i ftype rest h1 h2
    simp only [forget_blocks_dentrys, height_dentrys, h1, h2]

theorem inos_lt (mx mc : Nat) :
    (∀ t : newfs_inode, tree_ok mx mc t → ∀ i ∈ inos_of t, i < mx) ∧
    (∀ ds : List newfs_dentry, dentrys_ok mx mc ds → ∀ i ∈ inos_of_dentrys ds, i < mx) := by
  apply tree_induction
  · intro ino size dir_cnt ftype tp ds bp h hok i hi
    simp only [tree_ok] at hok
    simp only [inos_of, List.mem_cons] at hi
    rcases hi with e | e
    · rw [e]; exact hok.1
    · exact h hok.2.2.2.2.2.2.2.2.2 i e
  · intro _ i hi; simp [inos_of_dentrys] at hi
  · intro name ino ftype rest _ hok; simp [dentrys_ok] at hok
  · intro name ino i ftype rest h1 h2 hok j hj
    simp only [dentrys_ok] at hok
    simp only [inos_of_dentrys, List.mem_append] at hj
    rcases hj with e | e
    · exact h1 hok.2.2.2.2.1 j e
    · exact h2 hok.2.2.2.2.2 j e

theorem blocks_of_mem_self (ino size dir_cnt ftype : Nat) (tp : List Nat)
    (ds : List newfs_dentry) (bp : List Nat) (hdir : ftype = NFS_DIR)
    (hb0 : bp.getD 0 0 ≠ 0) :
    bp.getD 0 0 ∈ blocks_of (newfs_inode.mk ino size dir_cnt ftype tp ds bp) := by
  unfold blocks_of
  rw [if_pos ⟨hdir, hb0⟩]
  exact List.mem_append_left _ (List.mem_singleton.2 rfl)

theorem blocks_of_mem_dentrys (ino size dir_cnt ftype : Nat) (tp : List Nat)
    (ds : List newfs_dentry) (bp : List Nat) (b : Nat) (hb : b ∈ blocks_of_dentrys ds) :
    b ∈ blocks_of (newfs_inode.mk ino size dir_cnt ftype tp ds bp) := by
  unfold blocks_of
  exact List.mem_append_right _ hb

/-- An image stays on the device while the records of its inodes and its
blocks are left alone. -/
theorem on_disk_frame (io : Int) (sz mx : Nat) (data data1 : Nat → Nat) :
    (∀ t : newfs_inode, tree_ok mx 7 t → inode_on_disk io sz data t →
      (∀ a, touches io (inos_of t) (blocks_of t) a → data1 a = data a) →
      inode_on_disk io sz data1 t) ∧
    (∀ ds : List newfs_dentry, ∀ pb k : Nat, dentrys_ok mx 7 ds → k + ds.length ≤ 7 →
      dentrys_on_disk io sz data (pb * 1024 + k * 136) ds →
      (∀ a, touches io (inos_of_dentrys ds) (blocks_of_dentrys ds) a → data1 a = data a) →
      (∀ a, pb * 1024 + k * 136 ≤ a → a < pb * 1024 + (k + ds.length) * 136 →
        data1 a = data a) →
      dentrys_on_disk io sz data1 (pb * 1024 + k * 136) ds) := by
  apply tree_induction
  · intro ino size dir_cnt ftype tp ds bp hQ hok hd hfr
    simp only [tree_ok] at hok
    obtain ⟨_, _, _, _, _, _, _, hlen, hnd, hds⟩ := hok
    simp only [inode_on_disk] at hd ⊢
    obtain ⟨hrec, hblk, hdd⟩ := hd
    refine ⟨?_, hblk, ?_⟩
    · rw [← hrec]
      apply disk_read_congr
      intro a ha1 ha2
      apply hfr
      left
      exact ⟨ino, by simp [inos_of], ha1, by unfold SIZEOF_INODE_D at ha2; exact ha2⟩
    · by_cases hne : ds = []
      · subst hne; simp [dentrys_on_disk]
      · have hdir : ftype = NFS_DIR := by
          by_contra h; exact hne (hnd h)
        obtain ⟨hb0, _⟩ := hblk hne
        have h0 := hQ (bp.getD 0 0) 0 hds (by omega) (by simpa using hdd)
          (by
            intro a ha
            apply hfr
            rcases ha with ⟨i, hi, hia⟩ | ⟨b, hb, hba⟩
            · left; exact ⟨i, by simp [inos_of, hi], hia⟩
            · right; exact ⟨b, blocks_of_mem_dentrys ino size dir_cnt ftype tp ds bp b hb, hba⟩)
          (by
            intro a ha1 ha2
            apply hfr
            right
            refine ⟨bp.getD 0 0, blocks_of_mem_self ino size dir_cnt ftype tp ds bp hdir hb0, ?_⟩
            unfold in_block
            constructor <;> omega)
        simpa using h0
  · intro pb k _ _ _ _ _
    simp [dentrys_on_disk]
  · intro name ino ftype rest _ pb k hok
    simp [dentrys_ok] at hok
  · intro name ino i ftype rest hP hQ pb k hok hk hd hfr hrecs
    simp only [dentrys_ok] at hok
    obtain ⟨_, _, _, _, hti, hrest⟩ := hok
    simp only [List.length_cons] at hk hrecs
    simp only [dentrys_on_disk] at hd ⊢
    obtain ⟨hrec, hdi, hdrest⟩ := hd
    refine ⟨?_, ?_, ?_⟩
    · rw [← hrec]
      apply disk_read_congr
      intro a ha1 ha2
      unfold SIZEOF_DENTRY_D at ha2
      exact hrecs a ha1 (by omega)
    · apply hP hti hdi
      intro a ha
      apply hfr
      rcases ha with ⟨j, hj, hja⟩ | ⟨b, hb, hba⟩
      · left; exact ⟨j, by simp [inos_of_dentrys, hj], hja⟩
      · right; exact ⟨b, by simp [blocks_of_dentrys, hb], hba⟩
    · have e : pb * 1024 + k * 136 + SIZEOF_DENTRY_D = pb * 1024 + (k + 1) * 136 := by
        unfold SIZEOF_DENTRY_D; ring
      rw [e] at hdrest ⊢
      apply hQ pb (k + 1) hrest (by omega) hdrest
      · intro a ha
        apply hfr
        rcases ha with ⟨j, hj, hja⟩ | ⟨b, hb, hba⟩
        · left; exact ⟨j, by simp [inos_of_dentrys, hj], hja⟩
        · right; exact ⟨b, by simp [blocks_of_dentrys, hb], hba⟩
      · intro a ha1 ha2
        exact hrecs a (by omega) (by omega)


theorem ino_rec_disjoint (io : Int) (hio : 0 ≤ io) (i j a : Nat) (hij : i ≠ j)
    (hi : in_ino_rec io i a) : ¬ in_ino_rec io j a := by
  unfold in_ino_rec ino_addr at *
  intro hj
  rcases Nat.lt_or_gt_of_ne hij with h | h <;> omega

theorem block_disjoint (b c a : Nat) (hbc : b ≠ c) (hb : in_block b a) : ¬ in_block c a := by
  unfold in_block at *
  intro hc
  rcases Nat.lt_or_gt_of_ne hbc with h | h <;> omega

theorem block_not_ino (s : newfs_super) (hl : layout_ok s) (mx : Nat)
    (hmx : s.max_ino = (mx : Int)) (b i a : Nat) (hb : block_used s b) (hi : i < mx)
    (hba : in_block b a) : ¬ in_ino_rec s.inode_offset i a := by
  obtain ⟨e1, e2, e3⟩ := ino_addr_bound s hl mx i hmx hi
  obtain ⟨_, _, r3, _⟩ := block_used_range s hl (by rw [hmx]; omega) b hb
  unfold in_block at hba
  unfold in_ino_rec
  intro hia
  omega

theorem length_forget : ∀ ds : List newfs_dentry,
    (forget_blocks_dentrys ds).length = ds.length := by
  intro ds
  induction ds with
  | nil => rfl
  | cons d rest ih =>
    cases d with
    | mk name ino inode ftype =>
      cases inode with
      | none => simp only [forget_blocks_dentrys, List.length_cons, ih]
      | some i => simp only [forget_blocks_dentrys, List.length_cons, ih]

theorem write_rec (d : ddriver) (off n : Nat) (bytes : List Nat) (hb : bytes.length = n)
    (h : off + n ≤ d.size) (h512 : d.size % 512 = 0) (hsz : d.size < 2147483648) :
    ∃ d1, newfs_driver_write d (off : Int) bytes (n : Int) = some (NFS_ERROR_NONE, d1) ∧
      d1.size = d.size ∧ d1.data = disk_write d.data off bytes := by
  subst hb
  rw [driver_write_spec d off bytes (span_ok_of_le d _ _ h h512 hsz)]
  exact ⟨_, rfl, rfl, rfl⟩

theorem sync_post_layout {s s1 : newfs_super} {bl bl1 : List Nat} {n : Nat}
    (h : sync_post s bl n s1 bl1) (hl : layout_ok s) :
    layout_ok s1 ∧ s1.max_ino = s.max_ino ∧ s1.inode_offset = s.inode_offset := by
  have hf := h.fields
  refine ⟨?_, by rw [hf], by rw [hf]⟩
  obtain ⟨h1, h2, h3, h4, h5, h6, h7, h8⟩ := hl
  have e1 : s1.inode_offset = s.inode_offset := by rw [hf]
  have e2 : s1.max_ino = s.max_ino := by rw [hf]
  have e3 : s1.data_blks = s.data_blks := by rw [hf]
  have e4 : s1.data_offset = s.data_offset := by rw [hf]
  unfold layout_ok
  rw [e1, e2, e3, e4, h.size]
  exact ⟨h1, h2, h3, h4, h5, h6, h7, h.len⟩

/-- The block step of `newfs_sync_inode`. -/
theorem sync_block_step (s : newfs_super) (hl : layout_ok s) (hmx : 0 < s.max_ino)
    (ftype dir_cnt : Nat) (bp : List Nat) (hlen : bp.length = NFS_DATA_PER_FILE)
    (hbps : ∀ b ∈ bp, b < 4294967296)
    (hused : ftype = NFS_DIR ∧ bp.getD 0 0 ≠ 0 → block_used s (bp.getD 0 0))
    (hfree : (if ftype = NFS_DIR ∧ dir_cnt > 0 ∧ bp.getD 0 0 = 0 then 1 else 0)
      ≤ free_blocks s) :
    ∃ (bp1 m : List Nat),
      newfs_sync_inode_block s ftype dir_cnt bp = some (Sum.inr (bp1, { s with map_data := m })) ∧
      m.length = 1024 ∧
      (∀ b, block_used s b → block_used { s with map_data := m } b) ∧
      free_blocks { s with map_data := m }
        + (if ftype = NFS_DIR ∧ dir_cnt > 0 ∧ bp.getD 0 0 = 0 then 1 else 0) = free_blocks s ∧
      bp1.length = NFS_DATA_PER_FILE ∧ (∀ b ∈ bp1, b < 4294967296) ∧
      (ftype = NFS_DIR ∧ dir_cnt > 0 → bp1.getD 0 0 ≠ 0) ∧
      (ftype = NFS_DIR ∧ bp1.getD 0 0 ≠ 0 → block_used { s with map_data := m } (bp1.getD 0 0)) ∧
      (bp1.getD 0 0 = bp.getD 0 0 ∨ ¬ block_used s (bp1.getD 0 0)) := by
  unfold newfs_sync_inode_block
  by_cases hc : ftype = NFS_DIR ∧ dir_cnt > 0 ∧ bp.getD 0 0 = 0
  · rw [if_pos hc] at hfree
    rw [if_pos hc.1, if_pos hc.2]
    obtain ⟨nb, m, ha, hne, hu32, hml, hnew, hnot, hmono, hfr⟩ :=
      alloc_block_step s hl hmx (by omega)
    rw [ha]
    simp only [hne, if_false, hu32]
    have hnb0 : nb ≠ 0 :=
      (block_used_range { s with map_data := m }
        (by
          obtain ⟨h1, h2, h3, h4, h5, h6, h7, h8⟩ := hl
          exact ⟨h1, h2, h3, h4, h5, h6, h7, hml⟩) hmx nb hnew).1
    have hnblt : nb < 2097152 :=
      (block_used_range { s with map_data := m }
        (by
          obtain ⟨h1, h2, h3, h4, h5, h6, h7, h8⟩ := hl
          exact ⟨h1, h2, h3, h4, h5, h6, h7, hml⟩) hmx nb hnew).2.2.2
    have hget : (bp.set 0 nb).getD 0 0 = nb := by
      unfold NFS_DATA_PER_FILE at hlen
      match bp, hlen with
      | [b0, b1, b2, b3, b4, b5], _ => rfl
    refine ⟨bp.set 0 nb, m, rfl, hml, hmono, ?_, by simp [hlen], ?_, ?_, ?_, ?_⟩
    · rw [if_pos hc]; exact hfr
    · intro b hb
      rcases List.mem_or_eq_of_mem_set hb with h | h
      · exact hbps b h
      · rw [h]; omega
    · intro _; rw [hget]; exact hnb0
    · intro _; rw [hget]; exact hnew
    · right; rw [hget]; exact hnot
  · have hres : (if ftype = NFS_DIR then
          if dir_cnt > 0 ∧ bp.getD 0 0 = 0 then
            match newfs_alloc_data_block s with
            | none => none
            | some (block_no, s1) =>
              if block_no = -1 then some (Sum.inl s1)
              else some (Sum.inr (bp.set 0 (toU32 block_no), s1))
          else some (Sum.inr (bp, s))
        else some (Sum.inr (bp, s)))
        = some (Sum.inr (bp, { s with map_data := s.map_data })) := by
      by_cases hd : ftype = NFS_DIR
      · rw [if_pos hd, if_neg (fun h => hc ⟨hd, h⟩)]
      · rw [if_neg hd]
    refine ⟨bp, s.map_data, hres, hl.2.2.2.2.2.2.2, fun b hb => hb, ?_, hlen, hbps, ?_, ?_,
      Or.inl rfl⟩
    · rw [if_neg hc]; exact Nat.add_zero _
    · intro h hb0
      exact hc ⟨h.1, h.2, hb0⟩
    · intro h; exact hused h


theorem sync_dentrys_ok_nil (mx : Nat) : sync_dentrys_ok mx [] := by
  intro s pb k hl hmx _ _ _ _ _ _ _ _
  refine ⟨[], s, rfl, rfl, by simp [dentrys_ok], ?_, fun a _ _ => rfl, by simp [dentrys_on_disk]⟩
  exact
    { fields := rfl
      size := rfl
      len := hl.2.2.2.2.2.2.2
      mono := fun b hb => hb
      free := by simp [blocks_needed_dentrys]
      nodup := by simp [blocks_of_dentrys]
      used := by simp [blocks_of_dentrys]
      fresh := by simp [blocks_of_dentrys] }

theorem sync_dentrys_ok_cons (mx : Nat) (name : List Nat) (ino : Nat) (i : newfs_inode)
    (ftype : Nat) (rest : List newfs_dentry) (hP : sync_inode_ok mx i)
    (hQ : sync_dentrys_ok mx rest) :
    sync_dentrys_ok mx (newfs_dentry.mk name ino (some i) ftype :: rest) := by
  intro s pb k hl hmx hok hnd_i hnd_b hused hpb hpbn hk hneed
  simp only [dentrys_ok] at hok
  obtain ⟨hn0, hnl, hino, hft, hti, hrest⟩ := hok
  simp only [inos_of_dentrys] at hnd_i
  simp only [blocks_of_dentrys] at hnd_b hused hpbn
  simp only [blocks_needed_dentrys] at hneed
  simp only [List.length_cons] at hk
  have hmxpos : 0 < s.max_ino := by
    have := (inos_lt mx 7).1 i hti i.ino (by cases i; simp [inos_of, newfs_inode.ino])
    rw [hmx]; omega
  obtain ⟨r1, r2, r3, r4⟩ := block_used_range s hl hmxpos pb hpb
  -- 1. the record of the dentry
  obtain ⟨d1, hw, hd1s, hd1d⟩ := write_rec s.dev (pb * 1024 + k * 136) 136
    (newfs_dentry_d.bytes { fname := buf_of name MAX_NAME_LEN, ftype := ftype, ino := ino })
    (dentry_d_bytes_length _) (by omega) hl.2.2.2.2.2.2.1 hl.2.2.2.2.2.1
  have hl1 : layout_ok { s with dev := d1 } := by
    obtain ⟨h1, h2, h3, h4, h5, h6, h7, h8⟩ := hl
    unfold layout_ok
    simp only [hd1s]
    exact ⟨h1, h2, h3, h4, h5, h6, h7, h8⟩
  -- 2. the subtree of the child
  obtain ⟨i1, s2, hs2, hfi, hti1, hpost2, hfr2, hdisk2⟩ := hP { s with dev := d1 } hl1 hmx hti
    (List.Nodup.of_append_left hnd_i) (List.Nodup.of_append_left hnd_b)
    (fun b hb => hused b (List.mem_append_left _ hb))
    (by
      have : free_blocks { s with dev := d1 } = free_blocks s := rfl
      rw [this]; omega)
  obtain ⟨hl2, hmx2, hio2⟩ := sync_post_layout hpost2 hl1
  -- 3. the rest of the chain
  have hused2 : ∀ b ∈ blocks_of_dentrys rest, block_used s2 b := fun b hb =>
    hpost2.mono b (hused b (List.mem_append_right _ hb))
  obtain ⟨rest1, s3, hs3, hfr, hrest1, hpost3, hfr3, hdisk3⟩ := hQ s2 pb (k + 1) hl2
    (by rw [hmx2]; exact hmx) hrest (List.Nodup.of_append_right hnd_i)
    (List.Nodup.of_append_right hnd_b) hused2 (hpost2.mono pb hpb)
    (fun h => hpbn (List.mem_append_right _ h)) (by omega)
    (by
      have e1 := hpost2.free
      have : free_blocks { s with dev := d1 } = free_blocks s := rfl
      rw [this] at e1
      omega)
  obtain ⟨hl3, hmx3, hio3⟩ := sync_post_layout hpost3 hl2
  have hsize2 : s2.dev.size = s.dev.size := by rw [hpost2.size]; exact hd1s
  have hio2' : s2.inode_offset = s.inode_offset := hio2
  -- facts about the blocks
  have hpb_i1 : pb ∉ blocks_of i1 := by
    intro h
    rcases hpost2.fresh pb h with h1 | h1
    · exact hpbn (List.mem_append_left _ h1)
    · exact h1 hpb
  have hpb_rest1 : pb ∉ blocks_of_dentrys rest1 := by
    intro h
    rcases hpost3.fresh pb h with h1 | h1
    · exact hpbn (List.mem_append_right _ h1)
    · exact h1 (hpost2.mono pb hpb)
  have hdisj : ∀ b, b ∈ blocks_of i1 → b ∉ blocks_of_dentrys rest1 := by
    intro b hb1 hb2
    rcases hpost3.fresh b hb2 with h1 | h1
    · rcases hpost2.fresh b hb1 with h2 | h2
      · exact (List.nodup_append.1 hnd_b).2.2 h2 h1
      · exact h2 (hused b (List.mem_append_right _ h1))
    · exact h1 (hpost2.used b hb1)
  have hinos_i1 : inos_of i1 = inos_of i := by
    rw [← (inos_forget).1 i1, hfi, (inos_forget).1 i]
  have hinos_rest1 : inos_of_dentrys rest1 = inos_of_dentrys rest := by
    rw [← (inos_forget).2 rest1, hfr, (inos_forget).2 rest]
  have hi1ino : i1.ino = i.ino := by
    have := congrArg newfs_inode.ino hfi
    cases i; cases i1
    simpa [forget_blocks, newfs_inode.ino] using this
  have hlen1 : rest1.length = rest.length := by
    rw [← length_forget rest1, hfr, length_forget]
  refine ⟨newfs_dentry.mk name ino (some i1) ftype :: rest1, s3, ?_, ?_, ?_, ?_, ?_, ?_⟩
  · -- the code
    rw [newfs_sync_dentrys]
    have e136 : ((SIZEOF_DENTRY_D : Nat) : Int) = ((136 : Nat) : Int) := rfl
    rw [e136, hw]
    simp only [ne_eq, not_true_eq_false, if_false]
    rw [hs2]
    simp only
    have eoff : toI32 (toU32 (((pb * 1024 + k * 136 : Nat) : Int) + ((136 : Nat) : Int)))
        = ((pb * 1024 + (k + 1) * 136 : Nat) : Int) := by
      have e : ((pb * 1024 + k * 136 : Nat) : Int) + ((136 : Nat) : Int)
          = ((pb * 1024 + (k + 1) * 136 : Nat) : Int) := by push_cast; ring
      rw [e]
      apply toI32_toU32 <;> omega
    rw [eoff, hs3]
  · simp only [forget_blocks_dentrys, hfi, hfr]
  · simp only [dentrys_ok]
    exact ⟨hn0, hnl, by rw [hi1ino]; exact hino, hft, hti1, hrest1⟩
  · simp only [blocks_of_dentrys, blocks_needed_dentrys]
    exact
      { fields := by
          have e2 := hpost2.fields
          have e3 := hpost3.fields
          rw [e3, e2]
        size := by rw [hpost3.size, hsize2]
        len := hpost3.len
        mono := fun b hb => hpost3.mono b (hpost2.mono b hb)
        free := by
          have e2 := hpost2.free
          have e3 := hpost3.free
          have : free_blocks { s with dev := d1 } = free_blocks s := rfl
          rw [this] at e2
          omega
        nodup := List.nodup_append.2 ⟨hpost2.nodup, hpost3.nodup, fun {b} hb1 hb2 => hdisj b hb1 hb2⟩
        used := by
          intro b hb
          rcases List.mem_append.1 hb with h | h
          · exact hpost3.mono b (hpost2.used b h)
          · exact hpost3.used b h
        fresh := by
          intro b hb
          rcases List.mem_append.1 hb with h | h
          · rcases hpost2.fresh b h with h1 | h1
            · exact Or.inl (List.mem_append_left _ h1)
            · exact Or.inr h1
          · rcases hpost3.fresh b h with h1 | h1
            · exact Or.inl (List.mem_append_right _ h1)
            · exact Or.inr (fun hb0 => h1 (hpost2.mono b hb0)) }
  · -- frame
    intro a hnt hnr
    simp only [List.length_cons] at hnr
    have h3 : s3.dev.data a = s2.dev.data a := by
      apply hfr3 a
      · rw [hio2']
        rintro (⟨j, hj, hja⟩ | ⟨b, hb, hba⟩)
        · exact hnt (Or.inl ⟨j, by simp [inos_of_dentrys, hj], hja⟩)
        · exact hnt (Or.inr ⟨b, by simp [blocks_of_dentrys, hb], hba⟩)
      · intro h; apply hnr; constructor <;> omega
    have h2 : s2.dev.data a = d1.data a := by
      apply hfr2 a
      rintro (⟨j, hj, hja⟩ | ⟨b, hb, hba⟩)
      · exact hnt (Or.inl ⟨j, by simp [inos_of_dentrys, hj], hja⟩)
      · exact hnt (Or.inr ⟨b, by simp [blocks_of_dentrys, hb], hba⟩)
    rw [h3, h2, hd1d]
    apply disk_write_outside
    rw [dentry_d_bytes_length]
    by_contra hcon
    apply hnr
    constructor <;> omega
  · -- the image
    simp only [dentrys_on_disk]
    have hrec_in_pb : ∀ a, pb * 1024 + k * 136 ≤ a → a < pb * 1024 + k * 136 + 136 →
        in_block pb a := by
      intro a h1 h2; unfold in_block; constructor <;> omega
    have hkeep3 : ∀ a, in_block pb a → a < pb * 1024 + (k + 1) * 136 →
        s3.dev.data a = s2.dev.data a := by
      intro a hba hlt
      apply hfr3 a
      · rintro (⟨j, hj, hja⟩ | ⟨b, hb, hbb⟩)
        · have hjlt : j < mx := (inos_lt mx 7).2 rest hrest j hj
          rw [hio2'] at hja
          exact block_not_ino s hl mx hmx pb j a hpb hjlt hba hja
        · have : b ≠ pb := fun e => hpb_rest1 (e ▸ hb)
          exact block_disjoint b pb a this hbb hba
      · intro h; omega
    have hkeep2 : ∀ a, in_block pb a → s2.dev.data a = d1.data a := by
      intro a hba
      apply hfr2 a
      rintro (⟨j, hj, hja⟩ | ⟨b, hb, hbb⟩)
      · have hjlt : j < mx := (inos_lt mx 7).1 i hti j hj
        exact block_not_ino s hl mx hmx pb j a hpb hjlt hba hja
      · have : b ≠ pb := fun e => hpb_i1 (e ▸ hb)
        exact block_disjoint b pb a this hbb hba
    refine ⟨?_, ?_, ?_⟩
    · have : disk_read s3.dev.data (pb * 1024 + k * 136) SIZEOF_DENTRY_D
          = disk_read d1.data (pb * 1024 + k * 136) SIZEOF_DENTRY_D := by
        apply disk_read_congr
        intro a h1 h2
        unfold SIZEOF_DENTRY_D at h2
        rw [hkeep3 a (hrec_in_pb a h1 h2) (by omega), hkeep2 a (hrec_in_pb a h1 h2)]
      rw [this, hd1d]
      have e := disk_read_write_same s.dev.data (pb * 1024 + k * 136)
        (newfs_dentry_d.bytes { fname := buf_of name MAX_NAME_LEN, ftype := ftype, ino := ino })
      rw [dentry_d_bytes_length] at e
      exact e
    · have hd2 : inode_on_disk s.inode_offset s.dev.size s2.dev.data i1 := by
        simpa [hd1s] using hdisk2
      apply (on_disk_frame s.inode_offset s.dev.size mx s2.dev.data s3.dev.data).1 i1 hti1 hd2
      intro a ha
      apply hfr3 a
      · rw [hio2']
        rintro (⟨j, hj, hja⟩ | ⟨b, hb, hbb⟩)
        · rcases ha with ⟨j2, hj2, hja2⟩ | ⟨b2, hb2, hbb2⟩
          · rw [hinos_i1] at hj2
            have hne : j2 ≠ j := fun e =>
              (List.nodup_append.1 hnd_i).2.2 hj2 (e ▸ hj)
            exact ino_rec_disjoint s.inode_offset hl.1 j2 j a hne hja2 hja
          · have hjlt : j < mx := (inos_lt mx 7).2 rest hrest j hj
            have hu : block_used s2 b2 := hpost2.used b2 hb2
            rw [← hio2'] at hja
            exact block_not_ino s2 hl2 mx (by rw [hmx2]; exact hmx) b2 j a hu hjlt hbb2 hja
        · rcases ha with ⟨j2, hj2, hja2⟩ | ⟨b2, hb2, hbb2⟩
          · rw [hinos_i1] at hj2
            have hjlt : j2 < mx := (inos_lt mx 7).1 i hti j2 hj2
            have hu : block_used s3 b := hpost3.used b hb
            have hio3' : s3.inode_offset = s.inode_offset := by rw [hio3, hio2']
            rw [← hio3'] at hja2
            exact block_not_ino s3 hl3 mx (by rw [hmx3, hmx2]; exact hmx) b j2 a hu hjlt hbb hja2
          · have hne : b2 ≠ b := fun e => hdisj b2 hb2 (e ▸ hb)
            exact block_disjoint b2 b a hne hbb2 hbb
      · rintro ⟨h1, h2⟩
        rcases ha with ⟨j2, hj2, hja2⟩ | ⟨b2, hb2, hbb2⟩
        · rw [hinos_i1] at hj2
          have hjlt : j2 < mx := (inos_lt mx 7).1 i hti j2 hj2
          have hba : in_block pb a := by unfold in_block; constructor <;> omega
          exact block_not_ino s hl mx hmx pb j2 a hpb hjlt hba hja2
        · have hne : b2 ≠ pb := fun e => hpb_i1 (e ▸ hb2)
          have hba : in_block pb a := by unfold in_block; constructor <;> omega
          exact block_disjoint b2 pb a hne hbb2 hba
    · have e : pb * 1024 + k * 136 + SIZEOF_DENTRY_D = pb * 1024 + (k + 1) * 136 := by
        unfold SIZEOF_DENTRY_D; ring
      rw [e]
      simpa [hio2', hsize2] using hdisk3


theorem sync_inode_ok_mk (mx : Nat) (ino size dir_cnt ftype : Nat) (tp : List Nat)
    (ds : List newfs_dentry) (bp : List Nat) (hQ : sync_dentrys_ok mx ds) :
    sync_inode_ok mx (newfs_inode.mk ino size dir_cnt ftype tp ds bp) := by
  intro s hl hmx hok hnd_i hnd_b hused hneed
  simp only [tree_ok] at hok
  obtain ⟨hino, hsize, hft, htp, hbp, hbps, hcnt, hlen, hnd, hds⟩ := hok
  simp only [inos_of, List.nodup_cons] at hnd_i
  simp only [blocks_needed] at hneed
  have hmxpos : 0 < s.max_ino := by rw [hmx]; omega
  have hmx2 := max_ino_le s hl mx hmx
  -- 1. the first block
  obtain ⟨bp1, m, hblk, hml, hmono1, hfree1, hbp1, hbps1, hb1ne, hb1used, hb1fresh⟩ :=
    sync_block_step s hl hmxpos ftype dir_cnt bp hbp hbps
      (fun h => hused _ (blocks_of_mem_self ino size dir_cnt ftype tp ds bp h.1 h.2))
      (by omega)
  have hl1 : layout_ok { s with map_data := m } := by
    obtain ⟨h1, h2, h3, h4, h5, h6, h7, h8⟩ := hl
    exact ⟨h1, h2, h3, h4, h5, h6, h7, hml⟩
  -- 2. the record of the inode
  have hti : toI32 ino = (ino : Int) := toI32_of_lt _ (by omega)
  have htu : toU32 (toI32 ino) = ino := by rw [hti]; exact toU32_natCast _ (by omega)
  obtain ⟨e1, e2, e3⟩ := ino_addr_bound s hl mx ino hmx hino
  obtain ⟨d2, hw, hd2s, hd2d⟩ := write_rec s.dev (ino_addr s.inode_offset ino) 168
    (newfs_inode_d.bytes
      { ino := ino, size := size, dir_cnt := dir_cnt, ftype := ftype, target_path := tp,
        block_pointer := bp1 })
    (inode_d_bytes_length _) e2 hl.2.2.2.2.2.2.1 hl.2.2.2.2.2.1
  have hofs : NFS_INO_OFS { s with map_data := m } (toI32 ino)
      = ((ino_addr s.inode_offset ino : Nat) : Int) := by
    rw [hti]
    exact ino_ofs_eq { s with map_data := m } hl1 mx ino hmx hino
  have hl2 : layout_ok { s with map_data := m, dev := d2 } := by
    obtain ⟨h1, h2, h3, h4, h5, h6, h7, h8⟩ := hl
    unfold layout_ok
    simp only [hd2s]
    exact ⟨h1, h2, h3, h4, h5, h6, h7, hml⟩
  have hrecord : ∀ data1 : Nat → Nat,
      (∀ a, in_ino_rec s.inode_offset ino a → data1 a = d2.data a) →
      disk_read data1 (ino_addr s.inode_offset ino) SIZEOF_INODE_D
        = newfs_inode_d.bytes
          { ino := ino, size := size, dir_cnt := dir_cnt, ftype := ftype, target_path := tp,
            block_pointer := bp1 } := by
    intro data1 h
    have : disk_read data1 (ino_addr s.inode_offset ino) SIZEOF_INODE_D
        = disk_read d2.data (ino_addr s.inode_offset ino) SIZEOF_INODE_D := by
      apply disk_read_congr
      intro a h1 h2
      exact h a ⟨h1, by unfold SIZEOF_INODE_D at h2; exact h2⟩
    rw [this, hd2d]
    have e := disk_read_write_same s.dev.data (ino_addr s.inode_offset ino)
      (newfs_inode_d.bytes
        { ino := ino, size := size, dir_cnt := dir_cnt, ftype := ftype, target_path := tp,
          block_pointer := bp1 })
    rw [inode_d_bytes_length] at e
    exact e
  have hcode : ∀ (res : Option (Int × newfs_inode × newfs_super)),
      (if ftype = NFS_DIR then
        if bp1.getD 0 0 ≠ 0 then
          match newfs_sync_dentrys { s with map_data := m, dev := d2 } ds
              (toI32 (bp1.getD 0 0 * NFS_BLKS_SZ)) with
          | none => none
          | some (r1, dentrys1, s3) =>
            some (r1, newfs_inode.mk ino size dir_cnt ftype tp dentrys1 bp1, s3)
        else
          some (NFS_ERROR_NONE, newfs_inode.mk ino size dir_cnt ftype tp ds bp1,
            { s with map_data := m, dev := d2 })
      else
        some (NFS_ERROR_NONE, newfs_inode.mk ino size dir_cnt ftype tp ds bp1,
          { s with map_data := m, dev := d2 })) = res →
      newfs_sync_inode s (newfs_inode.mk ino size dir_cnt ftype tp ds bp) = res := by
    intro res hres
    rw [newfs_sync_inode, hblk]
    simp only [htu]
    have e168 : ((SIZEOF_INODE_D : Nat) : Int) = ((168 : Nat) : Int) := rfl
    rw [hofs, e168]
    have hw' : newfs_driver_write ({ s with map_data := m } : newfs_super).dev
        ((ino_addr s.inode_offset ino : Nat) : Int)
        (newfs_inode_d.bytes
          { ino := ino, size := size, dir_cnt := dir_cnt, ftype := ftype, target_path := tp,
            block_pointer := bp1 }) ((168 : Nat) : Int) = some (NFS_ERROR_NONE, d2) := hw
    rw [hw']
    simp only [ne_eq, not_true_eq_false, if_false]
    exact hres
  by_cases hloop : ftype = NFS_DIR ∧ bp1.getD 0 0 ≠ 0
  · -- the children are written
    obtain ⟨hdir, hb0⟩ := hloop
    have hpb := hb1used ⟨hdir, hb0⟩
    have hpb2 : block_used { s with map_data := m, dev := d2 } (bp1.getD 0 0) := hpb
    obtain ⟨r1, r2, r3, r4⟩ := block_used_range { s with map_data := m } hl1 hmxpos _ hpb
    have hused_ds : ∀ b ∈ blocks_of_dentrys ds, block_used s b := fun b hb =>
      hused b (blocks_of_mem_dentrys ino size dir_cnt ftype tp ds bp b hb)
    have hpbn : bp1.getD 0 0 ∉ blocks_of_dentrys ds := by
      intro h
      rcases hb1fresh with h1 | h1
      · rw [h1] at h hb0
        unfold blocks_of at hnd_b
        rw [if_pos ⟨hdir, hb0⟩] at hnd_b
        exact (List.nodup_append.1 hnd_b).2.2 (List.mem_singleton.2 rfl) h
      · exact h1 (hused_ds _ h)
    have hnd_b_ds : (blocks_of_dentrys ds).Nodup := by
      unfold blocks_of at hnd_b
      exact List.Nodup.of_append_right hnd_b
    obtain ⟨ds1, s3, hs3, hfds, hds1, hpost3, hfr3, hdisk3⟩ :=
      hQ { s with map_data := m, dev := d2 } (bp1.getD 0 0) 0 hl2 hmx hds hnd_i.2 hnd_b_ds
        (fun b hb => hmono1 b (hused_ds b hb)) hpb2 hpbn (by omega)
        (by
          have : free_blocks { s with map_data := m, dev := d2 }
              = free_blocks { s with map_data := m } := rfl
          rw [this]; omega)
    obtain ⟨hl3, hmx3, hio3⟩ := sync_post_layout hpost3 hl2
    have hlen1 : ds1.length = ds.length := by
      rw [← length_forget ds1, hfds, length_forget]
    have hinos1 : inos_of_dentrys ds1 = inos_of_dentrys ds := by
      rw [← (inos_forget).2 ds1, hfds, (inos_forget).2 ds]
    have hpbn1 : bp1.getD 0 0 ∉ blocks_of_dentrys ds1 := by
      intro h
      rcases hpost3.fresh _ h with h1 | h1
      · exact hpbn h1
      · exact h1 hpb2
    have hblocks1 : blocks_of (newfs_inode.mk ino size dir_cnt ftype tp ds1 bp1)
        = bp1.getD 0 0 :: blocks_of_dentrys ds1 := by
      unfold blocks_of
      rw [if_pos ⟨hdir, hb0⟩]
      rfl
    refine ⟨newfs_inode.mk ino size dir_cnt ftype tp ds1 bp1, s3, ?_, ?_, ?_, ?_, ?_, ?_⟩
    · apply hcode
      rw [if_pos hdir, if_pos hb0]
      have eoff : toI32 (bp1.getD 0 0 * NFS_BLKS_SZ)
          = ((bp1.getD 0 0 * 1024 + 0 * 136 : Nat) : Int) := by
        unfold NFS_BLKS_SZ
        rw [toI32_of_lt _ (by omega)]
        push_cast; ring
      rw [eoff, hs3]
    · simp only [forget_blocks, hfds]
    · simp only [tree_ok]
      exact ⟨hino, hsize, hft, htp, hbp1, hbps1, by rw [hlen1]; exact hcnt,
        by rw [hlen1]; exact hlen, fun h => absurd hdir h, hds1⟩
    · rw [hblocks1]
      simp only [blocks_needed]
      exact
        { fields := by
            have e3 := hpost3.fields
            rw [e3]
          size := by rw [hpost3.size]; exact hd2s
          len := hpost3.len
          mono := fun b hb => hpost3.mono b (hmono1 b hb)
          free := by
            have e3 := hpost3.free
            have : free_blocks { s with map_data := m, dev := d2 }
                = free_blocks { s with map_data := m } := rfl
            rw [this] at e3
            omega
          nodup := List.nodup_cons.2 ⟨hpbn1, hpost3.nodup⟩
          used := by
            intro b hb
            rcases List.mem_cons.1 hb with h | h
            · rw [h]; exact hpost3.mono _ hpb2
            · exact hpost3.used b h
          fresh := by
            intro b hb
            rcases List.mem_cons.1 hb with h | h
            · rw [h]
              rcases hb1fresh with h1 | h1
              · left
                rw [h1] at hb0 ⊢
                exact blocks_of_mem_self ino size dir_cnt ftype tp ds bp hdir hb0
              · exact Or.inr h1
            · rcases hpost3.fresh b h with h1 | h1
              · exact Or.inl (blocks_of_mem_dentrys ino size dir_cnt ftype tp ds bp b h1)
              · exact Or.inr (fun hb0 => h1 (hmono1 b hb0)) }
    · intro a hnt
      rw [hblocks1] at hnt
      have h3 : s3.dev.data a = d2.data a := by
        apply hfr3 a
        · rintro (⟨j, hj, hja⟩ | ⟨b, hb, hba⟩)
          · exact hnt (Or.inl ⟨j, by simp [inos_of, hj], hja⟩)
          · exact hnt (Or.inr ⟨b, List.mem_cons_of_mem _ hb, hba⟩)
        · rintro ⟨h1, h2⟩
          apply hnt
          right
          refine ⟨bp1.getD 0 0, List.mem_cons_self _ _, ?_⟩
          unfold in_block
          constructor <;> omega
      rw [h3, hd2d]
      apply disk_write_outside
      rw [inode_d_bytes_length]
      by_contra hcon
      apply hnt
      left
      refine ⟨ino, by simp [inos_of], ?_⟩
      unfold in_ino_rec
      constructor <;> omega
    · simp only [inode_on_disk]
      refine ⟨?_, fun _ => ⟨hb0, r2⟩, ?_⟩
      · apply hrecord
        intro a ha
        apply hfr3 a
        · rintro (⟨j, hj, hja⟩ | ⟨b, hb, hba⟩)
          · have hne : ino ≠ j := fun e => hnd_i.1 (e ▸ hj)
            exact ino_rec_disjoint s.inode_offset hl.1 ino j a hne ha hja
          · have hu : block_used s3 b := hpost3.used b hb
            have hio3' : s3.inode_offset = s.inode_offset := hio3
            rw [← hio3'] at ha
            exact block_not_ino s3 hl3 mx (by rw [hmx3]; exact hmx) b ino a hu hino hba ha
        · rintro ⟨h1, h2⟩
          have hba : in_block (bp1.getD 0 0) a := by unfold in_block; constructor <;> omega
          exact block_not_ino { s with map_data := m } hl1 mx hmx _ ino a hpb hino hba ha
      · have := hdisk3
        simp only [Nat.zero_mul, Nat.add_zero, hd2s] at this
        exact this
  · -- no child is written
    have hnil : ds = [] := by
      by_contra hne
      have hdir : ftype = NFS_DIR := by
        by_contra h; exact hne (hnd h)
      have hpos : dir_cnt > 0 := by
        rw [hcnt]; exact List.length_pos.2 hne
      exact hloop ⟨hdir, hb1ne ⟨hdir, hpos⟩⟩
    subst hnil
    have hblocks1 : blocks_of (newfs_inode.mk ino size dir_cnt ftype tp [] bp1)
        = if ftype = NFS_DIR ∧ bp1.getD 0 0 ≠ 0 then [bp1.getD 0 0] else [] := by
      unfold blocks_of
      simp [blocks_of_dentrys]
    rw [if_neg hloop] at hblocks1
    refine ⟨newfs_inode.mk ino size dir_cnt ftype tp [] bp1,
      { s with map_data := m, dev := d2 }, ?_, ?_, ?_, ?_, ?_, ?_⟩
    · apply hcode
      by_cases hdir : ftype = NFS_DIR
      · rw [if_pos hdir, if_neg (fun h => hloop ⟨hdir, h⟩)]
      · rw [if_neg hdir]
    · simp only [forget_blocks]
    · rw [tree_ok]
      exact ⟨hino, hsize, hft, htp, hbp1, hbps1, hcnt, hlen, fun _ => rfl, hds⟩
    · rw [hblocks1]
      simp only [blocks_needed, blocks_needed_dentrys, Nat.add_zero]
      exact
        { fields := rfl
          size := hd2s
          len := hml
          mono := hmono1
          free := hfree1
          nodup := List.nodup_nil
          used := by simp
          fresh := by simp }
    · intro a hnt
      show d2.data a = s.dev.data a
      rw [hd2d]
      apply disk_write_outside
      rw [inode_d_bytes_length]
      by_contra hcon
      apply hnt
      left
      refine ⟨ino, by simp [inos_of], ?_⟩
      unfold in_ino_rec
      constructor <;> omega
    · simp only [inode_on_disk, dentrys_on_disk]
      refine ⟨?_, fun h => absurd rfl h, trivial⟩
      apply hrecord
      intro a _
      rfl

/-- Persisting a well-formed subtree leaves its image on the device. -/
theorem sync_image (mx : Nat) :
    (∀ t : newfs_inode, sync_inode_ok mx t) ∧ (∀ ds : List newfs_dentry, sync_dentrys_ok mx ds) := by
  apply tree_induction
  · intro ino size dir_cnt ftype tp ds bp h
    exact sync_inode_ok_mk mx ino size dir_cnt ftype tp ds bp h
  · exact sync_dentrys_ok_nil mx
  · intro name ino ftype rest _ s pb k _ _ hok
    simp [dentrys_ok] at hok
  · intro name ino i ftype rest h1 h2
    exact sync_dentrys_ok_cons mx name ino i ftype rest h1 h2


set_option maxRecDepth 100000

theorem forget_dentrys_append : ∀ (a b : List newfs_dentry),
    forget_blocks_dentrys (a ++ b) = forget_blocks_dentrys a ++ forget_blocks_dentrys b := by
  intro a
  induction a with
  | nil => intro b; rfl
  | cons d rest ih =>
    intro b
    cases d with
    | mk name ino inode ftype =>
      cases inode with
      | none => simp only [List.cons_append, forget_blocks_dentrys, List.append_eq, ih]
      | some i => simp only [List.cons_append, forget_blocks_dentrys, List.append_eq, ih]

theorem forget_mirror :
    (∀ t : newfs_inode, forget_blocks (mirror t) = mirror (forget_blocks t)) ∧
    (∀ ds : List newfs_dentry,
      forget_blocks_dentrys (mirror_dentrys ds) = mirror_dentrys (forget_blocks_dentrys ds)) := by
  apply tree_induction
  · intro ino size dir_cnt ftype tp ds bp h
    simp only [mirror, forget_blocks, h]
  · rfl
  · intro name ino ftype rest h
    simp only [mirror_dentrys, forget_blocks_dentrys, forget_dentrys_append, h]
  · intro name ino i ftype rest h1 h2
    simp only [mirror_dentrys, forget_blocks_dentrys, forget_dentrys_append, h1, h2]

theorem names_forget : ∀ ds : List newfs_dentry,
    (forget_blocks_dentrys ds).map newfs_dentry.name = ds.map newfs_dentry.name := by
  intro ds
  induction ds with
  | nil => rfl
  | cons d rest ih =>
    cases d with
    | mk name ino inode ftype =>
      cases inode with
      | none => simp only [forget_blocks_dentrys, List.map_cons, ih, newfs_dentry.name]
      | some i => simp only [forget_blocks_dentrys, List.map_cons, ih, newfs_dentry.name]

theorem names_strip (ds : List newfs_dentry) :
    (strip_dentrys ds).map newfs_dentry.name = ds.map newfs_dentry.name := by
  unfold strip_dentrys
  rw [List.map_map]
  apply List.map_congr_left
  intro d _
  cases d; rfl

theorem ino_forget (t t1 : newfs_inode) (h : forget_blocks t1 = forget_blocks t) :
    t1.ino = t.ino := by
  have := congrArg newfs_inode.ino h
  cases t; cases t1
  simpa [forget_blocks, newfs_inode.ino] using this

/-- Persisting a well-formed subtree and reading it back gives the mirrored
subtree. -/
theorem sync_then_load (s : newfs_super) (mx : Nat) (t : newfs_inode) (hl : layout_ok s)
    (hmx : s.max_ino = (mx : Int)) (hok : tree_ok mx 7 t) (hnd_i : (inos_of t).Nodup)
    (hnd_b : (blocks_of t).Nodup) (hused : ∀ b ∈ blocks_of t, block_used s b)
    (hneed : blocks_needed t ≤ free_blocks s) :
    ∃ t1 s1, newfs_sync_inode s t = some (NFS_ERROR_NONE, t1, s1) ∧
      forget_blocks t1 = forget_blocks t ∧ tree_ok mx 7 t1 ∧ layout_ok s1 ∧
      s1.max_ino = (mx : Int) ∧
      inode_on_disk s1.inode_offset s1.dev.size s1.dev.data t1 ∧
      ∀ depth, height t ≤ depth →
        ∃ s2, load_inode depth s1 (t.ino : Int) = some (mirror t1, s2) := by
  obtain ⟨t1, s1, hs, hf, hok1, hpost, _, hdisk⟩ :=
    (sync_image mx).1 t s hl hmx hok hnd_i hnd_b hused hneed
  obtain ⟨hl1, hmx1, hio1⟩ := sync_post_layout hpost hl
  have hdisk1 : inode_on_disk s1.inode_offset s1.dev.size s1.dev.data t1 := by
    rw [hio1, hpost.size]; exact hdisk
  refine ⟨t1, s1, hs, hf, hok1, hl1, by rw [hmx1]; exact hmx, hdisk1, ?_⟩
  intro depth hd
  have hh : height t1 = height t := by
    rw [← (height_forget).1 t1, hf, (height_forget).1 t]
  obtain ⟨s2, h2, _⟩ := (load_image mx).1 t1 s1 depth hl1 (by rw [hmx1]; exact hmx) hok1 hdisk1
    (by omega)
  rw [ino_forget t t1 hf] at h2
  exact ⟨s2, h2⟩

/-! ## Detaching a dentry -/

theorem chain_congr (node node1 : Nat → dentry_node) : ∀ (as : List Nat) (p : Nat),
    (∀ a ∈ as, node1 a = node a) → (chain node1 p as ↔ chain node p as) := by
  intro as
  induction as with
  | nil => intro p _; simp [chain]
  | cons a as ih =>
    intro p h
    simp only [chain]
    rw [h a (List.mem_cons_self _ _), ih _ (fun b hb => h b (List.mem_cons_of_mem _ hb))]

theorem chain_unique (node : Nat → dentry_node) : ∀ (as bs : List Nat) (p : Nat),
    chain node p as → chain node p bs → as = bs := by
  intro as
  induction as with
  | nil =>
    intro bs p h1 h2
    cases bs with
    | nil => rfl
    | cons b bs =>
      simp only [chain] at h1 h2
      omega
  | cons a as ih =>
    intro bs p h1 h2
    cases bs with
    | nil =>
      simp only [chain] at h1 h2
      omega
    | cons b bs =>
      simp only [chain] at h1 h2
      obtain ⟨e1, _, c1⟩ := h1
      obtain ⟨e2, _, c2⟩ := h2
      have hab : a = b := by omega
      subst hab
      rw [ih bs _ c1 c2]

theorem chain_suffix (node : Nat → dentry_node) : ∀ (l1 l2 : List Nat) (p : Nat),
    chain node p (l1 ++ l2) → ∃ q, chain node q l2 := by
  intro l1
  induction l1 with
  | nil => intro l2 p h; exact ⟨p, h⟩
  | cons a l1 ih =>
    intro l2 p h
    simp only [List.cons_append, chain] at h
    exact ih l2 _ h.2.2

theorem chain_nodup (node : Nat → dentry_node) : ∀ (as : List Nat) (p : Nat),
    chain node p as → as.Nodup := by
  intro as
  induction as with
  | nil => intro p _; exact List.nodup_nil
  | cons a as ih =>
    intro p h
    have h0 := h
    simp only [chain] at h
    obtain ⟨hp, _, hc⟩ := h
    refine List.nodup_cons.2 ⟨?_, ih _ hc⟩
    intro hmem
    obtain ⟨l1, l2, e⟩ := List.append_of_mem hmem
    rw [e] at hc
    obtain ⟨q, hq⟩ := chain_suffix node l1 (a :: l2) _ hc
    have hq0 := hq
    simp only [chain] at hq
    have hqa : q = a := hq.1
    rw [hqa, ← hp] at hq0
    have := chain_unique node _ _ p h0 hq0
    have hl := congrArg List.length this
    rw [e] at hl
    simp only [List.length_cons, List.length_append] at hl
    omega

/-- The loop of `newfs_drop_dentry` on a chain whose head is not `dentry`. -/
theorem drop_loop_spec (dentry : Nat) (hd : dentry ≠ 0) (node : Nat → dentry_node) :
    ∀ (as : List Nat) (p fuel : Nat), chain node p as → as.length ≤ fuel → p ≠ dentry →
      (dentry ∈ as →
        ∃ c, c ∈ as ∧ c ≠ dentry ∧
          newfs_drop_dentry_loop dentry fuel p node
            = some (true,
                Function.update node c { node c with brother := (node dentry).brother }) ∧
          chain (Function.update node c { node c with brother := (node dentry).brother }) p
            (as.erase dentry)) ∧
      (dentry ∉ as → newfs_drop_dentry_loop dentry fuel p node = some (false, node)) := by
  intro as
  induction as with
  | nil =>
    intro p fuel hc _ _
    simp only [chain] at hc
    subst hc
    refine ⟨fun h => absurd h (List.not_mem_nil _), fun _ => ?_⟩
    unfold newfs_drop_dentry_loop
    simp
  | cons a as ih =>
    intro p fuel hc hfuel hp
    have hnd := chain_nodup node _ _ hc
    simp only [chain] at hc
    obtain ⟨hpa, ha0, hrest⟩ := hc
    subst hpa
    obtain ⟨hanot, hnd1⟩ := List.nodup_cons.1 hnd
    cases fuel with
    | zero => simp at hfuel
    | succ fuel =>
      simp only [List.length_cons, Nat.add_le_add_iff_right] at hfuel
      unfold newfs_drop_dentry_loop
      rw [if_neg ha0]
      simp only
      by_cases hb : (node p).brother = dentry
      · rw [if_pos hb, if_neg hd]
        rw [hb] at hrest
        cases as with
        | nil => simp only [chain] at hrest; exact absurd hrest hd
        | cons b as =>
          simp only [chain] at hrest
          obtain ⟨hdb, _, hrest2⟩ := hrest
          subst hdb
          refine ⟨fun _ => ⟨p, List.mem_cons_self _ _, hp, rfl, ?_⟩, fun h => ?_⟩
          · have he : (p :: dentry :: as).erase dentry = p :: as := by
              rw [List.erase_cons_tail (by simpa using hp), List.erase_cons_head]
            rw [he]
            simp only [chain, Function.update_same, true_and]
            refine ⟨ha0, ?_⟩
            refine (chain_congr node _ as _ ?_).2 hrest2
            intro x hx
            rw [Function.update_noteq]
            intro e
            subst e
            exact hanot (List.mem_cons_of_mem _ hx)
          · exact absurd (List.mem_cons_of_mem _ (List.mem_cons_self _ _)) h
      · rw [if_neg hb]
        obtain ⟨ih1, ih2⟩ := ih (node p).brother fuel hrest hfuel hb
        refine ⟨fun h => ?_, fun h => ?_⟩
        · have hmem : dentry ∈ as := by
            rcases List.mem_cons.1 h with e | e
            · exact absurd e.symm hp
            · exact e
          obtain ⟨c, hc1, hc2, hc3, hc4⟩ := ih1 hmem
          refine ⟨c, List.mem_cons_of_mem _ hc1, hc2, hc3, ?_⟩
          have hcp : c ≠ p := fun e => hanot (e ▸ hc1)
          rw [List.erase_cons_tail (by simpa using hp)]
          simp only [chain, true_and]
          refine ⟨ha0, ?_⟩
          rw [Function.update_noteq (Ne.symm hcp)]
          exact hc4
        · exact ih2 (fun e => h (List.mem_cons_of_mem _ e))
/-! ## Layout computed at first mount -/

/-- The layout block of `newfs_init` in closed form, for a block count an
`int` device size can give. -/
theorem init_layout_eq (sz_blks blks_num : Int) (h0 : 0 ≤ blks_num) (h1 : blks_num ≤ 2097151) :
    newfs_init_layout sz_blks blks_num =
      { magic_number := NFS_MAGIC_NUM
        sz_usage := 0
        sz_blks := sz_blks
        blks_num := blks_num
        sb_offset := 0
        sb_blks := 1
        ino_bitmap_offset := 1
        ino_bitmap_blks := 1
        data_bitmap_offset := 2
        data_bitmap_blks := 1
        inode_offset := 3
        inode_blks := blks_num * 1024 / 4264 * 168 / 1024 + 1
        data_offset := 3 + (blks_num * 1024 / 4264 * 168 / 1024 + 1)
        data_blks := blks_num - (3 + (blks_num * 1024 / 4264 * 168 / 1024 + 1))
        max_ino := blks_num * 1024 / 4264
        file_max := 6144
        root_ino := 0 } := by
  have havg : toI32 (4 * NFS_BLKS_SZ + SIZEOF_INODE_D) = 4264 := by decide
  have hmax : (blks_num * (NFS_BLKS_SZ : Int)).tdiv 4264 = blks_num * 1024 / 4264 := by
    rw [Int.tdiv_eq_ediv (by unfold NFS_BLKS_SZ; omega) (by omega)]
    rfl
  have hblks : toI32 (((blks_num * 1024 / 4264 % 18446744073709551616).toNat * SIZEOF_INODE_D
        % 18446744073709551616 / NFS_BLKS_SZ + 1) % 18446744073709551616)
      = blks_num * 1024 / 4264 * 168 / 1024 + 1 := by
    have hm0 : 0 ≤ blks_num * 1024 / 4264 := by omega
    have hm1 : blks_num * 1024 / 4264 ≤ 503643 := by omega
    obtain ⟨n, hn⟩ := Int.eq_ofNat_of_zero_le hm0
    rw [hn] at hm1 ⊢
    have hn1 : n ≤ 503643 := by omega
    have e1 : ((n : Int) % 18446744073709551616).toNat = n := by omega
    have e2 : n * 168 % 18446744073709551616 = n * 168 := Nat.mod_eq_of_lt (by omega)
    have e3 : (n * 168 / 1024 + 1) % 18446744073709551616 = n * 168 / 1024 + 1 :=
      Nat.mod_eq_of_lt (by omega)
    unfold SIZEOF_INODE_D NFS_BLKS_SZ
    rw [e1, e2, e3, toI32_of_lt _ (by omega)]
    omega
  unfold newfs_init_layout
  simp only [havg, hmax, hblks]
  rfl

/-- Persisting an inode without children touches the device only and leaves
the inode without children. -/
theorem sync_leaf_frame (s s1 : newfs_super) (ino size ftype : Nat) (tp bp : List Nat) (r : Int)
    (i1 : newfs_inode)
    (h : newfs_sync_inode s (newfs_inode.mk ino size 0 ftype tp [] bp) = some (r, i1, s1)) :
    (∃ dev, s1 = { s with dev := dev }) ∧ i1.dentrys = [] := by
  unfold newfs_sync_inode at h
  have hb : newfs_sync_inode_block s ftype 0 bp = some (Sum.inr (bp, s)) := by
    unfold newfs_sync_inode_block
    split_ifs with h1 h2
    · omega
    · rfl
    · rfl
  simp only [hb] at h
  cases hw : newfs_driver_write s.dev
      (NFS_INO_OFS s (toI32 ino))
      (newfs_inode_d.bytes { ino := toU32 (toI32 ino), size := size, dir_cnt := 0, ftype := ftype,
                             target_path := tp, block_pointer := bp })
      (SIZEOF_INODE_D : Int) with
  | none => simp [hw] at h
  | some pr =>
    obtain ⟨r0, dev2⟩ := pr
    simp only [hw] at h
    split_ifs at h with h1 h2 h3
    · simp only [Option.some.injEq, Prod.mk.injEq] at h
      exact ⟨⟨dev2, h.2.2.symm⟩, by rw [← h.2.1]; rfl⟩
    · simp only [newfs_sync_dentrys, Option.some.injEq, Prod.mk.injEq] at h
      exact ⟨⟨dev2, h.2.2.symm⟩, by rw [← h.2.1]; rfl⟩
    · simp only [Option.some.injEq, Prod.mk.injEq] at h
      exact ⟨⟨dev2, h.2.2.symm⟩, by rw [← h.2.1]; rfl⟩
    · simp only [Option.some.injEq, Prod.mk.injEq] at h
      exact ⟨⟨dev2, h.2.2.symm⟩, by rw [← h.2.1]; rfl⟩

theorem alloc_inode_length (s s1 : newfs_super) (dentry dentry1 : newfs_dentry)
    (hlen : s.map_inode.length = 1024)
    (h : newfs_alloc_inode s dentry = some (dentry1, s1)) : s1.map_inode.length = 1024 := by
  obtain ⟨v, m, h1, h2⟩ := alloc_ino_post s hlen
  have hm : m.length = 1024 := by rw [h2.length_eq, hlen]
  unfold newfs_alloc_inode at h
  rw [h1] at h
  simp only at h
  split_ifs at h <;>
    (simp only [Option.some.injEq, Prod.mk.injEq] at h; rw [← h.2]; exact hm)

/-- `newfs_alloc_inode` touches the inode bitmap only; the dentry either stays
as it was (no inode number free) or gets a fresh inode without children. -/
theorem alloc_inode_frame (s s1 : newfs_super) (dentry dentry1 : newfs_dentry)
    (h : newfs_alloc_inode s dentry = some (dentry1, s1)) :
    (∃ m, s1 = { s with map_inode := m }) ∧
    (dentry1 = dentry ∨
      ∃ v : Int, dentry1 = newfs_dentry.mk dentry.name (toU32 v)
        (some (newfs_inode.mk (toU32 v) 0 0 dentry.ftype (List.replicate MAX_NAME_LEN 0) []
          (List.replicate NFS_DATA_PER_FILE 0))) dentry.ftype) := by
  unfold newfs_alloc_inode at h
  cases ha : newfs_alloc_ino s with
  | none => simp [ha] at h
  | some pr =>
    obtain ⟨v, s2⟩ := pr
    have hs2 : ∃ m, s2 = { s with map_inode := m } := by
      unfold newfs_alloc_ino at ha
      cases hr : newfs_alloc_ino_bytes s.max_ino s.map_inode NFS_BLKS_SZ 0 with
      | oob => simp [hr] at ha
      | next =>
        simp only [hr, Option.some.injEq, Prod.mk.injEq] at ha
        exact ⟨s.map_inode, ha.2.symm⟩
      | ret v1 m =>
        simp only [hr, Option.some.injEq, Prod.mk.injEq] at ha
        exact ⟨m, ha.2.symm⟩
    simp only [ha] at h
    split_ifs at h
    · simp only [Option.some.injEq, Prod.mk.injEq] at h
      rw [← h.2, ← h.1]
      exact ⟨hs2, Or.inl rfl⟩
    · simp only [Option.some.injEq, Prod.mk.injEq] at h
      rw [← h.2, ← h.1]
      exact ⟨hs2, Or.inr ⟨v, rfl⟩⟩

/-- A first mount that completes leaves in `super` the descriptors of the layout
block, computed from the capacity the device reports. -/
theorem init_first_mount_fields (d : ddriver) (s : newfs_super)
    (h : newfs_init d = some s) (hm : s.is_mounted = true)
    (hmagic : (newfs_super_d.of_bytes
        (newfs_read_block d 0 (List.replicate NFS_BLKS_SZ 0)).2.1).magic_number ≠ NFS_MAGIC_NUM) :
    s.sz_blks = 1024 ∧ s.blks_num = (ddriver_ioctl_size d).tdiv 1024 ∧
    s.sb_offset = (newfs_init_layout 1024 s.blks_num).sb_offset ∧
    s.sb_blks = (newfs_init_layout 1024 s.blks_num).sb_blks ∧
    s.ino_bitmap_offset = (newfs_init_layout 1024 s.blks_num).ino_bitmap_offset ∧
    s.ino_bitmap_blks = (newfs_init_layout 1024 s.blks_num).ino_bitmap_blks ∧
    s.data_bitmap_offset = (newfs_init_layout 1024 s.blks_num).data_bitmap_offset ∧
    s.data_bitmap_blks = (newfs_init_layout 1024 s.blks_num).data_bitmap_blks ∧
    s.inode_offset = (newfs_init_layout 1024 s.blks_num).inode_offset ∧
    s.inode_blks = (newfs_init_layout 1024 s.blks_num).inode_blks ∧
    s.data_offset = (newfs_init_layout 1024 s.blks_num).data_offset ∧
    s.data_blks = (newfs_init_layout 1024 s.blks_num).data_blks ∧
    s.max_ino = (newfs_init_layout 1024 s.blks_num).max_ino ∧
    s.file_max = (newfs_init_layout 1024 s.blks_num).file_max ∧
    s.root_ino = (newfs_init_layout 1024 s.blks_num).root_ino := by
  unfold newfs_init at h
  generalize hrb : newfs_read_block d 0 (List.replicate NFS_BLKS_SZ 0) = rb at h hmagic
  obtain ⟨ret, temp_buf, d1⟩ := rb
  simp only at h hmagic
  have hinit : ((newfs_super_d.of_bytes temp_buf).magic_number != NFS_MAGIC_NUM) = true := by
    simpa using hmagic
  split_ifs at h with hret
  · simp only [Option.some.injEq] at h
    rw [← h] at hm
    simp [super_zero] at hm
  · split at h
    · exact absurd h (by simp)
    · rename_i root_dentry s2 hal
      obtain ⟨⟨m, hs2⟩, hshape⟩ := alloc_inode_frame _ _ _ _ hal
      split at h
      · exact absurd h (by simp)
      · rename_i name ino inode ftype
        split at h
        · exact absurd h (by simp)
        · rename_i r inode1 s3 hsy
          rcases hshape with hsh | ⟨v, hsh⟩
          · simp [newfs_alloc_dentry] at hsh
          · simp only [newfs_dentry.mk.injEq, Option.some.injEq] at hsh
            obtain ⟨_, _, hino, _⟩ := hsh
            rw [hino] at hsy
            obtain ⟨⟨dev, hs3⟩, _⟩ := sync_leaf_frame _ _ _ _ _ _ _ _ _ hsy
            simp only [Option.some.injEq] at h
            rw [← h, hs3, hs2]
            exact ⟨rfl, rfl, rfl, rfl, rfl, rfl, rfl, rfl, rfl, rfl, rfl, rfl, rfl, rfl, rfl⟩

/-- A first mount that completes leaves an empty root held in memory and a
bitmap block for the inode numbers. -/
theorem init_first_mount_fresh (d : ddriver) (s : newfs_super)
    (h : newfs_init d = some s) (hm : s.is_mounted = true)
    (hmagic : (newfs_super_d.of_bytes
        (newfs_read_block d 0 (List.replicate NFS_BLKS_SZ 0)).2.1).magic_number ≠ NFS_MAGIC_NUM) :
    fresh s := by
  unfold newfs_init at h
  generalize hrb : newfs_read_block d 0 (List.replicate NFS_BLKS_SZ 0) = rb at h hmagic
  obtain ⟨ret, temp_buf, d1⟩ := rb
  simp only at h hmagic
  have hinit : ((newfs_super_d.of_bytes temp_buf).magic_number != NFS_MAGIC_NUM) = true := by
    simpa using hmagic
  split_ifs at h with hret
  · simp only [Option.some.injEq] at h
    rw [← h] at hm
    simp [super_zero] at hm
  · split at h
    · exact absurd h (by simp)
    · rename_i root_dentry s2 hal
      have hlen2 := alloc_inode_length _ _ _ _ (by simp [NFS_BLKS_SZ]) hal
      obtain ⟨_, hshape⟩ := alloc_inode_frame _ _ _ _ hal
      split at h
      · exact absurd h (by simp)
      · rename_i name ino inode ftype
        split at h
        · exact absurd h (by simp)
        · rename_i r inode1 s3 hsy
          rcases hshape with hsh | ⟨v, hsh⟩
          · simp [newfs_alloc_dentry] at hsh
          · simp only [newfs_dentry.mk.injEq, Option.some.injEq] at hsh
            obtain ⟨_, _, hino, _⟩ := hsh
            rw [hino] at hsy
            obtain ⟨⟨dev, hs3⟩, hds⟩ := sync_leaf_frame _ _ _ _ _ _ _ _ _ hsy
            simp only [Option.some.injEq] at h
            rw [← h, hs3]
            cases inode1 with
            | mk a b c t tp ds bp =>
              simp only [newfs_inode.dentrys] at hds
              subst hds
              refine ⟨?_, name, ino, a, b, c, t, tp, bp, ftype, rfl⟩
              simp only [List.length_set]
              exact hlen2
/-! ## The tree under pointer updates -/

theorem set_inode_at_key (root : newfs_dentry) (p : dptr) (v : Option newfs_inode) :
    dentry_key (set_inode_at root p v) = dentry_key root := by
  cases root with
  | mk name ino inode ftype =>
    cases p with
    | nil => simp [set_inode_at, dentry_key, newfs_dentry.name, newfs_dentry.ino,
        newfs_dentry.ftype]
    | cons k p =>
      cases inode with
      | none => simp [set_inode_at]
      | some i =>
        cases i with
        | mk a b c t tp ds bp =>
          simp only [set_inode_at]
          cases ds[k]? <;>
            simp [dentry_key, newfs_dentry.name, newfs_dentry.ino, newfs_dentry.ftype]

theorem map_set_of_eq {α β : Type} (f : α → β) (ds : List α) (k : Nat) (c c1 : α)
    (hk : ds[k]? = some c) (hf : f c1 = f c) : (ds.set k c1).map f = ds.map f := by
  apply List.ext_getElem?
  intro j
  rw [List.getElem?_map, List.getElem?_map, List.getElem?_set]
  by_cases hj : k = j
  · subst hj
    have hlt : k < ds.length := (List.getElem?_eq_some_iff.1 hk).1
    rw [if_pos rfl, if_pos hlt, hk]
    simp [hf]
  · rw [if_neg hj]

theorem dentry_at_cons (name : List Nat) (ino : Nat) (i : newfs_inode) (ftype : Nat) (k : Nat)
    (p : dptr) :
    dentry_at (newfs_dentry.mk name ino (some i) ftype) (k :: p)
      = (i.dentrys[k]?).bind (fun c => dentry_at c p) := by
  simp only [dentry_at, newfs_dentry.inode]
  cases i.dentrys[k]? <;> rfl

theorem same_children_refl (i : newfs_inode) : same_children i i := ⟨rfl, rfl, rfl, rfl, rfl⟩

theorem tree_preserved_refl (root : newfs_dentry) : tree_preserved root root :=
  fun _ d h => ⟨d, h, rfl, fun i hi => ⟨i, hi, same_children_refl i⟩⟩

theorem tree_preserved_trans {r r1 r2 : newfs_dentry} (h1 : tree_preserved r r1)
    (h2 : tree_preserved r1 r2) : tree_preserved r r2 := by
  intro p d hd
  obtain ⟨d1, hd1, hk1, hi1⟩ := h1 p d hd
  obtain ⟨d2, hd2, hk2, hi2⟩ := h2 p d1 hd1
  refine ⟨d2, hd2, hk2.trans hk1, ?_⟩
  intro i hi
  obtain ⟨i1, e1, c1⟩ := hi1 i hi
  obtain ⟨i2, e2, c2⟩ := hi2 i1 e1
  refine ⟨i2, e2, ?_⟩
  obtain ⟨a1, a2, a3, a4, a5⟩ := c1
  obtain ⟨b1, b2, b3, b4, b5⟩ := c2
  exact ⟨b1.trans a1, b2.trans a2, b3.trans a3, b4.trans a4, b5.trans a5⟩

/-- Giving a dentry without inode its inode preserves the tree. -/
theorem tree_preserved_set (v : Option newfs_inode) : ∀ (q : dptr) (root d : newfs_dentry),
    dentry_at root q = some d → d.inode = none → tree_preserved root (set_inode_at root q v) := by
  intro q
  induction q with
  | nil =>
    intro root d hd hnone
    simp only [dentry_at, Option.some.injEq] at hd
    subst hd
    cases root with
    | mk name ino inode ftype =>
      simp only [newfs_dentry.inode] at hnone
      subst hnone
      intro p e he
      cases p with
      | nil =>
        simp only [dentry_at, Option.some.injEq] at he
        subst he
        exact ⟨_, rfl, rfl, fun i hi => by simp [newfs_dentry.inode] at hi⟩
      | cons j p => simp [dentry_at, newfs_dentry.inode] at he
  | cons k q ih =>
    intro root d hd hnone
    cases root with
    | mk name ino inode ftype =>
      cases inode with
      | none => simp [dentry_at, newfs_dentry.inode] at hd
      | some i =>
        cases i with
        | mk a b c t tp ds bp =>
          rw [dentry_at_cons] at hd
          simp only [newfs_inode.dentrys] at hd
          cases hk : ds[k]? with
          | none => simp [hk] at hd
          | some ch =>
            simp only [hk, Option.some_bind] at hd
            have hch := ih ch d hd hnone
            have hset : set_inode_at
                (newfs_dentry.mk name ino (some (newfs_inode.mk a b c t tp ds bp)) ftype) (k :: q) v
                = newfs_dentry.mk name ino
                    (some (newfs_inode.mk a b c t tp (ds.set k (set_inode_at ch q v)) bp)) ftype := by
              simp only [set_inode_at, hk]
            rw [hset]
            have hlt : k < ds.length := (List.getElem?_eq_some_iff.1 hk).1
            intro p e he
            cases p with
            | nil =>
              simp only [dentry_at, Option.some.injEq] at he
              subst he
              refine ⟨_, rfl, rfl, ?_⟩
              intro i hi
              simp only [newfs_dentry.inode, Option.some.injEq] at hi
              subst hi
              refine ⟨_, rfl, rfl, rfl, rfl, rfl, ?_⟩
              exact map_set_of_eq dentry_key ds k ch _ hk (set_inode_at_key ch q v)
            | cons j p =>
              rw [dentry_at_cons] at he ⊢
              simp only [newfs_inode.dentrys] at he ⊢
              by_cases hj : k = j
              · subst hj
                rw [hk] at he
                simp only [Option.some_bind] at he
                rw [List.getElem?_set_self hlt]
                simp only [Option.some_bind]
                exact hch p e he
              · rw [List.getElem?_set_ne hj]
                exact ⟨e, he, rfl, fun i hi => ⟨i, hi, same_children_refl i⟩⟩

/-! ## What a lookup leaves unchanged -/

theorem lookup_frame_refl (s : newfs_super) : lookup_frame s s :=
  ⟨⟨s.dev, s.root_dentry, rfl, rfl, rfl⟩, fun root h => ⟨root, h, tree_preserved_refl root⟩⟩

theorem lookup_frame_trans {s s1 s2 : newfs_super} (h1 : lookup_frame s s1)
    (h2 : lookup_frame s1 s2) : lookup_frame s s2 := by
  obtain ⟨⟨dev1, rd1, e1, a1, b1⟩, t1⟩ := h1
  obtain ⟨⟨dev2, rd2, e2, a2, b2⟩, t2⟩ := h2
  have hd1 : s1.dev = dev1 := by rw [e1]
  refine ⟨⟨dev2, rd2, ?_, ?_, ?_⟩, ?_⟩
  · rw [e2, e1]
  · rw [a2, hd1, a1]
  · rw [b2, hd1, b1]
  · intro root hr
    obtain ⟨root1, hr1, p1⟩ := t1 root hr
    obtain ⟨root2, hr2, p2⟩ := t2 root1 hr1
    exact ⟨root2, hr2, tree_preserved_trans p1 p2⟩

theorem hydrate_frame (s s1 : newfs_super) (p : dptr) (i : Option newfs_inode)
    (h : newfs_hydrate s p = some (i, s1)) : lookup_frame s s1 := by
  unfold newfs_hydrate at h
  cases hr : s.root_dentry with
  | none => simp [hr] at h
  | some root =>
    simp only [hr] at h
    cases hd : dentry_at root p with
    | none => simp [hd] at h
    | some d =>
      simp only [hd] at h
      cases hi : d.inode with
      | some i0 =>
        simp only [hi, Option.some.injEq, Prod.mk.injEq] at h
        rw [← h.2]
        exact lookup_frame_refl s
      | none =>
        simp only [hi] at h
        obtain ⟨inode, d1, e1, e2, e3⟩ := read_inode_total s (toI32 d.ino)
        simp only [e1, Option.some.injEq, Prod.mk.injEq] at h
        obtain ⟨h1, h2⟩ := h
        subst h2
        refine ⟨⟨d1, _, rfl, e2, e3⟩, ?_⟩
        intro root0 hr0
        rw [hr] at hr0
        cases hr0
        exact ⟨_, rfl, tree_preserved_set _ p root d hd hi⟩

theorem lookup_loop_frame (total_lvl : Nat) : ∀ (toks : List (List Nat)) (lvl : Nat)
    (cursor : dptr) (s s1 : newfs_super) (r : Option dptr) (f : Bool),
    newfs_lookup_loop total_lvl toks lvl cursor s = some (r, f, s1) → lookup_frame s s1 := by
  intro toks
  induction toks with
  | nil =>
    intro lvl cursor s s1 r f h
    simp only [newfs_lookup_loop, Option.some.injEq, Prod.mk.injEq] at h
    rw [← h.2.2]
    exact lookup_frame_refl s
  | cons fname rest ih =>
    intro lvl cursor s s1 r f h
    rw [newfs_lookup_loop] at h
    cases hh : newfs_hydrate s cursor with
    | none => simp [hh] at h
    | some pr =>
      obtain ⟨oi, s2⟩ := pr
      have hf := hydrate_frame s s2 cursor oi hh
      cases oi with
      | none => simp [hh] at h
      | some inode =>
        simp only [hh] at h
        by_cases h1 : inode.ftype = NFS_REG_FILE ∧ lvl + 1 < total_lvl
        · rw [if_pos h1] at h
          simp only [Option.some.injEq, Prod.mk.injEq] at h
          rw [← h.2.2]; exact hf
        · rw [if_neg h1] at h
          by_cases h2 : inode.ftype = NFS_DIR
          · rw [if_pos h2] at h
            cases hs : newfs_lookup_scan fname inode.dentrys 0 with
            | none =>
              simp only [hs, Option.some.injEq, Prod.mk.injEq] at h
              rw [← h.2.2]; exact hf
            | some k =>
              simp only [hs] at h
              by_cases h4 : lvl + 1 = total_lvl
              · rw [if_pos h4] at h
                simp only [Option.some.injEq, Prod.mk.injEq] at h
                rw [← h.2.2]; exact hf
              · rw [if_neg h4] at h
                exact lookup_frame_trans hf (ih _ _ _ _ _ _ h)
          · rw [if_neg h2] at h
            exact lookup_frame_trans hf (ih _ _ _ _ _ _ h)

theorem newfs_lookup_frame (s s1 : newfs_super) (path : List Nat) (out : lookup_out)
    (h : newfs_lookup s path = some (out, s1)) : lookup_frame s s1 := by
  unfold newfs_lookup at h
  simp only at h
  split_ifs at h with h0
  · simp only [Option.some.injEq, Prod.mk.injEq] at h
    rw [← h.2]
    exact lookup_frame_refl s
  · cases hl : newfs_lookup_loop (newfs_calc_lvl path) (strtok_all path) 0 [] s with
    | none => simp [hl] at h
    | some pr =>
      obtain ⟨r, f, s2⟩ := pr
      have hf := lookup_loop_frame _ _ _ _ _ _ _ _ hl
      cases r with
      | none =>
        simp only [hl, Option.some.injEq, Prod.mk.injEq] at h
        rw [← h.2]; exact hf
      | some dentry_ret =>
        simp only [hl] at h
        cases hh : newfs_hydrate s2 dentry_ret with
        | none => simp [hh] at h
        | some pr2 =>
          obtain ⟨oi, s3⟩ := pr2
          simp only [hh, Option.some.injEq, Prod.mk.injEq] at h
          rw [← h.2]
          exact lookup_frame_trans hf (hydrate_frame _ _ _ _ hh)

/-! ## Creating an entry -/

theorem walks_frame {s s1 : newfs_super} {cursor q : dptr} {pre : List (List Nat)}
    (hw : walks s cursor pre s1 q) : lookup_frame s s1 := by
  induction hw with
  | done s p => exact lookup_frame_refl s
  | step s s1 s2 cursor p seg rest inode k hh _ _ _ ih =>
    exact lookup_frame_trans (hydrate_frame _ _ _ _ hh) ih

theorem path_of_append (a b : List (List Nat)) : path_of (a ++ b) = path_of a ++ path_of b := by
  induction a with
  | nil => rfl
  | cons x a ih =>
    rw [List.cons_append, path_of, path_of, ih, List.cons_append, List.append_assoc]
    rfl

theorem takeWhile_append_stop {α : Type} (p : α → Bool) : ∀ (l : List α) (a : α) (r : List α),
    (∀ x ∈ l, p x = true) → p a = false → (l ++ a :: r).takeWhile p = l := by
  intro l
  induction l with
  | nil => intro a r _ ha; simp [List.takeWhile, ha]
  | cons x l ih =>
    intro a r hl ha
    rw [List.cons_append, List.takeWhile_cons, hl x (List.mem_cons_self _ _), if_pos rfl,
      ih a r (fun y hy => hl y (List.mem_cons_of_mem _ hy)) ha]

theorem get_fname_path_of (pre : List (List Nat)) (seg : List Nat) (h : 47 ∉ seg) :
    newfs_get_fname (path_of (pre ++ [seg])) = some seg := by
  have hp : path_of (pre ++ [seg]) = path_of pre ++ 47 :: seg := by
    rw [path_of_append]; simp [path_of]
  unfold newfs_get_fname
  rw [hp, if_pos (by simp)]
  have hrev : (path_of pre ++ 47 :: seg).reverse = seg.reverse ++ 47 :: (path_of pre).reverse := by
    simp
  rw [hrev, takeWhile_append_stop _ _ _ _ ?_ (by decide), List.reverse_reverse]
  intro x hx
  have hx1 : x ∈ seg := List.mem_reverse.1 hx
  have : x ≠ 47 := fun e => h (e ▸ hx1)
  simpa using this

theorem alloc_dentry_name (seg : List Nat) (ftype : Nat) (hnul : 0 ∉ seg)
    (hlen : seg.length < MAX_NAME_LEN) :
    newfs_alloc_dentry seg ftype = newfs_dentry.mk seg 4294967295 none ftype := by
  unfold newfs_alloc_dentry c_str
  have h1 : seg.takeWhile (fun c => c != 0) = seg := by
    rw [List.takeWhile_eq_self_iff]
    intro x hx
    have : x ≠ 0 := fun e => hnul (e ▸ hx)
    simpa using this
  rw [h1, List.take_of_length_le (by unfold MAX_NAME_LEN at hlen ⊢; omega)]

/-- With a free inode number `newfs_alloc_inode` equips the dentry with a fresh
inode bearing the least free number. -/
theorem alloc_inode_free (s : newfs_super) (name : List Nat) (ino ftype : Nat)
    (hmap : s.map_inode.length = 1024)
    (hfree : ∃ j : Nat, (j : Int) < s.max_ino ∧ j < 8192 ∧ bitmap_bit s.map_inode j = false) :
    ∃ (i : Nat) (m : List Nat),
      newfs_alloc_inode s (newfs_dentry.mk name ino none ftype)
        = some (newfs_dentry.mk name i
            (some (newfs_inode.mk i 0 0 ftype (List.replicate MAX_NAME_LEN 0) []
              (List.replicate NFS_DATA_PER_FILE 0))) ftype, { s with map_inode := m }) ∧
      (i : Int) < s.max_ino ∧ i < 8192 ∧ bitmap_bit s.map_inode i = false ∧
      (∀ j, j < i → bitmap_bit s.map_inode j = true) ∧ m.length = 1024 ∧
      ∀ j, bitmap_bit m j = (decide (j = i) || bitmap_bit s.map_inode j) := by
  obtain ⟨v, m, h1, h2⟩ := alloc_ino_post s hmap
  rcases h2 with ⟨_, _, hall⟩ | ⟨i, hv, hi, hi', hc, hl, hlen, hb, _⟩
  · obtain ⟨j, hj1, hj2, hj3⟩ := hfree
    rw [hall j hj1 hj2] at hj3
    exact absurd hj3 (by decide)
  · refine ⟨i, m, ?_, hi, hi', hc, hl, by rw [hlen, hmap], hb⟩
    have hv' : v = (i : Int) := by simpa using hv
    unfold newfs_alloc_inode
    rw [h1]
    simp only
    rw [if_neg (by rw [hv']; omega), hv', toU32_natCast i (by omega)]
    rfl

/-- The lookup of a path whose walk reaches a directory that has no child named
the next segment: the dentry of that directory, `is_find = false`. -/
theorem lookup_walk_missing (s s1 s2 : newfs_super) (pre : List (List Nat)) (seg : List Nat)
    (post : List (List Nat)) (q : dptr) (dir : newfs_inode)
    (hsegs : ∀ x ∈ pre ++ seg :: post, is_segment x)
    (hwalk : walks s [] pre s1 q)
    (hdir : newfs_hydrate s1 q = some (some dir, s2)) (hd : dir.ftype = NFS_DIR)
    (hmiss : ∀ d ∈ dir.dentrys, d.name ≠ seg) :
    newfs_lookup s (path_of (pre ++ seg :: post))
      = some ({ dentry_ret := some q, is_find := false, is_root := false }, s2) := by
  have hlvl : newfs_calc_lvl (path_of (pre ++ seg :: post)) = pre.length + (post.length + 1) := by
    rw [calc_lvl_path_of _ hsegs]; simp
  have hreg : ¬ (dir.ftype = NFS_REG_FILE ∧
      0 + pre.length + 1 < pre.length + (post.length + 1)) := by
    rw [hd]; intro h; exact absurd h.1 (by decide)
  unfold newfs_lookup
  simp only [hlvl, strtok_all_path_of _ hsegs]
  rw [if_neg (by omega), lookup_loop_walks _ hwalk (seg :: post) 0 (by omega), newfs_lookup_loop]
  simp only [hdir]
  rw [if_neg hreg, if_pos hd, lookup_scan_none seg dir.dentrys 0 hmiss]
  simp only [hydrate_idem s1 s2 q dir hdir]

/-- The common tail of `newfs_mkdir` and `newfs_mknod` with a free inode
number. -/
theorem link_new_free (s : newfs_super) (root : newfs_dentry) (q : dptr) (P : newfs_inode)
    (n : List Nat) (ftype : Nat) (hlen : n.length < MAX_NAME_LEN) (hnul : 0 ∉ n)
    (hmap : s.map_inode.length = 1024)
    (hfree : ∃ j : Nat, (j : Int) < s.max_ino ∧ j < 8192 ∧ bitmap_bit s.map_inode j = false) :
    ∃ (i : Nat) (m : List Nat),
      newfs_link_new s root q P n ftype
        = some (NFS_ERROR_NONE,
            { s with
              map_inode := m
              root_dentry := some (set_inode_at root q
                (some (newfs_inode.mk P.ino P.size ((P.dir_cnt + 1) % 4294967296) P.ftype
                  P.target_path
                  (newfs_dentry.mk n i
                      (some (newfs_inode.mk i 0 0 ftype (List.replicate MAX_NAME_LEN 0) []
                        (List.replicate NFS_DATA_PER_FILE 0))) ftype :: P.dentrys)
                  P.block_pointer))) }) ∧
      (i : Int) < s.max_ino ∧ i < 8192 ∧ bitmap_bit s.map_inode i = false ∧
      (∀ j, j < i → bitmap_bit s.map_inode j = true) ∧ m.length = 1024 ∧
      ∀ j, bitmap_bit m j = (decide (j = i) || bitmap_bit s.map_inode j) := by
  obtain ⟨i, m, h1, h2⟩ := alloc_inode_free s n 4294967295 ftype hmap hfree
  refine ⟨i, m, ?_, h2⟩
  unfold newfs_link_new
  rw [alloc_dentry_name n ftype hnul hlen, h1]
  cases P with
  | mk a b c t tp ds bp => rfl
/-! ## Unique names as an invariant of the create operations -/

theorem set_inode_at_nil (root : newfs_dentry) (v : Option newfs_inode) :
    set_inode_at root [] v = newfs_dentry.mk root.name root.ino v root.ftype := by
  cases root with
  | mk name ino inode ftype =>
    simp [set_inode_at, newfs_dentry.name, newfs_dentry.ino, newfs_dentry.ftype]

/-- A property of single dentries that does not look further than the names of
the children holds all over the tree after an update of the inode at `q`, if it
held all over the tree before and holds all over the updated subtree. -/
theorem forall_at_set (Q : newfs_dentry → Prop)
    (hQ : ∀ (name : List Nat) (ino ftype a b c t : Nat) (tp bp : List Nat)
      (ds ds1 : List newfs_dentry),
      ds1.map newfs_dentry.name = ds.map newfs_dentry.name →
      Q (newfs_dentry.mk name ino (some (newfs_inode.mk a b c t tp ds bp)) ftype) →
      Q (newfs_dentry.mk name ino (some (newfs_inode.mk a b c t tp ds1 bp)) ftype))
    (v : Option newfs_inode) : ∀ (q : dptr) (root d : newfs_dentry),
    dentry_at root q = some d →
    (∀ p e, dentry_at root p = some e → Q e) →
    (∀ p e, dentry_at (newfs_dentry.mk d.name d.ino v d.ftype) p = some e → Q e) →
    ∀ p e, dentry_at (set_inode_at root q v) p = some e → Q e := by
  intro q
  induction q with
  | nil =>
    intro root d hd _ hnew
    simp only [dentry_at, Option.some.injEq] at hd
    subst hd
    rw [set_inode_at_nil]
    exact hnew
  | cons k q ih =>
    intro root d hd hold hnew
    cases root with
    | mk name ino inode ftype =>
      cases inode with
      | none => simp [dentry_at, newfs_dentry.inode] at hd
      | some i =>
        cases i with
        | mk a b c t tp ds bp =>
          rw [dentry_at_cons] at hd
          simp only [newfs_inode.dentrys] at hd
          cases hk : ds[k]? with
          | none => simp [hk] at hd
          | some ch =>
            simp only [hk, Option.some_bind] at hd
            have hold_ch : ∀ p e, dentry_at ch p = some e → Q e := by
              intro p e he
              apply hold (k :: p) e
              rw [dentry_at_cons]
              simp only [newfs_inode.dentrys, hk, Option.some_bind]
              exact he
            have hch := ih ch d hd hold_ch hnew
            have hset : set_inode_at
                (newfs_dentry.mk name ino (some (newfs_inode.mk a b c t tp ds bp)) ftype) (k :: q) v
                = newfs_dentry.mk name ino
                    (some (newfs_inode.mk a b c t tp (ds.set k (set_inode_at ch q v)) bp)) ftype := by
              simp only [set_inode_at, hk]
            rw [hset]
            have hlt : k < ds.length := (List.getElem?_eq_some_iff.1 hk).1
            intro p e he
            cases p with
            | nil =>
              simp only [dentry_at, Option.some.injEq] at he
              subst he
              refine hQ name ino ftype a b c t tp bp ds _ ?_ (hold [] _ rfl)
              refine map_set_of_eq newfs_dentry.name ds k ch _ hk ?_
              exact congrArg Prod.fst (set_inode_at_key ch q v)
            | cons j p =>
              rw [dentry_at_cons] at he
              simp only [newfs_inode.dentrys] at he
              by_cases hj : k = j
              · subst hj
                rw [List.getElem?_set_self hlt] at he
                simp only [Option.some_bind] at he
                exact hch p e he
              · rw [List.getElem?_set_ne hj] at he
                apply hold (j :: p) e
                rw [dentry_at_cons]
                exact he

theorem hydrate_of_hydrated (s : newfs_super) (root d : newfs_dentry) (p : dptr)
    (i : newfs_inode) (hr : s.root_dentry = some root) (hd : dentry_at root p = some d)
    (hi : d.inode = some i) : newfs_hydrate s p = some (some i, s) := by
  unfold newfs_hydrate
  simp only [hr, hd, hi]

theorem walks_hydrated {s s1 : newfs_super} {cursor q : dptr} {pre : List (List Nat)}
    (hw : walks s cursor pre s1 q) :
    ∀ root, s.root_dentry = some root → hydrated root →
      s1 = s ∧ ((dentry_at root cursor).isSome → (dentry_at root q).isSome) := by
  induction hw with
  | done s p => intro root _ _; exact ⟨rfl, id⟩
  | step s s1 s2 cursor p seg rest inode k hh _ hk _ ih =>
    intro root hr hhyd
    obtain ⟨root0, d, _, hr0, hd, _, _⟩ := hydrate_post s s1 cursor (some inode) hh
    rw [hr] at hr0
    cases hr0
    cases hi : d.inode with
    | none => exact absurd hi (hhyd cursor d hd)
    | some i =>
      rw [hydrate_of_hydrated s root d cursor i hr hd hi] at hh
      simp only [Option.some.injEq, Prod.mk.injEq] at hh
      obtain ⟨h1, h2⟩ := hh
      subst h1 h2
      obtain ⟨e1, e2⟩ := ih root hr hhyd
      refine ⟨e1, fun _ => e2 ?_⟩
      obtain ⟨c, hc, _⟩ := hk
      rw [dentry_at_append, hd]
      cases d with
      | mk dn di dinode df =>
        simp only [newfs_dentry.inode] at hi
        subst hi
        simp only [Option.some_bind]
        rw [dentry_at_cons, hc]
        rfl

theorem lookup_scan_sound (seg : List Nat) : ∀ (ds : List newfs_dentry) (k0 : Nat),
    (newfs_lookup_scan seg ds k0 = none → ∀ d ∈ ds, d.name ≠ seg) ∧
    (∀ r, newfs_lookup_scan seg ds k0 = some r → ∃ k c, r = k0 + k ∧ ds[k]? = some c) := by
  intro ds
  induction ds with
  | nil =>
    intro k0
    exact ⟨fun _ d hd => absurd hd (List.not_mem_nil _), fun r h => by simp [newfs_lookup_scan] at h⟩
  | cons d ds ih =>
    intro k0
    unfold newfs_lookup_scan
    by_cases hn : seg = d.name
    · rw [if_pos hn]
      refine ⟨fun h => by simp at h, fun r h => ⟨0, d, ?_, by simp⟩⟩
      simp only [Option.some.injEq] at h
      omega
    · rw [if_neg hn]
      obtain ⟨ih1, ih2⟩ := ih (k0 + 1)
      refine ⟨fun h x hx => ?_, fun r h => ?_⟩
      · rcases List.mem_cons.1 hx with e | e
        · rw [e]; exact fun e2 => hn e2.symm
        · exact ih1 h x e
      · obtain ⟨k, c, e1, e2⟩ := ih2 r h
        exact ⟨k + 1, c, by omega, by simpa using e2⟩

/-- The lookup of `/pre/seg` in a state whose tree is all in memory, the walk
along `pre` ending at the inode `P`. -/
theorem lookup_last (s : newfs_super) (pre : List (List Nat)) (seg : List Nat) (q : dptr)
    (P : newfs_inode) (hsegs : ∀ x ∈ pre ++ [seg], is_segment x)
    (hwalk : walks s [] pre s q) (hP : newfs_hydrate s q = some (some P, s)) :
    newfs_lookup s (path_of (pre ++ [seg])) =
      if P.ftype = NFS_DIR then
        match newfs_lookup_scan seg P.dentrys 0 with
        | none => some ({ dentry_ret := some q, is_find := false, is_root := false }, s)
        | some k =>
          match newfs_hydrate s (q ++ [k]) with
          | none => none
          | some (_, s2) =>
            some ({ dentry_ret := some (q ++ [k]), is_find := true, is_root := false }, s2)
      else some ({ dentry_ret := none, is_find := false, is_root := false }, s) := by
  have hlvl : newfs_calc_lvl (path_of (pre ++ [seg])) = pre.length + 1 := by
    rw [calc_lvl_path_of _ hsegs]; simp
  have hreg : ¬ (P.ftype = NFS_REG_FILE ∧ 0 + pre.length + 1 < pre.length + 1) := by
    intro h; omega
  unfold newfs_lookup
  simp only [hlvl, strtok_all_path_of _ hsegs]
  rw [if_neg (by omega), lookup_loop_walks _ hwalk [seg] 0 (by omega), newfs_lookup_loop]
  simp only [hP]
  rw [if_neg hreg]
  by_cases hd : P.ftype = NFS_DIR
  · rw [if_pos hd, if_pos hd]
    cases hs : newfs_lookup_scan seg P.dentrys 0 with
    | none => simp only [hP]
    | some k =>
      simp only
      rw [if_pos (by omega)]
      try rfl
  · rw [if_neg hd, if_neg hd]
    simp only [newfs_lookup_loop]

theorem dentry_at_below (root d : newfs_dentry) (q : dptr) (P : newfs_inode)
    (hd : dentry_at root q = some d) (hi : d.inode = some P) (j : Nat) (p : dptr) :
    dentry_at root (q ++ j :: p) = (P.dentrys[j]?).bind (fun c => dentry_at c p) := by
  rw [dentry_at_append, hd]
  cases d with
  | mk dn di dinode df =>
    simp only [newfs_dentry.inode] at hi
    subst hi
    simp only [Option.some_bind]
    exact dentry_at_cons dn di P df j p

/-- A property that holds all over the tree holds all over the subtree at `q`
once a new first child has been hung on the inode there, if it holds of the
dentry at `q` as updated and all over the new child. -/
theorem forall_at_new_child (Q : newfs_dentry → Prop) (root d newd : newfs_dentry) (q : dptr)
    (P : newfs_inode) (cnt : Nat)
    (hd : dentry_at root q = some d) (hi : d.inode = some P)
    (hold : ∀ p e, dentry_at root p = some e → Q e)
    (hpar : Q (newfs_dentry.mk d.name d.ino
      (some (newfs_inode.mk P.ino P.size cnt P.ftype P.target_path (newd :: P.dentrys)
        P.block_pointer)) d.ftype))
    (hnew : ∀ p e, dentry_at newd p = some e → Q e) :
    ∀ p e, dentry_at (newfs_dentry.mk d.name d.ino
      (some (newfs_inode.mk P.ino P.size cnt P.ftype P.target_path (newd :: P.dentrys)
        P.block_pointer)) d.ftype) p = some e → Q e := by
  intro p e he
  cases p with
  | nil =>
    simp only [dentry_at, Option.some.injEq] at he
    subst he
    exact hpar
  | cons j p =>
    rw [dentry_at_cons] at he
    simp only [newfs_inode.dentrys] at he
    cases j with
    | zero =>
      simp only [List.getElem?_cons_zero, Option.some_bind] at he
      exact hnew p e he
    | succ j =>
      simp only [List.getElem?_cons_succ] at he
      apply hold (q ++ j :: p) e
      rw [dentry_at_below root d q P hd hi]
      exact he

theorem forall_at_leaf (Q : newfs_dentry → Prop) (n : List Nat) (i ftype a b c t : Nat)
    (tp bp : List Nat)
    (h : Q (newfs_dentry.mk n i (some (newfs_inode.mk a b c t tp [] bp)) ftype)) :
    ∀ p e, dentry_at (newfs_dentry.mk n i (some (newfs_inode.mk a b c t tp [] bp)) ftype) p
      = some e → Q e := by
  intro p e he
  cases p with
  | nil =>
    simp only [dentry_at, Option.some.injEq] at he
    subst he
    exact h
  | cons j p =>
    rw [dentry_at_cons] at he
    simp [newfs_inode.dentrys] at he

/-- The invariant survives the linking of a new entry with a fresh name. -/
theorem create_inv_link (s : newfs_super) (root d : newfs_dentry) (q : dptr) (P : newfs_inode)
    (n m : List Nat) (i ftype cnt : Nat)
    (hhyd : hydrated root) (huniq : unique_names root)
    (hd : dentry_at root q = some d) (hi : d.inode = some P)
    (hfresh : ∀ x ∈ P.dentrys, x.name ≠ n) (hm : m.length = 1024) :
    create_inv
      { s with
        map_inode := m
        root_dentry := some (set_inode_at root q
          (some (newfs_inode.mk P.ino P.size cnt P.ftype P.target_path
            (newfs_dentry.mk n i
                (some (newfs_inode.mk i 0 0 ftype (List.replicate MAX_NAME_LEN 0) []
                  (List.replicate NFS_DATA_PER_FILE 0))) ftype :: P.dentrys)
            P.block_pointer))) } := by
  refine ⟨hm, _, rfl, ?_, ?_⟩
  · refine forall_at_set (fun e => e.inode ≠ none) ?_ _ q root d hd hhyd ?_
    · intro name ino ft a b c t tp bp ds ds1 _ _
      simp [newfs_dentry.inode]
    · refine forall_at_new_child _ root d _ q P cnt hd hi hhyd ?_ ?_
      · simp [newfs_dentry.inode]
      · exact forall_at_leaf _ _ _ _ _ _ _ _ _ _ (by simp [newfs_dentry.inode])
  · refine forall_at_set
      (fun e => ∀ x, e.inode = some x → (x.dentrys.map newfs_dentry.name).Nodup) ?_ _ q root d hd
      huniq ?_
    · intro name ino ft a b c t tp bp ds ds1 hnames h x hx
      simp only [newfs_dentry.inode, Option.some.injEq] at hx
      subst hx
      simp only [newfs_inode.dentrys, hnames]
      exact h _ rfl
    · refine forall_at_new_child _ root d _ q P cnt hd hi huniq ?_ ?_
      · intro x hx
        simp only [newfs_dentry.inode, Option.some.injEq] at hx
        subst hx
        simp only [newfs_inode.dentrys, List.map_cons, newfs_dentry.name]
        refine List.nodup_cons.2 ⟨?_, huniq q d hd P hi⟩
        intro hmem
        obtain ⟨x, hx1, hx2⟩ := List.mem_map.1 hmem
        exact hfresh x hx1 hx2
      · refine forall_at_leaf _ _ _ _ _ _ _ _ _ _ ?_
        intro x hx
        simp only [newfs_dentry.inode, Option.some.injEq] at hx
        subst hx
        simp [newfs_inode.dentrys]

/-- One create call made under `create_pre` returns and keeps the invariant. -/
theorem create_step (s : newfs_super) (c : create_call) (hinv : create_inv s)
    (hpre : create_pre s c) : ∃ r s1, newfs_create s c = some (r, s1) ∧ create_inv s1 := by
  have hinv0 := hinv
  obtain ⟨hmap, root, hr, hhyd, huniq⟩ := hinv
  obtain ⟨hfree, pre, seg, s1, q, hpath, hsegs, hlen, hnul, hwalk⟩ := hpre
  obtain ⟨e1, e2⟩ := walks_hydrated hwalk root hr hhyd
  subst e1
  have hsome : (dentry_at root q).isSome := e2 (by simp [dentry_at])
  obtain ⟨d, hd⟩ := Option.isSome_iff_exists.1 hsome
  cases hi : d.inode with
  | none => exact absurd hi (hhyd q d hd)
  | some P =>
    have hP := hydrate_of_hydrated s1 root d q P hr hd hi
    have hlook := lookup_last s1 pre seg q P hsegs hwalk hP
    have hseg : 47 ∉ seg := (hsegs seg (by simp)).2
    have hfn := get_fname_path_of pre seg hseg
    by_cases hdir : P.ftype = NFS_DIR
    · rw [if_pos hdir] at hlook
      have hreg : ¬ P.ftype = NFS_REG_FILE := by rw [hdir]; decide
      cases hs : newfs_lookup_scan seg P.dentrys 0 with
      | none =>
        simp only [hs] at hlook
        have hfresh := (lookup_scan_sound seg P.dentrys 0).1 hs
        cases c with
        | mkdir path =>
          simp only [create_call.path] at hpath
          subst hpath
          obtain ⟨i, m, hl, _, _, _, _, hm, _⟩ :=
            link_new_free s1 root q P seg NFS_DIR hlen hnul hmap hfree
          refine ⟨NFS_ERROR_NONE, _, ?_, create_inv_link s1 root d q P seg m i NFS_DIR
            ((P.dir_cnt + 1) % 4294967296) hhyd huniq hd hi hfresh hm⟩
          simp only [newfs_create]
          unfold newfs_mkdir
          rw [hlook]
          simp only [Bool.false_eq_true, if_false, hr, hd, hi, if_neg hreg, hfn, hl]
        | mknod path mode =>
          simp only [create_call.path] at hpath
          subst hpath
          obtain ⟨i, m, hl, _, _, _, _, hm, _⟩ :=
            link_new_free s1 root q P seg (mknod_ftype mode) hlen hnul hmap hfree
          refine ⟨NFS_ERROR_NONE, _, ?_, create_inv_link s1 root d q P seg m i (mknod_ftype mode)
            ((P.dir_cnt + 1) % 4294967296) hhyd huniq hd hi hfresh hm⟩
          simp only [newfs_create]
          unfold newfs_mknod
          rw [hlook]
          simp only [Bool.false_eq_true, if_false, hr, hd, hi, hfn]
          exact hl
      | some k =>
        simp only [hs] at hlook
        obtain ⟨k', ch, hk', hch⟩ := (lookup_scan_sound seg P.dentrys 0).2 k hs
        have hkk : k = k' := by omega
        subst hkk
        have hat : dentry_at root (q ++ [k]) = some ch := by
          rw [dentry_at_below root d q P hd hi, hch]
          rfl
        cases hci : ch.inode with
        | none => exact absurd hci (hhyd _ ch hat)
        | some ci =>
          rw [hydrate_of_hydrated s1 root ch (q ++ [k]) ci hr hat hci] at hlook
          simp only at hlook
          refine ⟨-NFS_ERROR_EXISTS, s1, ?_, hinv0⟩
          cases c with
          | mkdir path =>
            simp only [create_call.path] at hpath
            subst hpath
            simp only [newfs_create]
            unfold newfs_mkdir
            rw [hlook]
            simp only [if_true]
          | mknod path mode =>
            simp only [create_call.path] at hpath
            subst hpath
            simp only [newfs_create]
            unfold newfs_mknod
            rw [hlook]
            simp only [if_true]
    · rw [if_neg hdir] at hlook
      refine ⟨-NFS_ERROR_NOTFOUND, s1, ?_, hinv0⟩
      cases c with
      | mkdir path =>
        simp only [create_call.path] at hpath
        subst hpath
        simp only [newfs_create]
        unfold newfs_mkdir
        rw [hlook]
        simp only [Bool.false_eq_true, if_false]
      | mknod path mode =>
        simp only [create_call.path] at hpath
        subst hpath
        simp only [newfs_create]
        unfold newfs_mknod
        rw [hlook]
        simp only [Bool.false_eq_true, if_false]

theorem fresh_inv (s : newfs_super) (h : fresh s) : create_inv s := by
  obtain ⟨hm, name, ino, a, b, c, t, tp, bp, ft, hr⟩ := h
  refine ⟨hm, _, hr, ?_, ?_⟩
  · exact forall_at_leaf (fun e => e.inode ≠ none) _ _ _ _ _ _ _ _ _
      (by simp [newfs_dentry.inode])
  · refine forall_at_leaf
      (fun e => ∀ x, e.inode = some x → (x.dentrys.map newfs_dentry.name).Nodup)
      _ _ _ _ _ _ _ _ _ ?_
    intro x hx
    simp only [newfs_dentry.inode, Option.some.injEq] at hx
    subst hx
    simp [newfs_inode.dentrys]

theorem created_inv (s0 s : newfs_super) (h0 : fresh s0) (h : created_from s0 s) :
    create_inv s := by
  induction h with
  | init => exact fresh_inv s0 h0
  | call s s1 c r _ hpre hcall ih =>
    obtain ⟨r', s1', e, hinv⟩ := create_step s c ih hpre
    rw [hcall] at e
    simp only [Option.some.injEq, Prod.mk.injEq] at e
    rw [e.2]
    exact hinv
/-! ## Number of sector reads -/

/-- The read loop over `n` sectors ends within `fuel` iterations exactly when
`n ≤ fuel`: it makes `n` iterations, one `ddriver_read` each. -/
theorem read_loop_iterations : ∀ (fuel n : Nat) (d : ddriver) (temp : List Nat),
    (newfs_driver_read_loop fuel d ((512 * n : Nat) : Int) temp).isSome = true ↔ n ≤ fuel := by
  intro fuel
  induction fuel with
  | zero =>
    intro n d temp
    unfold newfs_driver_read_loop
    by_cases hn : ((512 * n : Nat) : Int) = 0
    · rw [if_pos hn]
      simp only [Option.isSome_some, true_iff]
      omega
    · rw [if_neg hn]
      simp only [Option.isSome_none, Bool.false_eq_true, false_iff]
      omega
  | succ fuel ih =>
    intro n d temp
    unfold newfs_driver_read_loop
    by_cases hn : ((512 * n : Nat) : Int) = 0
    · rw [if_pos hn]
      simp only [Option.isSome_some, true_iff]
      omega
    · rw [if_neg hn]
      have hpos : 0 < n := by omega
      have hsub : ((512 * n : Nat) : Int) - (NFS_IO_SZ : Int) = ((512 * (n - 1) : Nat) : Int) := by
        unfold NFS_IO_SZ
        omega
      simp only [hsub]
      rcases hr : ddriver_read d NFS_IO_SZ with ⟨ret, ⟨_ | unit⟩, d1⟩
      · simp only
        rw [ih (n - 1) d1 _]
        omega
      · simp only
        rw [ih (n - 1) d1 _]
        omega
/-! ## The lookup that follows a create -/

theorem first_named_of_names (seg : List Nat) (ds ds1 : List newfs_dentry) (k : Nat)
    (h : ds1.map newfs_dentry.name = ds.map newfs_dentry.name) (hf : first_named seg ds k) :
    first_named seg ds1 k := by
  have hget : ∀ j : Nat, (ds1[j]?).map newfs_dentry.name = (ds[j]?).map newfs_dentry.name := by
    intro j
    rw [← List.getElem?_map, ← List.getElem?_map, h]
  obtain ⟨d, hd, hn, hfirst⟩ := hf
  have hk := hget k
  rw [hd] at hk
  cases h1 : ds1[k]? with
  | none => rw [h1] at hk; simp at hk
  | some d1 =>
    rw [h1] at hk
    simp only [Option.map_some', Option.some.injEq] at hk
    refine ⟨d1, h1, hk.trans hn, ?_⟩
    intro j e hj he
    have hj1 := hget j
    rw [he] at hj1
    cases h2 : ds[j]? with
    | none => rw [h2] at hj1; simp at hj1
    | some e0 =>
      rw [h2] at hj1
      simp only [Option.map_some', Option.some.injEq] at hj1
      rw [hj1]
      exact hfirst j e0 hj h2

theorem names_of_keys (ds ds1 : List newfs_dentry)
    (h : ds1.map dentry_key = ds.map dentry_key) :
    ds1.map newfs_dentry.name = ds.map newfs_dentry.name := by
  have := congrArg (List.map Prod.fst) h
  simpa [List.map_map, Function.comp, dentry_key] using this

theorem tree_walk_preserved {root root1 : newfs_dentry} (h : tree_preserved root root1) :
    ∀ (pre : List (List Nat)) (cursor q : dptr),
      tree_walk root cursor pre q → tree_walk root1 cursor pre q := by
  intro pre
  induction pre with
  | nil => intro cursor q hw; exact hw
  | cons seg rest ih =>
    intro cursor q hw
    obtain ⟨d, inode, k, hd, hi, hdir, hfn, htail⟩ := hw
    obtain ⟨d1, hd1, _, hin⟩ := h cursor d hd
    obtain ⟨i1, hi1, _, _, hft, _, hkeys⟩ := hin inode hi
    exact ⟨d1, i1, k, hd1, hi1, hft.trans hdir,
      first_named_of_names seg _ _ k (names_of_keys _ _ hkeys) hfn, ih _ _ htail⟩

theorem walks_tree_walk {s s1 : newfs_super} {cursor q : dptr} {pre : List (List Nat)}
    (hw : walks s cursor pre s1 q) :
    ∀ root1, s1.root_dentry = some root1 → tree_walk root1 cursor pre q := by
  induction hw with
  | done s p => intro root1 _; rfl
  | step s s1 s2 cursor p seg rest inode k hh hdir hk hw ih =>
    intro root2 hr2
    obtain ⟨_, d, rootm, _, _, hrm, hdm⟩ := hydrate_post s s1 cursor (some inode) hh
    obtain ⟨root2', hr2', hpres⟩ := (walks_frame hw).2 rootm hrm
    rw [hr2] at hr2'
    cases hr2'
    obtain ⟨d1, hd1, _, hin⟩ := hpres cursor _ hdm
    obtain ⟨i1, hi1, _, _, hft, _, hkeys⟩ := hin inode rfl
    exact ⟨d1, i1, k, hd1, hi1, hft.trans hdir,
      first_named_of_names seg _ _ k (names_of_keys _ _ hkeys) hk, ih root2 hr2⟩

theorem tree_walk_suffix (root : newfs_dentry) : ∀ (pre : List (List Nat)) (cursor q : dptr),
    tree_walk root cursor pre q → ∃ r, q = cursor ++ r := by
  intro pre
  induction pre with
  | nil => intro cursor q hw; exact ⟨[], by rw [List.append_nil]; exact hw⟩
  | cons seg rest ih =>
    intro cursor q hw
    obtain ⟨_, _, k, _, _, _, _, htail⟩ := hw
    obtain ⟨r, hr⟩ := ih _ _ htail
    exact ⟨k :: r, by rw [hr, List.append_assoc]; rfl⟩

theorem dentry_at_set_prefix (v : Option newfs_inode) (r : dptr) :
    ∀ (c : dptr) (root d : newfs_dentry), dentry_at root c = some d →
      dentry_at (set_inode_at root (c ++ r) v) c = some (set_inode_at d r v) := by
  intro c
  induction c with
  | nil =>
    intro root d hd
    simp only [dentry_at, Option.some.injEq] at hd
    subst hd
    rfl
  | cons k c ih =>
    intro root d hd
    cases root with
    | mk name ino inode ftype =>
      cases inode with
      | none => simp [dentry_at, newfs_dentry.inode] at hd
      | some i =>
        cases i with
        | mk a b cc t tp ds bp =>
          rw [dentry_at_cons] at hd
          simp only [newfs_inode.dentrys] at hd
          cases hk : ds[k]? with
          | none => simp [hk] at hd
          | some ch =>
            simp only [hk, Option.some_bind] at hd
            have hset : set_inode_at
                (newfs_dentry.mk name ino (some (newfs_inode.mk a b cc t tp ds bp)) ftype)
                (k :: c ++ r) v
                = newfs_dentry.mk name ino
                    (some (newfs_inode.mk a b cc t tp (ds.set k (set_inode_at ch (c ++ r) v)) bp))
                    ftype := by
              simp only [List.cons_append, set_inode_at, hk]
              rfl
            rw [hset, dentry_at_cons]
            simp only [newfs_inode.dentrys]
            have hlt : k < ds.length := (List.getElem?_eq_some_iff.1 hk).1
            rw [List.getElem?_set_self hlt]
            simp only [Option.some_bind]
            exact ih ch d hd

theorem tree_walk_set (root : newfs_dentry) (v : Option newfs_inode) :
    ∀ (pre : List (List Nat)) (cursor q : dptr),
      tree_walk root cursor pre q → tree_walk (set_inode_at root q v) cursor pre q := by
  intro pre
  induction pre with
  | nil => intro cursor q hw; exact hw
  | cons seg rest ih =>
    intro cursor q hw
    have hw0 := hw
    obtain ⟨d, inode, k, hd, hi, hdir, hfn, htail⟩ := hw
    obtain ⟨r, hr⟩ := tree_walk_suffix root _ _ _ htail
    have hq : q = cursor ++ k :: r := by rw [hr, List.append_assoc]; rfl
    have hat := dentry_at_set_prefix v (k :: r) cursor root d hd
    rw [← hq] at hat
    have hfn0 := hfn
    obtain ⟨ch, hch, _⟩ := hfn
    cases d with
    | mk name ino dinode ftype =>
      simp only [newfs_dentry.inode] at hi
      subst hi
      cases inode with
      | mk a b cc t tp ds bp =>
        simp only [newfs_inode.dentrys] at hch hfn0
        have hset : set_inode_at
            (newfs_dentry.mk name ino (some (newfs_inode.mk a b cc t tp ds bp)) ftype) (k :: r) v
            = newfs_dentry.mk name ino
                (some (newfs_inode.mk a b cc t tp (ds.set k (set_inode_at ch r v)) bp)) ftype := by
          simp only [set_inode_at, hch]
        rw [hset] at hat
        refine ⟨_, _, k, hat, rfl, hdir, ?_, ih _ _ htail⟩
        refine first_named_of_names seg ds _ k ?_ hfn0
        exact map_set_of_eq newfs_dentry.name ds k ch _ hch
          (congrArg Prod.fst (set_inode_at_key ch r v))

theorem tree_walk_walks (s : newfs_super) (root : newfs_dentry)
    (hr : s.root_dentry = some root) : ∀ (pre : List (List Nat)) (cursor q : dptr),
      tree_walk root cursor pre q → walks s cursor pre s q := by
  intro pre
  induction pre with
  | nil => intro cursor q hw; cases hw; exact walks.done _ _
  | cons seg rest ih =>
    intro cursor q hw
    obtain ⟨d, inode, k, hd, hi, hdir, hfn, htail⟩ := hw
    exact walks.step s s s cursor q seg rest inode k
      (hydrate_of_hydrated s root d cursor inode hr hd hi) hdir hfn (ih _ _ htail)

/-- The lookup of `/pre/seg` when the walk along `pre` reaches `q`: what the
last round of the loop does with the inode `P` found there. -/
theorem lookup_last_walk (s s1 s2 : newfs_super) (pre : List (List Nat)) (seg : List Nat)
    (q : dptr) (P : newfs_inode) (hsegs : ∀ x ∈ pre ++ [seg], is_segment x)
    (hwalk : walks s [] pre s1 q) (hP : newfs_hydrate s1 q = some (some P, s2)) :
    newfs_lookup s (path_of (pre ++ [seg])) =
      if P.ftype = NFS_DIR then
        match newfs_lookup_scan seg P.dentrys 0 with
        | none => some ({ dentry_ret := some q, is_find := false, is_root := false }, s2)
        | some k =>
          match newfs_hydrate s2 (q ++ [k]) with
          | none => none
          | some (_, s3) =>
            some ({ dentry_ret := some (q ++ [k]), is_find := true, is_root := false }, s3)
      else some ({ dentry_ret := none, is_find := false, is_root := false }, s2) := by
  have hlvl : newfs_calc_lvl (path_of (pre ++ [seg])) = pre.length + 1 := by
    rw [calc_lvl_path_of _ hsegs]; simp
  have hreg : ¬ (P.ftype = NFS_REG_FILE ∧ 0 + pre.length + 1 < pre.length + 1) := by
    intro h; omega
  unfold newfs_lookup
  simp only [hlvl, strtok_all_path_of _ hsegs]
  rw [if_neg (by omega), lookup_loop_walks _ hwalk [seg] 0 (by omega), newfs_lookup_loop]
  simp only [hP]
  rw [if_neg hreg]
  by_cases hd : P.ftype = NFS_DIR
  · rw [if_pos hd, if_pos hd]
    cases hs : newfs_lookup_scan seg P.dentrys 0 with
    | none => simp only [hydrate_idem s1 s2 q P hP]
    | some k =>
      simp only
      rw [if_pos (by omega)]
      try rfl
  · rw [if_neg hd, if_neg hd]
    simp only [newfs_lookup_loop]

/-- The lookup of `/pre/seg` has no defined result when the dentry reached
along `pre` cannot be hydrated. -/
theorem lookup_last_undefined (s s1 : newfs_super) (pre : List (List Nat)) (seg : List Nat)
    (q : dptr) (hsegs : ∀ x ∈ pre ++ [seg], is_segment x)
    (hwalk : walks s [] pre s1 q)
    (hP : ∀ P s2, newfs_hydrate s1 q ≠ some (some P, s2)) :
    newfs_lookup s (path_of (pre ++ [seg])) = none := by
  have hlvl : newfs_calc_lvl (path_of (pre ++ [seg])) = pre.length + 1 := by
    rw [calc_lvl_path_of _ hsegs]; simp
  unfold newfs_lookup
  simp only [hlvl, strtok_all_path_of _ hsegs]
  rw [if_neg (by omega), lookup_loop_walks _ hwalk [seg] 0 (by omega), newfs_lookup_loop]
  cases hh : newfs_hydrate s1 q with
  | none => rfl
  | some pr =>
    obtain ⟨i, s2⟩ := pr
    cases i with
    | none => rfl
    | some P => exact absurd hh (hP P s2)

theorem alloc_inode_keeps (s s1 : newfs_super) (d d1 : newfs_dentry)
    (h : newfs_alloc_inode s d = some (d1, s1)) :
    d1.name = d.name ∧ s1.root_dentry = s.root_dentry := by
  unfold newfs_alloc_inode at h
  unfold newfs_alloc_ino at h
  cases hb : newfs_alloc_ino_bytes s.max_ino s.map_inode NFS_BLKS_SZ 0 with
  | oob => simp [hb] at h
  | next =>
    simp only [hb, if_true, Option.some.injEq, Prod.mk.injEq] at h
    obtain ⟨h1, h2⟩ := h
    subst h1 h2
    exact ⟨rfl, rfl⟩
  | ret v m =>
    simp only [hb] at h
    split_ifs at h
    · simp only [Option.some.injEq, Prod.mk.injEq] at h
      obtain ⟨h1, h2⟩ := h
      subst h1 h2
      exact ⟨rfl, rfl⟩
    · simp only [Option.some.injEq, Prod.mk.injEq] at h
      obtain ⟨h1, h2⟩ := h
      subst h1 h2
      exact ⟨rfl, rfl⟩

/-- After the common tail of `newfs_mkdir` and `newfs_mknod` has hung the name
`n` on the directory at `q`, the lookup of `/pre/n` finds it there. -/
theorem link_then_lookup (s2 s3 : newfs_super) (root2 d : newfs_dentry) (pre : List (List Nat))
    (n : List Nat) (q : dptr) (P : newfs_inode) (ftype : Nat) (r : Int)
    (hsegs : ∀ x ∈ pre ++ [n], is_segment x) (hlen : n.length < MAX_NAME_LEN) (hnul : 0 ∉ n)
    (hd : dentry_at root2 q = some d) (hdir : P.ftype = NFS_DIR)
    (hw : tree_walk root2 [] pre q)
    (hl : newfs_link_new s2 root2 q P n ftype = some (r, s3)) :
    ∃ s4 root4 e,
      newfs_lookup s3 (path_of (pre ++ [n]))
        = some ({ dentry_ret := some (q ++ [0]), is_find := true, is_root := false }, s4) ∧
      s4.root_dentry = some root4 ∧ dentry_at root4 (q ++ [0]) = some e ∧ e.name = n ∧
      walks s3 [] pre s3 q := by
  unfold newfs_link_new at hl
  rw [alloc_dentry_name n ftype hnul hlen] at hl
  cases ha : newfs_alloc_inode s2 (newfs_dentry.mk n 4294967295 none ftype) with
  | none => simp [ha] at hl
  | some pr =>
    obtain ⟨dentry, sa⟩ := pr
    have hname : dentry.name = n := (alloc_inode_keeps _ _ _ _ ha).1
    simp only [ha, Option.some.injEq, Prod.mk.injEq] at hl
    obtain ⟨_, hs3⟩ := hl
    cases P with
    | mk a b c t tp ds bp =>
      simp only [newfs_inode.ftype] at hdir
      have hr3 : s3.root_dentry = some (set_inode_at root2 q
          (some (newfs_inode.mk a b ((c + 1) % 4294967296) t tp (dentry :: ds) bp))) := by
        rw [← hs3]; rfl
      have hat := dentry_at_set_self q root2 d
        (some (newfs_inode.mk a b ((c + 1) % 4294967296) t tp (dentry :: ds) bp)) hd
      have hwalk3 : walks s3 [] pre s3 q :=
        tree_walk_walks s3 _ hr3 pre [] q (tree_walk_set root2 _ pre [] q hw)
      have hP3 := hydrate_of_hydrated s3 _ _ q _ hr3 hat rfl
      have hchild : dentry_at (set_inode_at root2 q
          (some (newfs_inode.mk a b ((c + 1) % 4294967296) t tp (dentry :: ds) bp))) (q ++ [0])
          = some dentry := by
        rw [dentry_at_below _ _ q _ hat rfl 0 []]
        simp only [newfs_inode.dentrys, List.getElem?_cons_zero, Option.some_bind, dentry_at]
      obtain ⟨i4, s4, h4⟩ := hydrate_total s3 _ dentry (q ++ [0]) hr3 hchild
      obtain ⟨root3, d3, root4, hr3', hd3, hr4, hd4⟩ := hydrate_post s3 s4 (q ++ [0]) (some i4) h4
      rw [hr3] at hr3'
      cases hr3'
      rw [hchild] at hd3
      cases hd3
      refine ⟨s4, root4, _, ?_, hr4, hd4, hname, hwalk3⟩
      rw [lookup_last_walk s3 s3 s3 pre n q _ hsegs hwalk3 hP3]
      simp only [newfs_inode.ftype, newfs_inode.dentrys]
      rw [if_pos hdir]
      unfold newfs_lookup_scan
      rw [if_pos hname.symm]
      simp only [h4]

/-- A create call of `/pre/n` that returns `NFS_ERROR_NONE`, the walk along
`pre` reaching `q`: the dentry at `q` holds a directory inode `P` without a
child named `n`, and the call has gone through the common tail with `P`. -/
theorem create_none_links (s s1 s5 : newfs_super) (c : create_call) (pre : List (List Nat))
    (n : List Nat) (q : dptr) (hpath : c.path = path_of (pre ++ [n]))
    (hsegs : ∀ x ∈ pre ++ [n], is_segment x) (hwalk : walks s [] pre s1 q)
    (hc : newfs_create s c = some (NFS_ERROR_NONE, s5)) :
    ∃ (s2 : newfs_super) (root2 d : newfs_dentry) (P : newfs_inode) (ftype : Nat),
      newfs_hydrate s1 q = some (some P, s2) ∧ s2.root_dentry = some root2 ∧
      dentry_at root2 q = some d ∧ P.ftype = NFS_DIR ∧ (∀ x ∈ P.dentrys, x.name ≠ n) ∧
      newfs_link_new s2 root2 q P n ftype = some (NFS_ERROR_NONE, s5) := by
  have hseg : 47 ∉ n := (hsegs n (by simp)).2
  cases hh : newfs_hydrate s1 q with
  | none =>
    have hl := lookup_last_undefined s s1 pre n q hsegs hwalk (by rw [hh]; simp)
    cases c with
    | mkdir path =>
      simp only [create_call.path] at hpath
      subst hpath
      simp only [newfs_create] at hc
      unfold newfs_mkdir at hc
      simp [hl] at hc
    | mknod path mode =>
      simp only [create_call.path] at hpath
      subst hpath
      simp only [newfs_create] at hc
      unfold newfs_mknod at hc
      simp [hl] at hc
  | some pr =>
    obtain ⟨i, s2⟩ := pr
    cases i with
    | none =>
      have hl := lookup_last_undefined s s1 pre n q hsegs hwalk (by rw [hh]; simp)
      cases c with
      | mkdir path =>
        simp only [create_call.path] at hpath
        subst hpath
        simp only [newfs_create] at hc
        unfold newfs_mkdir at hc
        simp [hl] at hc
      | mknod path mode =>
        simp only [create_call.path] at hpath
        subst hpath
        simp only [newfs_create] at hc
        unfold newfs_mknod at hc
        simp [hl] at hc
    | some P =>
      obtain ⟨_, d0, root2, _, _, hr2, hd2⟩ := hydrate_post s1 s2 q (some P) hh
      have hl := lookup_last_walk s s1 s2 pre n q P hsegs hwalk hh
      have hne1 : ¬ (-NFS_ERROR_EXISTS = NFS_ERROR_NONE) := by decide
      have hne2 : ¬ (-NFS_ERROR_NOTFOUND = NFS_ERROR_NONE) := by decide
      by_cases hdir : P.ftype = NFS_DIR
      · rw [if_pos hdir] at hl
        cases hs : newfs_lookup_scan n P.dentrys 0 with
        | some k =>
          rw [hs] at hl
          simp only at hl
          cases h3 : newfs_hydrate s2 (q ++ [k]) with
          | none =>
            rw [h3] at hl
            cases c with
            | mkdir path =>
              simp only [create_call.path] at hpath
              subst hpath
              simp only [newfs_create] at hc
              unfold newfs_mkdir at hc
              simp [hl] at hc
            | mknod path mode =>
              simp only [create_call.path] at hpath
              subst hpath
              simp only [newfs_create] at hc
              unfold newfs_mknod at hc
              simp [hl] at hc
          | some pr3 =>
            rw [h3] at hl
            cases c with
            | mkdir path =>
              simp only [create_call.path] at hpath
              subst hpath
              simp only [newfs_create] at hc
              unfold newfs_mkdir at hc
              simp only [hl, if_true, Option.some.injEq, Prod.mk.injEq] at hc
              exact absurd hc.1 hne1
            | mknod path mode =>
              simp only [create_call.path] at hpath
              subst hpath
              simp only [newfs_create] at hc
              unfold newfs_mknod at hc
              simp only [hl, if_true, Option.some.injEq, Prod.mk.injEq] at hc
              exact absurd hc.1 hne1
        | none =>
          rw [hs] at hl
          simp only at hl
          have hmiss := (lookup_scan_sound n P.dentrys 0).1 hs
          have hreg : ¬ P.ftype = NFS_REG_FILE := by rw [hdir]; decide
          cases c with
          | mkdir path =>
            simp only [create_call.path] at hpath
            subst hpath
            simp only [newfs_create] at hc
            unfold newfs_mkdir at hc
            simp only [hl, Bool.false_eq_true, if_false, hr2, hd2, newfs_dentry.inode,
              if_neg hreg, get_fname_path_of pre n hseg] at hc
            exact ⟨s2, root2, _, P, NFS_DIR, rfl, hr2, hd2, hdir, hmiss, hc⟩
          | mknod path mode =>
            simp only [create_call.path] at hpath
            subst hpath
            simp only [newfs_create] at hc
            unfold newfs_mknod at hc
            simp only [hl, Bool.false_eq_true, if_false, hr2, hd2, newfs_dentry.inode,
              get_fname_path_of pre n hseg] at hc
            exact ⟨s2, root2, _, P, _, rfl, hr2, hd2, hdir, hmiss, hc⟩
      · rw [if_neg hdir] at hl
        cases c with
        | mkdir path =>
          simp only [create_call.path] at hpath
          subst hpath
          simp only [newfs_create] at hc
          unfold newfs_mkdir at hc
          simp only [hl, Bool.false_eq_true, if_false, Option.some.injEq, Prod.mk.injEq] at hc
          exact absurd hc.1 hne2
        | mknod path mode =>
          simp only [create_call.path] at hpath
          subst hpath
          simp only [newfs_create] at hc
          unfold newfs_mknod at hc
          simp only [hl, Bool.false_eq_true, if_false, Option.some.injEq, Prod.mk.injEq] at hc
          exact absurd hc.1 hne2
/-! ## Persisting and reading subtrees that are partly on the device only -/

theorem inos_lt_wf (mx mc : Nat) :
    (∀ t : newfs_inode, tree_wf mx mc t → ∀ i ∈ inos_of t, i < mx) ∧
    (∀ ds : List newfs_dentry, dentrys_wf mx mc ds → ∀ i ∈ inos_of_dentrys ds, i < mx) := by
  apply tree_induction
  · intro ino size dir_cnt ftype tp ds bp h hok i hi
    simp only [tree_wf] at hok
    simp only [inos_of, List.mem_cons] at hi
    rcases hi with e | e
    · rw [e]; exact hok.1
    · exact h hok.2.2.2.2.2.2.2.2.2 i e
  · intro _ i hi; simp [inos_of_dentrys] at hi
  · intro name ino ftype rest h hok j hj
    simp only [dentrys_wf] at hok
    simp only [inos_of_dentrys] at hj
    exact h hok.2.2.2.2 j hj
  · intro name ino i ftype rest h1 h2 hok j hj
    simp only [dentrys_wf] at hok
    simp only [inos_of_dentrys, List.mem_append] at hj
    rcases hj with e | e
    · exact h1 hok.2.2.2.2.1 j e
    · exact h2 hok.2.2.2.2.2 j e

theorem on_disk_frame_wf (io : Int) (sz mx : Nat) (data data1 : Nat → Nat) :
    (∀ t : newfs_inode, tree_wf mx 7 t → inode_on_disk io sz data t →
      (∀ a, touches io (inos_of t) (blocks_of t) a → data1 a = data a) →
      inode_on_disk io sz data1 t) ∧
    (∀ ds : List newfs_dentry, ∀ pb k : Nat, dentrys_wf mx 7 ds → k + ds.length ≤ 7 →
      dentrys_on_disk io sz data (pb * 1024 + k * 136) ds →
      (∀ a, touches io (inos_of_dentrys ds) (blocks_of_dentrys ds) a → data1 a = data a) →
      (∀ a, pb * 1024 + k * 136 ≤ a → a < pb * 1024 + (k + ds.length) * 136 →
        data1 a = data a) →
      dentrys_on_disk io sz data1 (pb * 1024 + k * 136) ds) := by
  apply tree_induction
  · intro ino size dir_cnt ftype tp ds bp hQ hok hd hfr
    simp only [tree_wf] at hok
    obtain ⟨_, _, _, _, _, _, _, hlen, hnd, hds⟩ := hok
    simp only [inode_on_disk] at hd ⊢
    obtain ⟨hrec, hblk, hdd⟩ := hd
    refine ⟨?_, hblk, ?_⟩
    · rw [← hrec]
      apply disk_read_congr
      intro a ha1 ha2
      apply hfr
      left
      exact ⟨ino, by simp [inos_of], ha1, by unfold SIZEOF_INODE_D at ha2; exact ha2⟩
    · by_cases hne : ds = []
      · subst hne; simp [dentrys_on_disk]
      · have hdir : ftype = NFS_DIR := by
          by_contra h; exact hne (hnd h)
        obtain ⟨hb0, _⟩ := hblk hne
        have h0 := hQ (bp.getD 0 0) 0 hds (by omega) (by simpa using hdd)
          (by
            intro a ha
            apply hfr
            rcases ha with ⟨i, hi, hia⟩ | ⟨b, hb, hba⟩
            · left; exact ⟨i, by simp [inos_of, hi], hia⟩
            · right; exact ⟨b, blocks_of_mem_dentrys ino size dir_cnt ftype tp ds bp b hb, hba⟩)
          (by
            intro a ha1 ha2
            apply hfr
            right
            refine ⟨bp.getD 0 0, blocks_of_mem_self ino size dir_cnt ftype tp ds bp hdir hb0, ?_⟩
            unfold in_block
            constructor <;> omega)
        simpa using h0
  · intro pb k _ _ _ _ _
    simp [dentrys_on_disk]
  · intro name ino ftype rest hQ pb k hok hk hd hfr hrecs
    simp only [dentrys_wf] at hok
    obtain ⟨_, _, _, _, hrest⟩ := hok
    simp only [List.length_cons] at hk hrecs
    simp only [dentrys_on_disk] at hd ⊢
    obtain ⟨hrec, hdrest⟩ := hd
    refine ⟨?_, ?_⟩
    · rw [← hrec]
      apply disk_read_congr
      intro a ha1 ha2
      unfold SIZEOF_DENTRY_D at ha2
      exact hrecs a ha1 (by omega)
    · have e : pb * 1024 + k * 136 + SIZEOF_DENTRY_D = pb * 1024 + (k + 1) * 136 := by
        unfold SIZEOF_DENTRY_D; ring
      rw [e] at hdrest ⊢
      apply hQ pb (k + 1) hrest (by omega) hdrest
      · intro a ha
        apply hfr
        rcases ha with ⟨j, hj, hja⟩ | ⟨b, hb, hba⟩
        · left; exact ⟨j, by simp [inos_of_dentrys, hj], hja⟩
        · right; exact ⟨b, by simp [blocks_of_dentrys, hb], hba⟩
      · intro a ha1 ha2
        exact hrecs a (by omega) (by omega)
  · intro name ino i ftype rest hP hQ pb k hok hk hd hfr hrecs
    simp only [dentrys_wf] at hok
    obtain ⟨_, _, _, _, hti, hrest⟩ := hok
    simp only [List.length_cons] at hk hrecs
    simp only [dentrys_on_disk] at hd ⊢
    obtain ⟨hrec, hdi, hdrest⟩ := hd
    refine ⟨?_, ?_, ?_⟩
    · rw [← hrec]
      apply disk_read_congr
      intro a ha1 ha2
      unfold SIZEOF_DENTRY_D at ha2
      exact hrecs a ha1 (by omega)
    · apply hP hti hdi
      intro a ha
      apply hfr
      rcases ha with ⟨j, hj, hja⟩ | ⟨b, hb, hba⟩
      · left; exact ⟨j, by simp [inos_of_dentrys, hj], hja⟩
      · right; exact ⟨b, by simp [blocks_of_dentrys, hb], hba⟩
    · have e : pb * 1024 + k * 136 + SIZEOF_DENTRY_D = pb * 1024 + (k + 1) * 136 := by
        unfold SIZEOF_DENTRY_D; ring
      rw [e] at hdrest ⊢
      apply hQ pb (k + 1) hrest (by omega) hdrest
      · intro a ha
        apply hfr
        rcases ha with ⟨j, hj, hja⟩ | ⟨b, hb, hba⟩
        · left; exact ⟨j, by simp [inos_of_dentrys, hj], hja⟩
        · right; exact ⟨b, by simp [blocks_of_dentrys, hb], hba⟩
      · intro a ha1 ha2
        exact hrecs a (by omega) (by omega)


theorem read_inode_dentrys_image_wf (io : Int) (block0 mx mc : Nat) :
    ∀ (ds : List newfs_dentry) (i : Nat) (inode : newfs_inode) (d : ddriver),
    dentrys_wf mx mc ds →
    dentrys_on_disk io d.size d.data (block0 * 1024 + i * 136) ds →
    block0 * 1024 + 1024 ≤ d.size → d.size % 512 = 0 → d.size < 2147483648 →
    i + ds.length ≤ 7 → inode.dir_cnt + ds.length < 4294967296 →
    ∃ d1, newfs_read_inode_dentrys block0 ds.length i inode d
        = some (some (with_children inode ds), d1) ∧
      d1.data = d.data ∧ d1.size = d.size := by
  intro ds
  induction ds with
  | nil =>
    intro i inode d _ _ _ _ _ _ _
    refine ⟨d, ?_, rfl, rfl⟩
    cases inode with
    | mk a b c f tp ds0 bp =>
      simp [newfs_read_inode_dentrys, with_children, strip_dentrys, newfs_inode.ino,
        newfs_inode.size, newfs_inode.dir_cnt, newfs_inode.ftype, newfs_inode.target_path,
        newfs_inode.dentrys, newfs_inode.block_pointer]
  | cons dh rest ih =>
    intro i inode d hok hdisk hblk h512 hsz hi hcnt
    cases dh with
    | mk name ino ch ftype =>
      have hfacts : 0 ∉ name ∧ name.length < MAX_NAME_LEN ∧ ino < 4294967296 ∧
          ftype < 4294967296 ∧ dentrys_wf mx mc rest ∧
          disk_read d.data (block0 * 1024 + i * 136) SIZEOF_DENTRY_D
            = newfs_dentry_d.bytes
                { fname := buf_of name MAX_NAME_LEN, ftype := ftype, ino := ino } ∧
          dentrys_on_disk io d.size d.data (block0 * 1024 + i * 136 + SIZEOF_DENTRY_D) rest := by
        cases ch with
        | none =>
          simp only [dentrys_wf] at hok
          simp only [dentrys_on_disk] at hdisk
          exact ⟨hok.1, hok.2.1, hok.2.2.1, hok.2.2.2.1, hok.2.2.2.2, hdisk.1, hdisk.2⟩
        | some c =>
          simp only [dentrys_wf] at hok
          simp only [dentrys_on_disk] at hdisk
          exact ⟨hok.1, hok.2.1, hok.2.2.1, hok.2.2.2.1, hok.2.2.2.2.2, hdisk.1, hdisk.2.2⟩
      obtain ⟨hn0, hnl, hcino, hft, hrest, hrec, hdrest⟩ := hfacts
      simp only [List.length_cons] at hi hcnt ⊢
      unfold newfs_read_inode_dentrys
      have hoff : toI32 (block0 * NFS_BLKS_SZ % 4294967296 + i * SIZEOF_DENTRY_D)
          = ((block0 * 1024 + i * 136 : Nat) : Int) := by
        unfold NFS_BLKS_SZ SIZEOF_DENTRY_D
        have e : block0 * 1024 % 4294967296 = block0 * 1024 := by omega
        rw [e]
        exact toI32_of_lt _ (by omega)
      have hspan : span_ok d (block0 * 1024 + i * 136) 136 :=
        span_ok_of_le d _ _ (by omega) h512 hsz
      have hsize : ((SIZEOF_DENTRY_D : Nat) : Int) = ((136 : Nat) : Int) := rfl
      rw [hoff, hsize, driver_read_spec d _ _ hspan]
      simp only [ne_eq, not_true_eq_false, if_false]
      unfold SIZEOF_DENTRY_D at hrec
      rw [hrec]
      rw [dentry_d_roundtrip _ (by simp) hft hcino]
      simp only [newfs_alloc_dentry, c_str_buf_of name hn0 hnl]
      cases inode with
      | mk a b c0 f tp ds0 bp =>
        simp only [newfs_inode.dir_cnt] at hcnt
        have hmod : (c0 + 1) % 4294967296 = c0 + 1 := by omega
        simp only [newfs_alloc_dentry_to_inode, hmod]
        have hdrest' : dentrys_on_disk io d.size d.data (block0 * 1024 + (i + 1) * 136) rest := by
          have e : block0 * 1024 + (i + 1) * 136 = block0 * 1024 + i * 136 + SIZEOF_DENTRY_D := by
            unfold SIZEOF_DENTRY_D; ring
          rw [e]; exact hdrest
        obtain ⟨d1, e1, e2, e3⟩ := ih (i + 1)
          (newfs_inode.mk a b (c0 + 1) f tp (newfs_dentry.mk name ino none ftype :: ds0) bp)
          { size := d.size, data := d.data,
            pos := ((block0 * 1024 + i * 136 - (block0 * 1024 + i * 136) % 512
              + (136 + (block0 * 1024 + i * 136) % 512 + 511) / 512 * 512 : Nat) : Int) }
          hrest hdrest' hblk h512 hsz (by omega)
          (by simp only [newfs_inode.dir_cnt]; omega)
        refine ⟨d1, ?_, e2, e3⟩
        rw [e1]
        simp only [with_children, strip_dentrys, newfs_inode.ino, newfs_inode.size,
          newfs_inode.dir_cnt, newfs_inode.ftype, newfs_inode.target_path,
          newfs_inode.dentrys, newfs_inode.block_pointer, List.map_cons, List.reverse_cons,
          List.append_assoc, List.singleton_append, List.length_cons, newfs_dentry.name,
          newfs_dentry.ino, newfs_dentry.ftype]
        have e4 : c0 + 1 + rest.length = c0 + (rest.length + 1) := by omega
        rw [e4]


theorem read_inode_image_wf (s : newfs_super) (hl : layout_ok s) (mx : Nat)
    (hmx : s.max_ino = (mx : Int)) (ino size dir_cnt ftype : Nat) (tp : List Nat)
    (ds : List newfs_dentry) (bp : List Nat)
    (hok : tree_wf mx 7 (newfs_inode.mk ino size dir_cnt ftype tp ds bp))
    (hd : inode_on_disk s.inode_offset s.dev.size s.dev.data
      (newfs_inode.mk ino size dir_cnt ftype tp ds bp)) :
    ∃ s1, newfs_read_inode s (ino : Int)
        = some (some (newfs_inode.mk ino size dir_cnt ftype tp (strip_dentrys ds).reverse bp), s1) ∧
      same_volume s s1 := by
  simp only [tree_wf] at hok
  obtain ⟨hino, hsize, hft, htp, hbp, hbps, hcnt, hlen, hnd, hds⟩ := hok
  simp only [inode_on_disk] at hd
  obtain ⟨hrec, hblk, hdd⟩ := hd
  obtain ⟨e1, e2, e3⟩ := ino_addr_bound s hl mx ino hmx hino
  obtain ⟨h1, h2, h3, h4, h5, h6, h7, h8⟩ := hl
  unfold newfs_read_inode
  have hsize' : ((SIZEOF_INODE_D : Nat) : Int) = ((168 : Nat) : Int) := rfl
  rw [ino_ofs_eq s ⟨h1, h2, h3, h4, h5, h6, h7, h8⟩ mx ino hmx hino, hsize',
    driver_read_spec s.dev _ _ (span_ok_of_le s.dev _ _ e2 h7 h6)]
  simp only [ne_eq, not_true_eq_false, if_false]
  unfold SIZEOF_INODE_D at hrec
  rw [hrec, inode_d_roundtrip _ (by simp only; omega) hsize htp hbp hbps
    (by simp only; omega) hft]
  simp only
  by_cases hdir : ftype = NFS_DIR
  · rw [if_pos hdir]
    have hti : toI32 dir_cnt = (dir_cnt : Int) := toI32_of_lt _ (by omega)
    by_cases hc : (toI32 dir_cnt > 0 ∧ ¬ bp.getD 0 0 = 0)
    · rw [if_pos hc]
      have hne : ds ≠ [] := by
        intro e; rw [e] at hcnt; simp at hcnt; rw [hcnt] at hc; simp [toI32] at hc
      obtain ⟨hb0, hb1⟩ := hblk hne
      have hn : (toI32 dir_cnt).toNat = ds.length := by rw [hti, hcnt]; simp
      rw [hn]
      obtain ⟨d1, r1, r2, r3⟩ := read_inode_dentrys_image_wf s.inode_offset (bp.getD 0 0) mx 7
        ds 0 (newfs_inode.mk ino size 0 ftype tp [] bp)
        { size := s.dev.size, data := s.dev.data,
          pos := ((ino_addr s.inode_offset ino - ino_addr s.inode_offset ino % 512
            + (168 + ino_addr s.inode_offset ino % 512 + 511) / 512 * 512 : Nat) : Int) }
        hds (by simpa using hdd) hb1 h7 h6 (by omega)
        (by simp only [newfs_inode.dir_cnt]; omega)
      rw [r1]
      refine ⟨{ s with dev := d1 }, ?_, ⟨rfl, r2, r3⟩⟩
      simp only [with_children, newfs_inode.ino, newfs_inode.size, newfs_inode.dir_cnt,
        newfs_inode.ftype, newfs_inode.target_path, newfs_inode.dentrys,
        newfs_inode.block_pointer, List.append_nil, Nat.zero_add, hcnt]
    · rw [if_neg hc]
      have hnil : ds = [] := by
        by_contra hne
        obtain ⟨hb0, _⟩ := hblk hne
        apply hc
        refine ⟨?_, hb0⟩
        rw [hti]
        have : 0 < ds.length := List.length_pos.2 hne
        omega
      subst hnil
      simp only [List.length_nil] at hcnt
      subst hcnt
      exact ⟨_, rfl, ⟨rfl, rfl, rfl⟩⟩
  · rw [if_neg hdir]
    have hnil := hnd hdir
    subst hnil
    simp only [List.length_nil] at hcnt
    subst hcnt
    exact ⟨_, rfl, ⟨rfl, rfl, rfl⟩⟩


theorem sync_dentrys_wf_nil (mx : Nat) : sync_dentrys_wf_ok mx [] := by
  intro s pb k hl hmx _ _ _ _ _ _ _ _ _
  refine ⟨[], s, rfl, rfl, by simp [dentrys_wf], ?_, fun a _ _ => rfl, by simp [dentrys_on_disk]⟩
  exact
    { fields := rfl
      size := rfl
      len := hl.2.2.2.2.2.2.2
      mono := fun b hb => hb
      free := by simp [blocks_needed_dentrys]
      nodup := by simp [blocks_of_dentrys]
      used := by simp [blocks_of_dentrys]
      fresh := by simp [blocks_of_dentrys] }


theorem sync_dentrys_wf_cons (mx : Nat) (name : List Nat) (ino : Nat) (i : newfs_inode)
    (ftype : Nat) (rest : List newfs_dentry) (hP : sync_inode_wf_ok mx i)
    (hQ : sync_dentrys_wf_ok mx rest) :
    sync_dentrys_wf_ok mx (newfs_dentry.mk name ino (some i) ftype :: rest) := by
  intro s pb k hl hmx hmx0 hok hnd_i hnd_b hused hpb hpbn hk hneed
  simp only [dentrys_wf] at hok
  obtain ⟨hn0, hnl, hino, hft, hti, hrest⟩ := hok
  simp only [inos_of_dentrys] at hnd_i
  simp only [blocks_of_dentrys] at hnd_b hused hpbn
  simp only [blocks_needed_dentrys] at hneed
  simp only [List.length_cons] at hk
  have hmxpos : 0 < s.max_ino := by rw [hmx]; omega
  obtain ⟨r1, r2, r3, r4⟩ := block_used_range s hl hmxpos pb hpb
  -- 1. the record of the dentry
  obtain ⟨d1, hw, hd1s, hd1d⟩ := write_rec s.dev (pb * 1024 + k * 136) 136
    (newfs_dentry_d.bytes { fname := buf_of name MAX_NAME_LEN, ftype := ftype, ino := ino })
    (dentry_d_bytes_length _) (by omega) hl.2.2.2.2.2.2.1 hl.2.2.2.2.2.1
  have hl1 : layout_ok { s with dev := d1 } := by
    obtain ⟨h1, h2, h3, h4, h5, h6, h7, h8⟩ := hl
    unfold layout_ok
    simp only [hd1s]
    exact ⟨h1, h2, h3, h4, h5, h6, h7, h8⟩
  -- 2. the subtree of the child
  obtain ⟨i1, s2, hs2, hfi, hti1, hpost2, hfr2, hdisk2⟩ := hP { s with dev := d1 } hl1 hmx hti
    (List.Nodup.of_append_left hnd_i) (List.Nodup.of_append_left hnd_b)
    (fun b hb => hused b (List.mem_append_left _ hb))
    (by
      have : free_blocks { s with dev := d1 } = free_blocks s := rfl
      rw [this]; omega)
  obtain ⟨hl2, hmx2, hio2⟩ := sync_post_layout hpost2 hl1
  -- 3. the rest of the chain
  have hused2 : ∀ b ∈ blocks_of_dentrys rest, block_used s2 b := fun b hb =>
    hpost2.mono b (hused b (List.mem_append_right _ hb))
  obtain ⟨rest1, s3, hs3, hfr, hrest1, hpost3, hfr3, hdisk3⟩ := hQ s2 pb (k + 1) hl2
    (by rw [hmx2]; exact hmx) hmx0 hrest (List.Nodup.of_append_right hnd_i)
    (List.Nodup.of_append_right hnd_b) hused2 (hpost2.mono pb hpb)
    (fun h => hpbn (List.mem_append_right _ h)) (by omega)
    (by
      have e1 := hpost2.free
      have : free_blocks { s with dev := d1 } = free_blocks s := rfl
      rw [this] at e1
      omega)
  obtain ⟨hl3, hmx3, hio3⟩ := sync_post_layout hpost3 hl2
  have hsize2 : s2.dev.size = s.dev.size := by rw [hpost2.size]; exact hd1s
  have hio2' : s2.inode_offset = s.inode_offset := hio2
  -- facts about the blocks
  have hpb_i1 : pb ∉ blocks_of i1 := by
    intro h
    rcases hpost2.fresh pb h with h1 | h1
    · exact hpbn (List.mem_append_left _ h1)
    · exact h1 hpb
  have hpb_rest1 : pb ∉ blocks_of_dentrys rest1 := by
    intro h
    rcases hpost3.fresh pb h with h1 | h1
    · exact hpbn (List.mem_append_right _ h1)
    · exact h1 (hpost2.mono pb hpb)
  have hdisj : ∀ b, b ∈ blocks_of i1 → b ∉ blocks_of_dentrys rest1 := by
    intro b hb1 hb2
    rcases hpost3.fresh b hb2 with h1 | h1
    · rcases hpost2.fresh b hb1 with h2 | h2
      · exact (List.nodup_append.1 hnd_b).2.2 h2 h1
      · exact h2 (hused b (List.mem_append_right _ h1))
    · exact h1 (hpost2.used b hb1)
  have hinos_i1 : inos_of i1 = inos_of i := by
    rw [← (inos_forget).1 i1, hfi, (inos_forget).1 i]
  have hinos_rest1 : inos_of_dentrys rest1 = inos_of_dentrys rest := by
    rw [← (inos_forget).2 rest1, hfr, (inos_forget).2 rest]
  have hlen1 : rest1.length = rest.length := by
    rw [← length_forget rest1, hfr, length_forget]
  refine ⟨newfs_dentry.mk name ino (some i1) ftype :: rest1, s3, ?_, ?_, ?_, ?_, ?_, ?_⟩
  · -- the code
    rw [newfs_sync_dentrys]
    have e136 : ((SIZEOF_DENTRY_D : Nat) : Int) = ((136 : Nat) : Int) := rfl
    rw [e136, hw]
    simp only [ne_eq, not_true_eq_false, if_false]
    rw [hs2]
    simp only
    have eoff : toI32 (toU32 (((pb * 1024 + k * 136 : Nat) : Int) + ((136 : Nat) : Int)))
        = ((pb * 1024 + (k + 1) * 136 : Nat) : Int) := by
      have e : ((pb * 1024 + k * 136 : Nat) : Int) + ((136 : Nat) : Int)
          = ((pb * 1024 + (k + 1) * 136 : Nat) : Int) := by push_cast; ring
      rw [e]
      apply toI32_toU32 <;> omega
    rw [eoff, hs3]
  · simp only [forget_blocks_dentrys, hfi, hfr]
  · simp only [dentrys_wf]
    exact ⟨hn0, hnl, hino, hft, hti1, hrest1⟩
  · simp only [blocks_of_dentrys, blocks_needed_dentrys]
    exact
      { fields := by
          have e2 := hpost2.fields
          have e3 := hpost3.fields
          rw [e3, e2]
        size := by rw [hpost3.size, hsize2]
        len := hpost3.len
        mono := fun b hb => hpost3.mono b (hpost2.mono b hb)
        free := by
          have e2 := hpost2.free
          have e3 := hpost3.free
          have : free_blocks { s with dev := d1 } = free_blocks s := rfl
          rw [this] at e2
          omega
        nodup := List.nodup_append.2 ⟨hpost2.nodup, hpost3.nodup, fun {b} hb1 hb2 => hdisj b hb1 hb2⟩
        used := by
          intro b hb
          rcases List.mem_append.1 hb with h | h
          · exact hpost3.mono b (hpost2.used b h)
          · exact hpost3.used b h
        fresh := by
          intro b hb
          rcases List.mem_append.1 hb with h | h
          · rcases hpost2.fresh b h with h1 | h1
            · exact Or.inl (List.mem_append_left _ h1)
            · exact Or.inr h1
          · rcases hpost3.fresh b h with h1 | h1
            · exact Or.inl (List.mem_append_right _ h1)
            · exact Or.inr (fun hb0 => h1 (hpost2.mono b hb0)) }
  · -- frame
    intro a hnt hnr
    simp only [List.length_cons] at hnr
    have h3 : s3.dev.data a = s2.dev.data a := by
      apply hfr3 a
      · rw [hio2']
        rintro (⟨j, hj, hja⟩ | ⟨b, hb, hba⟩)
        · exact hnt (Or.inl ⟨j, by simp [inos_of_dentrys, hj], hja⟩)
        · exact hnt (Or.inr ⟨b, by simp [blocks_of_dentrys, hb], hba⟩)
      · intro h; apply hnr; constructor <;> omega
    have h2 : s2.dev.data a = d1.data a := by
      apply hfr2 a
      rintro (⟨j, hj, hja⟩ | ⟨b, hb, hba⟩)
      · exact hnt (Or.inl ⟨j, by simp [inos_of_dentrys, hj], hja⟩)
      · exact hnt (Or.inr ⟨b, by simp [blocks_of_dentrys, hb], hba⟩)
    rw [h3, h2, hd1d]
    apply disk_write_outside
    rw [dentry_d_bytes_length]
    by_contra hcon
    apply hnr
    constructor <;> omega
  · -- the image
    simp only [dentrys_on_disk]
    have hrec_in_pb : ∀ a, pb * 1024 + k * 136 ≤ a → a < pb * 1024 + k * 136 + 136 →
        in_block pb a := by
      intro a h1 h2; unfold in_block; constructor <;> omega
    have hkeep3 : ∀ a, in_block pb a → a < pb * 1024 + (k + 1) * 136 →
        s3.dev.data a = s2.dev.data a := by
      intro a hba hlt
      apply hfr3 a
      · rintro (⟨j, hj, hja⟩ | ⟨b, hb, hbb⟩)
        · have hjlt : j < mx := (inos_lt_wf mx 7).2 rest hrest j hj
          rw [hio2'] at hja
          exact block_not_ino s hl mx hmx pb j a hpb hjlt hba hja
        · have : b ≠ pb := fun e => hpb_rest1 (e ▸ hb)
          exact block_disjoint b pb a this hbb hba
      · intro h; omega
    have hkeep2 : ∀ a, in_block pb a → s2.dev.data a = d1.data a := by
      intro a hba
      apply hfr2 a
      rintro (⟨j, hj, hja⟩ | ⟨b, hb, hbb⟩)
      · have hjlt : j < mx := (inos_lt_wf mx 7).1 i hti j hj
        exact block_not_ino s hl mx hmx pb j a hpb hjlt hba hja
      · have : b ≠ pb := fun e => hpb_i1 (e ▸ hb)
        exact block_disjoint b pb a this hbb hba
    refine ⟨?_, ?_, ?_⟩
    · have : disk_read s3.dev.data (pb * 1024 + k * 136) SIZEOF_DENTRY_D
          = disk_read d1.data (pb * 1024 + k * 136) SIZEOF_DENTRY_D := by
        apply disk_read_congr
        intro a h1 h2
        unfold SIZEOF_DENTRY_D at h2
        rw [hkeep3 a (hrec_in_pb a h1 h2) (by omega), hkeep2 a (hrec_in_pb a h1 h2)]
      rw [this, hd1d]
      have e := disk_read_write_same s.dev.data (pb * 1024 + k * 136)
        (newfs_dentry_d.bytes { fname := buf_of name MAX_NAME_LEN, ftype := ftype, ino := ino })
      rw [dentry_d_bytes_length] at e
      exact e
    · have hd2 : inode_on_disk s.inode_offset s.dev.size s2.dev.data i1 := by
        simpa [hd1s] using hdisk2
      apply (on_disk_frame_wf s.inode_offset s.dev.size mx s2.dev.data s3.dev.data).1 i1 hti1 hd2
      intro a ha
      apply hfr3 a
      · rw [hio2']
        rintro (⟨j, hj, hja⟩ | ⟨b, hb, hbb⟩)
        · rcases ha with ⟨j2, hj2, hja2⟩ | ⟨b2, hb2, hbb2⟩
          · rw [hinos_i1] at hj2
            have hne : j2 ≠ j := fun e =>
              (List.nodup_append.1 hnd_i).2.2 hj2 (e ▸ hj)
            exact ino_rec_disjoint s.inode_offset hl.1 j2 j a hne hja2 hja
          · have hjlt : j < mx := (inos_lt_wf mx 7).2 rest hrest j hj
            have hu : block_used s2 b2 := hpost2.used b2 hb2
            rw [← hio2'] at hja
            exact block_not_ino s2 hl2 mx (by rw [hmx2]; exact hmx) b2 j a hu hjlt hbb2 hja
        · rcases ha with ⟨j2, hj2, hja2⟩ | ⟨b2, hb2, hbb2⟩
          · rw [hinos_i1] at hj2
            have hjlt : j2 < mx := (inos_lt_wf mx 7).1 i hti j2 hj2
            have hu : block_used s3 b := hpost3.used b hb
            have hio3' : s3.inode_offset = s.inode_offset := by rw [hio3, hio2']
            rw [← hio3'] at hja2
            exact block_not_ino s3 hl3 mx (by rw [hmx3, hmx2]; exact hmx) b j2 a hu hjlt hbb hja2
          · have hne : b2 ≠ b := fun e => hdisj b2 hb2 (e ▸ hb)
            exact block_disjoint b2 b a hne hbb2 hbb
      · rintro ⟨h1, h2⟩
        rcases ha with ⟨j2, hj2, hja2⟩ | ⟨b2, hb2, hbb2⟩
        · rw [hinos_i1] at hj2
          have hjlt : j2 < mx := (inos_lt_wf mx 7).1 i hti j2 hj2
          have hba : in_block pb a := by unfold in_block; constructor <;> omega
          exact block_not_ino s hl mx hmx pb j2 a hpb hjlt hba hja2
        · have hne : b2 ≠ pb := fun e => hpb_i1 (e ▸ hb2)
          have hba : in_block pb a := by unfold in_block; constructor <;> omega
          exact block_disjoint b2 pb a hne hbb2 hba
    · have e : pb * 1024 + k * 136 + SIZEOF_DENTRY_D = pb * 1024 + (k + 1) * 136 := by
        unfold SIZEOF_DENTRY_D; ring
      rw [e]
      simpa [hio2', hsize2] using hdisk3


theorem sync_dentrys_wf_none (mx : Nat) (name : List Nat) (ino ftype : Nat)
    (rest : List newfs_dentry) (hQ : sync_dentrys_wf_ok mx rest) :
    sync_dentrys_wf_ok mx (newfs_dentry.mk name ino none ftype :: rest) := by
  intro s pb k hl hmx hmx0 hok hnd_i hnd_b hused hpb hpbn hk hneed
  simp only [dentrys_wf] at hok
  obtain ⟨hn0, hnl, hino, hft, hrest⟩ := hok
  simp only [inos_of_dentrys] at hnd_i
  simp only [blocks_of_dentrys] at hnd_b hused hpbn
  simp only [blocks_needed_dentrys] at hneed
  simp only [List.length_cons] at hk
  have hmxpos : 0 < s.max_ino := by rw [hmx]; omega
  obtain ⟨r1, r2, r3, r4⟩ := block_used_range s hl hmxpos pb hpb
  -- 1. the record of the dentry
  obtain ⟨d1, hw, hd1s, hd1d⟩ := write_rec s.dev (pb * 1024 + k * 136) 136
    (newfs_dentry_d.bytes { fname := buf_of name MAX_NAME_LEN, ftype := ftype, ino := ino })
    (dentry_d_bytes_length _) (by omega) hl.2.2.2.2.2.2.1 hl.2.2.2.2.2.1
  have hl1 : layout_ok { s with dev := d1 } := by
    obtain ⟨h1, h2, h3, h4, h5, h6, h7, h8⟩ := hl
    unfold layout_ok
    simp only [hd1s]
    exact ⟨h1, h2, h3, h4, h5, h6, h7, h8⟩
  have hused1 : ∀ b, block_used s b → block_used { s with dev := d1 } b := fun _ h => h
  -- 2. the rest of the chain
  obtain ⟨rest1, s3, hs3, hfr, hrest1, hpost3, hfr3, hdisk3⟩ := hQ { s with dev := d1 } pb (k + 1)
    hl1 hmx hmx0 hrest hnd_i hnd_b (fun b hb => hused1 b (hused b hb)) (hused1 pb hpb) hpbn
    (by omega)
    (by
      have : free_blocks { s with dev := d1 } = free_blocks s := rfl
      rw [this]; exact hneed)
  have hpb_rest1 : pb ∉ blocks_of_dentrys rest1 := by
    intro h
    rcases hpost3.fresh pb h with h1 | h1
    · exact hpbn h1
    · exact h1 hpb
  refine ⟨newfs_dentry.mk name ino none ftype :: rest1, s3, ?_, ?_, ?_, ?_, ?_, ?_⟩
  · -- the code
    rw [newfs_sync_dentrys]
    have e136 : ((SIZEOF_DENTRY_D : Nat) : Int) = ((136 : Nat) : Int) := rfl
    rw [e136, hw]
    simp only [ne_eq, not_true_eq_false, if_false]
    have eoff : toI32 (toU32 (((pb * 1024 + k * 136 : Nat) : Int) + ((136 : Nat) : Int)))
        = ((pb * 1024 + (k + 1) * 136 : Nat) : Int) := by
      have e : ((pb * 1024 + k * 136 : Nat) : Int) + ((136 : Nat) : Int)
          = ((pb * 1024 + (k + 1) * 136 : Nat) : Int) := by push_cast; ring
      rw [e]
      apply toI32_toU32 <;> omega
    rw [eoff, hs3]
  · simp only [forget_blocks_dentrys, hfr]
  · simp only [dentrys_wf]
    exact ⟨hn0, hnl, hino, hft, hrest1⟩
  · simp only [blocks_of_dentrys, blocks_needed_dentrys]
    exact
      { fields := by
          have e3 := hpost3.fields
          rw [e3]
        size := by rw [hpost3.size]; exact hd1s
        len := hpost3.len
        mono := fun b hb => hpost3.mono b (hused1 b hb)
        free := by
          have e3 := hpost3.free
          have : free_blocks { s with dev := d1 } = free_blocks s := rfl
          rw [this] at e3
          exact e3
        nodup := hpost3.nodup
        used := hpost3.used
        fresh := by
          intro b hb
          rcases hpost3.fresh b hb with h1 | h1
          · exact Or.inl h1
          · exact Or.inr h1 }
  · -- frame
    intro a hnt hnr
    simp only [List.length_cons] at hnr
    have h3 : s3.dev.data a = d1.data a := by
      apply hfr3 a
      · rintro (⟨j, hj, hja⟩ | ⟨b, hb, hba⟩)
        · exact hnt (Or.inl ⟨j, by simp [inos_of_dentrys, hj], hja⟩)
        · exact hnt (Or.inr ⟨b, by simp [blocks_of_dentrys, hb], hba⟩)
      · intro h; apply hnr; constructor <;> omega
    rw [h3, hd1d]
    apply disk_write_outside
    rw [dentry_d_bytes_length]
    by_contra hcon
    apply hnr
    constructor <;> omega
  · -- the image
    simp only [dentrys_on_disk]
    have hrec_in_pb : ∀ a, pb * 1024 + k * 136 ≤ a → a < pb * 1024 + k * 136 + 136 →
        in_block pb a := by
      intro a h1 h2; unfold in_block; constructor <;> omega
    have hkeep3 : ∀ a, in_block pb a → a < pb * 1024 + (k + 1) * 136 →
        s3.dev.data a = d1.data a := by
      intro a hba hlt
      apply hfr3 a
      · rintro (⟨j, hj, hja⟩ | ⟨b, hb, hbb⟩)
        · have hjlt : j < mx := (inos_lt_wf mx 7).2 rest hrest j hj
          exact block_not_ino s hl mx hmx pb j a hpb hjlt hba hja
        · have : b ≠ pb := fun e => hpb_rest1 (e ▸ hb)
          exact block_disjoint b pb a this hbb hba
      · intro h; omega
    refine ⟨?_, ?_⟩
    · have : disk_read s3.dev.data (pb * 1024 + k * 136) SIZEOF_DENTRY_D
          = disk_read d1.data (pb * 1024 + k * 136) SIZEOF_DENTRY_D := by
        apply disk_read_congr
        intro a h1 h2
        unfold SIZEOF_DENTRY_D at h2
        rw [hkeep3 a (hrec_in_pb a h1 h2) (by omega)]
      rw [this, hd1d]
      have e := disk_read_write_same s.dev.data (pb * 1024 + k * 136)
        (newfs_dentry_d.bytes { fname := buf_of name MAX_NAME_LEN, ftype := ftype, ino := ino })
      rw [dentry_d_bytes_length] at e
      exact e
    · have e : pb * 1024 + k * 136 + SIZEOF_DENTRY_D = pb * 1024 + (k + 1) * 136 := by
        unfold SIZEOF_DENTRY_D; ring
      rw [e]
      simpa [hd1s] using hdisk3

theorem sync_inode_wf_mk (mx : Nat) (ino size dir_cnt ftype : Nat) (tp : List Nat)
    (ds : List newfs_dentry) (bp : List Nat) (hQ : sync_dentrys_wf_ok mx ds) :
    sync_inode_wf_ok mx (newfs_inode.mk ino size dir_cnt ftype tp ds bp) := by
  intro s hl hmx hok hnd_i hnd_b hused hneed
  simp only [tree_wf] at hok
  obtain ⟨hino, hsize, hft, htp, hbp, hbps, hcnt, hlen, hnd, hds⟩ := hok
  simp only [inos_of, List.nodup_cons] at hnd_i
  simp only [blocks_needed] at hneed
  have hmxpos : 0 < s.max_ino := by rw [hmx]; omega
  have hmx2 := max_ino_le s hl mx hmx
  -- 1. the first block
  obtain ⟨bp1, m, hblk, hml, hmono1, hfree1, hbp1, hbps1, hb1ne, hb1used, hb1fresh⟩ :=
    sync_block_step s hl hmxpos ftype dir_cnt bp hbp hbps
      (fun h => hused _ (blocks_of_mem_self ino size dir_cnt ftype tp ds bp h.1 h.2))
      (by omega)
  have hl1 : layout_ok { s with map_data := m } := by
    obtain ⟨h1, h2, h3, h4, h5, h6, h7, h8⟩ := hl
    exact ⟨h1, h2, h3, h4, h5, h6, h7, hml⟩
  -- 2. the record of the inode
  have hti : toI32 ino = (ino : Int) := toI32_of_lt _ (by omega)
  have htu : toU32 (toI32 ino) = ino := by rw [hti]; exact toU32_natCast _ (by omega)
  obtain ⟨e1, e2, e3⟩ := ino_addr_bound s hl mx ino hmx hino
  obtain ⟨d2, hw, hd2s, hd2d⟩ := write_rec s.dev (ino_addr s.inode_offset ino) 168
    (newfs_inode_d.bytes
      { ino := ino, size := size, dir_cnt := dir_cnt, ftype := ftype, target_path := tp,
        block_pointer := bp1 })
    (inode_d_bytes_length _) e2 hl.2.2.2.2.2.2.1 hl.2.2.2.2.2.1
  have hofs : NFS_INO_OFS { s with map_data := m } (toI32 ino)
      = ((ino_addr s.inode_offset ino : Nat) : Int) := by
    rw [hti]
    exact ino_ofs_eq { s with map_data := m } hl1 mx ino hmx hino
  have hl2 : layout_ok { s with map_data := m, dev := d2 } := by
    obtain ⟨h1, h2, h3, h4, h5, h6, h7, h8⟩ := hl
    unfold layout_ok
    simp only [hd2s]
    exact ⟨h1, h2, h3, h4, h5, h6, h7, hml⟩
  have hrecord : ∀ data1 : Nat → Nat,
      (∀ a, in_ino_rec s.inode_offset ino a → data1 a = d2.data a) →
      disk_read data1 (ino_addr s.inode_offset ino) SIZEOF_INODE_D
        = newfs_inode_d.bytes
          { ino := ino, size := size, dir_cnt := dir_cnt, ftype := ftype, target_path := tp,
            block_pointer := bp1 } := by
    intro data1 h
    have : disk_read data1 (ino_addr s.inode_offset ino) SIZEOF_INODE_D
        = disk_read d2.data (ino_addr s.inode_offset ino) SIZEOF_INODE_D := by
      apply disk_read_congr
      intro a h1 h2
      exact h a ⟨h1, by unfold SIZEOF_INODE_D at h2; exact h2⟩
    rw [this, hd2d]
    have e := disk_read_write_same s.dev.data (ino_addr s.inode_offset ino)
      (newfs_inode_d.bytes
        { ino := ino, size := size, dir_cnt := dir_cnt, ftype := ftype, target_path := tp,
          block_pointer := bp1 })
    rw [inode_d_bytes_length] at e
    exact e
  have hcode : ∀ (res : Option (Int × newfs_inode × newfs_super)),
      (if ftype = NFS_DIR then
        if bp1.getD 0 0 ≠ 0 then
          match newfs_sync_dentrys { s with map_data := m, dev := d2 } ds
              (toI32 (bp1.getD 0 0 * NFS_BLKS_SZ)) with
          | none => none
          | some (r1, dentrys1, s3) =>
            some (r1, newfs_inode.mk ino size dir_cnt ftype tp dentrys1 bp1, s3)
        else
          some (NFS_ERROR_NONE, newfs_inode.mk ino size dir_cnt ftype tp ds bp1,
            { s with map_data := m, dev := d2 })
      else
        some (NFS_ERROR_NONE, newfs_inode.mk ino size dir_cnt ftype tp ds bp1,
          { s with map_data := m, dev := d2 })) = res →
      newfs_sync_inode s (newfs_inode.mk ino size dir_cnt ftype tp ds bp) = res := by
    intro res hres
    rw [newfs_sync_inode, hblk]
    simp only [htu]
    have e168 : ((SIZEOF_INODE_D : Nat) : Int) = ((168 : Nat) : Int) := rfl
    rw [hofs, e168]
    have hw' : newfs_driver_write ({ s with map_data := m } : newfs_super).dev
        ((ino_addr s.inode_offset ino : Nat) : Int)
        (newfs_inode_d.bytes
          { ino := ino, size := size, dir_cnt := dir_cnt, ftype := ftype, target_path := tp,
            block_pointer := bp1 }) ((168 : Nat) : Int) = some (NFS_ERROR_NONE, d2) := hw
    rw [hw']
    simp only [ne_eq, not_true_eq_false, if_false]
    exact hres
  by_cases hloop : ftype = NFS_DIR ∧ bp1.getD 0 0 ≠ 0
  · -- the children are written
    obtain ⟨hdir, hb0⟩ := hloop
    have hpb := hb1used ⟨hdir, hb0⟩
    have hpb2 : block_used { s with map_data := m, dev := d2 } (bp1.getD 0 0) := hpb
    obtain ⟨r1, r2, r3, r4⟩ := block_used_range { s with map_data := m } hl1 hmxpos _ hpb
    have hused_ds : ∀ b ∈ blocks_of_dentrys ds, block_used s b := fun b hb =>
      hused b (blocks_of_mem_dentrys ino size dir_cnt ftype tp ds bp b hb)
    have hpbn : bp1.getD 0 0 ∉ blocks_of_dentrys ds := by
      intro h
      rcases hb1fresh with h1 | h1
      · rw [h1] at h hb0
        unfold blocks_of at hnd_b
        rw [if_pos ⟨hdir, hb0⟩] at hnd_b
        exact (List.nodup_append.1 hnd_b).2.2 (List.mem_singleton.2 rfl) h
      · exact h1 (hused_ds _ h)
    have hnd_b_ds : (blocks_of_dentrys ds).Nodup := by
      unfold blocks_of at hnd_b
      exact List.Nodup.of_append_right hnd_b
    obtain ⟨ds1, s3, hs3, hfds, hds1, hpost3, hfr3, hdisk3⟩ :=
      hQ { s with map_data := m, dev := d2 } (bp1.getD 0 0) 0 hl2 hmx (by omega) hds hnd_i.2
        hnd_b_ds
        (fun b hb => hmono1 b (hused_ds b hb)) hpb2 hpbn (by omega)
        (by
          have : free_blocks { s with map_data := m, dev := d2 }
              = free_blocks { s with map_data := m } := rfl
          rw [this]; omega)
    obtain ⟨hl3, hmx3, hio3⟩ := sync_post_layout hpost3 hl2
    have hlen1 : ds1.length = ds.length := by
      rw [← length_forget ds1, hfds, length_forget]
    have hinos1 : inos_of_dentrys ds1 = inos_of_dentrys ds := by
      rw [← (inos_forget).2 ds1, hfds, (inos_forget).2 ds]
    have hpbn1 : bp1.getD 0 0 ∉ blocks_of_dentrys ds1 := by
      intro h
      rcases hpost3.fresh _ h with h1 | h1
      · exact hpbn h1
      · exact h1 hpb2
    have hblocks1 : blocks_of (newfs_inode.mk ino size dir_cnt ftype tp ds1 bp1)
        = bp1.getD 0 0 :: blocks_of_dentrys ds1 := by
      unfold blocks_of
      rw [if_pos ⟨hdir, hb0⟩]
      rfl
    refine ⟨newfs_inode.mk ino size dir_cnt ftype tp ds1 bp1, s3, ?_, ?_, ?_, ?_, ?_, ?_⟩
    · apply hcode
      rw [if_pos hdir, if_pos hb0]
      have eoff : toI32 (bp1.getD 0 0 * NFS_BLKS_SZ)
          = ((bp1.getD 0 0 * 1024 + 0 * 136 : Nat) : Int) := by
        unfold NFS_BLKS_SZ
        rw [toI32_of_lt _ (by omega)]
        push_cast; ring
      rw [eoff, hs3]
    · simp only [forget_blocks, hfds]
    · simp only [tree_wf]
      exact ⟨hino, hsize, hft, htp, hbp1, hbps1, by rw [hlen1]; exact hcnt,
        by rw [hlen1]; exact hlen, fun h => absurd hdir h, hds1⟩
    · rw [hblocks1]
      simp only [blocks_needed]
      exact
        { fields := by
            have e3 := hpost3.fields
            rw [e3]
          size := by rw [hpost3.size]; exact hd2s
          len := hpost3.len
          mono := fun b hb => hpost3.mono b (hmono1 b hb)
          free := by
            have e3 := hpost3.free
            have : free_blocks { s with map_data := m, dev := d2 }
                = free_blocks { s with map_data := m } := rfl
            rw [this] at e3
            omega
          nodup := List.nodup_cons.2 ⟨hpbn1, hpost3.nodup⟩
          used := by
            intro b hb
            rcases List.mem_cons.1 hb with h | h
            · rw [h]; exact hpost3.mono _ hpb2
            · exact hpost3.used b h
          fresh := by
            intro b hb
            rcases List.mem_cons.1 hb with h | h
            · rw [h]
              rcases hb1fresh with h1 | h1
              · left
                rw [h1] at hb0 ⊢
                exact blocks_of_mem_self ino size dir_cnt ftype tp ds bp hdir hb0
              · exact Or.inr h1
            · rcases hpost3.fresh b h with h1 | h1
              · exact Or.inl (blocks_of_mem_dentrys ino size dir_cnt ftype tp ds bp b h1)
              · exact Or.inr (fun hb0 => h1 (hmono1 b hb0)) }
    · intro a hnt
      rw [hblocks1] at hnt
      have h3 : s3.dev.data a = d2.data a := by
        apply hfr3 a
        · rintro (⟨j, hj, hja⟩ | ⟨b, hb, hba⟩)
          · exact hnt (Or.inl ⟨j, by simp [inos_of, hj], hja⟩)
          · exact hnt (Or.inr ⟨b, List.mem_cons_of_mem _ hb, hba⟩)
        · rintro ⟨h1, h2⟩
          apply hnt
          right
          refine ⟨bp1.getD 0 0, List.mem_cons_self _ _, ?_⟩
          unfold in_block
          constructor <;> omega
      rw [h3, hd2d]
      apply disk_write_outside
      rw [inode_d_bytes_length]
      by_contra hcon
      apply hnt
      left
      refine ⟨ino, by simp [inos_of], ?_⟩
      unfold in_ino_rec
      constructor <;> omega
    · simp only [inode_on_disk]
      refine ⟨?_, fun _ => ⟨hb0, r2⟩, ?_⟩
      · apply hrecord
        intro a ha
        apply hfr3 a
        · rintro (⟨j, hj, hja⟩ | ⟨b, hb, hba⟩)
          · have hne : ino ≠ j := fun e => hnd_i.1 (e ▸ hj)
            exact ino_rec_disjoint s.inode_offset hl.1 ino j a hne ha hja
          · have hu : block_used s3 b := hpost3.used b hb
            have hio3' : s3.inode_offset = s.inode_offset := hio3
            rw [← hio3'] at ha
            exact block_not_ino s3 hl3 mx (by rw [hmx3]; exact hmx) b ino a hu hino hba ha
        · rintro ⟨h1, h2⟩
          have hba : in_block (bp1.getD 0 0) a := by unfold in_block; constructor <;> omega
          exact block_not_ino { s with map_data := m } hl1 mx hmx _ ino a hpb hino hba ha
      · have := hdisk3
        simp only [Nat.zero_mul, Nat.add_zero, hd2s] at this
        exact this
  · -- no child is written
    have hnil : ds = [] := by
      by_contra hne
      have hdir : ftype = NFS_DIR := by
        by_contra h; exact hne (hnd h)
      have hpos : dir_cnt > 0 := by
        rw [hcnt]; exact List.length_pos.2 hne
      exact hloop ⟨hdir, hb1ne ⟨hdir, hpos⟩⟩
    subst hnil
    have hblocks1 : blocks_of (newfs_inode.mk ino size dir_cnt ftype tp [] bp1)
        = if ftype = NFS_DIR ∧ bp1.getD 0 0 ≠ 0 then [bp1.getD 0 0] else [] := by
      unfold blocks_of
      simp [blocks_of_dentrys]
    rw [if_neg hloop] at hblocks1
    refine ⟨newfs_inode.mk ino size dir_cnt ftype tp [] bp1,
      { s with map_data := m, dev := d2 }, ?_, ?_, ?_, ?_, ?_, ?_⟩
    · apply hcode
      by_cases hdir : ftype = NFS_DIR
      · rw [if_pos hdir, if_neg (fun h => hloop ⟨hdir, h⟩)]
      · rw [if_neg hdir]
    · simp only [forget_blocks]
    · rw [tree_wf]
      exact ⟨hino, hsize, hft, htp, hbp1, hbps1, hcnt, hlen, fun _ => rfl, hds⟩
    · rw [hblocks1]
      simp only [blocks_needed, blocks_needed_dentrys, Nat.add_zero]
      exact
        { fields := rfl
          size := hd2s
          len := hml
          mono := hmono1
          free := hfree1
          nodup := List.nodup_nil
          used := by simp
          fresh := by simp }
    · intro a hnt
      show d2.data a = s.dev.data a
      rw [hd2d]
      apply disk_write_outside
      rw [inode_d_bytes_length]
      by_contra hcon
      apply hnt
      left
      refine ⟨ino, by simp [inos_of], ?_⟩
      unfold in_ino_rec
      constructor <;> omega
    · simp only [inode_on_disk, dentrys_on_disk]
      refine ⟨?_, fun h => absurd rfl h, trivial⟩
      apply hrecord
      intro a _
      rfl


/-- Persisting a well-formed subtree leaves its image on the device. -/
theorem sync_image_wf (mx : Nat) :
    (∀ t : newfs_inode, sync_inode_wf_ok mx t) ∧ (∀ ds : List newfs_dentry, sync_dentrys_wf_ok mx ds) := by
  apply tree_induction
  · intro ino size dir_cnt ftype tp ds bp h
    exact sync_inode_wf_mk mx ino size dir_cnt ftype tp ds bp h
  · exact sync_dentrys_wf_nil mx
  · intro name ino ftype rest h
    exact sync_dentrys_wf_none mx name ino ftype rest h
  · intro name ino i ftype rest h1 h2
    exact sync_dentrys_wf_cons mx name ino i ftype rest h1 h2


/-! ## One persist/hydrate cycle of a directory -/

theorem strip_forget : ∀ ds : List newfs_dentry,
    strip_dentrys (forget_blocks_dentrys ds) = strip_dentrys ds := by
  intro ds
  induction ds with
  | nil => rfl
  | cons d rest ih =>
    cases d with
    | mk name ino inode ftype =>
      cases inode with
      | none =>
        simp only [forget_blocks_dentrys, strip_dentrys_cons, ih]
      | some i =>
        simp only [forget_blocks_dentrys, strip_dentrys_cons, ih]

theorem strip_strip (ds : List newfs_dentry) : strip_dentrys (strip_dentrys ds) = strip_dentrys ds := by
  unfold strip_dentrys
  rw [List.map_map]
  rfl

theorem strip_reverse (ds : List newfs_dentry) :
    strip_dentrys ds.reverse = (strip_dentrys ds).reverse := by
  unfold strip_dentrys
  rw [List.map_reverse]

theorem dentrys_wf_mem (mx mc : Nat) : ∀ ds : List newfs_dentry, dentrys_wf mx mc ds →
    ∀ d ∈ ds, 0 ∉ d.name ∧ d.name.length < MAX_NAME_LEN ∧ d.ino < 4294967296 ∧
      d.ftype < 4294967296 := by
  intro ds
  induction ds with
  | nil => intro _ d hd; cases hd
  | cons e rest ih =>
    intro hok d hd
    cases e with
    | mk name ino inode ftype =>
      have hfacts : (0 ∉ name ∧ name.length < MAX_NAME_LEN ∧ ino < 4294967296 ∧
          ftype < 4294967296) ∧ dentrys_wf mx mc rest := by
        cases inode with
        | none =>
          simp only [dentrys_wf] at hok
          exact ⟨⟨hok.1, hok.2.1, hok.2.2.1, hok.2.2.2.1⟩, hok.2.2.2.2⟩
        | some i =>
          simp only [dentrys_wf] at hok
          exact ⟨⟨hok.1, hok.2.1, hok.2.2.1, hok.2.2.2.1⟩, hok.2.2.2.2.2⟩
      rcases List.mem_cons.1 hd with e | e
      · rw [e]; exact hfacts.1
      · exact ih hfacts.2 d e

/-- A chain of dentries none of which holds its inode. -/
theorem dentrys_wf_flat (mx mc : Nat) : ∀ l : List newfs_dentry,
    (∀ d ∈ l, d.inode = none ∧ 0 ∉ d.name ∧ d.name.length < MAX_NAME_LEN ∧
      d.ino < 4294967296 ∧ d.ftype < 4294967296) →
    dentrys_wf mx mc l ∧ inos_of_dentrys l = [] ∧ blocks_of_dentrys l = [] ∧
      blocks_needed_dentrys l = 0 := by
  intro l
  induction l with
  | nil => intro _; simp [dentrys_wf, inos_of_dentrys, blocks_of_dentrys, blocks_needed_dentrys]
  | cons e rest ih =>
    intro h
    obtain ⟨h1, h2, h3, h4⟩ := ih (fun d hd => h d (List.mem_cons_of_mem _ hd))
    obtain ⟨hn, g1, g2, g3, g4⟩ := h e (List.mem_cons_self _ _)
    cases e with
    | mk name ino inode ftype =>
      simp only [newfs_dentry.inode] at hn
      subst hn
      simp only [dentrys_wf, inos_of_dentrys, blocks_of_dentrys, blocks_needed_dentrys]
      exact ⟨⟨g1, g2, g3, g4, h1⟩, h2, h3, h4⟩

theorem strip_reverse_flat (mx mc : Nat) (ds : List newfs_dentry) (h : dentrys_wf mx mc ds) :
    dentrys_wf mx mc (strip_dentrys ds).reverse ∧
    inos_of_dentrys (strip_dentrys ds).reverse = [] ∧
    blocks_of_dentrys (strip_dentrys ds).reverse = [] ∧
    blocks_needed_dentrys (strip_dentrys ds).reverse = 0 := by
  apply dentrys_wf_flat
  intro d hd
  rw [List.mem_reverse] at hd
  unfold strip_dentrys at hd
  obtain ⟨e, he, hde⟩ := List.mem_map.1 hd
  subst hde
  exact ⟨rfl, dentrys_wf_mem mx mc ds h e he⟩

theorem forget_blocks_inv (t1 : newfs_inode) (ino size dir_cnt ftype : Nat) (tp : List Nat)
    (ds : List newfs_dentry) (bp : List Nat)
    (h : forget_blocks t1 = forget_blocks (newfs_inode.mk ino size dir_cnt ftype tp ds bp)) :
    ∃ ds1 bp1, t1 = newfs_inode.mk ino size dir_cnt ftype tp ds1 bp1 ∧
      forget_blocks_dentrys ds1 = forget_blocks_dentrys ds := by
  cases t1 with
  | mk a b c f tp1 ds1 bp1 =>
    simp only [forget_blocks, newfs_inode.mk.injEq, and_true] at h
    obtain ⟨h1, h2, h3, h4, h5, h6⟩ := h
    subst h1 h2 h3 h4 h5
    exact ⟨ds1, bp1, rfl, h6⟩

/-- `newfs_sync_inode` leaves the block pointers as they are unless it gives a
directory with children its first block. -/
theorem sync_inode_keeps_pointer (s s1 : newfs_super) (ino size dir_cnt ftype : Nat)
    (tp : List Nat) (ds : List newfs_dentry) (bp : List Nat) (r : Int) (t1 : newfs_inode)
    (hc : ¬ (ftype = NFS_DIR ∧ dir_cnt > 0 ∧ bp.getD 0 0 = 0))
    (h : newfs_sync_inode s (newfs_inode.mk ino size dir_cnt ftype tp ds bp) = some (r, t1, s1)) :
    t1.block_pointer = bp := by
  unfold newfs_sync_inode at h
  have hb : newfs_sync_inode_block s ftype dir_cnt bp = some (Sum.inr (bp, s)) := by
    unfold newfs_sync_inode_block
    by_cases hd : ftype = NFS_DIR
    · rw [if_pos hd, if_neg (fun h2 => hc ⟨hd, h2⟩)]
    · rw [if_neg hd]
  rw [hb] at h
  simp only at h
  split at h
  · exact absurd h (by simp)
  · split_ifs at h
    · simp only [Option.some.injEq, Prod.mk.injEq] at h
      rw [← h.2.1]
      try rfl
    · split at h
      · exact absurd h (by simp)
      · simp only [Option.some.injEq, Prod.mk.injEq] at h
        rw [← h.2.1]
        try rfl
    · simp only [Option.some.injEq, Prod.mk.injEq] at h
      rw [← h.2.1]
      try rfl
    · simp only [Option.some.injEq, Prod.mk.injEq] at h
      rw [← h.2.1]
      try rfl

/-- One cycle: `newfs_sync_inode` of a well-formed subtree, then
`newfs_read_inode` of its inode number. -/
theorem sync_read_cycle (s : newfs_super) (mx ino size dir_cnt ftype : Nat) (tp : List Nat)
    (ds : List newfs_dentry) (bp : List Nat) (hl : layout_ok s) (hmx : s.max_ino = (mx : Int))
    (hok : tree_wf mx 7 (newfs_inode.mk ino size dir_cnt ftype tp ds bp))
    (hnd_i : (inos_of (newfs_inode.mk ino size dir_cnt ftype tp ds bp)).Nodup)
    (hnd_b : (blocks_of (newfs_inode.mk ino size dir_cnt ftype tp ds bp)).Nodup)
    (hused : ∀ b ∈ blocks_of (newfs_inode.mk ino size dir_cnt ftype tp ds bp), block_used s b)
    (hneed : blocks_needed (newfs_inode.mk ino size dir_cnt ftype tp ds bp) ≤ free_blocks s) :
    ∃ ds1 bp1 s1 s2,
      newfs_sync_inode s (newfs_inode.mk ino size dir_cnt ftype tp ds bp)
        = some (NFS_ERROR_NONE, newfs_inode.mk ino size dir_cnt ftype tp ds1 bp1, s1) ∧
      newfs_read_inode s1 (ino : Int)
        = some (some (newfs_inode.mk ino size dir_cnt ftype tp (strip_dentrys ds).reverse bp1),
            s2) ∧
      layout_ok s2 ∧ s2.max_ino = (mx : Int) ∧
      bp1.length = NFS_DATA_PER_FILE ∧ (∀ b ∈ bp1, b < 4294967296) ∧
      (ftype = NFS_DIR ∧ bp1.getD 0 0 ≠ 0 → block_used s2 (bp1.getD 0 0)) ∧
      (ds ≠ [] → bp1.getD 0 0 ≠ 0) := by
  obtain ⟨t1, s1, hs, hfb, hwf1, hpost, _, hdisk⟩ :=
    (sync_image_wf mx).1 _ s hl hmx hok hnd_i hnd_b hused hneed
  obtain ⟨ds1, bp1, ht1, hfds⟩ := forget_blocks_inv t1 ino size dir_cnt ftype tp ds bp hfb
  subst ht1
  obtain ⟨hl1, hmx1, hio1⟩ := sync_post_layout hpost hl
  have hdisk1 : inode_on_disk s1.inode_offset s1.dev.size s1.dev.data
      (newfs_inode.mk ino size dir_cnt ftype tp ds1 bp1) := by
    rw [hio1, hpost.size]; exact hdisk
  obtain ⟨s2, hr, hsv⟩ := read_inode_image_wf s1 hl1 mx (by rw [hmx1]; exact hmx) ino size
    dir_cnt ftype tp ds1 bp1 hwf1 hdisk1
  have hstrip : strip_dentrys ds1 = strip_dentrys ds := by
    rw [← strip_forget ds1, hfds, strip_forget]
  rw [hstrip] at hr
  have hlen : ds1.length = ds.length := by
    rw [← length_forget ds1, hfds, length_forget]
  have hwf1' := hwf1
  simp only [tree_wf] at hwf1'
  obtain ⟨_, _, _, _, hbp1, hbps1, _, _, _, _⟩ := hwf1'
  refine ⟨ds1, bp1, s1, s2, hs, hr, same_volume_layout hsv hl1, ?_, hbp1, hbps1, ?_, ?_⟩
  · rw [(same_volume_fields hsv).2.1, hmx1]; exact hmx
  · intro h
    have hu : block_used s1 (bp1.getD 0 0) :=
      hpost.used _ (blocks_of_mem_self ino size dir_cnt ftype tp ds1 bp1 h.1 h.2)
    obtain ⟨e, _, _⟩ := hsv
    rw [e]
    exact hu
  · intro hne
    simp only [inode_on_disk] at hdisk
    have hne1 : ds1 ≠ [] := by
      intro e
      rw [e] at hlen
      exact hne (List.length_eq_zero.1 hlen.symm)
    exact (hdisk.2.1 hne1).1
/-! # Claims -/

set_option maxRecDepth 100000

theorem example_super_map_inode_length : example_super.map_inode.length = 1024 := by
  simp [example_super]

theorem example_super_map_data_length : example_super.map_data.length = 1024 := by
  simp [example_super]

/-- C2: on a 1024-byte inode bitmap `newfs_alloc_ino` either returns the least
index `i` below `max_ino` and below 8192 whose bit is clear, and the bitmap
afterwards is the old one with exactly bit `i` newly set (every other bit and
every other byte as before, the rest of the state untouched), or every such
index is in use and it returns `-1` leaving the bitmap as it was. -/
theorem newfs_alloc_ino_least_clear (s : newfs_super) (hlen : s.map_inode.length = 1024) :
    ∃ v m, newfs_alloc_ino s = some (v, { s with map_inode := m }) ∧
      ((∃ i : Nat, v = (i : Int) ∧ (i : Int) < s.max_ino ∧ i < 8192 ∧
          bitmap_bit s.map_inode i = false ∧
          (∀ j, j < i → bitmap_bit s.map_inode j = true) ∧
          m.length = 1024 ∧
          (∀ j, bitmap_bit m j = (decide (j = i) || bitmap_bit s.map_inode j)) ∧
          (∀ k, k ≠ i / 8 → m[k]? = s.map_inode[k]?)) ∨
       (v = -1 ∧ m = s.map_inode ∧
          ∀ j : Nat, (j : Int) < s.max_ino → j < 8192 → bitmap_bit s.map_inode j = true)) := by
  obtain ⟨v, m, h1, h2⟩ := alloc_ino_post s hlen
  refine ⟨v, m, h1, ?_⟩
  rcases h2 with h | ⟨i, hv, hi, hi', hc, hl, hlen', hb, hk⟩
  · exact Or.inr h
  · exact Or.inl ⟨i, by simpa using hv, hi, hi', hc, hl, by rw [hlen', hlen], hb, hk⟩

/-- Witness of C2 on the freshly initialised state. -/
theorem newfs_alloc_ino_least_clear_witness :
    example_super.map_inode.length = 1024 ∧
    ∃ v m, newfs_alloc_ino example_super = some (v, { example_super with map_inode := m }) ∧
      ((∃ i : Nat, v = (i : Int) ∧ (i : Int) < example_super.max_ino ∧ i < 8192 ∧
          bitmap_bit example_super.map_inode i = false ∧
          (∀ j, j < i → bitmap_bit example_super.map_inode j = true) ∧
          m.length = 1024 ∧
          (∀ j, bitmap_bit m j = (decide (j = i) || bitmap_bit example_super.map_inode j)) ∧
          (∀ k, k ≠ i / 8 → m[k]? = example_super.map_inode[k]?)) ∨
       (v = -1 ∧ m = example_super.map_inode ∧
          ∀ j : Nat, (j : Int) < example_super.max_ino → j < 8192 →
            bitmap_bit example_super.map_inode j = true)) :=
  ⟨example_super_map_inode_length,
    newfs_alloc_ino_least_clear example_super example_super_map_inode_length⟩

theorem example_two_used_length : example_super_two_used.map_data.length = 1024 := by
  simp [example_super_two_used]

/-- C3: let the data bitmap be one block of 1024 bytes and let `data_offset`
and `data_offset + data_blks` be values of `int` (so that no block number of
the data region overflows).  Then `newfs_alloc_data_block` either returns
`data_offset + i` for the least index `i` below `data_blks` and below 8192
whose bit is clear, a block number in `[data_offset, data_offset + data_blks)`,
and sets exactly bit `i`, or every such index is in use and it returns `-1`
leaving the bitmap as it was. -/
theorem newfs_alloc_data_block_least_clear (s : newfs_super)
    (hlen : s.map_data.length = 1024) (hoff : is_int s.data_offset)
    (hend : is_int (s.data_offset + s.data_blks)) :
    ∃ v m, newfs_alloc_data_block s = some (v, { s with map_data := m }) ∧
      ((∃ i : Nat, v = s.data_offset + (i : Int) ∧ (i : Int) < s.data_blks ∧ i < 8192 ∧
          bitmap_bit s.map_data i = false ∧
          (∀ j, j < i → bitmap_bit s.map_data j = true) ∧
          s.data_offset ≤ v ∧ v < s.data_offset + s.data_blks ∧ is_int v ∧
          m.length = 1024 ∧
          (∀ j, bitmap_bit m j = (decide (j = i) || bitmap_bit s.map_data j)) ∧
          (∀ k, k ≠ i / 8 → m[k]? = s.map_data[k]?)) ∨
       (v = -1 ∧ m = s.map_data ∧
          ∀ j : Nat, (j : Int) < s.data_blks → j < 8192 → bitmap_bit s.map_data j = true)) := by
  have hrange : ∀ i : Nat, i < 8192 → (i : Int) < s.data_blks →
      is_int (s.data_offset + (i : Int)) := by
    intro i _ hi
    unfold is_int at hoff hend ⊢
    omega
  obtain ⟨v, m, h1, h2⟩ := alloc_data_block_post s hlen hrange
  refine ⟨v, m, h1, ?_⟩
  rcases h2 with h | ⟨i, hv, hi, hi', hc, hl, hlen', hb, hk⟩
  · exact Or.inr h
  · refine Or.inl ⟨i, hv, hi, hi', hc, hl, ?_, ?_, ?_, by rw [hlen', hlen], hb, hk⟩
    · rw [hv]; have : (0 : Int) ≤ (i : Int) := Int.natCast_nonneg i; linarith
    · rw [hv]; linarith
    · rw [hv]; exact hrange i hi' hi

/-- Witness of C3: in `example_super_two_used` the blocks 165 and 166 are in
use; the call returns block 167 and sets bit 2. -/
theorem newfs_alloc_data_block_least_clear_witness :
    example_super_two_used.map_data.length = 1024 ∧
    is_int example_super_two_used.data_offset ∧
    is_int (example_super_two_used.data_offset + example_super_two_used.data_blks) ∧
    bitmap_bit example_super_two_used.map_data 0 = true ∧
    bitmap_bit example_super_two_used.map_data 1 = true ∧
    bitmap_bit example_super_two_used.map_data 2 = false ∧
    ∃ m, newfs_alloc_data_block example_super_two_used
        = some (167, { example_super_two_used with map_data := m }) ∧
      bitmap_bit m 2 = true ∧ bitmap_bit m 1 = true ∧ bitmap_bit m 3 = false := by
  have hb0 : bitmap_bit example_super_two_used.map_data 0 = true := by decide
  have hb1 : bitmap_bit example_super_two_used.map_data 1 = true := by decide
  have hb2 : bitmap_bit example_super_two_used.map_data 2 = false := by decide
  have hb3 : bitmap_bit example_super_two_used.map_data 3 = false := by decide
  refine ⟨example_two_used_length, by decide, by decide, hb0, hb1, hb2, ?_⟩
  obtain ⟨v, m, hv, hpost⟩ := newfs_alloc_data_block_least_clear example_super_two_used
    example_two_used_length (by decide) (by decide)
  rcases hpost with ⟨i, hvi, _, _, hc, hl, _, _, _, _, hbits, _⟩ | ⟨_, _, hall⟩
  · have hi : i = 2 := by
      rcases Nat.lt_trichotomy i 2 with h | h | h
      · have : i = 0 ∨ i = 1 := by omega
        rcases this with e | e
        · rw [e, hb0] at hc; cases hc
        · rw [e, hb1] at hc; cases hc
      · exact h
      · have := hl 2 h
        rw [hb2] at this; cases this
    subst hi
    have hv167 : v = 167 := by rw [hvi]; rfl
    subst hv167
    refine ⟨m, hv, ?_, ?_, ?_⟩
    · rw [hbits 2]; rfl
    · rw [hbits 1, hb1]; rfl
    · rw [hbits 3, hb3]; rfl
  · have := hall 2 (by decide) (by decide)
    rw [hb2] at this; cases this

/-- C4: from any state with 1024-byte bitmaps in which `data_offset` and
`data_offset + data_blks` are values of `int`, a successful `newfs_alloc_ino`
or `newfs_alloc_data_block` returns an index whose bit was clear before the
call; in every sequence of `newfs_alloc_ino` calls, and in every sequence of
`newfs_alloc_data_block` / `newfs_free_data_block` calls, no value is handed
out twice unless it was freed in between.  The inode sequence always runs; the
data sequence always runs when `data_blks <= 8192`. -/
theorem allocator_exclusive (s : newfs_super) (hi : s.map_inode.length = 1024)
    (hd : s.map_data.length = 1024) (hoff : is_int s.data_offset)
    (hend : is_int (s.data_offset + s.data_blks)) :
    (∀ v s1, newfs_alloc_ino s = some (v, s1) → v ≠ -1 →
      ∃ i : Nat, v = (i : Int) ∧ bitmap_bit s.map_inode i = false) ∧
    (∀ v s1, newfs_alloc_data_block s = some (v, s1) → v ≠ -1 →
      ∃ i : Nat, v = s.data_offset + (i : Int) ∧ is_int v ∧ bitmap_bit s.map_data i = false) ∧
    (∀ n, ∃ evs s2, run_ino_calls s n = some (evs, s2) ∧ exclusive evs) ∧
    (∀ calls evs s2, run_data_calls s calls = some (evs, s2) → exclusive evs) ∧
    (s.data_blks ≤ 8192 → ∀ calls, (run_data_calls s calls).isSome = true) := by
  have hrange : ∀ i : Nat, i < 8192 → (i : Int) < s.data_blks →
      is_int (s.data_offset + (i : Int)) := by
    intro i _ hi
    unfold is_int at hoff hend ⊢
    omega
  refine ⟨?_, ?_, ?_, ?_, ?_⟩
  · intro v s1 h hv
    obtain ⟨w, m, hw, hpost⟩ := alloc_ino_post s hi
    rw [hw] at h
    simp only [Option.some.injEq, Prod.mk.injEq] at h
    obtain ⟨h1, _⟩ := h
    subst h1
    rcases hpost with h | ⟨i, hvi, _, _, hc, _⟩
    · exact absurd h.1 hv
    · exact ⟨i, by simpa using hvi, hc⟩
  · intro v s1 h hv
    obtain ⟨w, m, hw, hpost⟩ := alloc_data_block_post s hd hrange
    rw [hw] at h
    simp only [Option.some.injEq, Prod.mk.injEq] at h
    obtain ⟨h1, _⟩ := h
    subst h1
    rcases hpost with h | ⟨i, hvi, hi1, hi2, hc, _⟩
    · exact absurd h.1 hv
    · exact ⟨i, hvi, by rw [hvi]; exact hrange i hi2 hi1, hc⟩
  · intro n; exact run_ino_calls_exclusive n s hi
  · intro calls evs s2 h; exact run_data_calls_exclusive calls s s2 evs hd hrange h
  · intro hb calls; exact run_data_calls_total calls s hd hb hoff hend

/-- Witness of C4 on `example_super_two_used`: the runs are exclusive, and the
run `alloc, free 167, alloc, alloc` hands out 167, takes it back, hands out 167
again and then 168. -/
theorem allocator_exclusive_witness :
    example_super_two_used.map_inode.length = 1024 ∧
    example_super_two_used.map_data.length = 1024 ∧
    is_int example_super_two_used.data_offset ∧
    is_int (example_super_two_used.data_offset + example_super_two_used.data_blks) ∧
    (run_data_calls example_super_two_used
        [data_call.alloc, data_call.free 167, data_call.alloc, data_call.alloc]).map Prod.fst
      = some [alloc_event.handed 167, alloc_event.freed 167, alloc_event.handed 167,
          alloc_event.handed 168] ∧
    (∀ n, ∃ evs s2, run_ino_calls example_super_two_used n = some (evs, s2) ∧ exclusive evs) ∧
    (∀ calls evs s2, run_data_calls example_super_two_used calls = some (evs, s2) →
      exclusive evs) :=
  ⟨example_super_map_inode_length, example_two_used_length, by decide, by decide, by decide!,
    (allocator_exclusive example_super_two_used example_super_map_inode_length
      example_two_used_length (by decide) (by decide)).2.2.1,
    (allocator_exclusive example_super_two_used example_super_map_inode_length
      example_two_used_length (by decide) (by decide)).2.2.2.1⟩

/-- C5: with a 1024-byte data bitmap, `data_blks <= 8192`, and
`data_offset + data_blks` a value of `int` (the sum in the guard does not
overflow), `newfs_free_data_block(b)` changes nothing but the data bitmap; for
`b` in
`[data_offset, data_offset + data_blks)` it clears exactly bit
`b - data_offset` (every other bit and every other byte as before), for any
other `b` the data bitmap stays as it was. -/
theorem newfs_free_data_block_frame (s : newfs_super) (hlen : s.map_data.length = 1024)
    (hblks : s.data_blks ≤ 8192) (hend : is_int (s.data_offset + s.data_blks))
    (block_no : Int) :
    ∃ m, newfs_free_data_block s block_no = some { s with map_data := m } ∧
      m.length = 1024 ∧
      (s.data_offset ≤ block_no ∧ block_no < s.data_offset + s.data_blks →
        (∀ j : Nat, bitmap_bit m j =
          (!decide ((j : Int) = block_no - s.data_offset) && bitmap_bit s.map_data j)) ∧
        (∀ k : Nat, (k : Int) ≠ (block_no - s.data_offset) / 8 → m[k]? = s.map_data[k]?)) ∧
      (¬ (s.data_offset ≤ block_no ∧ block_no < s.data_offset + s.data_blks) →
        m = s.map_data) := by
  unfold newfs_free_data_block
  by_cases hr0 : block_no < s.data_offset
  · rw [if_pos hr0]
    refine ⟨s.map_data, rfl, hlen, ?_, fun _ => rfl⟩
    intro h; exfalso; omega
  · rw [if_neg hr0, if_neg (not_not.2 hend)]
    by_cases hr1 : block_no ≥ s.data_offset + s.data_blks
    · rw [if_pos hr1]
      refine ⟨s.map_data, rfl, hlen, ?_, fun _ => rfl⟩
      intro h; exfalso; omega
    · rw [if_neg hr1]
      have hr : s.data_offset ≤ block_no ∧ block_no < s.data_offset + s.data_blks := by omega
      obtain ⟨i, hi⟩ : ∃ i : Nat, block_no - s.data_offset = (i : Int) :=
        ⟨(block_no - s.data_offset).toNat, (Int.toNat_of_nonneg (by omega)).symm⟩
      have hi8 : i < 8192 := by omega
      have hbyte : ((block_no - s.data_offset) / 8).toNat = i / 8 := by rw [hi]; omega
      have hbit : ((block_no - s.data_offset) % 8).toNat = i % 8 := by rw [hi]; omega
      simp only [hbyte, hbit]
      have hlt : i / 8 < s.map_data.length := by omega
      obtain ⟨x, hx⟩ : ∃ x, s.map_data[i / 8]? = some x :=
        ⟨s.map_data[i / 8], List.getElem?_eq_getElem hlt⟩
      simp only [hx]
      refine ⟨_, rfl, by simp [hlen], ?_, ?_⟩
      · intro _
        constructor
        · intro j
          rw [bitmap_bit_set_clear s.map_data (i / 8) (i % 8) x j (Nat.mod_lt _ (by norm_num)) hx]
          congr 2
          apply decide_eq_decide.2
          rw [hi]; omega
        · intro k hk
          apply List.getElem?_set_ne
          rw [hi] at hk
          omega
      · intro h; exfalso; apply h; constructor <;> omega

/-- Witness of C5: in `example_super_two_used` the blocks 165 and 166 are in
use; freeing block 166 clears bit 1 and leaves bit 0 set. -/
theorem newfs_free_data_block_frame_witness :
    example_super_two_used.map_data.length = 1024 ∧
    example_super_two_used.data_blks ≤ 8192 ∧
    is_int (example_super_two_used.data_offset + example_super_two_used.data_blks) ∧
    bitmap_bit example_super_two_used.map_data 0 = true ∧
    bitmap_bit example_super_two_used.map_data 1 = true ∧
    ∃ m, newfs_free_data_block example_super_two_used 166
        = some { example_super_two_used with map_data := m } ∧
      m.length = 1024 ∧ bitmap_bit m 1 = false ∧ bitmap_bit m 0 = true := by
  have hb0 : bitmap_bit example_super_two_used.map_data 0 = true := by decide
  have hb1 : bitmap_bit example_super_two_used.map_data 1 = true := by decide
  refine ⟨example_two_used_length, by decide, by decide, hb0, hb1, ?_⟩
  obtain ⟨m, hm, hlen, hin, _⟩ := newfs_free_data_block_frame example_super_two_used
    example_two_used_length (by decide) (by decide) 166
  obtain ⟨hbits, _⟩ := hin ⟨by decide, by decide⟩
  refine ⟨m, hm, hlen, ?_, ?_⟩
  · rw [hbits 1]; rfl
  · rw [hbits 0, hb0]; rfl
/-- C6: for a path `/s1/.../sn` whose segments but the last walk from the root
through directories to a directory `dir` (at `q`), and whose last segment `sn`
is first borne in `dir`'s child list by the dentry at position `k`,
`newfs_lookup` returns that dentry (`q ++ [k]`) with `is_find = true` and
`is_root = false`, and on return the dentry holds a hydrated (non-null) inode. -/
theorem newfs_lookup_found (s s1 s2 : newfs_super) (pre : List (List Nat)) (sn : List Nat)
    (q : dptr) (dir : newfs_inode) (k : Nat)
    (hsegs : ∀ seg ∈ pre ++ [sn], is_segment seg)
    (hwalk : walks s [] pre s1 q)
    (hdir : newfs_hydrate s1 q = some (some dir, s2)) (hd : dir.ftype = NFS_DIR)
    (hk : first_named sn dir.dentrys k) :
    ∃ s3 root3 c inode3,
      newfs_lookup s (path_of (pre ++ [sn]))
        = some ({ dentry_ret := some (q ++ [k]), is_find := true, is_root := false }, s3) ∧
      dir.dentrys[k]? = some c ∧ c.name = sn ∧
      newfs_hydrate s2 (q ++ [k]) = some (some inode3, s3) ∧
      s3.root_dentry = some root3 ∧
      dentry_at root3 (q ++ [k]) = some (newfs_dentry.mk c.name c.ino (some inode3) c.ftype) := by
  obtain ⟨c, hc, hcn, _⟩ := hk
  obtain ⟨root1, dq, root2, _, _, hr2, hdq⟩ := hydrate_post s1 s2 q (some dir) hdir
  have hat : dentry_at root2 (q ++ [k]) = some c := by
    rw [dentry_at_append, hdq]
    simp [dentry_at, newfs_dentry.inode, hc]
  obtain ⟨inode3, s3, hh3⟩ := hydrate_total s2 root2 c (q ++ [k]) hr2 hat
  obtain ⟨root2', c', root3, hr2', hat', hr3, hat3⟩ := hydrate_post s2 s3 (q ++ [k]) (some inode3) hh3
  rw [hr2] at hr2'
  cases hr2'
  rw [hat] at hat'
  cases hat'
  refine ⟨s3, root3, c, inode3, ?_, hc, hcn, hh3, hr3, hat3⟩
  unfold newfs_lookup
  have hlvl : newfs_calc_lvl (path_of (pre ++ [sn])) = pre.length + 1 := by
    rw [calc_lvl_path_of _ hsegs]; simp
  simp only [hlvl, strtok_all_path_of _ hsegs]
  rw [if_neg (by omega), lookup_loop_walks (pre.length + 1) hwalk [sn] 0 (by omega)]
  rw [newfs_lookup_loop]
  simp only [hdir]
  have hreg : ¬ (dir.ftype = NFS_REG_FILE ∧ 0 + pre.length + 1 < pre.length + 1) := by
    intro h; omega
  rw [if_neg hreg, if_pos hd]
  have hscan := lookup_scan_first sn dir.dentrys 0 k ⟨c, hc, hcn, by assumption⟩
  rw [Nat.zero_add] at hscan
  simp only [hscan]
  rw [if_pos (by omega)]
  simp only [hh3]

/-- Witness of C6: `/a` in the state left by `mkdir /a`, `mkdir /b`; the root
lists `b` before `a`, so `a` is found at position 1. -/
theorem newfs_lookup_found_witness :
    (∀ seg ∈ ([] : List (List Nat)) ++ [[97]], is_segment seg) ∧
    walks example_super_ab [] [] example_super_ab [] ∧
    first_named [97]
      [newfs_dentry.mk [98] 2
          (some (newfs_inode.mk 2 0 0 NFS_DIR (List.replicate 128 0) [] (List.replicate 6 0)))
          NFS_DIR,
       newfs_dentry.mk [97] 1
          (some (newfs_inode.mk 1 0 0 NFS_DIR (List.replicate 128 0) [] (List.replicate 6 0)))
          NFS_DIR] 1 ∧
    ∃ s3 root3 c inode3,
      newfs_lookup example_super_ab (path_of ([] ++ [[97]]))
        = some ({ dentry_ret := some ([] ++ [1]), is_find := true, is_root := false }, s3) ∧
      (newfs_inode.mk 0 0 2 NFS_DIR (List.replicate 128 0)
          [newfs_dentry.mk [98] 2
              (some (newfs_inode.mk 2 0 0 NFS_DIR (List.replicate 128 0) []
                (List.replicate 6 0))) NFS_DIR,
           newfs_dentry.mk [97] 1
              (some (newfs_inode.mk 1 0 0 NFS_DIR (List.replicate 128 0) []
                (List.replicate 6 0))) NFS_DIR]
          (List.replicate 6 0)).dentrys[1]? = some c ∧ c.name = [97] ∧
      newfs_hydrate example_super_ab ([] ++ [1]) = some (some inode3, s3) ∧
      s3.root_dentry = some root3 ∧
      dentry_at root3 ([] ++ [1])
        = some (newfs_dentry.mk c.name c.ino (some inode3) c.ftype) :=
  have hsegs : ∀ seg ∈ ([] : List (List Nat)) ++ [[97]], is_segment seg := by
    intro seg hseg
    simp only [List.nil_append, List.mem_singleton] at hseg
    subst hseg
    exact ⟨by decide, by decide⟩
  have hfirst : first_named [97]
      [newfs_dentry.mk [98] 2
          (some (newfs_inode.mk 2 0 0 NFS_DIR (List.replicate 128 0) [] (List.replicate 6 0)))
          NFS_DIR,
       newfs_dentry.mk [97] 1
          (some (newfs_inode.mk 1 0 0 NFS_DIR (List.replicate 128 0) [] (List.replicate 6 0)))
          NFS_DIR] 1 := by
    refine ⟨_, rfl, rfl, ?_⟩
    intro j e hj he
    have hj0 : j = 0 := by omega
    subst hj0
    simp only [List.getElem?_cons_zero, Option.some.injEq] at he
    subst he
    decide
  ⟨hsegs, walks.done _ _, hfirst,
    newfs_lookup_found example_super_ab example_super_ab example_super_ab [] [97] [] _ 1 hsegs
      (walks.done _ _) rfl rfl hfirst⟩

/-- C7: for a well-formed path whose walk reaches a directory `dir` (at `q`,
the root when no segment precedes) that has no child named the next segment,
`newfs_lookup` returns `is_find = false`, `is_root = false` and the dentry of
that directory. -/
theorem newfs_lookup_missing (s s1 s2 : newfs_super) (pre : List (List Nat)) (seg : List Nat)
    (post : List (List Nat)) (q : dptr) (dir : newfs_inode)
    (hsegs : ∀ x ∈ pre ++ seg :: post, is_segment x)
    (hwalk : walks s [] pre s1 q)
    (hdir : newfs_hydrate s1 q = some (some dir, s2)) (hd : dir.ftype = NFS_DIR)
    (hmiss : ∀ d ∈ dir.dentrys, d.name ≠ seg) :
    newfs_lookup s (path_of (pre ++ seg :: post))
      = some ({ dentry_ret := some q, is_find := false, is_root := false }, s2) := by
  unfold newfs_lookup
  have hlvl : newfs_calc_lvl (path_of (pre ++ seg :: post)) = pre.length + (post.length + 1) := by
    rw [calc_lvl_path_of _ hsegs]; simp
  simp only [hlvl, strtok_all_path_of _ hsegs]
  rw [if_neg (by omega), lookup_loop_walks _ hwalk (seg :: post) 0 (by omega)]
  rw [newfs_lookup_loop]
  simp only [hdir]
  have hreg : ¬ (dir.ftype = NFS_REG_FILE ∧
      0 + pre.length + 1 < pre.length + (post.length + 1)) := by
    rw [hd]; intro h; exact absurd h.1 (by decide)
  rw [if_neg hreg, if_pos hd, lookup_scan_none seg dir.dentrys 0 hmiss]
  simp only [hydrate_idem s1 s2 q dir hdir]

/-- Witness of C7: `lookup("/missing")` against the empty root. -/
theorem newfs_lookup_missing_witness :
    (∀ x ∈ ([] : List (List Nat)) ++ ascii "missing" :: [], is_segment x) ∧
    walks example_super [] [] example_super [] ∧
    newfs_lookup example_super (path_of ([] ++ ascii "missing" :: []))
      = some ({ dentry_ret := some [], is_find := false, is_root := false }, example_super) :=
  have hsegs : ∀ x ∈ ([] : List (List Nat)) ++ ascii "missing" :: [], is_segment x := by
    intro seg hseg
    simp only [List.nil_append, List.mem_singleton] at hseg
    subst hseg
    exact ⟨by decide, by decide⟩
  ⟨hsegs, walks.done _ _,
    newfs_lookup_missing example_super example_super example_super [] (ascii "missing") [] []
      (newfs_inode.mk 0 0 0 NFS_DIR (List.replicate 128 0) [] (List.replicate 6 0))
      hsegs (walks.done _ _) rfl rfl (by intro d hd; simp [newfs_inode.dentrys] at hd)⟩

/-- C8, the code at the failing input: after `mknod /a` (a regular file) has
succeeded on the fresh state, `newfs_lookup("/a/b")` returns `NULL` with
`is_find = false`, not the dentry of `/a`; one level deeper,
`newfs_lookup("/a/b/c")` does return the dentry of `/a` (child 0 of the root). -/
theorem newfs_lookup_below_file_returns_null :
    ((newfs_mknod example_super (ascii "/a") 33188).bind fun r =>
        (newfs_lookup r.2 (ascii "/a/b")).map fun o => (r.1, o.1))
      = some (0, { dentry_ret := none, is_find := false, is_root := false }) ∧
    ((newfs_mknod example_super (ascii "/a") 33188).bind fun r =>
        (newfs_lookup r.2 (ascii "/a/b/c")).map fun o => (r.1, o.1))
      = some (0, { dentry_ret := some [0], is_find := false, is_root := false }) := by
  decide

/-- C9: in every mounted state `newfs_lookup("/")` returns the root dentry with
`is_root = true` and `is_find = true`, and leaves the state as it was. -/
theorem newfs_lookup_root (s : newfs_super) (root : newfs_dentry)
    (hmounted : s.root_dentry = some root) :
    newfs_lookup s [47]
      = some ({ dentry_ret := some [], is_find := true, is_root := true }, s) := by
  unfold newfs_lookup
  have : newfs_calc_lvl [47] = 0 := by decide
  simp only [this, if_true, hmounted, Option.map_some']

/-- Witness of C9 on the freshly initialised state. -/
theorem newfs_lookup_root_witness :
    newfs_lookup example_super [47]
      = some ({ dentry_ret := some [], is_find := true, is_root := true }, example_super) :=
  newfs_lookup_root example_super _ rfl

theorem strtok_from_no_tokens : ∀ (path tok : List Nat), strtok_from path tok = [] →
    tok = [] ∧ ∀ c ∈ path, c = 47 := by
  intro path
  induction path with
  | nil =>
    intro tok h
    unfold strtok_from at h
    split_ifs at h with ht
    · exact ⟨ht, by simp⟩
  | cons c rest ih =>
    intro tok h
    unfold strtok_from at h
    split_ifs at h with hc ht
    · obtain ⟨_, h2⟩ := ih [] h
      refine ⟨ht, ?_⟩
      intro x hx
      rcases List.mem_cons.1 hx with e | e
      · rw [e, hc]
      · exact h2 x e
    · obtain ⟨h1, _⟩ := ih (tok ++ [c]) h
      simp at h1

theorem calc_lvl_congr (p q : List Nat) (ht : strtok_all p = strtok_all q)
    (hc : p.count 47 = q.count 47) : newfs_calc_lvl p = newfs_calc_lvl q := by
  have key : ∀ a b : List Nat, strtok_all a = strtok_all b → a.count 47 = b.count 47 →
      a = [47] → b = [47] := by
    intro a b hab hcnt ha
    subst ha
    have hb : strtok_all b = [] := by rw [← hab]; decide
    obtain ⟨_, hall⟩ := strtok_from_no_tokens b [] hb
    have hcount : b.count 47 = b.length := List.count_eq_length.2 (fun x hx => (hall x hx).symm)
    have hlen : b.length = 1 := by rw [← hcount, ← hcnt]; decide
    match b, hlen, hall with
    | [x], _, hall => rw [hall x (by simp)]
  unfold newfs_calc_lvl
  by_cases hp : p = [47]
  · rw [if_pos hp, if_pos (key p q ht hc hp)]
  · have hq : ¬ q = [47] := fun e => hp (key q p ht.symm hc.symm e)
    rw [if_neg hp, if_neg hq, calc_lvl_loop_count, calc_lvl_loop_count, hc]

/-- C10 (amended): for the empty path and for `"/"` `newfs_lookup` returns the
root dentry with `is_find = is_root = true`; for all paths the result depends
only on the ordered list of non-empty segments together with the number of
`'/'` characters of the path. -/
theorem newfs_lookup_depends_on_tokens_and_slashes (s : newfs_super) :
    (∀ path : List Nat, path = [] ∨ path = [47] →
      newfs_lookup s path
        = some ({ dentry_ret := s.root_dentry.map (fun _ => []), is_find := true,
                  is_root := true }, s)) ∧
    (∀ p q : List Nat, strtok_all p = strtok_all q → p.count 47 = q.count 47 →
      newfs_lookup s p = newfs_lookup s q) := by
  constructor
  · intro path h
    have : newfs_calc_lvl path = 0 := by
      rcases h with h | h <;> subst h <;> decide
    unfold newfs_lookup
    simp only [this, if_true]
  · intro p q ht hc
    unfold newfs_lookup
    rw [calc_lvl_congr p q ht hc, ht]

/-- C10 fails as stated: `"//"` has the same (empty) list of non-empty
segments as `"/"`, yet `newfs_lookup("//")` returns `NULL` with
`is_find = false`, `is_root = false`, while `newfs_lookup("/")` returns the
root with both flags set. -/
theorem newfs_lookup_double_slash_not_root :
    (newfs_lookup example_super (ascii "//")).map (fun r => r.1)
      = some { dentry_ret := none, is_find := false, is_root := false } ∧
    (newfs_lookup example_super (ascii "/")).map (fun r => r.1)
      = some { dentry_ret := some [], is_find := true, is_root := true } ∧
    strtok_all (ascii "//") = strtok_all (ascii "/") := by
  decide

/-- Witness of C10 (amended): `"/a/"` and `"a//"` have the same segments and
the same number of slashes, so `newfs_lookup` treats them alike. -/
theorem newfs_lookup_depends_on_tokens_and_slashes_witness :
    strtok_all (ascii "/a/") = strtok_all (ascii "a//") ∧
    (ascii "/a/").count 47 = (ascii "a//").count 47 ∧
    newfs_lookup example_super (ascii "/a/") = newfs_lookup example_super (ascii "a//") :=
  ⟨by decide, by decide,
    (newfs_lookup_depends_on_tokens_and_slashes example_super).2 (ascii "/a/") (ascii "a//")
      (by decide) (by decide)⟩

theorem example_ab_layout : layout_ok example_super_ab := by
  unfold layout_ok example_super_ab example_super zero_device
  simp only [List.length_replicate]
  decide

theorem example_ab_max_ino : example_super_ab.max_ino = ((983 : Nat) : Int) := rfl

theorem example_ab_tree_ok : tree_ok 983 7 example_root_ab := by
  unfold example_root_ab
  simp [tree_ok, dentrys_ok, newfs_inode.ino, MAX_NAME_LEN, NFS_DATA_PER_FILE, NFS_DIR]

theorem example_ab_inos : (inos_of example_root_ab).Nodup := by decide

theorem example_ab_blocks : (blocks_of example_root_ab).Nodup := by decide

theorem example_ab_used : ∀ b ∈ blocks_of example_root_ab, block_used example_super_ab b := by
  intro b hb
  have h : blocks_of example_root_ab = [] := by decide
  rw [h] at hb
  cases hb

theorem example_ab_free : blocks_needed example_root_ab ≤ free_blocks example_super_ab := by
  have h1 : blocks_needed example_root_ab = 1 := by decide
  have h2 : 0 < free_blocks example_super_ab := by
    unfold free_blocks
    rw [List.countP_pos_iff]
    exact ⟨0, by simp, by decide⟩
  omega

/-- C1 (amended): for every well-formed tree (every dentry hydrated and holding
the number of its inode, names of at most 127 bytes, `dir_cnt` the number of
children, at most 7 children per directory, inode numbers distinct and below
`max_ino`, first blocks of directories distinct and marked in the data bitmap)
on a volume with the layout of `newfs_init` and with a free data block for
every directory that still needs one, `newfs_sync_inode` from the root
succeeds and changes block pointers only; re-hydrating from the root with
`newfs_read_inode`, to any depth that covers the tree, yields the tree with the
same names, types, inode numbers and sizes at every node and every child list
in REVERSE order. -/
theorem sync_then_read_mirrors (s : newfs_super) (mx : Nat) (t : newfs_inode)
    (hl : layout_ok s) (hmx : s.max_ino = (mx : Int)) (hok : tree_ok mx 7 t)
    (hnd_i : (inos_of t).Nodup) (hnd_b : (blocks_of t).Nodup)
    (hused : ∀ b ∈ blocks_of t, block_used s b)
    (hneed : blocks_needed t ≤ free_blocks s) :
    ∃ t1 s1, newfs_sync_inode s t = some (NFS_ERROR_NONE, t1, s1) ∧
      forget_blocks t1 = forget_blocks t ∧
      ∀ depth, height t ≤ depth →
        ∃ t2 s2, load_inode depth s1 (t.ino : Int) = some (t2, s2) ∧ t2 = mirror t1 ∧
          forget_blocks t2 = mirror (forget_blocks t) := by
  obtain ⟨t1, s1, hs, hf, _, _, _, _, hload⟩ :=
    sync_then_load s mx t hl hmx hok hnd_i hnd_b hused hneed
  refine ⟨t1, s1, hs, hf, ?_⟩
  intro depth hd
  obtain ⟨s2, h2⟩ := hload depth hd
  exact ⟨mirror t1, s2, h2, rfl, by rw [(forget_mirror).1 t1, hf]⟩

/-- Witness of C1 (amended): the tree left by `mkdir /a`, `mkdir /b` on the
freshly initialised volume. -/
theorem sync_then_read_mirrors_witness :
    layout_ok example_super_ab ∧ tree_ok 983 7 example_root_ab ∧
    (inos_of example_root_ab).Nodup ∧ (blocks_of example_root_ab).Nodup ∧
    blocks_needed example_root_ab ≤ free_blocks example_super_ab ∧
    ∃ t1 s1, newfs_sync_inode example_super_ab example_root_ab
        = some (NFS_ERROR_NONE, t1, s1) ∧
      forget_blocks t1 = forget_blocks example_root_ab ∧
      ∀ depth, height example_root_ab ≤ depth →
        ∃ t2 s2, load_inode depth s1 (example_root_ab.ino : Int) = some (t2, s2) ∧
          t2 = mirror t1 ∧ forget_blocks t2 = mirror (forget_blocks example_root_ab) :=
  ⟨example_ab_layout, example_ab_tree_ok, example_ab_inos, example_ab_blocks, example_ab_free,
    sync_then_read_mirrors example_super_ab 983 example_root_ab example_ab_layout
      example_ab_max_ino example_ab_tree_ok example_ab_inos example_ab_blocks example_ab_used
      example_ab_free⟩

/-- C1 fails as stated: in the state left by `mkdir /a`, `mkdir /b` the root
lists `b` before `a`; after `newfs_sync_inode` of the root, `newfs_read_inode`
of the root inode lists `a` before `b`. -/
theorem sync_then_read_reverses_root :
    example_root_ab.dentrys.map newfs_dentry.name = [[98], [97]] ∧
    ∃ t1 s1 t2 s2,
      newfs_sync_inode example_super_ab example_root_ab = some (NFS_ERROR_NONE, t1, s1) ∧
      newfs_read_inode s1 0 = some (some t2, s2) ∧
      t2.dentrys.map newfs_dentry.name = [[97], [98]] := by
  refine ⟨by decide, ?_⟩
  obtain ⟨t1, s1, hs, hf, hok1, hl1, hmx1, hdisk1, _⟩ :=
    sync_then_load example_super_ab 983 example_root_ab example_ab_layout example_ab_max_ino
      example_ab_tree_ok example_ab_inos example_ab_blocks example_ab_used example_ab_free
  cases t1 with
  | mk ino1 size1 cnt1 ftype1 tp1 ds1 bp1 =>
    have hino : ino1 = 0 := ino_forget example_root_ab _ hf
    subst hino
    have hnames : ds1.map newfs_dentry.name = [[98], [97]] := by
      have h := congrArg newfs_inode.dentrys hf
      simp only [forget_blocks, newfs_inode.dentrys, example_root_ab] at h
      rw [← names_forget ds1, h]
      decide
    obtain ⟨s2, hr, _⟩ := read_inode_image s1 hl1 983 hmx1 0 size1 cnt1 ftype1 tp1 ds1 bp1 hok1
      hdisk1
    refine ⟨_, s1, _, s2, hs, hr, ?_⟩
    simp only [newfs_inode.dentrys, List.map_reverse, names_strip, hnames]
    decide

/-- C17: let the child list of `inode` be the dentries at the addresses `L`
(`inode->dentrys` followed through `brother`), with `dir_cnt` the length of
`L`, and let `dentry` be non-null.  If `dentry` is one of `L`,
`newfs_drop_dentry` unlinks exactly this node: the child list afterwards is `L`
without `dentry`, the others in their previous order, `dir_cnt` is one less and
is the value returned, and no dentry changes in any field but `brother`.  If
`dentry` is not one of `L` the function returns `-NFS_ERROR_NOTFOUND` and
leaves the memory as it was.  (`fuel` bounds the loop; any bound from the
length of `L` on is enough.) -/
theorem newfs_drop_dentry_detaches (m : drop_mem) (L : List Nat) (dentry fuel : Nat)
    (hL : chain m.node m.dentrys L) (hcnt : m.dir_cnt = L.length)
    (hd : dentry ≠ 0) (hfuel : L.length ≤ fuel) (hsz : L.length < 2147483648) :
    (dentry ∈ L →
      ∃ m1, newfs_drop_dentry fuel m dentry = some (((L.length - 1 : Nat) : Int), m1) ∧
        chain m1.node m1.dentrys (L.filter (fun a => a != dentry)) ∧
        (L.filter (fun a => a != dentry)).length = L.length - 1 ∧
        m1.dir_cnt = L.length - 1 ∧
        ∀ a, (m1.node a).name = (m.node a).name ∧ (m1.node a).ino = (m.node a).ino ∧
          (m1.node a).parent = (m.node a).parent ∧ (m1.node a).inode = (m.node a).inode ∧
          (m1.node a).ftype = (m.node a).ftype) ∧
    (dentry ∉ L → newfs_drop_dentry fuel m dentry = some (-NFS_ERROR_NOTFOUND, m)) := by
  have hnd := chain_nodup m.node L m.dentrys hL
  have hdec : dentry ∈ L → (m.dir_cnt + 4294967295) % 4294967296 = L.length - 1 := by
    intro hmem
    have hpos : 0 < L.length := List.length_pos_of_mem hmem
    rw [hcnt]
    omega
  have hret : dentry ∈ L → toI32 (L.length - 1) = ((L.length - 1 : Nat) : Int) := by
    intro _
    unfold toI32
    have h1 : (L.length - 1) % 4294967296 = L.length - 1 := Nat.mod_eq_of_lt (by omega)
    rw [h1, if_pos (by omega)]
  have hlen : dentry ∈ L → (L.filter (fun a => a != dentry)).length = L.length - 1 := by
    intro hmem
    rw [← List.Nodup.erase_eq_filter hnd, List.length_erase_of_mem hmem]
  unfold newfs_drop_dentry
  by_cases hhead : m.dentrys = dentry
  · rw [if_pos hhead, if_neg hd]
    cases L with
    | nil => simp only [chain] at hL; rw [hL] at hhead; exact absurd hhead.symm hd
    | cons a as =>
      have hL0 := hL
      simp only [chain] at hL
      obtain ⟨ha, _, hrest⟩ := hL
      have had : a = dentry := by rw [← ha, hhead]
      subst had
      have hmem : a ∈ a :: as := List.mem_cons_self _ _
      rw [hdec hmem, hret hmem]
      refine ⟨fun _ => ⟨_, rfl, ?_, hlen hmem, rfl, fun x => ⟨rfl, rfl, rfl, rfl, rfl⟩⟩,
        fun h => absurd hmem h⟩
      rw [← List.Nodup.erase_eq_filter hnd, List.erase_cons_head]
      exact hrest
  · rw [if_neg hhead]
    obtain ⟨h1, h2⟩ := drop_loop_spec dentry hd m.node L m.dentrys fuel hL hfuel hhead
    refine ⟨fun hmem => ?_, fun hmem => ?_⟩
    · obtain ⟨c, _, _, hc3, hc4⟩ := h1 hmem
      rw [hc3, hdec hmem, hret hmem]
      refine ⟨_, rfl, ?_, hlen hmem, rfl, fun x => ?_⟩
      · rw [← List.Nodup.erase_eq_filter hnd]
        exact hc4
      · by_cases hx : x = c
        · subst hx
          simp only [Function.update_same, and_self]
        · simp only [Function.update_noteq hx, and_self]
    · rw [h2 hmem]

/-- Witness of C17: three dentries at the addresses 1, 2, 3 chained in this
order, the middle one is detached. -/
theorem newfs_drop_dentry_detaches_witness :
    2 ∈ [1, 2, 3] ∧
    ∃ m1,
      newfs_drop_dentry 3
          { dentrys := 1, dir_cnt := 3
            node := fun a =>
              { name := [96 + a], ino := a, parent := 9, brother := if a < 3 then a + 1 else 0,
                inode := 0, ftype := NFS_DIR } } 2
        = some ((([1, 2, 3].length - 1 : Nat) : Int), m1) ∧
      chain m1.node m1.dentrys ([1, 2, 3].filter (fun a => a != 2)) :=
  have h := newfs_drop_dentry_detaches
    { dentrys := 1, dir_cnt := 3
      node := fun a =>
        { name := [96 + a], ino := a, parent := 9, brother := if a < 3 then a + 1 else 0,
          inode := 0, ftype := NFS_DIR } } [1, 2, 3] 2 3
    (by simp [chain]) rfl (by decide) (by decide) (by decide)
  ⟨by decide, (h.1 (by decide)).imp fun _ hm => ⟨hm.1, hm.2.1⟩⟩
/-- C18: the first mount of a zeroed 4 MiB device completes and leaves
`sz_disk = 4194304`, `blks_num = 4096`, `max_ino = 983`, `inode_blks = 162`,
the inode table at block 3, the data region at block 165 with 3931 blocks,
`file_max = 6144`, `root_ino = 0`; the root dentry `/` has inode number 0 and
holds a directory inode number 0 with `dir_cnt = 0` and no children; byte 0 of
the inode bitmap is 1 and all its other bytes are 0 (exactly bit 0 is set), the
data bitmap is all zero. -/
theorem newfs_init_first_mount_4MiB :
    (newfs_init (zero_device 4194304)).map (fun s =>
        (s.sz_disk, s.sz_blks, s.blks_num, s.max_ino, s.inode_blks, s.inode_offset))
      = some (4194304, 1024, 4096, 983, 162, 3) ∧
    (newfs_init (zero_device 4194304)).map (fun s =>
        (s.data_offset, s.data_blks, s.file_max, s.root_ino, s.is_mounted))
      = some (165, 3931, 6144, 0, true) ∧
    ((newfs_init (zero_device 4194304)).bind fun s =>
        s.root_dentry.map fun r => (r.name, r.ino, r.ftype))
      = some ([47], 0, NFS_DIR) ∧
    ((newfs_init (zero_device 4194304)).bind fun s =>
        s.root_dentry.bind fun r =>
          r.inode.map fun i => (i.ino, i.ftype, i.dir_cnt, i.size, i.dentrys.length))
      = some (0, NFS_DIR, 0, 0, 0) ∧
    (newfs_init (zero_device 4194304)).map (fun s => (s.map_inode, s.map_data))
      = some (1 :: List.replicate 1023 0, List.replicate 1024 0) := by
  refine ⟨?_, ?_, ?_, ?_, ?_⟩ <;> decide!

/-- C19, the code on a zeroed device of 533 blocks (545792 bytes): the first
mount completes with `max_ino = 128` and `inode_blks = 22`, one more than
`ceil(128 * 168 / 1024) = 21` (128 inode records fill 21 blocks exactly). -/
theorem newfs_init_inode_blks_above_ceil :
    (newfs_init (zero_device 545792)).map (fun s =>
        (s.blks_num, s.max_ino, s.inode_blks, s.is_mounted)) = some (533, 128, 22, true) ∧
    (128 * SIZEOF_INODE_D + (NFS_BLKS_SZ - 1)) / NFS_BLKS_SZ = 21 ∧
    128 * SIZEOF_INODE_D = 21 * NFS_BLKS_SZ := by
  refine ⟨?_, ?_, ?_⟩ <;> decide!

/-- C20 fails as stated: for a device of three blocks the layout block of
`newfs_init` puts the data region at block 4, behind the end of the device,
and gives it `data_blks = -1`; the mount then has no defined result (no inode
number is free for the root, whose inode is dereferenced all the same). -/
theorem newfs_init_layout_three_blocks :
    (newfs_init_layout 1024 3).max_ino = 0 ∧
    (newfs_init_layout 1024 3).inode_blks = 1 ∧
    (newfs_init_layout 1024 3).data_offset = 4 ∧
    (newfs_init_layout 1024 3).data_blks = -1 ∧
    (newfs_init (zero_device 3072)).isNone = true := by
  refine ⟨?_, ?_, ?_, ?_, ?_⟩ <;> decide!

/-- C20 (amended): for every block count from 4 on (up to 2097151, the most an
`int` device size gives) the descriptors computed at first mount are: superblock
`[0,1)`, inode bitmap `[1,2)`, data bitmap `[2,3)`, inode table
`[3, 3 + inode_blks)` with `inode_blks ≥ 1`, data region from
`data_offset = 3 + inode_blks` with `data_blks = blks_num - data_offset ≥ 0`
blocks; each region ends where the next begins or before, the offsets increase
strictly, and the data region ends at the end of the device. -/
theorem newfs_init_layout_regions (blks_num : Int) (h4 : 4 ≤ blks_num)
    (hmax : blks_num ≤ 2097151) :
    (newfs_init_layout 1024 blks_num).sb_offset = 0 ∧
    (newfs_init_layout 1024 blks_num).sb_blks = 1 ∧
    (newfs_init_layout 1024 blks_num).ino_bitmap_offset = 1 ∧
    (newfs_init_layout 1024 blks_num).ino_bitmap_blks = 1 ∧
    (newfs_init_layout 1024 blks_num).data_bitmap_offset = 2 ∧
    (newfs_init_layout 1024 blks_num).data_bitmap_blks = 1 ∧
    (newfs_init_layout 1024 blks_num).inode_offset = 3 ∧
    1 ≤ (newfs_init_layout 1024 blks_num).inode_blks ∧
    (newfs_init_layout 1024 blks_num).data_offset
      = 3 + (newfs_init_layout 1024 blks_num).inode_blks ∧
    (newfs_init_layout 1024 blks_num).data_blks
      = blks_num - (newfs_init_layout 1024 blks_num).data_offset ∧
    0 ≤ (newfs_init_layout 1024 blks_num).data_blks ∧
    (newfs_init_layout 1024 blks_num).sb_offset + (newfs_init_layout 1024 blks_num).sb_blks
      ≤ (newfs_init_layout 1024 blks_num).ino_bitmap_offset ∧
    (newfs_init_layout 1024 blks_num).ino_bitmap_offset
        + (newfs_init_layout 1024 blks_num).ino_bitmap_blks
      ≤ (newfs_init_layout 1024 blks_num).data_bitmap_offset ∧
    (newfs_init_layout 1024 blks_num).data_bitmap_offset
        + (newfs_init_layout 1024 blks_num).data_bitmap_blks
      ≤ (newfs_init_layout 1024 blks_num).inode_offset ∧
    (newfs_init_layout 1024 blks_num).inode_offset + (newfs_init_layout 1024 blks_num).inode_blks
      ≤ (newfs_init_layout 1024 blks_num).data_offset ∧
    (newfs_init_layout 1024 blks_num).inode_offset < (newfs_init_layout 1024 blks_num).data_offset ∧
    (newfs_init_layout 1024 blks_num).data_offset + (newfs_init_layout 1024 blks_num).data_blks
      = blks_num := by
  rw [init_layout_eq 1024 blks_num (by omega) hmax]
  refine ⟨rfl, rfl, rfl, rfl, rfl, rfl, rfl, ?_, rfl, rfl, ?_, ?_, ?_, ?_, ?_, ?_, ?_⟩ <;>
    (simp only; omega)

/-- Witness of C20 (amended): the 4096 blocks of a 4 MiB device. -/
theorem newfs_init_layout_regions_witness :
    (4 : Int) ≤ 4096 ∧ (4096 : Int) ≤ 2097151 ∧
    (newfs_init_layout 1024 4096).inode_blks = 162 ∧
    (newfs_init_layout 1024 4096).data_offset = 3 + (newfs_init_layout 1024 4096).inode_blks ∧
    0 ≤ (newfs_init_layout 1024 4096).data_blks :=
  have h := newfs_init_layout_regions 4096 (by decide) (by decide)
  ⟨by decide, by decide, by decide, h.2.2.2.2.2.2.2.2.1, h.2.2.2.2.2.2.2.2.2.2.1⟩
/-- C14, the code at the failing input: on a freshly mounted 4 MiB volume,
after `mknod /a` has created a regular file, `mknod /a/b/c` returns
`NFS_ERROR_NONE` and hangs a dentry `c` on the regular file
`/a`, whose `dir_cnt` becomes 1; `mkdir /a/b/c` in the same state returns
`-NFS_ERROR_UNSUPPORTED` and leaves `/a` without children. -/
theorem newfs_mknod_below_file_attaches :
    (run_on (zero_device 4194304)
        [create_call.mknod (ascii "/a") 33188, create_call.mknod (ascii "/a/b/c") 33188]).map
        (fun r => r.1) = some [0, 0] ∧
    ((run_on (zero_device 4194304)
        [create_call.mknod (ascii "/a") 33188, create_call.mknod (ascii "/a/b/c") 33188]).bind
        fun r => (r.2.root_dentry.bind fun root => dentry_at root [0]).bind fun a =>
          a.inode.map fun i => (a.name, i.ftype, i.dir_cnt, i.dentrys.map newfs_dentry.name))
      = some ([97], NFS_REG_FILE, 1, [[99]]) ∧
    (run_on (zero_device 4194304)
        [create_call.mknod (ascii "/a") 33188, create_call.mkdir (ascii "/a/b/c")]).map
        (fun r => r.1) = some [0, -NFS_ERROR_UNSUPPORTED] ∧
    ((run_on (zero_device 4194304)
        [create_call.mknod (ascii "/a") 33188, create_call.mkdir (ascii "/a/b/c")]).bind
        fun r => (r.2.root_dentry.bind fun root => dentry_at root [0]).bind fun a =>
          a.inode.map fun i => (a.name, i.ftype, i.dir_cnt, i.dentrys.map newfs_dentry.name))
      = some ([97], NFS_REG_FILE, 0, []) := by
  refine ⟨?_, ?_, ?_, ?_⟩ <;> decide!

/-- C15, the code at the failing input: a zeroed device of 16 KiB mounts with
`max_ino = 3`; the root takes inode number 0, `mkdir /a` and `mkdir /b` take 1
and 2.  With every inode number in use `mkdir /c` still returns
`NFS_ERROR_NONE`, and so does `mknod /d`: the root then lists `d` and `c`, both
with inode number `(uint32_t)-1` and without an inode, in front of `b` and `a`,
and its `dir_cnt` is 4. -/
theorem newfs_mkdir_without_free_ino_succeeds :
    (run_on (zero_device 16384)
        [create_call.mkdir (ascii "/a"), create_call.mkdir (ascii "/b"),
          create_call.mkdir (ascii "/c"), create_call.mknod (ascii "/d") 33188]).map
        (fun r => (r.2.max_ino, r.1, r.2.map_inode.take 2)) = some (3, [0, 0, 0, 0], [7, 0]) ∧
    ((run_on (zero_device 16384)
        [create_call.mkdir (ascii "/a"), create_call.mkdir (ascii "/b"),
          create_call.mkdir (ascii "/c"), create_call.mknod (ascii "/d") 33188]).bind
        fun r => (root_inode r.2).map fun i =>
          (i.dir_cnt, i.dentrys.map newfs_dentry.name, i.dentrys.map newfs_dentry.ino))
      = some (4, [[100], [99], [98], [97]], [4294967295, 4294967295, 2, 1]) ∧
    ((run_on (zero_device 16384)
        [create_call.mkdir (ascii "/a"), create_call.mkdir (ascii "/b"),
          create_call.mkdir (ascii "/c"), create_call.mknod (ascii "/d") 33188]).bind
        fun r => (root_inode r.2).map fun i => i.dentrys.map fun d => d.inode.isSome)
      = some [false, false, true, true] := by
  refine ⟨?_, ?_, ?_⟩ <;> decide!

/-- C16, the code at the failing input: on a freshly mounted 4 MiB volume the
eight calls `mkdir /a` ... `mkdir /h` all return `NFS_ERROR_NONE` and leave the
root with `dir_cnt = 8` and eight children.  `newfs_sync_inode` of the root
then returns `NFS_ERROR_NONE`, gives the root block 165 as its first data block
and writes the eighth record (`a`, inode number 1, a directory) to the bytes
952..1087 from the start of that block: its `ftype` and `ino` fields land in
block 166, where the bytes at offsets 56 and 60 change from 0 to 1. -/
theorem newfs_mkdir_eighth_child_overflows_block :
    (run_on (zero_device 4194304) eight_mkdirs).map (fun r => r.1)
      = some [0, 0, 0, 0, 0, 0, 0, 0] ∧
    ((run_on (zero_device 4194304) eight_mkdirs).bind fun r =>
        (root_inode r.2).map fun i => (i.dir_cnt, i.dentrys.length)) = some (8, 8) ∧
    ((run_on (zero_device 4194304) eight_mkdirs).bind fun r =>
        (root_inode r.2).bind fun i =>
          (newfs_sync_inode r.2 i).map fun o =>
            (o.1, o.2.1.block_pointer.getD 0 0, r.2.dev.data (166 * 1024 + 56),
              o.2.2.dev.data (166 * 1024 + 56), o.2.2.dev.data (166 * 1024 + 60)))
      = some (NFS_ERROR_NONE, 165, 0, 1, 1) := by
  refine ⟨?_, ?_, ?_⟩ <;> decide!
/-- C11: if `newfs_lookup` resolves `path` as found (`is_find = true`, which
includes `"/"`), leaving the state `s1`, then `newfs_mkdir` and `newfs_mknod`
return `-NFS_ERROR_EXISTS` and leave that same state `s1`.  In `s1` both
bitmaps are those of `s` (no inode number is allocated), and the tree of `s` is
preserved: every dentry is where it was with its name, number and type, and
every inode held in memory has the `dir_cnt` and the children (names, numbers,
types, order) it had; the lookup may only have read further inodes in. -/
theorem newfs_create_existing (s s1 : newfs_super) (path : List Nat) (mode : Nat)
    (out : lookup_out) (hl : newfs_lookup s path = some (out, s1))
    (hf : out.is_find = true) :
    newfs_mkdir s path = some (-NFS_ERROR_EXISTS, s1) ∧
    newfs_mknod s path mode = some (-NFS_ERROR_EXISTS, s1) ∧
    s1.map_inode = s.map_inode ∧ s1.map_data = s.map_data ∧
    ∀ root, s.root_dentry = some root →
      ∃ root1, s1.root_dentry = some root1 ∧ tree_preserved root root1 := by
  obtain ⟨⟨dev, rd, e, _, _⟩, ht⟩ := newfs_lookup_frame s s1 path out hl
  refine ⟨?_, ?_, by rw [e], by rw [e], ht⟩
  · unfold newfs_mkdir
    simp only [hl, hf, if_true]
  · unfold newfs_mknod
    simp only [hl, hf, if_true]

/-- Witness of C11: `/a` in the state left by `mkdir /a`, `mkdir /b`. -/
theorem newfs_create_existing_witness :
    newfs_lookup example_super_ab (ascii "/a")
      = some ({ dentry_ret := some [1], is_find := true, is_root := false }, example_super_ab) ∧
    newfs_mkdir example_super_ab (ascii "/a") = some (-NFS_ERROR_EXISTS, example_super_ab) ∧
    newfs_mknod example_super_ab (ascii "/a") 33188
      = some (-NFS_ERROR_EXISTS, example_super_ab) :=
  have h := newfs_create_existing example_super_ab example_super_ab (ascii "/a") 33188
    { dentry_ret := some [1], is_find := true, is_root := false } rfl rfl
  ⟨rfl, h.1, h.2.1⟩

/-- C12: let the walk along `pre` reach the directory inode `P` (at `q`, in
state `s2`), let `n` be a name shorter than `MAX_NAME_LEN` that no child of `P`
bears, and let an inode number be free.  Then `newfs_mkdir` and `newfs_mknod`
of `/pre/n` return `NFS_ERROR_NONE`; the state they leave is `s2` with one
more bit in the inode bitmap and `P` replaced by `P` with the new dentry in
front of its children and `dir_cnt + 1`.  The new dentry bears the name `n`
and the inode number `i`, the least number free before (bit `i` is the one
newly set); its inode has the number `i`, size 0, `dir_cnt` 0, no children and
six zero block pointers.  Every other field of the state, the data bitmap among
them, is as in `s2`. -/
theorem newfs_create_new_entry (s s1 s2 : newfs_super) (pre : List (List Nat)) (n : List Nat)
    (q : dptr) (P : newfs_inode) (mode : Nat)
    (hsegs : ∀ x ∈ pre ++ [n], is_segment x) (hlen : n.length < MAX_NAME_LEN) (hnul : 0 ∉ n)
    (hwalk : walks s [] pre s1 q) (hP : newfs_hydrate s1 q = some (some P, s2))
    (hdir : P.ftype = NFS_DIR) (hnew : ∀ d ∈ P.dentrys, d.name ≠ n)
    (hcnt : P.dir_cnt + 1 < 4294967296) (hmap : s.map_inode.length = 1024)
    (hfree : ∃ j : Nat, (j : Int) < s.max_ino ∧ j < 8192 ∧ bitmap_bit s.map_inode j = false) :
    ∃ (i : Nat) (m : List Nat) (root2 : newfs_dentry),
      s2.root_dentry = some root2 ∧ s2.map_inode = s.map_inode ∧ s2.map_data = s.map_data ∧
      (i : Int) < s.max_ino ∧ bitmap_bit s.map_inode i = false ∧
      (∀ j, j < i → bitmap_bit s.map_inode j = true) ∧
      (∀ j, bitmap_bit m j = (decide (j = i) || bitmap_bit s.map_inode j)) ∧
      newfs_mkdir s (path_of (pre ++ [n]))
        = some (NFS_ERROR_NONE,
            { s2 with
              map_inode := m
              root_dentry := some (set_inode_at root2 q
                (some (newfs_inode.mk P.ino P.size (P.dir_cnt + 1) P.ftype P.target_path
                  (newfs_dentry.mk n i
                      (some (newfs_inode.mk i 0 0 NFS_DIR (List.replicate MAX_NAME_LEN 0) []
                        (List.replicate NFS_DATA_PER_FILE 0))) NFS_DIR :: P.dentrys)
                  P.block_pointer))) }) ∧
      newfs_mknod s (path_of (pre ++ [n])) mode
        = some (NFS_ERROR_NONE,
            { s2 with
              map_inode := m
              root_dentry := some (set_inode_at root2 q
                (some (newfs_inode.mk P.ino P.size (P.dir_cnt + 1) P.ftype P.target_path
                  (newfs_dentry.mk n i
                      (some (newfs_inode.mk i 0 0 (mknod_ftype mode)
                        (List.replicate MAX_NAME_LEN 0) []
                        (List.replicate NFS_DATA_PER_FILE 0))) (mknod_ftype mode) :: P.dentrys)
                  P.block_pointer))) }) := by
  obtain ⟨⟨dev, rd, e, _, _⟩, _⟩ :=
    lookup_frame_trans (walks_frame hwalk) (hydrate_frame _ _ _ _ hP)
  have hmi : s2.map_inode = s.map_inode := by rw [e]
  have hmx : s2.max_ino = s.max_ino := by rw [e]
  obtain ⟨root1, d, root2, _, _, hr2, hd2⟩ := hydrate_post s1 s2 q (some P) hP
  have hlook := lookup_walk_missing s s1 s2 pre n [] q P hsegs hwalk hP hdir hnew
  have hseg : 47 ∉ n := (hsegs n (by simp)).2
  have hreg : ¬ P.ftype = NFS_REG_FILE := by rw [hdir]; decide
  obtain ⟨i, m, hl1, h1, _, h3, h4, _, h6⟩ := link_new_free s2 root2 q P n NFS_DIR hlen hnul
    (by rw [hmi]; exact hmap) (by rw [hmi, hmx]; exact hfree)
  obtain ⟨i', m', hl2, _, _, h3', h4', _, h6'⟩ := link_new_free s2 root2 q P n (mknod_ftype mode)
    hlen hnul (by rw [hmi]; exact hmap) (by rw [hmi, hmx]; exact hfree)
  rw [Nat.mod_eq_of_lt hcnt] at hl1 hl2
  rw [hmi] at h3 h4 h6 h3' h4' h6'
  rw [hmx] at h1
  have hii : i' = i := by
    rcases Nat.lt_trichotomy i' i with h | h | h
    · rw [h4 i' h] at h3'; exact absurd h3' (by decide)
    · exact h
    · rw [h4' i h] at h3; exact absurd h3 (by decide)
  subst hii
  have hmm : m' = m := by
    have hlink := hl2
    unfold newfs_link_new at hl1 hlink
    rw [alloc_dentry_name n _ hnul hlen] at hl1 hlink
    unfold newfs_alloc_inode at hl1 hlink
    cases ha : newfs_alloc_ino s2 with
    | none => simp [ha] at hl1
    | some pr =>
      obtain ⟨v, s3⟩ := pr
      simp only [ha] at hl1 hlink
      split_ifs at hl1 hlink with hv
      · simp only [Option.some.injEq, Prod.mk.injEq, true_and] at hl1 hlink
        have e1 := congrArg newfs_super.map_inode hl1
        have e2 := congrArg newfs_super.map_inode hlink
        simp only at e1 e2
        rw [← e1, ← e2]
      · simp only [Option.some.injEq, Prod.mk.injEq, true_and] at hl1 hlink
        have e1 := congrArg newfs_super.map_inode hl1
        have e2 := congrArg newfs_super.map_inode hlink
        simp only at e1 e2
        rw [← e1, ← e2]
  subst hmm
  refine ⟨i', m', root2, hr2, hmi, by rw [e], h1, h3, h4, h6, ?_, ?_⟩
  · unfold newfs_mkdir
    have hp : pre ++ [n] = pre ++ n :: [] := rfl
    rw [hlook]
    simp only [Bool.false_eq_true, if_false, hr2, hd2, newfs_dentry.inode, if_neg hreg,
      get_fname_path_of pre n hseg, hl1]
  · unfold newfs_mknod
    rw [hlook]
    simp only [Bool.false_eq_true, if_false, hr2, hd2, newfs_dentry.inode,
      get_fname_path_of pre n hseg]
    exact hl2

/-- Witness of C12: `mkdir /a` and `mknod /a` on the freshly mounted 4 MiB
volume; the new entry gets inode number 1. -/
theorem newfs_create_new_entry_witness :
    (∀ x ∈ ([] : List (List Nat)) ++ [[97]], is_segment x) ∧
    walks example_super [] [] example_super [] ∧
    bitmap_bit example_super.map_inode 1 = false ∧
    ∃ (i : Nat) (s3 s4 : newfs_super),
      bitmap_bit example_super.map_inode i = false ∧
      (∀ j, j < i → bitmap_bit example_super.map_inode j = true) ∧
      newfs_mkdir example_super (path_of ([] ++ [[97]])) = some (NFS_ERROR_NONE, s3) ∧
      newfs_mknod example_super (path_of ([] ++ [[97]])) 33188 = some (NFS_ERROR_NONE, s4) := by
  have hsegs : ∀ x ∈ ([] : List (List Nat)) ++ [[97]], is_segment x := by
    intro x hx
    simp only [List.nil_append, List.mem_singleton] at hx
    subst hx
    exact ⟨by decide, by decide⟩
  obtain ⟨i, m, root2, _, _, _, _, h5, h6, _, h8, h9⟩ :=
    newfs_create_new_entry example_super example_super example_super [] [97] []
      (newfs_inode.mk 0 0 0 NFS_DIR (List.replicate 128 0) [] (List.replicate 6 0)) 33188
      hsegs (by decide) (by decide) (walks.done _ _) rfl rfl
      (by intro d hd; simp [newfs_inode.dentrys] at hd) (by decide)
      example_super_map_inode_length ⟨1, by decide, by decide, by decide⟩
  exact ⟨hsegs, walks.done _ _, by decide, i, _, _, h5, h6, h8, h9⟩
/-- C13 fails as stated: on a freshly mounted 4 MiB volume `mkdir /y` followed
by `mkdir /x/y` (no `/x` exists: the lookup stops at the root and the new name
`y` is hung on the root) returns `NFS_ERROR_NONE` twice and leaves the root
with two children named `y`; and two calls of `mkdir` with the same name of
130 bytes return `NFS_ERROR_NONE` twice and leave the root with two children
bearing the same 127 bytes (the dentry keeps a cut name, the lookup compares
the uncut one). -/
theorem newfs_mkdir_duplicate_names :
    (run_on (zero_device 4194304)
        [create_call.mkdir (ascii "/y"), create_call.mkdir (ascii "/x/y")]).map (fun r => r.1)
      = some [0, 0] ∧
    ((run_on (zero_device 4194304)
        [create_call.mkdir (ascii "/y"), create_call.mkdir (ascii "/x/y")]).bind fun r =>
        (root_inode r.2).map fun i => i.dentrys.map newfs_dentry.name)
      = some [[121], [121]] ∧
    (run_on (zero_device 4194304)
        [create_call.mkdir (47 :: List.replicate 130 97),
          create_call.mkdir (47 :: List.replicate 130 97)]).map (fun r => r.1)
      = some [0, 0] ∧
    ((run_on (zero_device 4194304)
        [create_call.mkdir (47 :: List.replicate 130 97),
          create_call.mkdir (47 :: List.replicate 130 97)]).bind fun r =>
        (root_inode r.2).map fun i => i.dentrys.map newfs_dentry.name)
      = some [List.replicate 127 97, List.replicate 127 97] := by
  refine ⟨?_, ?_, ?_, ?_⟩ <;> decide!

/-- C13 (amended): start from a volume with an empty root (`fresh`) and make
any number of `newfs_mkdir` / `newfs_mknod` calls, each with a path
`/s1/.../sn` whose parent path resolves in the state the call is made in, whose
last segment is shorter than `MAX_NAME_LEN`, and with an inode number free
(`create_pre`).  Then in the state reached no inode of the tree lists two
children of the same name; and every further such call returns. -/
theorem newfs_create_unique_names (s0 s : newfs_super) (h0 : fresh s0)
    (h : created_from s0 s) :
    (∃ root, s.root_dentry = some root ∧ unique_names root) ∧
    ∀ c, create_pre s c → ∃ r s1, newfs_create s c = some (r, s1) := by
  have hinv := created_inv s0 s h0 h
  refine ⟨?_, fun c hc => ?_⟩
  · obtain ⟨_, root, hr, _, hu⟩ := hinv
    exact ⟨root, hr, hu⟩
  · obtain ⟨r, s1, e, _⟩ := create_step s c hinv hc
    exact ⟨r, s1, e⟩

/-- Witness of C13 (amended): on the freshly mounted 4 MiB volume `mkdir /a`,
then `mkdir /a` again, which is refused with `-NFS_ERROR_EXISTS` and changes
nothing, then `mkdir /b`: the root ends with the two children `b` and `a`, and
no directory lists a name twice. -/
theorem newfs_create_unique_names_witness :
    fresh example_super ∧
    newfs_create example_super (create_call.mkdir (ascii "/a"))
      = some (NFS_ERROR_NONE, example_super_a) ∧
    newfs_create example_super_a (create_call.mkdir (ascii "/a"))
      = some (-NFS_ERROR_EXISTS, example_super_a) ∧
    newfs_create example_super_a (create_call.mkdir (ascii "/b"))
      = some (NFS_ERROR_NONE, example_super_ab) ∧
    created_from example_super example_super_ab ∧
    (root_inode example_super_ab).map (fun i => i.dentrys.map newfs_dentry.name)
      = some [[98], [97]] ∧
    ∃ root, example_super_ab.root_dentry = some root ∧ unique_names root := by
  have hf : fresh example_super :=
    ⟨example_super_map_inode_length, _, _, _, _, _, _, _, _, _, rfl⟩
  have hseg : ∀ c : Nat, c ≠ 47 → c ≠ 0 → ∀ x ∈ ([] : List (List Nat)) ++ [[c]], is_segment x := by
    intro c h47 _ x hx
    simp only [List.nil_append, List.mem_singleton] at hx
    subst hx
    exact ⟨by simp, by simpa using h47.symm⟩
  have hnul : ∀ c : Nat, c ≠ 0 → 0 ∉ [c] := by
    intro c h0
    simpa using h0.symm
  have hpre1 : create_pre example_super (create_call.mkdir (ascii "/a")) :=
    ⟨⟨1, by decide, by decide, by decide⟩, [], [97], example_super, [], rfl,
      hseg 97 (by decide) (by decide), by decide, hnul 97 (by decide), walks.done _ _⟩
  have hpre2 : create_pre example_super_a (create_call.mkdir (ascii "/a")) :=
    ⟨⟨2, by decide, by decide, by decide⟩, [], [97], example_super_a, [], rfl,
      hseg 97 (by decide) (by decide), by decide, hnul 97 (by decide), walks.done _ _⟩
  have hpre3 : create_pre example_super_a (create_call.mkdir (ascii "/b")) :=
    ⟨⟨2, by decide, by decide, by decide⟩, [], [98], example_super_a, [], rfl,
      hseg 98 (by decide) (by decide), by decide, hnul 98 (by decide), walks.done _ _⟩
  have hc : created_from example_super example_super_ab :=
    created_from.call example_super_a example_super_ab _ _
      (created_from.call example_super_a example_super_a _ _
        (created_from.call example_super example_super_a _ _ created_from.init hpre1 rfl)
        hpre2 rfl)
      hpre3 rfl
  exact ⟨hf, rfl, rfl, rfl, hc, rfl,
    (newfs_create_unique_names example_super example_super_ab hf hc).1⟩
/-- C21 fails as stated: the first mount of a zeroed device of 64 MiB (65536
blocks) completes with `max_ino = 15738` and `data_blks = 62950`, both above
the 8192 bits of a bitmap block. -/
theorem newfs_init_exceeds_bitmap_block :
    (newfs_init (zero_device 67108864)).map (fun s =>
        (s.blks_num, s.max_ino, s.data_blks, s.is_mounted))
      = some (65536, 15738, 62950, true) := by
  decide!

/-- C21 (amended): for a device of at most 8532 blocks the layout computed at
first mount has `max_ino ≤ 8192` and `data_blks ≤ 8192`; `max_ino ≤ 8192` holds
up to 34116 blocks. -/
theorem newfs_init_layout_within_bitmap_block (blks_num : Int) (h0 : 0 ≤ blks_num) :
    (blks_num ≤ 8532 →
      (newfs_init_layout 1024 blks_num).max_ino ≤ 8192 ∧
      (newfs_init_layout 1024 blks_num).data_blks ≤ 8192) ∧
    (blks_num ≤ 34116 → (newfs_init_layout 1024 blks_num).max_ino ≤ 8192) := by
  constructor
  · intro h
    rw [init_layout_eq 1024 blks_num h0 (by omega)]
    constructor <;> (simp only; omega)
  · intro h
    rw [init_layout_eq 1024 blks_num h0 (by omega)]
    simp only
    omega

/-- Witness of C21 (amended): the 4096 blocks of a 4 MiB device. -/
theorem newfs_init_layout_within_bitmap_block_witness :
    (0 : Int) ≤ 4096 ∧ (4096 : Int) ≤ 8532 ∧
    (newfs_init_layout 1024 4096).max_ino ≤ 8192 ∧
    (newfs_init_layout 1024 4096).data_blks ≤ 8192 :=
  ⟨by decide, by decide,
    ((newfs_init_layout_within_bitmap_block 4096 (by decide)).1 (by decide)).1,
    ((newfs_init_layout_within_bitmap_block 4096 (by decide)).1 (by decide)).2⟩

/-- C22, the code at the failing input: in `example_super_full` no data block
is free (`newfs_alloc_data_block` returns `-1`), so `newfs_sync_inode` of the
directory `/a`, which has a child and no block, returns `-NFS_ERROR_NOSPACE`;
`newfs_sync_inode` of the root, which persists `/a` as its child, returns
`NFS_ERROR_NONE` all the same. -/
theorem newfs_sync_inode_drops_child_error :
    (newfs_alloc_data_block example_super_full).map (fun r => r.1) = some (-1) ∧
    (newfs_sync_inode example_super_full example_dir_a).map (fun r => r.1)
      = some (-NFS_ERROR_NOSPACE) ∧
    (newfs_sync_inode example_super_full example_root_full).map (fun r => r.1)
      = some NFS_ERROR_NONE ∧
    root_inode example_super_full = some example_root_full ∧
    example_root_full.dentrys.map (fun d => d.inode.map newfs_inode.ino) = [some 1] ∧
    example_dir_a.ino = 1 := by
  refine ⟨?_, ?_, ?_, rfl, rfl, rfl⟩ <;> decide!

/-- C23: if the 512-aligned span of the `bytes.length` bytes at `off` lies in
the device, `newfs_driver_write(off, bytes, bytes.length)` returns
`NFS_ERROR_NONE`; afterwards the device has its size, holds `bytes` at
`off ..< off + bytes.length`, and every other byte is as before. -/
theorem newfs_driver_write_frame (d : ddriver) (off : Nat) (bytes : List Nat)
    (h : span_ok d off bytes.length) :
    ∃ d1, newfs_driver_write d (off : Int) bytes (bytes.length : Int)
        = some (NFS_ERROR_NONE, d1) ∧
      d1.size = d.size ∧
      (∀ k, k < bytes.length → d1.data (off + k) = bytes.getD k 0) ∧
      disk_read d1.data off bytes.length = bytes ∧
      ∀ a, a < off ∨ off + bytes.length ≤ a → d1.data a = d.data a := by
  refine ⟨_, driver_write_spec d off bytes h, rfl, ?_, disk_read_write_same _ _ _, ?_⟩
  · intro k hk
    show disk_write d.data off bytes (off + k) = _
    unfold disk_write
    rw [if_pos (by omega)]
    congr 1
    omega
  · intro a ha
    exact disk_write_outside d.data off bytes a ha

/-- Witness of C23: three bytes written at address 700 of a zeroed device of
4096 bytes. -/
theorem newfs_driver_write_frame_witness :
    span_ok (zero_device 4096) 700 [1, 2, 3].length ∧
    ∃ d1, newfs_driver_write (zero_device 4096) (700 : Nat) [1, 2, 3] ([1, 2, 3].length : Nat)
        = some (NFS_ERROR_NONE, d1) ∧
      disk_read d1.data 700 [1, 2, 3].length = [1, 2, 3] :=
  have hs : span_ok (zero_device 4096) 700 [1, 2, 3].length := ⟨by decide, by decide⟩
  ⟨hs, (newfs_driver_write_frame (zero_device 4096) 700 [1, 2, 3] hs).imp
    fun _ hd => ⟨hd.1, hd.2.2.2.1⟩⟩

/-- C24: if the 512-aligned span of the `size` bytes at `off` lies in the
device, then `offset_aligned = off - off % 512`,
`size_aligned = (size + off % 512 + 511) / 512 * 512`, the read loop started
at `offset_aligned` ends within a bound of `fuel` iterations exactly when
`size_aligned / 512 ≤ fuel` (it makes `size_aligned / 512` sector reads), and
`newfs_driver_read(off, out, size)` returns `NFS_ERROR_NONE` with the device
bytes `off ..< off + size` in `out`; contents and size of the device are as
before, its cursor stands at `offset_aligned + size_aligned`.  A
`newfs_driver_read` of the range `newfs_driver_write` has just written returns
the bytes written. -/
theorem newfs_driver_read_exact (d : ddriver) (off size : Nat) (h : span_ok d off size) :
    NFS_ROUND_DOWN (off : Int) (NFS_IO_SZ : Int) = ((off - off % 512 : Nat) : Int) ∧
    NFS_ROUND_UP ((size : Int) + ((off : Int) - ((off - off % 512 : Nat) : Int)))
        (NFS_IO_SZ : Int)
      = (((size + off % 512 + 511) / 512 * 512 : Nat) : Int) ∧
    (∀ fuel,
      (newfs_driver_read_loop fuel (ddriver_seek d ((off - off % 512 : Nat) : Int)).2
        (((size + off % 512 + 511) / 512 * 512 : Nat) : Int) []).isSome = true
      ↔ (size + off % 512 + 511) / 512 * 512 / 512 ≤ fuel) ∧
    (∃ d1, newfs_driver_read d (off : Int) (size : Int)
        = some (NFS_ERROR_NONE, disk_read d.data off size, d1) ∧
      d1.data = d.data ∧ d1.size = d.size ∧
      d1.pos = ((off - off % 512 + (size + off % 512 + 511) / 512 * 512 : Nat) : Int)) ∧
    ∀ bytes : List Nat, bytes.length = size →
      ∃ d2 d3, newfs_driver_write d (off : Int) bytes (size : Int) = some (NFS_ERROR_NONE, d2) ∧
        newfs_driver_read d2 (off : Int) (size : Int) = some (NFS_ERROR_NONE, bytes, d3) := by
  obtain ⟨h1, h2⟩ := h
  refine ⟨?_, ?_, ?_, ⟨_, driver_read_spec d off size ⟨h1, h2⟩, rfl, rfl, rfl⟩, ?_⟩
  · rw [round_down_512 _ (by omega) (by omega)]
    omega
  · rw [round_up_512 _ (by omega) (by omega)]
    omega
  · intro fuel
    have e : (size + off % 512 + 511) / 512 * 512 = 512 * ((size + off % 512 + 511) / 512) := by
      omega
    rw [e, read_loop_iterations]
    omega
  · intro bytes hb
    subst hb
    have hr := driver_read_spec
      { size := d.size, data := disk_write d.data off bytes,
        pos := ((off - off % 512 + (bytes.length + off % 512 + 511) / 512 * 512 : Nat) : Int) }
      off bytes.length ⟨h1, h2⟩
    rw [disk_read_write_same] at hr
    exact ⟨_, _, driver_write_spec d off bytes ⟨h1, h2⟩, hr⟩

/-- Witness of C24: three bytes at address 700 of a zeroed device of 4096
bytes. -/
theorem newfs_driver_read_exact_witness :
    span_ok (zero_device 4096) 700 3 ∧
    ∃ d1, newfs_driver_read (zero_device 4096) (700 : Nat) (3 : Nat)
        = some (NFS_ERROR_NONE, disk_read (zero_device 4096).data 700 3, d1) ∧
      d1.pos = ((700 - 700 % 512 + (3 + 700 % 512 + 511) / 512 * 512 : Nat) : Int) :=
  have hs : span_ok (zero_device 4096) 700 3 := ⟨by decide, by decide⟩
  ⟨hs, (newfs_driver_read_exact (zero_device 4096) 700 3 hs).2.2.2.1.imp
    fun _ hd => ⟨hd.1, hd.2.2.2⟩⟩

/-- C25, the code at the failing input, on a zeroed device of 1024 bytes: the
seek to 2048 fails, and the sector read at the end of the device (cursor at
1024) fails, yet `newfs_driver_read` at 2048 and at 1024 returns
`NFS_ERROR_NONE`; `newfs_driver_write` of four bytes at 2048 returns
`NFS_ERROR_NONE` too, and the bytes land at 512..515, where the failed seeks
have left the cursor. -/
theorem newfs_driver_ignores_device_failures :
    (ddriver_seek (zero_device 1024) 2048).1 = -1 ∧
    (newfs_driver_read (zero_device 1024) 2048 512).map (fun r => r.1) = some NFS_ERROR_NONE ∧
    (ddriver_read (ddriver_seek (zero_device 1024) 1024).2 512).1 = -1 ∧
    (newfs_driver_read (zero_device 1024) 1024 512).map (fun r => r.1) = some NFS_ERROR_NONE ∧
    (newfs_driver_write (zero_device 1024) 2048 [7, 7, 7, 7] 4).map (fun r =>
        (r.1, r.2.data 512, r.2.data 515, r.2.data 516)) = some (NFS_ERROR_NONE, 7, 7, 0) := by
  refine ⟨?_, ?_, ?_, ?_, ?_⟩ <;> decide!

/-- C26 fails as stated: on a freshly mounted 4 MiB volume with a new file
`/f`, `newfs_write` of the byte 65 at offset 0 reports 1 byte written and
`newfs_read` of 1 byte at offset 0 reports 1 byte read, but the buffer still
holds the 0 it held before; and `newfs_write` of 1 byte at offset 6144
(`file_max`) reports 1 byte written as well. -/
theorem newfs_write_then_read_returns_nothing :
    (run_on (zero_device 4194304) [create_call.mknod (ascii "/f") 33188]).map (fun r =>
        (r.1, r.2.file_max,
          (newfs_write r.2 (ascii "/f") [65] 1 0).1,
          (newfs_read (newfs_write r.2 (ascii "/f") [65] 1 0).2 (ascii "/f") [0] 1 0).1,
          (newfs_read (newfs_write r.2 (ascii "/f") [65] 1 0).2 (ascii "/f") [0] 1 0).2.1))
      = some ([0], 6144, 1, 1, [0]) ∧
    (run_on (zero_device 4194304) [create_call.mknod (ascii "/f") 33188]).map (fun r =>
        (newfs_write r.2 (ascii "/f") [65] 1 6144).1) = some 1 := by
  refine ⟨?_, ?_⟩ <;> decide!

/-- C26 (amended): `newfs_write` and `newfs_read` transfer nothing: for every
argument `newfs_write` returns `size` and leaves the state (the tree, the
bitmaps, the device) as it was, and `newfs_read` returns `size` and leaves
the state and the caller's buffer as they were. -/
theorem newfs_write_read_stubs (s : newfs_super) (path buf : List Nat) (size : Nat)
    (offset : Int) :
    newfs_write s path buf size offset = (toI32 size, s) ∧
    newfs_read s path buf size offset = (toI32 size, buf, s) ∧
    (size < 2147483648 → (newfs_write s path buf size offset).1 = (size : Int)) := by
  refine ⟨rfl, rfl, fun h => ?_⟩
  exact toI32_of_lt size h

/-- C26 (amended) at a write of 3 bytes to `/f` on the freshly mounted 4 MiB
volume: the call reports 3 bytes written. -/
theorem newfs_write_read_stubs_witness :
    (3 : Nat) < 2147483648 ∧
    (newfs_write example_super (ascii "/f") [1, 2, 3] 3 0).1 = ((3 : Nat) : Int) :=
  ⟨by decide, (newfs_write_read_stubs example_super (ascii "/f") [1, 2, 3] 3 0).2.2 (by decide)⟩
/-- C29: in a state whose `data_offset` is the one the layout block of
`newfs_init` computes (for a block count an `int` device size can give),
`data_offset = 3 + inode_blks ≥ 4`; every block number a successful
`newfs_alloc_data_block` returns is at least `data_offset`, so it is not 0 and
its `uint32_t` value is not 0; and after `newfs_sync_inode` of a directory
`block_pointer[0]` is non-zero exactly when it was non-zero before or the call
has allocated a block for the directory. -/
theorem block_pointer_zero_is_unallocated (s : newfs_super) (blks_num : Int)
    (h0 : 0 ≤ blks_num) (h1 : blks_num ≤ 2097151)
    (hlay : s.data_offset = (newfs_init_layout 1024 blks_num).data_offset)
    (hlen : s.map_data.length = 1024) :
    s.data_offset = 3 + (newfs_init_layout 1024 blks_num).inode_blks ∧ 4 ≤ s.data_offset ∧
    (∀ v s1, newfs_alloc_data_block s = some (v, s1) → v ≠ -1 →
      s.data_offset ≤ v ∧ v ≠ 0 ∧ toU32 v ≠ 0) ∧
    ∀ (ino size dir_cnt : Nat) (tp : List Nat) (ds : List newfs_dentry) (bp : List Nat)
      (r : Int) (t1 : newfs_inode) (s1 : newfs_super), bp.length = NFS_DATA_PER_FILE →
      newfs_sync_inode s (newfs_inode.mk ino size dir_cnt NFS_DIR tp ds bp) = some (r, t1, s1) →
      (t1.block_pointer.getD 0 0 ≠ 0 ↔
        (bp.getD 0 0 ≠ 0 ∨
          (0 < dir_cnt ∧ ∃ v s2, newfs_alloc_data_block s = some (v, s2) ∧ v ≠ -1))) := by
  have hoff : s.data_offset = 3 + (blks_num * 1024 / 4264 * 168 / 1024 + 1) := by
    rw [hlay, init_layout_eq 1024 blks_num h0 h1]
  have hge : 4 ≤ s.data_offset := by rw [hoff]; omega
  have hle : s.data_offset ≤ 100000 := by rw [hoff]; omega
  have hint : ∀ i : Nat, i < 8192 → (i : Int) < s.data_blks →
      is_int (s.data_offset + (i : Int)) := by
    intro i hi _
    unfold is_int
    omega
  have halloc : ∀ v s1, newfs_alloc_data_block s = some (v, s1) → v ≠ -1 →
      s.data_offset ≤ v ∧ v ≠ 0 ∧ toU32 v ≠ 0 := by
    intro v s1 hv hne
    obtain ⟨v', m, e, hp⟩ := alloc_data_block_post s hlen hint
    rw [e] at hv
    simp only [Option.some.injEq, Prod.mk.injEq] at hv
    obtain ⟨hv1, _⟩ := hv
    subst hv1
    rcases hp with ⟨hm1, _⟩ | ⟨i, hvi, _, hi, _⟩
    · exact absurd hm1 hne
    · refine ⟨by omega, by omega, ?_⟩
      unfold toU32
      omega
  refine ⟨?_, hge, halloc, ?_⟩
  · rw [hoff, init_layout_eq 1024 blks_num h0 h1]
  · intro ino size dir_cnt tp ds bp r t1 s1 hbp hsync
    unfold NFS_DATA_PER_FILE at hbp
    unfold newfs_sync_inode at hsync
    unfold newfs_sync_inode_block at hsync
    rw [if_pos rfl] at hsync
    by_cases hc : dir_cnt > 0 ∧ bp.getD 0 0 = 0
    · rw [if_pos hc] at hsync
      obtain ⟨v, m, e, hp⟩ := alloc_data_block_post s hlen hint
      rw [e] at hsync
      simp only at hsync
      by_cases hv : v = -1
      · rw [if_pos hv] at hsync
        simp only [Option.some.injEq, Prod.mk.injEq] at hsync
        rw [← hsync.2.1]
        simp only [newfs_inode.block_pointer]
        constructor
        · intro h; exact absurd hc.2 h
        · rintro (h | ⟨_, v2, s2, e2, hne⟩)
          · exact absurd hc.2 h
          · rw [e] at e2
            simp only [Option.some.injEq, Prod.mk.injEq] at e2
            exact absurd (e2.1 ▸ hv) hne
      · rw [if_neg hv] at hsync
        have hnz := (halloc v _ e hv).2.2
        have hset : (bp.set 0 (toU32 v)).getD 0 0 = toU32 v := by
          cases bp with
          | nil => simp at hbp
          | cons b bp => rfl
        have key : t1.block_pointer = bp.set 0 (toU32 v) := by
          simp only at hsync
          split at hsync
          · exact absurd hsync (by simp)
          · split_ifs at hsync
            · simp only [Option.some.injEq, Prod.mk.injEq] at hsync
              rw [← hsync.2.1]; rfl
            · split at hsync
              · exact absurd hsync (by simp)
              · simp only [Option.some.injEq, Prod.mk.injEq] at hsync
                rw [← hsync.2.1]; rfl
            · simp only [Option.some.injEq, Prod.mk.injEq] at hsync
              rw [← hsync.2.1]; rfl
        rw [key, hset]
        exact ⟨fun _ => Or.inr ⟨hc.1, v, _, e, hv⟩, fun _ => hnz⟩
    · rw [if_neg hc] at hsync
      have key : t1.block_pointer = bp := by
        simp only at hsync
        split at hsync
        · exact absurd hsync (by simp)
        · split_ifs at hsync
          · simp only [Option.some.injEq, Prod.mk.injEq] at hsync
            rw [← hsync.2.1]; rfl
          · split at hsync
            · exact absurd hsync (by simp)
            · simp only [Option.some.injEq, Prod.mk.injEq] at hsync
              rw [← hsync.2.1]; rfl
          · simp only [Option.some.injEq, Prod.mk.injEq] at hsync
            rw [← hsync.2.1]; rfl
      rw [key]
      constructor
      · intro h; exact Or.inl h
      · rintro (h | ⟨hpos, _⟩)
        · exact h
        · by_contra hz
          exact hc ⟨hpos, hz⟩

/-- C29 at the state of a first mount of a 4 MiB device: `data_offset = 165`. -/
theorem block_pointer_zero_is_unallocated_witness :
    ((0 : Int) ≤ 4096 ∧ (4096 : Int) ≤ 2097151 ∧
      example_super.data_offset = (newfs_init_layout 1024 4096).data_offset ∧
      example_super.map_data.length = 1024) ∧
    example_super.data_offset = 3 + (newfs_init_layout 1024 4096).inode_blks ∧
    4 ≤ example_super.data_offset ∧
    (∀ v s1, newfs_alloc_data_block example_super = some (v, s1) → v ≠ -1 →
      example_super.data_offset ≤ v ∧ v ≠ 0 ∧ toU32 v ≠ 0) ∧
    ∀ (ino size dir_cnt : Nat) (tp : List Nat) (ds : List newfs_dentry) (bp : List Nat)
      (r : Int) (t1 : newfs_inode) (s1 : newfs_super), bp.length = NFS_DATA_PER_FILE →
      newfs_sync_inode example_super (newfs_inode.mk ino size dir_cnt NFS_DIR tp ds bp) =
        some (r, t1, s1) →
      (t1.block_pointer.getD 0 0 ≠ 0 ↔
        (bp.getD 0 0 ≠ 0 ∨
          (0 < dir_cnt ∧ ∃ v s2, newfs_alloc_data_block example_super = some (v, s2) ∧ v ≠ -1))) :=
  ⟨⟨by decide, by decide, by decide!, by decide!⟩,
    block_pointer_zero_is_unallocated example_super 4096 (by decide) (by decide)
      (by decide!) (by decide!)⟩

/-- C30: on the volume that `newfs_init` lays out on a zeroed 16 MiB device
(`data_offset = 649`, `data_blks = 15735`, one 1024-byte data bitmap block),
`newfs_free_data_block(649 + 8192)` passes the range check and accesses
`map_data[1024]`, one byte past the bitmap block: the call has no defined
result.  The same call with the last block the bitmap covers, `649 + 8191`, is
inside the block. -/
theorem newfs_free_data_block_past_bitmap :
    (newfs_init (zero_device 16777216)).map (fun s =>
      (s.data_offset, s.data_blks, s.map_data.length,
        (newfs_free_data_block s (s.data_offset + 8192)).isNone,
        (newfs_free_data_block s (s.data_offset + 8191)).isSome)) =
      some (649, 15735, 1024, true, true) := by
  decide!
/-- C27 fails as stated: on a freshly mounted 4 MiB volume `mkdir /x/y` (no
`/x` exists) returns `NFS_ERROR_NONE` and hangs `y` on the root, and the
`newfs_lookup` of `/x/y` that follows returns `is_find = false` with the root
dentry; and `mkdir` of a name of 130 bytes returns `NFS_ERROR_NONE`, and the
lookup of that path that follows returns `is_find = false` (the dentry keeps
127 bytes of the name). -/
theorem newfs_mkdir_then_lookup_not_found :
    ((run_on (zero_device 4194304) [create_call.mkdir (ascii "/x/y")]).bind fun r =>
        (newfs_lookup r.2 (ascii "/x/y")).map fun l =>
          (r.1, l.1, (root_inode r.2).map fun i => i.dentrys.map newfs_dentry.name))
      = some ([0], { dentry_ret := some [], is_find := false, is_root := false },
          some [[121]]) ∧
    ((run_on (zero_device 4194304) [create_call.mkdir (47 :: List.replicate 130 97)]).bind
        fun r => (newfs_lookup r.2 (47 :: List.replicate 130 97)).map fun l =>
          (r.1, l.1, (root_inode r.2).map fun i => i.dentrys.map fun e => e.name.length))
      = some ([0], { dentry_ret := some [], is_find := false, is_root := false },
          some [127]) := by
  refine ⟨?_, ?_⟩ <;> decide!

/-- C27 (amended): let the call be `newfs_mkdir` or `newfs_mknod` of a path
`/s1/.../sn/name` whose parent path `/s1/.../sn` resolves, in the state the
call is made in, to the dentry `q` (each segment names a child of the directory
reached so far), `name` being a C string shorter than `MAX_NAME_LEN`.  If the
call returns `NFS_ERROR_NONE`, then in the state it leaves the parent path
still resolves to `q`, and `newfs_lookup` of the path returns `is_find = true`
with the first child of `q`, a dentry named `name`. -/
theorem newfs_create_then_lookup (s s1 s5 : newfs_super) (c : create_call)
    (pre : List (List Nat)) (name : List Nat) (q : dptr)
    (hpath : c.path = path_of (pre ++ [name])) (hsegs : ∀ x ∈ pre ++ [name], is_segment x)
    (hlen : name.length < MAX_NAME_LEN) (hnul : 0 ∉ name) (hwalk : walks s [] pre s1 q)
    (hc : newfs_create s c = some (NFS_ERROR_NONE, s5)) :
    walks s5 [] pre s5 q ∧
    ∃ s6 root6 e,
      newfs_lookup s5 c.path
        = some ({ dentry_ret := some (q ++ [0]), is_find := true, is_root := false }, s6) ∧
      s6.root_dentry = some root6 ∧ dentry_at root6 (q ++ [0]) = some e ∧ e.name = name := by
  obtain ⟨s2, root2, d, P, ftype, hh, hr2, hd2, hdir, _, hl⟩ :=
    create_none_links s s1 s5 c pre name q hpath hsegs hwalk hc
  obtain ⟨root1, hr1, _⟩ : ∃ root1, s1.root_dentry = some root1 ∧ True := by
    obtain ⟨root1, _, _, hr1, _⟩ := hydrate_post s1 s2 q (some P) hh
    exact ⟨root1, hr1, trivial⟩
  obtain ⟨root2', hr2', hpres⟩ := (hydrate_frame s1 s2 q (some P) hh).2 root1 hr1
  rw [hr2] at hr2'
  cases hr2'
  have hw2 : tree_walk root2 [] pre q :=
    tree_walk_preserved hpres pre [] q (walks_tree_walk hwalk root1 hr1)
  obtain ⟨s6, root6, e, h1, h2, h3, h4, h5⟩ :=
    link_then_lookup s2 s5 root2 d pre name q P ftype NFS_ERROR_NONE hsegs hlen hnul hd2 hdir
      hw2 hl
  rw [hpath]
  exact ⟨h5, s6, root6, e, h1, h2, h3, h4⟩

/-- Witness of C27 (amended): `mkdir /a` on the freshly mounted 4 MiB volume,
then the lookup of `/a`. -/
theorem newfs_create_then_lookup_witness :
    (∀ x ∈ ([] : List (List Nat)) ++ [[97]], is_segment x) ∧
    walks example_super [] [] example_super [] ∧
    ∃ s5, newfs_create example_super (create_call.mkdir (ascii "/a"))
        = some (NFS_ERROR_NONE, s5) ∧
      ∃ s6 root6 e,
        newfs_lookup s5 (ascii "/a")
          = some ({ dentry_ret := some ([] ++ [0]), is_find := true, is_root := false }, s6) ∧
        s6.root_dentry = some root6 ∧ dentry_at root6 ([] ++ [0]) = some e ∧ e.name = [97] := by
  have hsegs : ∀ x ∈ ([] : List (List Nat)) ++ [[97]], is_segment x := by
    intro x hx
    simp only [List.nil_append, List.mem_singleton] at hx
    subst hx
    exact ⟨by decide, by decide⟩
  have hrun : ∃ s5, newfs_create example_super (create_call.mkdir (ascii "/a"))
      = some (NFS_ERROR_NONE, s5) := by
    cases h : newfs_create example_super (create_call.mkdir (ascii "/a")) with
    | none =>
      have h0 : (newfs_create example_super (create_call.mkdir (ascii "/a"))).isSome = true := by
        decide!
      rw [h] at h0
      exact absurd h0 (by decide)
    | some pr =>
      obtain ⟨r, s5⟩ := pr
      have h0 : (newfs_create example_super (create_call.mkdir (ascii "/a"))).map Prod.fst
          = some NFS_ERROR_NONE := by decide!
      rw [h] at h0
      simp only [Option.map_some', Option.some.injEq] at h0
      subst h0
      exact ⟨s5, rfl⟩
  obtain ⟨s5, h5⟩ := hrun
  exact ⟨hsegs, walks.done _ _, s5, h5,
    (newfs_create_then_lookup example_super example_super s5 (create_call.mkdir (ascii "/a"))
      [] [97] [] rfl hsegs (by decide) (by decide) (walks.done _ _) h5).2⟩
theorem example_ab_tree_wf : tree_wf 983 7 example_root_ab := by
  unfold example_root_ab
  simp [tree_wf, dentrys_wf, MAX_NAME_LEN, NFS_DATA_PER_FILE, NFS_DIR]

/-- C28 fails as stated, in two ways.  (1) In `example_super_full` no data
block is free: `newfs_sync_inode` of the directory `/a` (one child, no block
yet) returns `-NFS_ERROR_NOSPACE` before it writes anything, and
`newfs_read_inode` of inode 1 returns what the zeroed device holds there, a
regular file without children.  (2) On a 16 KiB volume (3 inode numbers)
`mkdir /a`, `mkdir /b`, `mkdir /c` return `NFS_ERROR_NONE` three times, no
inode number being left for `c`, whose dentry keeps `ino = 0xFFFFFFFF`;
`newfs_lookup` of `/c` then reads the inode of `c` from the record in front of
the inode table, which gives it the inode number 0 of the root.  The root is
now a directory with the three children `c`, `b`, `a`; `newfs_sync_inode` of
it returns `NFS_ERROR_NONE` but writes the inode of `c` over the record of the
root, and `newfs_read_inode` of inode 0 returns a regular file without
children. -/
theorem newfs_sync_then_read_loses_directory :
    (example_dir_a.ftype, example_dir_a.dir_cnt,
        example_dir_a.dentrys.map newfs_dentry.name) = (NFS_DIR, 1, [[98]]) ∧
    ((newfs_sync_inode example_super_full example_dir_a).bind fun r =>
        (newfs_read_inode r.2.2 1).map fun q =>
          (r.1, q.1.map fun i => (i.ftype, i.dir_cnt, i.dentrys.length)))
      = some (-NFS_ERROR_NOSPACE, some (NFS_REG_FILE, 0, 0)) ∧
    (run_on (zero_device 16384)
        [create_call.mkdir (ascii "/a"), create_call.mkdir (ascii "/b"),
          create_call.mkdir (ascii "/c")]).map Prod.fst = some [0, 0, 0] ∧
    (example_volume_abc.bind root_inode).map
        (fun root => (root.ino, root.ftype, root.dir_cnt, root.dentrys.map newfs_dentry.name))
      = some (0, NFS_DIR, 3, [[99], [98], [97]]) ∧
    (example_volume_abc.bind root_inode).map
        (fun root => root.dentrys.map fun d => (d.ino, d.inode.map newfs_inode.ino))
      = some [(4294967295, some 0), (2, some 2), (1, some 1)] ∧
    (example_volume_abc.bind fun s => (root_inode s).bind fun root =>
        (newfs_sync_inode s root).bind fun y =>
          (newfs_read_inode y.2.2 0).map fun q =>
            (y.1, q.1.map fun i => (i.ftype, i.dir_cnt, i.dentrys.length)))
      = some (NFS_ERROR_NONE, some (NFS_REG_FILE, 0, 0)) := by
  refine ⟨?_, ?_, ?_, ?_, ?_, ?_⟩ <;> decide!

/-- C28 (amended): let a directory inode with the child list `ds` be
well-formed (`tree_wf`: names are C strings shorter than `MAX_NAME_LEN`,
`dir_cnt` is the number of children, at most 7 of them, each child hydrated or
not, hydrated subtrees likewise), on a volume with the layout of `newfs_init`,
with distinct inode numbers and distinct first blocks, marked in the data
bitmap, in the subtree, and a free data block for every directory in it that
needs one.  Then `newfs_sync_inode` returns `NFS_ERROR_NONE`, and
`newfs_read_inode` of the same inode number returns the directory with the same
`dir_cnt` and the child list `(strip_dentrys ds).reverse`: the children in
reverse order, each with its name, inode number and type and without inode;
this list is a permutation of the children.  A second `newfs_sync_inode` of the
inode read, followed by `newfs_read_inode`, returns the children in the
original order. -/
theorem newfs_sync_then_read_reverses_children (s : newfs_super) (mx ino size dir_cnt : Nat)
    (tp : List Nat) (ds : List newfs_dentry) (bp : List Nat) (hl : layout_ok s)
    (hmx : s.max_ino = (mx : Int))
    (hok : tree_wf mx 7 (newfs_inode.mk ino size dir_cnt NFS_DIR tp ds bp))
    (hnd_i : (inos_of (newfs_inode.mk ino size dir_cnt NFS_DIR tp ds bp)).Nodup)
    (hnd_b : (blocks_of (newfs_inode.mk ino size dir_cnt NFS_DIR tp ds bp)).Nodup)
    (hused : ∀ b ∈ blocks_of (newfs_inode.mk ino size dir_cnt NFS_DIR tp ds bp), block_used s b)
    (hneed : blocks_needed (newfs_inode.mk ino size dir_cnt NFS_DIR tp ds bp) ≤ free_blocks s) :
    dir_cnt = ds.length ∧
    (strip_dentrys ds).reverse
      = ds.reverse.map (fun d => newfs_dentry.mk d.name d.ino none d.ftype) ∧
    ((strip_dentrys ds).reverse).Perm (strip_dentrys ds) ∧
    ∃ ds1 bp1 s1 s2,
      newfs_sync_inode s (newfs_inode.mk ino size dir_cnt NFS_DIR tp ds bp)
        = some (NFS_ERROR_NONE, newfs_inode.mk ino size dir_cnt NFS_DIR tp ds1 bp1, s1) ∧
      newfs_read_inode s1 (ino : Int)
        = some (some (newfs_inode.mk ino size dir_cnt NFS_DIR tp (strip_dentrys ds).reverse bp1),
            s2) ∧
      ∃ ds3 s3 s4,
        newfs_sync_inode s2
            (newfs_inode.mk ino size dir_cnt NFS_DIR tp (strip_dentrys ds).reverse bp1)
          = some (NFS_ERROR_NONE, newfs_inode.mk ino size dir_cnt NFS_DIR tp ds3 bp1, s3) ∧
        newfs_read_inode s3 (ino : Int)
          = some (some (newfs_inode.mk ino size dir_cnt NFS_DIR tp (strip_dentrys ds) bp1),
              s4) := by
  have hok0 := hok
  simp only [tree_wf] at hok0
  obtain ⟨hino, hsize, hft, htp, _, _, hcnt, hlen, _, hds⟩ := hok0
  refine ⟨hcnt, ?_, List.reverse_perm _, ?_⟩
  · unfold strip_dentrys
    rw [List.map_reverse]
  obtain ⟨ds1, bp1, s1, s2, hs, hr, hl2, hmx2, hbp1, hbps1, hu2, hb0⟩ :=
    sync_read_cycle s mx ino size dir_cnt NFS_DIR tp ds bp hl hmx hok hnd_i hnd_b hused hneed
  obtain ⟨f1, f2, f3, f4⟩ := strip_reverse_flat mx 7 ds hds
  have hslen : (strip_dentrys ds).reverse.length = ds.length := by
    unfold strip_dentrys
    rw [List.length_reverse, List.length_map]
  have hnz : dir_cnt > 0 → bp1.getD 0 0 ≠ 0 := by
    intro h
    apply hb0
    intro e
    rw [e] at hcnt
    simp only [List.length_nil] at hcnt
    omega
  have hcond : ¬ (NFS_DIR = NFS_DIR ∧ dir_cnt > 0 ∧ bp1.getD 0 0 = 0) :=
    fun h => hnz h.2.1 h.2.2
  have hok2 : tree_wf mx 7
      (newfs_inode.mk ino size dir_cnt NFS_DIR tp (strip_dentrys ds).reverse bp1) := by
    simp only [tree_wf]
    exact ⟨hino, hsize, hft, htp, hbp1, hbps1, by rw [hslen]; exact hcnt,
      by rw [hslen]; exact hlen, fun h => absurd rfl h, f1⟩
  have hblocks2 : blocks_of
      (newfs_inode.mk ino size dir_cnt NFS_DIR tp (strip_dentrys ds).reverse bp1)
      = if NFS_DIR = NFS_DIR ∧ bp1.getD 0 0 ≠ 0 then [bp1.getD 0 0] else [] := by
    simp only [blocks_of, f3, List.append_nil]
  obtain ⟨ds3, bp3, s3, s4, hs3, hr3, _⟩ :=
    sync_read_cycle s2 mx ino size dir_cnt NFS_DIR tp (strip_dentrys ds).reverse bp1 hl2 hmx2
      hok2
      (by simp only [inos_of, f2]; exact List.nodup_singleton _)
      (by
        rw [hblocks2]
        split_ifs
        · exact List.nodup_singleton _
        · exact List.nodup_nil)
      (by
        intro b hb
        rw [hblocks2] at hb
        split_ifs at hb with h
        · rw [List.mem_singleton.1 hb]
          exact hu2 h
        · cases hb)
      (by
        have e : blocks_needed
            (newfs_inode.mk ino size dir_cnt NFS_DIR tp (strip_dentrys ds).reverse bp1) = 0 := by
          unfold blocks_needed
          rw [if_neg hcond, f4]
        rw [e]
        exact Nat.zero_le _)
  have hbp3 : bp3 = bp1 :=
    sync_inode_keeps_pointer s2 s3 ino size dir_cnt NFS_DIR tp (strip_dentrys ds).reverse bp1 _ _
      hcond hs3
  subst hbp3
  have e : (strip_dentrys (strip_dentrys ds).reverse).reverse = strip_dentrys ds := by
    rw [strip_reverse, strip_strip, List.reverse_reverse]
  rw [e] at hr3
  exact ⟨ds1, bp3, s1, s2, hs, hr, ds3, s3, s4, hs3, hr3⟩

/-- Witness of C28 (amended): the root left by `mkdir /a`, `mkdir /b` on the freshly
initialised volume (children `b`, `a`). -/
theorem newfs_sync_then_read_reverses_children_witness :
    layout_ok example_super_ab ∧ tree_wf 983 7 example_root_ab ∧
    (inos_of example_root_ab).Nodup ∧ (blocks_of example_root_ab).Nodup ∧
    blocks_needed example_root_ab ≤ free_blocks example_super_ab ∧
    ∃ ds1 bp1 s1 s2,
      newfs_sync_inode example_super_ab example_root_ab
        = some (NFS_ERROR_NONE,
            newfs_inode.mk 0 0 2 NFS_DIR (List.replicate 128 0) ds1 bp1, s1) ∧
      newfs_read_inode s1 ((0 : Nat) : Int)
        = some (some (newfs_inode.mk 0 0 2 NFS_DIR (List.replicate 128 0)
            [newfs_dentry.mk [97] 1 none NFS_DIR, newfs_dentry.mk [98] 2 none NFS_DIR] bp1),
            s2) :=
  ⟨example_ab_layout, example_ab_tree_wf, example_ab_inos, example_ab_blocks, example_ab_free,
    (newfs_sync_then_read_reverses_children example_super_ab 983 0 0 2 (List.replicate 128 0)
      example_root_ab.dentrys (List.replicate 6 0) example_ab_layout example_ab_max_ino
      example_ab_tree_wf example_ab_inos example_ab_blocks example_ab_used
      example_ab_free).2.2.2.imp fun _ h1 => h1.imp fun _ h2 => h2.imp fun _ h3 =>
        h3.imp fun _ h4 => ⟨h4.1, h4.2.1⟩⟩
end Newfs
